import Mathlib

/-!
# The cci lexer (`lib/lex/lexer.cpp`): embedding and verified properties

Bytes of the source buffer are natural numbers (the value of the C `char`);
only ASCII comparisons occur in the lexer, so signedness of `char` plays no
role.  A `const char *` into the buffer is the index of the byte it points to.
The buffer is the list of bytes before the terminating NUL; the terminator is
read as `0` at index `buf.length`.  Each loop and each recursive function
carries a fuel argument and returns `none` only when the fuel runs out; its
caller starts it with `fuel_at`, which exceeds the number of bytes left.
-/

namespace cci

/-! ## Token kinds -/

/-- Token kinds, in the order of the `switch` of `to_string`. -/
inductive TokenKind where
  | kw_auto | kw_break | kw_case | kw_char | kw_const | kw_continue
  | kw_default | kw_do | kw_double | kw_else | kw_enum | kw_extern
  | kw_float | kw_for | kw_goto | kw_if | kw_inline | kw_int | kw_long
  | kw_register | kw_restrict | kw_return | kw_short | kw_signed
  | kw_sizeof | kw_static | kw_struct | kw_switch | kw_typedef | kw_union
  | kw_unsigned | kw_void | kw_volatile | kw_while
  | kw__Alignas | kw__Alignof | kw__Atomic | kw__Bool | kw__Complex
  | kw__Generic | kw__Imaginary | kw__Noreturn | kw__Static_assert
  | kw__Thread_local
  | identifier | numeric_constant
  | utf8_char_constant | utf16_char_constant | utf32_char_constant
  | wide_char_constant
  | l_bracket | r_bracket | l_paren | r_paren | l_brace | r_brace
  | period | arrow | plusplus | minusminus | ampersand | star | plus | minus
  | tilde | exclama | slash | percent | lessless | greatergreater
  | less | greater | lesslessequal | greatergreaterequal
  | equalequal | exclamaequal | caret | pipe | ampamp | pipepipe
  | question | colon | semi | ellipsis | equal
  | starequal | slashequal | percentequal | plusequal | minusequal
  | lessequal | greaterequal | ampequal | caretequal | pipeequal
  | comma | hash | hashhash
  | unknown | eof
  deriving DecidableEq, Repr

/-- The bytes of an ASCII string literal. -/
def str (s : String) : List Nat := s.data.map Char.toNat

/-- Printed form of a token kind (`to_string(TokenKind)`). -/
def to_string (k : TokenKind) : String :=
  match k with
  | .kw_auto => "auto" | .kw_break => "break" | .kw_case => "case"
  | .kw_char => "char" | .kw_const => "const" | .kw_continue => "continue"
  | .kw_default => "default" | .kw_do => "do" | .kw_double => "double"
  | .kw_else => "else" | .kw_enum => "enum" | TokenKind.kw_extern => "extern"
  | .kw_float => "float" | .kw_for => "for" | .kw_goto => "goto"
  | .kw_if => "if" | .kw_inline => "inline" | .kw_int => "int"
  | .kw_long => "long" | .kw_register => "register"
  | .kw_restrict => "restrict" | .kw_return => "return"
  | .kw_short => "short" | .kw_signed => "signed" | .kw_sizeof => "sizeof"
  | .kw_static => "static" | .kw_struct => "struct" | .kw_switch => "switch"
  | .kw_typedef => "typedef" | .kw_union => "union"
  | .kw_unsigned => "unsigned" | .kw_void => "void"
  | .kw_volatile => "volatile" | .kw_while => "while"
  | .kw__Alignas => "_Alignas" | .kw__Alignof => "_Alignof"
  | .kw__Atomic => "_Atomic" | .kw__Bool => "_Bool"
  | .kw__Complex => "_Complex" | .kw__Generic => "_Generic"
  | .kw__Imaginary => "_Imaginary" | .kw__Noreturn => "_Noreturn"
  | .kw__Static_assert => "_Static_assert"
  | .kw__Thread_local => "_Thread_local"
  | .identifier => "identifier"
  | .numeric_constant => "numeric constant"
  | .utf8_char_constant => "character constant"
  | .utf16_char_constant => "char16_t character constant"
  | .utf32_char_constant => "char32_t character constant"
  | .wide_char_constant => "wide character constant"
  | .l_bracket => "[" | .r_bracket => "]" | .l_paren => "(" | .r_paren => ")"
  | .l_brace => "\x7b" | .r_brace => "\x7d"
  | .period => "." | .arrow => "->" | .plusplus => "++" | .minusminus => "--"
  | .ampersand => "&" | .star => "*" | .plus => "+" | .minus => "-"
  | .tilde => "~" | .exclama => "!" | .slash => "/" | .percent => "%"
  | .lessless => "<<" | .greatergreater => ">>" | .less => "<" | .greater => ">"
  | .lesslessequal => "<<=" | .greatergreaterequal => ">>="
  | .equalequal => "==" | .exclamaequal => "!=" | .caret => "^" | .pipe => "|"
  | .ampamp => "&&" | .pipepipe => "||" | .question => "?" | .colon => ":"
  | .semi => ";" | .ellipsis => "..." | .equal => "="
  | .starequal => "*=" | .slashequal => "/=" | .percentequal => "%="
  | .plusequal => "+=" | .minusequal => "-=" | .lessequal => "<="
  | .greaterequal => ">=" | .ampequal => "&=" | .caretequal => "^="
  | .pipeequal => "|=" | .comma => "," | .hash => "#" | .hashhash => "##"
  | .unknown => "<unknown>" | .eof => "<end of input>"

/-- The table `KEYWORD_KINDS`. -/
def KEYWORD_KINDS : List TokenKind :=
  [ .kw_auto, .kw_break, .kw_case, .kw_char, .kw_const, .kw_continue,
    .kw_default, .kw_do, .kw_double, .kw_else, .kw_enum, TokenKind.kw_extern,
    .kw_float, .kw_for, .kw_goto, .kw_if, .kw_inline, .kw_int, .kw_long,
    .kw_register, .kw_restrict, .kw_return, .kw_short, .kw_signed,
    .kw_sizeof, .kw_static, .kw_struct, .kw_switch, .kw_typedef, .kw_union,
    .kw_unsigned, .kw_void, .kw_volatile, .kw_while,
    .kw__Alignas, .kw__Alignof, .kw__Atomic, .kw__Bool, .kw__Complex,
    .kw__Generic, .kw__Imaginary, .kw__Noreturn, .kw__Static_assert,
    .kw__Thread_local ]

/-! ## Character classes -/

/-- `is_nondigit`: `a`..`z`, `A`..`Z` or `_`. -/
def is_nondigit (C : Nat) : Bool :=
  (97 ≤ C && C ≤ 122) || (65 ≤ C && C ≤ 90) || C == 95

/-- `is_digit`: `0`..`9`. -/
def is_digit (C : Nat) : Bool := 48 ≤ C && C ≤ 57

/-- `is_hexdigit`: `0`..`9`, `a`..`f`, `A`..`F`. -/
def is_hexdigit (C : Nat) : Bool :=
  (48 ≤ C && C ≤ 57) || (97 ≤ C && C ≤ 102) || (65 ≤ C && C ≤ 70)

/-- `is_newline`: LF (10) or CR (13). -/
def is_newline (C : Nat) : Bool := C == 10 || C == 13

/-- `is_whitespace`: space, TAB (9), VT (11), FF (12) or a newline. -/
def is_whitespace (C : Nat) : Bool :=
  C == 32 || C == 9 || C == 11 || C == 12 || is_newline C

/-- `hexdigit_value`; the source's `-1U` for a non-digit is `none`. -/
def hexdigit_value (C : Nat) : Option Nat :=
  if is_hexdigit C then
    if 48 ≤ C && C ≤ 57 then some (C - 48)
    else if 97 ≤ C && C ≤ 102 then some (C - 97 + 10)
    else some (C - 65 + 10)
  else none

/-! ## Tokens, diagnostics and the lexer state -/

/-- Modelled from the spec: the flag bits of `Token` (declared in
`lexer.hpp`): `IsDirty`, `HasUCN`, `IsLiteral`. -/
structure TokenFlags where
  IsDirty : Bool := false
  HasUCN : Bool := false
  IsLiteral : Bool := false
  deriving DecidableEq, Repr

/-- Modelled from the spec: `Token` (declared in `lexer.hpp`): a kind, the
half-open byte range `[b, e)` and the flags.  The default value is the
freshly constructed `Token tok;` of `TokenStream::peek`. -/
structure Token where
  kind : TokenKind := .unknown
  b : Nat := 0
  e : Nat := 0
  flags : TokenFlags := {}
  deriving DecidableEq, Repr

/-- Effect of `tok.set_flags(Token::IsDirty)`. -/
def Token.set_dirty (t : Token) : Token :=
  { t with flags := { t.flags with IsDirty := true } }

/-- Effect of `tok.set_flags(Token::HasUCN)`. -/
def Token.set_ucn (t : Token) : Token :=
  { t with flags := { t.flags with HasUCN := true } }

/-- Effect of `tok.set_flags(Token::IsLiteral)`. -/
def Token.set_literal (t : Token) : Token :=
  { t with flags := { t.flags with IsLiteral := true } }

/-- Modelled from the spec: the diagnostic codes of
`diagnostics_lex.inc`, which the tokenizer reports. -/
inductive Diag where
  | err_unknown_character | err_unterminated_comment
  | err_unterminated_char_const | err_unterminated_string
  | err_empty_character | err_ucn_invalid | warn_ucn_incomplete
  deriving DecidableEq, Repr

/-- A reported diagnostic: the byte offset `report` was given and the code.
The format arguments are not recorded. -/
structure Report where
  loc : Nat
  code : Diag
  deriving DecidableEq, Repr

/-- The lexer: the source bytes (without the terminating NUL), the current
position `buffer_ptr` and the diagnostics reported so far. -/
structure Lexer where
  buf : List Nat
  buffer_ptr : Nat := 0
  diag : List Report := []
  deriving DecidableEq, Repr

/-- The byte `*p` of the buffer. Index `buf.length` holds the terminating NUL.
A read past it is, in the source, a read of memory that is not part of the
buffer; here it gives `0` as well, so what is proved of a lexer that has
passed the terminating NUL describes this embedding only. -/
def rd (buf : List Nat) (p : Nat) : Nat := buf.getD p 0

/-- The fuel a scan starting at `ptr` is given: each iteration of a loop of
the lexer moves its pointer forward, so the bytes left bound the number of
iterations. -/
def fuel_at (buf : List Nat) (ptr : Nat) : Nat := buf.length - ptr + 3

/-- The helper `report(lex, ctx, code, ...)`. -/
def report (lex : Lexer) (ctx : Nat) (code : Diag) : Lexer :=
  { lex with diag := lex.diag ++ [⟨ctx, code⟩] }

/-- Modelled from the spec: `Lexer::form_token` (declared in `lexer.hpp`):
the token gets the kind and the range from the token start `buffer_ptr` to
`tok_end`, and the lexer continues at `tok_end`. -/
def form_token (lex : Lexer) (tok : Token) (tok_end : Nat) (kind : TokenKind) :
    Lexer × Token :=
  ({ lex with buffer_ptr := tok_end },
   { tok with kind := kind, b := lex.buffer_ptr, e := tok_end })

/-- The slice `source_mgr.text_slice(range)` of the buffer. -/
def text_slice (buf : List Nat) (b e : Nat) : List Nat :=
  (buf.drop b).take (e - b)

/-! ## The peek-and-consume layer -/

/-- `size_for_escaped_newline`: `ptr` is the position past the backslash. -/
def size_for_escaped_newline (buf : List Nat) (ptr : Nat) : Nat :=
  if is_newline (rd buf ptr) then
    if is_newline (rd buf (ptr + 1)) && rd buf ptr != rd buf (ptr + 1) then 2
    else 1
  else 0

/-- `is_trivial_character`: neither `?` (63) nor backslash (92). -/
def is_trivial_character (c : Nat) : Bool := c != 63 && c != 92

/-- `peek_char_and_size_nontrivial`: returns the character, the updated size
and the token (when one is being formed) with `IsDirty` set if an escaped
newline was skipped. -/
def peek_char_and_size_nontrivial (buf : List Nat) :
    Nat → Nat → Nat → Option Token → Option (Nat × Nat × Option Token)
  | 0, _, _, _ => none
  | fuel + 1, ptr, size, tok =>
    if rd buf ptr = 92 then
      let ptr := ptr + 1
      let size := size + 1
      if !is_whitespace (rd buf ptr) then some (92, size, tok)
      else
        let esc_nl_size := size_for_escaped_newline buf ptr
        if esc_nl_size ≠ 0 then
          peek_char_and_size_nontrivial buf fuel (ptr + esc_nl_size)
            (size + esc_nl_size) (tok.map Token.set_dirty)
        else some (92, size, tok)
    else some (rd buf ptr, size + 1, tok)

/-- `peek_char_advance`: the character and the advanced pointer, with the
token being formed. -/
def peek_char_advance (buf : List Nat) (ptr : Nat) (tok0 : Token) :
    Option (Nat × Nat × Token) :=
  if is_trivial_character (rd buf ptr) then some (rd buf ptr, ptr + 1, tok0)
  else do
    let (c, size, tok) ← peek_char_and_size_nontrivial buf (fuel_at buf ptr) ptr 0 (some tok0)
    some (c, ptr + size, tok.getD tok0)

/-- `peek_char_and_size`: the logical character at `ptr` and its size. -/
def peek_char_and_size (buf : List Nat) (ptr : Nat) : Option (Nat × Nat) :=
  if is_trivial_character (rd buf ptr) then some (rd buf ptr, 1)
  else do
    let (c, size, _) ← peek_char_and_size_nontrivial buf (fuel_at buf ptr) ptr 0 none
    some (c, size)

/-- `consume_char`: the pointer past a peeked character of the given size. -/
def consume_char (buf : List Nat) (ptr size : Nat) (tok0 : Token) :
    Option (Nat × Token) :=
  if size = 1 then some (ptr + size, tok0)
  else do
    let (_, size, tok) ← peek_char_and_size_nontrivial buf (fuel_at buf ptr) ptr 0 (some tok0)
    some (ptr + size, tok.getD tok0)

/-! ## Universal character names -/

/-- The `for` loop of `try_read_ucn`: reads `n` hexadecimal digits through
escaped newlines, accumulating the 32-bit code point. The inner `none` is the
early exit at a character that is not a hexadecimal digit. -/
def read_hexdigits (buf : List Nat) :
    Nat → Nat → Nat → Option (Option (Nat × Nat))
  | 0, cur_ptr, code_point => some (some (cur_ptr, code_point))
  | n + 1, cur_ptr, code_point => do
    let (c, char_size) ← peek_char_and_size buf cur_ptr
    match hexdigit_value c with
    | none => some none
    | some value =>
      read_hexdigits buf n (cur_ptr + char_size)
        ((code_point * 16 % 4294967296 + value) % 4294967296)

/-- The loop `while (ptr != target) peek_char_advance(ptr, tok);`. -/
def advance_until (buf : List Nat) :
    Nat → Nat → Nat → Token → Option (Nat × Token)
  | 0, _, _, _ => none
  | fuel + 1, ptr, target, tok =>
    if ptr ≠ target then do
      let (_, ptr, tok) ← peek_char_advance buf ptr tok
      advance_until buf fuel ptr target tok
    else some (ptr, tok)

/-- `try_read_ucn`: returns the code point (0 on failure), the updated
`start_ptr`, the lexer (for its diagnostics) and the token, if any. -/
def try_read_ucn (lex : Lexer) (start_ptr slash_ptr : Nat)
    (tok : Option Token) : Option (Nat × Nat × Lexer × Option Token) := do
  let (kind, char_size) ← peek_char_and_size lex.buf start_ptr
  let num_hexdigits := if kind = 117 then 4 else if kind = 85 then 8 else 0
  if num_hexdigits = 0 then some (0, start_ptr, lex, tok)
  else
    match ← read_hexdigits lex.buf num_hexdigits (start_ptr + char_size) 0 with
    | none => some (0, start_ptr, report lex slash_ptr .warn_ucn_incomplete, tok)
    | some (cur_ptr, code_point) => do
      let (start_ptr, tok) ←
        (match tok with
         | some t =>
           if cur_ptr - start_ptr = num_hexdigits + 2 then
             some (cur_ptr, some t.set_ucn)
           else do
             let (p, t) ← advance_until lex.buf (fuel_at lex.buf start_ptr) start_ptr cur_ptr t.set_ucn
             some (p, some t)
         | none => some (cur_ptr, none))
      if code_point < 160 then
        if code_point ≠ 36 ∧ code_point ≠ 64 ∧ code_point ≠ 96 then
          some (0, start_ptr, report lex slash_ptr .err_ucn_invalid, tok)
        else some (code_point, start_ptr, lex, tok)
      else if 55296 ≤ code_point ∧ code_point ≤ 57343 then
        some (0, start_ptr, report lex slash_ptr .err_ucn_invalid, tok)
      else some (code_point, start_ptr, lex, tok)

/-- `try_advance_identifier_ucn`: whether a well-formed UCN was read, the
updated `cur_ptr`, the lexer and the token being formed. -/
def try_advance_identifier_ucn (lex : Lexer) (cur_ptr size : Nat)
    (result : Token) : Option (Bool × Nat × Lexer × Token) := do
  let (code_point, ucn_ptr, lex, _) ←
    try_read_ucn lex (cur_ptr + size) cur_ptr none
  if code_point = 0 then some (false, cur_ptr, lex, result)
  else
    let ucn_size := ucn_ptr - cur_ptr
    if (ucn_size = 6 ∧ rd lex.buf (cur_ptr + 1) = 117) ∨
       (ucn_size = 10 ∧ rd lex.buf (cur_ptr + 1) = 85) then
      some (true, ucn_ptr, lex, result)
    else do
      let (cur_ptr, result) ← advance_until lex.buf (fuel_at lex.buf cur_ptr) cur_ptr ucn_ptr result
      some (true, cur_ptr, lex, result)

/-! ## Identifiers -/

/-- The ASCII fast path of `lex_identifier`: the position of the first byte
at or after `cur_ptr` that is neither a nondigit nor a digit. -/
def ident_fast (buf : List Nat) : Nat → Nat → Option Nat
  | 0, _ => none
  | fuel + 1, cur_ptr =>
    if is_nondigit (rd buf cur_ptr) || is_digit (rd buf cur_ptr) then
      ident_fast buf fuel (cur_ptr + 1)
    else some cur_ptr

/-- The inner loop of the slow path of `lex_identifier`:
`while (is_nondigit(c) || is_digit(c))` consume and peek again. -/
def ident_run (buf : List Nat) :
    Nat → Nat → Nat → Nat → Token → Option (Nat × Nat × Nat × Token)
  | 0, _, _, _, _ => none
  | fuel + 1, cur_ptr, c, size, result =>
    if is_nondigit c || is_digit c then do
      let (cur_ptr, result) ← consume_char buf cur_ptr size result
      let (c, size) ← peek_char_and_size buf cur_ptr
      ident_run buf fuel cur_ptr c size result
    else some (cur_ptr, c, size, result)

/-- The `while (true)` loop of the slow path of `lex_identifier`. -/
def ident_slow :
    Nat → Lexer → Nat → Nat → Nat → Token → Option (Lexer × Nat × Token)
  | 0, _, _, _, _, _ => none
  | fuel + 1, lex, cur_ptr, c, size, result =>
    if c = 92 then do
      let (ok, cur_ptr, lex, result) ←
        try_advance_identifier_ucn lex cur_ptr size result
      if ok then do
        let (c, size) ← peek_char_and_size lex.buf cur_ptr
        ident_slow fuel lex cur_ptr c size result
      else some (lex, cur_ptr, result)
    else if !(is_nondigit c || is_digit c) then some (lex, cur_ptr, result)
    else do
      let (cur_ptr, result) ← consume_char lex.buf cur_ptr size result
      let (c, size) ← peek_char_and_size lex.buf cur_ptr
      let (cur_ptr, c, size, result) ←
        ident_run lex.buf (fuel_at lex.buf cur_ptr) cur_ptr c size result
      ident_slow fuel lex cur_ptr c size result

/-- The keyword check at the end of `lex_identifier`: the first kind of
`KEYWORD_KINDS` whose printed form equals the spelling, if there is one. -/
def keyword_kind (tok_spell : List Nat) : Option TokenKind :=
  KEYWORD_KINDS.find? (fun kw => tok_spell == str (to_string kw))

/-- `lex_identifier`: `cur_ptr` is past the first character. -/
def lex_identifier (lex : Lexer) (cur_ptr : Nat) (result : Token) :
    Option (Bool × Lexer × Token) := do
  let cur_ptr ← ident_fast lex.buf (fuel_at lex.buf cur_ptr) cur_ptr
  let (lex, cur_ptr, result) ←
    (if rd lex.buf cur_ptr = 92 then do
       let (c, size) ← peek_char_and_size lex.buf cur_ptr
       ident_slow (fuel_at lex.buf cur_ptr) lex cur_ptr c size result
     else some (lex, cur_ptr, result))
  let (lex, result) := form_token lex result cur_ptr .identifier
  if !result.flags.HasUCN && !result.flags.IsDirty then
    match keyword_kind (text_slice lex.buf result.b result.e) with
    | some kw => some (true, lex, { result with kind := kw })
    | none => some (true, lex, result)
  else some (true, lex, result)

/-! ## Numeric constants -/

/-- The loop of `lex_numeric_constant` matching `[0-9_a-zA-Z.]*`; returns the
pointer, the peeked character and its size, `prev`, and the token. -/
def numeric_run (buf : List Nat) :
    Nat → Nat → Nat → Nat → Nat → Token → Option (Nat × Nat × Nat × Nat × Token)
  | 0, _, _, _, _, _ => none
  | fuel + 1, cur_ptr, c, digit_size, prev, result =>
    if is_digit c || is_nondigit c || c == 46 then do
      let (cur_ptr, result) ← consume_char buf cur_ptr digit_size result
      let (c', digit_size) ← peek_char_and_size buf cur_ptr
      numeric_run buf fuel cur_ptr c' digit_size c result
    else some (cur_ptr, c, digit_size, prev, result)

/-- `lex_numeric_constant`: `cur_ptr` is past the first digit. -/
def lex_numeric_constant :
    Nat → Lexer → Nat → Token → Option (Bool × Lexer × Token)
  | 0, _, _, _ => none
  | fuel + 1, lex, cur_ptr, result => do
    let (c, digit_size) ← peek_char_and_size lex.buf cur_ptr
    let (cur_ptr, c, digit_size, prev, result) ←
      numeric_run lex.buf (fuel_at lex.buf cur_ptr) cur_ptr c digit_size c result
    if (c = 43 ∨ c = 45) ∨ (prev = 101 ∨ prev = 69) then do
      let (cur_ptr, result) ← consume_char lex.buf cur_ptr digit_size result
      lex_numeric_constant fuel lex cur_ptr result
    else if (c = 43 ∨ c = 45) ∨ (prev = 112 ∨ prev = 80) then do
      let (cur_ptr, result) ← consume_char lex.buf cur_ptr digit_size result
      lex_numeric_constant fuel lex cur_ptr result
    else if c = 92 then do
      let (ok, cur_ptr, lex, result) ←
        try_advance_identifier_ucn lex cur_ptr digit_size result
      if ok then lex_numeric_constant fuel lex cur_ptr result
      else
        let (lex, result) := form_token lex result cur_ptr .numeric_constant
        some (true, lex, result.set_literal)
    else
      let (lex, result) := form_token lex result cur_ptr .numeric_constant
      some (true, lex, result.set_literal)

/-! ## Comments -/

/-- The loop of `skip_line_comment`, entered with the peeked character `c`
and its size. -/
def skip_line_comment_loop :
    Nat → Lexer → Nat → Nat → Nat → Option (Lexer × Nat)
  | 0, _, _, _, _ => none
  | fuel + 1, lex, cur_ptr, c, c_size =>
    if is_newline c then some (lex, cur_ptr + c_size)
    else if c = 0 then
      some (report lex cur_ptr .err_unterminated_comment, cur_ptr)
    else do
      let cur_ptr := cur_ptr + c_size
      let (c, c_size) ← peek_char_and_size lex.buf cur_ptr
      skip_line_comment_loop fuel lex cur_ptr c c_size

/-- `skip_line_comment`: `cur_ptr` is past the second `/`. -/
def skip_line_comment (lex : Lexer) (cur_ptr : Nat) :
    Option (Lexer × Nat) := do
  let (c, c_size) ← peek_char_and_size lex.buf cur_ptr
  skip_line_comment_loop (fuel_at lex.buf cur_ptr) lex cur_ptr c c_size

/-- The loop of `skip_block_comment`, entered with the peeked character `c`,
its size and the previous character `prev`. -/
def skip_block_comment_loop :
    Nat → Lexer → Nat → Nat → Nat → Nat → Option (Lexer × Nat)
  | 0, _, _, _, _, _ => none
  | fuel + 1, lex, cur_ptr, c, c_size, prev =>
    if c = 47 ∧ prev = 42 then some (lex, cur_ptr + c_size)
    else if c = 0 then
      some (report lex cur_ptr .err_unterminated_comment, cur_ptr)
    else do
      let cur_ptr := cur_ptr + c_size
      let (c', c_size) ← peek_char_and_size lex.buf cur_ptr
      skip_block_comment_loop fuel lex cur_ptr c' c_size c

/-- `skip_block_comment`: `cur_ptr` is past the `*` of the opening. -/
def skip_block_comment (lex : Lexer) (cur_ptr : Nat) :
    Option (Lexer × Nat) := do
  let (c, c_size) ← peek_char_and_size lex.buf cur_ptr
  skip_block_comment_loop (fuel_at lex.buf cur_ptr) lex cur_ptr c c_size c

/-! ## Character constants -/

/-- The loop `while (c != '\'')` of `lex_character_constant`. -/
def lex_character_constant_loop :
    Nat → Lexer → Nat → Nat → Token → TokenKind → Option (Bool × Lexer × Token)
  | 0, _, _, _, _, _ => none
  | fuel + 1, lex, cur_ptr, c, result, char_kind =>
    if c ≠ 39 then
      if c = 92 then do
        -- `c = *cur_ptr++;` the byte read is overwritten by the next peek
        let cur_ptr := cur_ptr + 1
        let (c, cur_ptr, result) ← peek_char_advance lex.buf cur_ptr result
        lex_character_constant_loop fuel lex cur_ptr c result char_kind
      else if is_newline c || c == 0 then
        let lex := report lex lex.buffer_ptr .err_unterminated_char_const
        let (lex, result) := form_token lex result cur_ptr .unknown
        some (true, lex, result)
      else do
        let (c, cur_ptr, result) ← peek_char_advance lex.buf cur_ptr result
        lex_character_constant_loop fuel lex cur_ptr c result char_kind
    else
      let (lex, result) := form_token lex result cur_ptr char_kind
      some (true, lex, result)

/-- `lex_character_constant`: `cur_ptr` is past the opening quote. -/
def lex_character_constant (lex : Lexer) (cur_ptr : Nat) (result : Token)
    (char_kind : TokenKind) : Option (Bool × Lexer × Token) := do
  let (c, cur_ptr, result) ← peek_char_advance lex.buf cur_ptr result
  if c = 39 then
    let lex := report lex lex.buffer_ptr .err_empty_character
    let (lex, result) := form_token lex result cur_ptr .unknown
    some (true, lex, result)
  else
    lex_character_constant_loop (fuel_at lex.buf cur_ptr) lex cur_ptr c result
      char_kind

/-! ## The token dispatcher -/

/-- The call `std::find_if(first, last, not is_whitespace)`, with
`n = last - first` positions left to examine. For `first` past `last`, where
the source never meets `last`, `n` is 0 and nothing is examined. -/
def find_if_not_whitespace (buf : List Nat) : Nat → Nat → Nat
  | 0, first => first
  | n + 1, first =>
    if is_whitespace (rd buf first) then find_if_not_whitespace buf n (first + 1)
    else first

/-- The code of `lex_token` after its `switch`: an `unknown` kind is
reported, then the token is formed. -/
def lex_token_finish (lex : Lexer) (result : Token) (cur_ptr : Nat)
    (kind : TokenKind) : Option (Bool × Lexer × Token) :=
  let lex :=
    if kind = .unknown then report lex lex.buffer_ptr .err_unknown_character
    else lex
  let (lex, result) := form_token lex result cur_ptr kind
  some (true, lex, result)

/-- The `switch (ch)` of `lex_token` with the code after it. `ch` is the
first character of the token, already consumed, `cur_ptr` the position after
it, and `relex` the recursive call `lex_token(lex, lex.buffer_ptr, result)`
made after a comment. -/
def lex_token_switch (relex : Lexer → Nat → Token → Option (Bool × Lexer × Token))
    (lex : Lexer) (cur_ptr : Nat) (result : Token) (ch : Nat) :
    Option (Bool × Lexer × Token) :=
  if ch = 0 then some (false, lex, result) -- End of input.
  else if ch = 92 then do -- backslash
    let (code_point, cur_ptr, lex, _) ←
      try_read_ucn lex cur_ptr lex.buffer_ptr none
    if code_point ≠ 0 then lex_identifier lex cur_ptr result
    else lex_token_finish lex result cur_ptr .unknown
  else if ch = 91 then lex_token_finish lex result cur_ptr .l_bracket
  else if ch = 93 then lex_token_finish lex result cur_ptr .r_bracket
  else if ch = 40 then lex_token_finish lex result cur_ptr .l_paren
  else if ch = 41 then lex_token_finish lex result cur_ptr .r_paren
  else if ch = 123 then lex_token_finish lex result cur_ptr .l_brace
  else if ch = 125 then lex_token_finish lex result cur_ptr .r_brace
  else if ch = 46 then do -- period
    let (ch, ch_size) ← peek_char_and_size lex.buf cur_ptr
    if is_digit ch then do
      let (cur_ptr, result) ← consume_char lex.buf cur_ptr ch_size result
      lex_numeric_constant (fuel_at lex.buf cur_ptr) lex cur_ptr result
    else if ch = 46 then do
      let (after, after_size) ←
        peek_char_and_size lex.buf (cur_ptr + ch_size)
      if after = 46 then do
        let (cur_ptr, result) ← consume_char lex.buf cur_ptr ch_size result
        let (cur_ptr, result) ← consume_char lex.buf cur_ptr after_size result
        lex_token_finish lex result cur_ptr .ellipsis
      else lex_token_finish lex result cur_ptr .unknown
    else lex_token_finish lex result cur_ptr .period
  else if ch = 45 then do -- minus
    let (ch, ch_size) ← peek_char_and_size lex.buf cur_ptr
    if ch = 62 then do -- greater
      let (cur_ptr, result) ← consume_char lex.buf cur_ptr ch_size result
      lex_token_finish lex result cur_ptr .arrow
    else if ch = 45 then do -- minus
      let (cur_ptr, result) ← consume_char lex.buf cur_ptr ch_size result
      lex_token_finish lex result cur_ptr .minusminus
    else if ch = 61 then do -- equal
      let (cur_ptr, result) ← consume_char lex.buf cur_ptr ch_size result
      lex_token_finish lex result cur_ptr .minusequal
    else lex_token_finish lex result cur_ptr .minus
  else if ch = 43 then do -- plus
    let (ch, ch_size) ← peek_char_and_size lex.buf cur_ptr
    if ch = 43 then do -- plus
      let (cur_ptr, result) ← consume_char lex.buf cur_ptr ch_size result
      lex_token_finish lex result cur_ptr .plusplus
    else if ch = 61 then do -- equal
      let (cur_ptr, result) ← consume_char lex.buf cur_ptr ch_size result
      lex_token_finish lex result cur_ptr .plusequal
    else lex_token_finish lex result cur_ptr .plus
  else if ch = 38 then do -- ampersand
    let (ch, ch_size) ← peek_char_and_size lex.buf cur_ptr
    if ch = 38 then do -- ampersand
      let (cur_ptr, result) ← consume_char lex.buf cur_ptr ch_size result
      lex_token_finish lex result cur_ptr .ampamp
    else if ch = 61 then do -- equal
      let (cur_ptr, result) ← consume_char lex.buf cur_ptr ch_size result
      lex_token_finish lex result cur_ptr .ampequal
    else lex_token_finish lex result cur_ptr .ampersand
  else if ch = 42 then do -- star
    let (ch, ch_size) ← peek_char_and_size lex.buf cur_ptr
    if ch = 61 then do -- equal
      let (cur_ptr, result) ← consume_char lex.buf cur_ptr ch_size result
      lex_token_finish lex result cur_ptr .starequal
    else lex_token_finish lex result cur_ptr .star
  else if ch = 126 then lex_token_finish lex result cur_ptr .tilde
  else if ch = 47 then do -- slash
    let (ch, ch_size) ← peek_char_and_size lex.buf cur_ptr
    if ch = 47 then do
      let (lex, p) ← skip_line_comment lex (cur_ptr + ch_size)
      let lex := { lex with buffer_ptr := p }
      relex lex lex.buffer_ptr result
    else if ch = 42 then do
      let (lex, p) ← skip_block_comment lex (cur_ptr + ch_size)
      let lex := { lex with buffer_ptr := p }
      relex lex lex.buffer_ptr result
    else if ch = 61 then do
      let (cur_ptr, result) ← consume_char lex.buf cur_ptr ch_size result
      lex_token_finish lex result cur_ptr .slashequal
    else lex_token_finish lex result cur_ptr .slash
  else if ch = 37 then do -- percent
    let (ch, ch_size) ← peek_char_and_size lex.buf cur_ptr
    if ch = 61 then do
      let (cur_ptr, result) ← consume_char lex.buf cur_ptr ch_size result
      lex_token_finish lex result cur_ptr .percentequal
    else if ch = 62 then do -- the digraph percent, greater
      let (cur_ptr, result) ← consume_char lex.buf cur_ptr ch_size result
      lex_token_finish lex result cur_ptr .r_brace
    else if ch = 58 then do -- the digraph percent, colon
      let (cur_ptr, result) ← consume_char lex.buf cur_ptr ch_size result
      let (c1, ch_size) ← peek_char_and_size lex.buf cur_ptr
      if c1 = 37 then do
        let (c2, after_size) ←
          peek_char_and_size lex.buf (cur_ptr + ch_size)
        if c2 = 58 then do
          let (cur_ptr, result) ← consume_char lex.buf cur_ptr ch_size result
          let (cur_ptr, result) ← consume_char lex.buf cur_ptr after_size result
          lex_token_finish lex result cur_ptr .hashhash
        else lex_token_finish lex result cur_ptr .hash
      else lex_token_finish lex result cur_ptr .hash
    else lex_token_finish lex result cur_ptr .percent
  else if ch = 60 then do -- less
    let (ch, ch_size) ← peek_char_and_size lex.buf cur_ptr
    if ch = 60 then do
      let (after, after_size) ←
        peek_char_and_size lex.buf (cur_ptr + ch_size)
      if after = 61 then do
        let (cur_ptr, result) ← consume_char lex.buf cur_ptr ch_size result
        let (cur_ptr, result) ← consume_char lex.buf cur_ptr after_size result
        lex_token_finish lex result cur_ptr .lesslessequal
      else do
        let (cur_ptr, result) ← consume_char lex.buf cur_ptr ch_size result
        lex_token_finish lex result cur_ptr .lessless
    else if ch = 61 then do
      let (cur_ptr, result) ← consume_char lex.buf cur_ptr ch_size result
      lex_token_finish lex result cur_ptr .lessequal
    else if ch = 58 then do -- the digraph less, colon
      let (cur_ptr, result) ← consume_char lex.buf cur_ptr ch_size result
      lex_token_finish lex result cur_ptr .l_bracket
    else if ch = 37 then do -- the digraph less, percent
      let (cur_ptr, result) ← consume_char lex.buf cur_ptr ch_size result
      lex_token_finish lex result cur_ptr .l_brace
    else lex_token_finish lex result cur_ptr .less
  else if ch = 62 then do -- greater
    let (ch, ch_size) ← peek_char_and_size lex.buf cur_ptr
    if ch = 62 then do
      let (after, after_size) ←
        peek_char_and_size lex.buf (cur_ptr + ch_size)
      if after = 61 then do
        let (cur_ptr, result) ← consume_char lex.buf cur_ptr ch_size result
        let (cur_ptr, result) ← consume_char lex.buf cur_ptr after_size result
        lex_token_finish lex result cur_ptr .greatergreaterequal
      else do
        let (cur_ptr, result) ← consume_char lex.buf cur_ptr ch_size result
        lex_token_finish lex result cur_ptr .greater
    else if ch = 61 then do
      let (cur_ptr, result) ← consume_char lex.buf cur_ptr ch_size result
      lex_token_finish lex result cur_ptr .greaterequal
    else lex_token_finish lex result cur_ptr .greater
  else if ch = 61 then do -- equal
    let (ch, ch_size) ← peek_char_and_size lex.buf cur_ptr
    if ch = 61 then do -- equal
      let (cur_ptr, result) ← consume_char lex.buf cur_ptr ch_size result
      lex_token_finish lex result cur_ptr .equalequal
    else lex_token_finish lex result cur_ptr .equal
  else if ch = 33 then do -- exclamation mark
    let (ch, ch_size) ← peek_char_and_size lex.buf cur_ptr
    if ch = 61 then do -- equal
      let (cur_ptr, result) ← consume_char lex.buf cur_ptr ch_size result
      lex_token_finish lex result cur_ptr .exclamaequal
    else lex_token_finish lex result cur_ptr .exclama
  else if ch = 94 then do -- caret
    let (ch, ch_size) ← peek_char_and_size lex.buf cur_ptr
    if ch = 61 then do -- equal
      let (cur_ptr, result) ← consume_char lex.buf cur_ptr ch_size result
      lex_token_finish lex result cur_ptr .caretequal
    else lex_token_finish lex result cur_ptr .caret
  else if ch = 124 then do -- pipe
    let (ch, ch_size) ← peek_char_and_size lex.buf cur_ptr
    if ch = 124 then do -- pipe
      let (cur_ptr, result) ← consume_char lex.buf cur_ptr ch_size result
      lex_token_finish lex result cur_ptr .pipepipe
    else if ch = 61 then do -- equal
      let (cur_ptr, result) ← consume_char lex.buf cur_ptr ch_size result
      lex_token_finish lex result cur_ptr .pipeequal
    else lex_token_finish lex result cur_ptr .pipe
  else if ch = 63 then lex_token_finish lex result cur_ptr .question
  else if ch = 58 then do -- colon
    let (ch, ch_size) ← peek_char_and_size lex.buf cur_ptr
    if ch = 62 then do -- the digraph colon, greater
      let (cur_ptr, result) ← consume_char lex.buf cur_ptr ch_size result
      lex_token_finish lex result cur_ptr .r_bracket
    else lex_token_finish lex result cur_ptr .colon
  else if ch = 59 then lex_token_finish lex result cur_ptr .semi
  else if ch = 44 then lex_token_finish lex result cur_ptr .comma
  else if ch = 35 then do -- hash
    let (ch, ch_size) ← peek_char_and_size lex.buf cur_ptr
    if ch = 35 then do -- hash
      let (cur_ptr, result) ← consume_char lex.buf cur_ptr ch_size result
      lex_token_finish lex result cur_ptr .hashhash
    else lex_token_finish lex result cur_ptr .hash
  else if is_digit ch then
    lex_numeric_constant (fuel_at lex.buf cur_ptr) lex cur_ptr result
  else if ch = 76 then do -- L
    let (ch, ch_size) ← peek_char_and_size lex.buf cur_ptr
    if ch = 39 then do
      let (cur_ptr, result) ← consume_char lex.buf cur_ptr ch_size result
      lex_character_constant lex cur_ptr result .wide_char_constant
    else lex_identifier lex cur_ptr result
  else if ch = 117 then do -- u
    let (ch, ch_size) ← peek_char_and_size lex.buf cur_ptr
    if ch = 39 then do
      let (cur_ptr, result) ← consume_char lex.buf cur_ptr ch_size result
      lex_character_constant lex cur_ptr result .utf16_char_constant
    else lex_identifier lex cur_ptr result
  else if ch = 85 then do -- U
    let (ch, ch_size) ← peek_char_and_size lex.buf cur_ptr
    if ch = 39 then do
      let (cur_ptr, result) ← consume_char lex.buf cur_ptr ch_size result
      lex_character_constant lex cur_ptr result .utf32_char_constant
    else lex_identifier lex cur_ptr result
  -- the remaining case labels: every letter other than L, u, U, and `_`
  else if is_nondigit ch then lex_identifier lex cur_ptr result
  else if ch = 39 then -- single quote
    lex_character_constant lex cur_ptr result .utf8_char_constant
  else lex_token_finish lex result cur_ptr .unknown

/-- `lex_token`: lexes the next token from `cur_ptr`. The result is the
returned `bool`, the lexer and the token `result`. -/
def lex_token : Nat → Lexer → Nat → Token → Option (Bool × Lexer × Token)
  | 0, _, _, _ => none
  | fuel + 1, lex, cur_ptr, result => do
    -- Skips any whitespace before the token.
    let cur_ptr :=
      find_if_not_whitespace lex.buf (lex.buf.length - cur_ptr) cur_ptr
    let lex := { lex with buffer_ptr := cur_ptr }
    let (ch, ch_size) ← peek_char_and_size lex.buf cur_ptr
    let (cur_ptr, result) ← consume_char lex.buf cur_ptr ch_size result
    lex_token_switch (lex_token fuel) lex cur_ptr result ch

/-- `Lexer::lex`: the returned `bool`, the lexer afterwards and the token. -/
def Lexer.lex (lex : Lexer) (result : Token) : Option (Bool × Lexer × Token) :=
  lex_token (fuel_at lex.buf lex.buffer_ptr) lex lex.buffer_ptr result

/-- The spelling of a token of the buffer. -/
def Token.spelling (buf : List Nat) (t : Token) : List Nat :=
  text_slice buf t.b t.e

/-! ## Vocabulary of the statements -/

/-- The punctuator kinds, from `l_bracket` to `hashhash`, in the order of
`to_string`. -/
def PUNCTUATOR_KINDS : List TokenKind :=
  [ .l_bracket, .r_bracket, .l_paren, .r_paren, .l_brace, .r_brace,
    .period, .arrow, .plusplus, .minusminus, .ampersand, .star, .plus, .minus,
    .tilde, .exclama, .slash, .percent, .lessless, .greatergreater,
    .less, .greater, .lesslessequal, .greatergreaterequal,
    .equalequal, .exclamaequal, .caret, .pipe, .ampamp, .pipepipe,
    .question, .colon, .semi, .ellipsis, .equal,
    .starequal, .slashequal, .percentequal, .plusequal, .minusequal,
    .lessequal, .greaterequal, .ampequal, .caretequal, .pipeequal,
    .comma, .hash, .hashhash ]

/-- Lexing the buffer `s` from its start yields exactly one token, `t`, and
no diagnostic: the first call of `Lexer::lex` on a fresh token returns true
with `t` and leaves the lexer at the end of `t`; the second call returns
false, having skipped to the end of the buffer. -/
def lexes_as_one (s : List Nat) (t : Token) : Prop :=
  Lexer.lex { buf := s } {} = some (true, { buf := s, buffer_ptr := t.e }, t) ∧
  Lexer.lex { buf := s, buffer_ptr := t.e } {} =
    some (false, { buf := s, buffer_ptr := s.length }, {})

instance (s : List Nat) (t : Token) : Decidable (lexes_as_one s t) := by
  unfold lexes_as_one; infer_instance

/-- Whether `S` is an identifier spelling without backslash:
`[A-Za-z_][A-Za-z0-9_]*`. -/
def is_identifier_spelling : List Nat → Bool
  | [] => false
  | c :: cs => is_nondigit c && cs.all (fun d => is_nondigit d || is_digit d)

/-- The exponent letters `e`, `E`, `p`, `P`. -/
def is_exponent_letter (c : Nat) : Bool := c == 101 || c == 69 || c == 112 || c == 80

/-- The characters `[0-9A-Za-z_.]` matched by the loop of
`lex_numeric_constant`. -/
def is_numeric_char (c : Nat) : Bool := is_digit c || is_nondigit c || c == 46

/-- The rest of a numeric spelling after the character `prev`: characters of
`[0-9A-Za-z_.]`, or a sign `+` or `-` immediately after an exponent letter;
the last character is not an exponent letter. -/
def is_numeric_tail : Nat → List Nat → Bool
  | prev, [] => !is_exponent_letter prev
  | prev, c :: cs =>
    (is_numeric_char c || ((c == 43 || c == 45) && is_exponent_letter prev)) &&
      is_numeric_tail c cs

/-- A numeric spelling: a digit, or `.` and a digit, followed by a numeric
tail. -/
def is_numeric_spelling : List Nat → Bool
  | [] => false
  | c :: cs =>
    (is_digit c && is_numeric_tail c cs) ||
    (c == 46 && match cs with
      | [] => false
      | d :: ds => is_digit d && is_numeric_tail d ds)

/-! ## Relocation: the same bytes at a later offset -/

/-- A report whose location is moved by `k` bytes. -/
def Report.shift (k : Nat) (r : Report) : Report := { r with loc := k + r.loc }

/-- The lexer over the buffer `pre ++ lex.buf`, at the position of `lex`
moved past `pre`, with the reports moved likewise. -/
def Lexer.shift (pre : List Nat) (lex : Lexer) : Lexer :=
  { buf := pre ++ lex.buf, buffer_ptr := pre.length + lex.buffer_ptr,
    diag := lex.diag.map (Report.shift pre.length) }

/-- A token whose range is moved by `k` bytes. -/
def Token.shift (k : Nat) (t : Token) : Token := { t with b := k + t.b, e := k + t.e }

/-- The result of a call of `lex_token` moved past `pre`: the token is moved
only when one was formed. -/
def shift_result (pre : List Nat) (r : Bool × Lexer × Token) : Bool × Lexer × Token :=
  (r.1, r.2.1.shift pre, if r.1 then r.2.2.shift pre.length else r.2.2)

/-- The tokens, as kind and spelling, produced by up to `n` successive calls
of `Lexer::lex`, each on a fresh token, until a call returns false, with the
codes of the diagnostics reported by then; `none` if a call ran out of
fuel. -/
def lex_all : Nat → Lexer → Option (List (TokenKind × List Nat) × List Diag)
  | 0, lex => some ([], lex.diag.map (fun r => r.code))
  | n + 1, lex =>
    match lex.lex {} with
    | none => none
    | some (false, lex', _) => some ([], lex'.diag.map (fun r => r.code))
    | some (true, lex', t) =>
      (lex_all n lex').map (fun r => ((t.kind, t.spelling lex.buf) :: r.1, r.2))

/-- A plain byte of a line comment body: not a newline (LF, CR), not NUL and
not a backslash. -/
def is_plain_comment_byte (c : Nat) : Bool := c != 10 && c != 13 && c != 0 && c != 92

/-- The text of a line comment that continues over several physical lines:
the segments, joined by escaped newlines (backslash, LF). -/
def continued_comment : List (List Nat) → List Nat
  | [] => []
  | [seg] => seg
  | seg :: seg' :: segs => seg ++ 92 :: 10 :: continued_comment (seg' :: segs)

/-- No occurrence of `*/` (42, 47) in the bytes. -/
def no_star_slash : List Nat → Bool
  | a :: b :: rest => !(a == 42 && b == 47) && no_star_slash (b :: rest)
  | _ => true

/-- The result `r` of a scanner entered at `p` with the token start in
`lex.buffer_ptr`: the scanner returned true with a token over the same buffer
that begins at the token start and ends, at or after `p`, where the lexer
continues. -/
def forms_token_from (lex : Lexer) (p : Nat) (r : Option (Bool × Lexer × Token)) : Prop :=
  ∃ lx t, r = some (true, lx, t) ∧ lx.buf = lex.buf ∧ lx.buffer_ptr = t.e ∧
    t.b = lex.buffer_ptr ∧ p ≤ t.e

/-- The `n` logical characters from `ptr` on, as `peek_char_and_size` reads
them (escaped newlines are skipped), with the position after the last one. -/
def read_logical (buf : List Nat) : Nat → Nat → Option (List Nat × Nat)
  | 0, ptr => some ([], ptr)
  | n + 1, ptr => do
    let (c, size) ← peek_char_and_size buf ptr
    let (cs, q) ← read_logical buf n (ptr + size)
    some (c :: cs, q)

/-- The number written by hexadecimal digits, the most significant first. -/
def hex_value (ds : List Nat) : Nat :=
  ds.foldl (fun v d => v * 16 + (hexdigit_value d).getD 0) 0

/-- The code points that a universal character name may denote, as the
specification words C11 6.4.3/2: 0x24, 0x40, 0x60, or at least 0xA0 and
outside the surrogate range 0xD800..0xDFFF. -/
def is_valid_ucn (v : Nat) : Bool :=
  v == 0x24 || v == 0x40 || v == 0x60 ||
    (decide (0xA0 ≤ v) && !(decide (0xD800 ≤ v) && decide (v ≤ 0xDFFF)))

/-- A byte that stands for itself in the body of a character constant:
not the quote, the backslash, a newline (LF, CR) or NUL. -/
def is_plain_char_byte (c : Nat) : Bool := c != 39 && c != 92 && !is_newline c && c != 0

/-- The body of a character constant before its end: plain bytes and escapes,
an escape being a backslash and one escaped byte other than a newline and
NUL. -/
def is_char_body : List Nat → Bool
  | [] => true
  | [c] => is_plain_char_byte c
  | c :: b :: rest =>
    if c = 92 then !is_newline b && b != 0 && is_char_body rest
    else is_plain_char_byte c && is_char_body (b :: rest)

/-- The bytes end a line or the buffer: the first of them is a newline
(LF, CR) or NUL, or there is none (then the terminating NUL is read). -/
def ends_line (tail : List Nat) : Bool := is_newline (tail.headD 0) || tail.headD 0 == 0

/-- A result of the dispatcher that carries no token of kind `eof`. -/
def not_eof_result (r : Option (Bool × Lexer × Token)) : Prop :=
  ∀ lx t, r = some (true, lx, t) → t.kind ≠ .eof

/-! ## The token stream -/

/-- `TokenStream`: the lexer and the lookahead slot
`std::optional<Token> cur_tok`. -/
structure TokenStream where
  lexer : Lexer
  cur_tok : Option Token := none
  deriving DecidableEq, Repr

/-- Modelled from the spec: the sentinel `Token(TokenKind::eof,
SourceLocation())` that `TokenStream::peek` stores at the end of the input
(the constructor is declared in `lexer.hpp`): kind `eof` at the default
location. -/
def eof_token : Token := { kind := .eof, b := 0, e := 0 }

/-- `TokenStream::peek`: the stream afterwards and the returned token. The
token handed to `lexer.lex` is the freshly constructed `Token tok;`. -/
def TokenStream.peek (ts : TokenStream) : Option (TokenStream × Token) :=
  match ts.cur_tok with
  | some tok => some (ts, tok)
  | none =>
    match ts.lexer.lex {} with
    | none => none
    | some (true, lexer, tok) => some ({ lexer := lexer, cur_tok := some tok }, tok)
    | some (false, lexer, _) =>
      some ({ lexer := lexer, cur_tok := some eof_token }, eof_token)

/-- `TokenStream::empty`: `peek().is(TokenKind::eof)`. -/
def TokenStream.empty (ts : TokenStream) : Option (TokenStream × Bool) := do
  let (ts, tok) ← ts.peek
  some (ts, tok.kind == .eof)

/-- `TokenStream::consume`. The result `some none` stands for the failed
contract `cci_expects(!empty())`, which ends the program. -/
def TokenStream.consume (ts : TokenStream) :
    Option (Option (TokenStream × Token)) := do
  let (ts, e) ← ts.empty
  if e then some none
  else do
    let (ts, tok) ← ts.peek
    some (some ({ ts with cur_tok := none }, tok))

/-- A call that is allowed on a drained stream. -/
inductive StreamCall where
  | peek | empty
  deriving DecidableEq, Repr

/-- What a call answers: the token of `peek`, the flag of `empty`. -/
inductive StreamAnswer where
  | token (t : Token)
  | flag (b : Bool)
  deriving DecidableEq, Repr

/-- A sequence of calls made one after the other on a stream: the stream
afterwards and the answers in order. -/
def TokenStream.calls : List StreamCall → TokenStream →
    Option (TokenStream × List StreamAnswer)
  | [], ts => some (ts, [])
  | .peek :: cs, ts => do
    let (ts, t) ← ts.peek
    let (ts, as) ← TokenStream.calls cs ts
    some (ts, .token t :: as)
  | .empty :: cs, ts => do
    let (ts, b) ← ts.empty
    let (ts, as) ← TokenStream.calls cs ts
    some (ts, .flag b :: as)

/-- The answers of a drained stream: `peek` gives the stored token, `empty`
gives true. -/
def drained_answers (t : Token) : List StreamCall → List StreamAnswer
  | [] => []
  | .peek :: cs => .token t :: drained_answers t cs
  | .empty :: cs => .flag true :: drained_answers t cs

/-! ## Vocabulary of the coverage statement -/

/-- The rest of a line comment, read as logical characters from the first
position: characters other than a newline and NUL, then either a newline
character, after which the comment ends, or the NUL character, before which
it ends. The second position is the end of the comment. -/
inductive line_comment_rest (buf : List Nat) : Nat → Nat → Prop
  | newline (p c s : Nat) : peek_char_and_size buf p = some (c, s) → is_newline c = true →
      line_comment_rest buf p (p + s)
  | at_end (p s : Nat) : peek_char_and_size buf p = some (0, s) → line_comment_rest buf p p
  | more (p c s q : Nat) : peek_char_and_size buf p = some (c, s) → is_newline c = false →
      c ≠ 0 → line_comment_rest buf (p + s) q → line_comment_rest buf p q

/-- The rest of a block comment, read as logical characters after the
character `prev`: it ends after the first `/` (47) that follows a `*` (42), or
before the NUL character. -/
inductive block_comment_rest (buf : List Nat) : Nat → Nat → Nat → Prop
  | close (p s : Nat) : peek_char_and_size buf p = some (47, s) →
      block_comment_rest buf 42 p (p + s)
  | at_end (prev p s : Nat) : peek_char_and_size buf p = some (0, s) →
      block_comment_rest buf prev p p
  | more (prev p c s q : Nat) : peek_char_and_size buf p = some (c, s) →
      ¬ (c = 47 ∧ prev = 42) → c ≠ 0 → block_comment_rest buf c (p + s) q →
      block_comment_rest buf prev p q

/-- The bytes from the first position to the second are skipped text:
whitespace bytes, line comments (two logical characters `/`, then the rest)
and block comments (the logical characters `/` and `*`, then the rest). -/
inductive skipped (buf : List Nat) : Nat → Nat → Prop
  | done (p : Nat) : skipped buf p p
  | whitespace (p q : Nat) : is_whitespace (rd buf p) = true → skipped buf (p + 1) q →
      skipped buf p q
  | line_comment (p s1 s2 e q : Nat) : peek_char_and_size buf p = some (47, s1) →
      peek_char_and_size buf (p + s1) = some (47, s2) →
      line_comment_rest buf (p + s1 + s2) e → skipped buf e q → skipped buf p q
  | block_comment (p s1 s2 e q : Nat) : peek_char_and_size buf p = some (47, s1) →
      peek_char_and_size buf (p + s1) = some (42, s2) →
      block_comment_rest buf 0 (p + s1 + s2) e → skipped buf e q → skipped buf p q

/-- The bytes from the first position to the second are the ranges of the
given tokens in order, each range not empty, with skipped text before each
token and after the last one. -/
inductive covers (buf : List Nat) : Nat → List Token → Nat → Prop
  | nil (p q : Nat) : skipped buf p q → covers buf p [] q
  | cons (p : Nat) (t : Token) (ts : List Token) (q : Nat) : skipped buf p t.b →
      t.b < t.e → covers buf t.e ts q → covers buf p (t :: ts) q

/-- The tokens of up to `n` successive calls of `Lexer::lex`, each on a fresh
token, until a call returns false: the tokens, the lexer afterwards, and
whether the last call returned false; `none` if a call ran out of fuel. -/
def lex_run : Nat → Lexer → Option (List Token × Lexer × Bool)
  | 0, lex => some ([], lex, false)
  | n + 1, lex =>
    match lex.lex {} with
    | none => none
    | some (false, lex', _) => some ([], lex', true)
    | some (true, lex', t) => (lex_run n lex').map (fun r => (t :: r.1, r.2))

/-! ## The numeric literal analyzer -/

/-- `NumericConstantParser` of `literal_parser.hpp`: the fields of the
record, with `digit_begin` and `digit_end` as positions in the spelling, which
is kept alongside. -/
structure NumericConstantParser where
  spelling : List Nat
  digit_begin : Nat := 0
  digit_end : Nat := 0
  has_error : Bool := false
  has_period : Bool := false
  has_exponent : Bool := false
  is_unsigned : Bool := false
  is_long : Bool := false
  is_long_long : Bool := false
  is_float : Bool := false
  radix : Nat := 0
  deriving DecidableEq, Repr

/-- `is_floating_literal`. -/
def NumericConstantParser.is_floating_literal (r : NumericConstantParser) : Bool :=
  r.has_period || r.has_exponent

/-- `is_integer_literal`. -/
def NumericConstantParser.is_integer_literal (r : NumericConstantParser) : Bool :=
  !r.is_floating_literal

/-- Modelled from the spec: step 1 of the numeric literal analyzer (the
constructor of `NumericConstantParser` is not in the sources): the radix from
the prefix, `0x` or `0X` giving 16, a leading `0` with more digits 8, anything
else 10, and `digit_begin` after the prefix. -/
def detect_radix (s : List Nat) : Nat × Nat :=
  match s with
  | 48 :: c :: _ =>
    if c = 120 ∨ c = 88 then (16, 2)
    else if is_digit c then (8, 1)
    else (10, 0)
  | _ => (10, 0)

/-- The characters walked as digits in a radix: hexadecimal digits for 16,
decimal digits otherwise (an `8` or `9` of an octal integer is found
afterwards). -/
def is_digit_of (radix : Nat) (c : Nat) : Bool :=
  if radix = 16 then is_hexdigit c else is_digit c

/-- The letter that starts the exponent in a radix: `p`, `P` for 16 and `e`,
`E` otherwise. -/
def is_exponent_of (radix : Nat) (c : Nat) : Bool :=
  if radix = 16 then c == 112 || c == 80 else c == 101 || c == 69

/-- The number of leading characters of `s` from position `i` on that satisfy
`pred`. -/
def run_length (pred : Nat → Bool) (s : List Nat) (i : Nat) : Nat :=
  ((s.drop i).takeWhile pred).length

/-- What the walk over the digits finds. -/
structure DigitWalk where
  pos : Nat
  has_period : Bool
  has_exponent : Bool
  has_error : Bool
  radix : Nat
  deriving DecidableEq, Repr

/-- Modelled from the spec: step 2 of the numeric literal analyzer: the walk
over the digits from `digit_begin`, with an optional single period and an
optional exponent (a letter, an optional sign, and digits, which must not be
missing). A period in radix 16 needs an exponent; a literal with a leading
`0` that turns out to have a period or an exponent is decimal; an `8` or `9`
in an octal integer is an error. `pos` is the first position of the
suffix. -/
def walk_digits (s : List Nat) (radix digit_begin : Nat) : DigitWalk :=
  let p1 := digit_begin + run_length (is_digit_of radix) s digit_begin
  let has_period := s.getD p1 0 == 46
  let p2 :=
    if has_period then p1 + 1 + run_length (is_digit_of radix) s (p1 + 1) else p1
  if is_exponent_of radix (s.getD p2 0) then
    let p3 := if s.getD (p2 + 1) 0 == 43 || s.getD (p2 + 1) 0 == 45 then p2 + 2 else p2 + 1
    let n := run_length is_digit s p3
    { pos := p3 + n, has_period := has_period, has_exponent := true,
      has_error := n == 0, radix := if radix = 8 then 10 else radix }
  else if has_period then
    { pos := p2, has_period := true, has_exponent := false,
      has_error := radix == 16, radix := if radix = 8 then 10 else radix }
  else
    { pos := p2, has_period := false, has_exponent := false,
      has_error := radix == 8 &&
        ((s.drop digit_begin).take (p1 - digit_begin)).any (fun c => c == 56 || c == 57),
      radix := radix }

/-- The flags set by the suffix. -/
structure SuffixFlags where
  is_unsigned : Bool := false
  is_long : Bool := false
  is_long_long : Bool := false
  is_float : Bool := false
  has_error : Bool := false
  deriving DecidableEq, Repr

/-- Modelled from the spec: step 3 of the numeric literal analyzer, the
suffix: `u` or `U` sets `is_unsigned`, a single `l` or `L` sets `is_long`, a
pair `ll` or `LL` of the same case sets `is_long_long`, and `f` or `F` sets
`is_float` on a floating literal. A flag set a second time, `is_long`
together with `is_long_long`, a pair of mixed case, `f` or `F` on an integer
literal, `u` or `U` on a floating literal, and any other character are
errors. -/
def parse_suffix (floating : Bool) : List Nat → SuffixFlags → SuffixFlags
  | [], st => st
  | [c], st =>
    if c = 117 ∨ c = 85 then
      if st.is_unsigned = true ∨ floating = true then { st with has_error := true }
      else { st with is_unsigned := true }
    else if c = 108 ∨ c = 76 then
      if st.is_long = true ∨ st.is_long_long = true then { st with has_error := true }
      else { st with is_long := true }
    else if c = 102 ∨ c = 70 then
      if floating = false ∨ st.is_float = true then { st with has_error := true }
      else { st with is_float := true }
    else { st with has_error := true }
  | c :: c' :: rest, st =>
    if c = 117 ∨ c = 85 then
      if st.is_unsigned = true ∨ floating = true then { st with has_error := true }
      else parse_suffix floating (c' :: rest) { st with is_unsigned := true }
    else if c = 108 ∨ c = 76 then
      if st.is_long = true ∨ st.is_long_long = true then { st with has_error := true }
      else if c' = c then parse_suffix floating rest { st with is_long_long := true }
      else if c' = 108 ∨ c' = 76 then { st with has_error := true }
      else parse_suffix floating (c' :: rest) { st with is_long := true }
    else if c = 102 ∨ c = 70 then
      if floating = false ∨ st.is_float = true then { st with has_error := true }
      else parse_suffix floating (c' :: rest) { st with is_float := true }
    else { st with has_error := true }

/-- Modelled from the spec: the constructor of `NumericConstantParser`
(its definition is not in the sources), from the spelling of the token: the
radix, the walk over the digits, and the suffix. -/
def NumericConstantParser.construct (s : List Nat) : NumericConstantParser :=
  let w := walk_digits s (detect_radix s).1 (detect_radix s).2
  let sf := parse_suffix (w.has_period || w.has_exponent) (s.drop w.pos) {}
  { spelling := s, digit_begin := (detect_radix s).2, digit_end := w.pos,
    has_error := w.has_error || sf.has_error, has_period := w.has_period,
    has_exponent := w.has_exponent, is_unsigned := sf.is_unsigned, is_long := sf.is_long,
    is_long_long := sf.is_long_long, is_float := sf.is_float, radix := w.radix }

/-- One multiply-add of the 64-bit accumulator of `eval_to_integer`, with the
flag that records an overflow; the value saturates. -/
def eval_step (radix : Nat) (acc : Nat × Bool) (c : Nat) : Nat × Bool :=
  if acc.2 = true ∨ 2 ^ 64 - 1 < acc.1 * radix + (hexdigit_value c).getD 0 then
    (2 ^ 64 - 1, true)
  else (acc.1 * radix + (hexdigit_value c).getD 0, false)

/-- Modelled from the spec: `NumericConstantParser::eval_to_integer` (its
definition is not in the sources): the digit range read in the radix into a
64-bit unsigned accumulator, with whether a multiply-add overflowed. -/
def NumericConstantParser.eval_to_integer (r : NumericConstantParser) : Nat × Bool :=
  (text_slice r.spelling r.digit_begin r.digit_end).foldl (eval_step r.radix) (0, false)

/-- The value of a list of digits, most significant first, in a radix. -/
def digits_value (radix : Nat) : List Nat → Nat
  | [] => 0
  | c :: ds => (hexdigit_value c).getD 0 * radix ^ ds.length + digits_value radix ds

/-- An octal digit. -/
def is_octdigit (c : Nat) : Bool := 48 ≤ c && c ≤ 55

/-- A well-formed integer literal without its suffix, as prefix and digits,
and its radix: decimal digits that do not begin with `0` (or the single digit
`0`), or `0` and octal digits, or `0x` or `0X` and hexadecimal digits. -/
def is_integer_body (pre ds : List Nat) (radix : Nat) : Bool :=
  !ds.isEmpty &&
  ((pre == [] && radix == 10 && ds.all is_digit && (ds.head? != some 48 || ds == [48])) ||
   (pre == [48] && radix == 8 && ds.all is_octdigit) ||
   ((pre == [48, 120] || pre == [48, 88]) && radix == 16 && ds.all is_hexdigit))

/-- The valid suffixes of an integer literal: `u` or `U`, and `l`, `L`, `ll`
or `LL`, each optional, in either order. -/
def valid_integer_suffixes : List (List Nat) :=
  ["", "u", "U", "l", "L", "ll", "LL", "ul", "uL", "Ul", "UL", "ull", "uLL", "Ull", "ULL",
   "lu", "lU", "Lu", "LU", "llu", "llU", "LLu", "LLU"].map str

/-- The first character of the suffix region is not taken by the prefix or
by the walk over the digits: it is not a digit of the walk, a period, the
exponent letter, or the `x` or `X` of a prefix. -/
def suffix_starts (radix : Nat) (suf : List Nat) : Bool :=
  match suf with
  | [] => true
  | c :: _ =>
    !is_digit_of radix c && c != 46 && !is_exponent_of radix c && c != 120 && c != 88

/-- The number of `u` and `U` in a suffix. -/
def count_unsigned (suf : List Nat) : Nat := suf.countP (fun c => c == 117 || c == 85)

/-- The number of `l` and `L` in a suffix. -/
def count_long (suf : List Nat) : Nat := suf.countP (fun c => c == 108 || c == 76)

/-- An `l` next to an `L` in a suffix. -/
def has_mixed_pair : List Nat → Bool
  | a :: b :: rest => (a == 108 && b == 76) || (a == 76 && b == 108) || has_mixed_pair (b :: rest)
  | _ => false

/-! ## Vocabulary of the statements about the character reader -/

/-- The newline sequences of an escaped newline: LF, CR, CR LF, LF CR. -/
def newline_sequences : List (List Nat) := [[10], [13], [13, 10], [10, 13]]

/-- A sequence of zero or more complete escaped newlines: each a backslash
followed by one newline character, or by two different newline
characters. -/
def is_escaped_newlines : List Nat → Bool
  | [] => true
  | [_] => false
  | [c, a] => c == 92 && is_newline a
  | c :: a :: b :: rest =>
    c == 92 && is_newline a &&
      (is_escaped_newlines (b :: rest) ||
        (is_newline b && a != b && is_escaped_newlines rest))

/-- The first bytes of the punctuators. -/
def PUNCTUATOR_FIRST_BYTES : List Nat :=
  str "[](){}.-+&*~!/%<>=^|?:;,#"

/-- A byte that begins nothing the lexer knows: not NUL, not ASCII
whitespace, not a letter, a digit or `_`, not a quote (39, 34) or a
backslash, and not the first byte of a punctuator. -/
def is_unknown_byte (b : Nat) : Bool :=
  b != 0 && !is_whitespace b && !is_nondigit b && !is_digit b && b != 39 && b != 34 &&
    b != 92 && !PUNCTUATOR_FIRST_BYTES.contains b

/-- Draining a stream, as a client does with
`while (!ts.empty()) tok = ts.consume();`, for at most as many rounds as the
schedule has entries; before each round the calls of its entry (`peek` and
`empty`, any number) are made. The tokens consumed and the stream afterwards.
`consume` is only called after `empty` has answered false, so its contract
holds. -/
def TokenStream.drain : List (List StreamCall) → TokenStream →
    Option (List Token × TokenStream)
  | [], ts => some ([], ts)
  | cs :: rest, ts => do
    let (ts, _) ← ts.calls cs
    let (ts, e) ← ts.empty
    if e then some ([], ts)
    else
      match ts.consume with
      | some (some (ts, tok)) => do
        let (toks, ts) ← TokenStream.drain rest ts
        some (tok :: toks, ts)
      | _ => none

/-- The rest of an unterminated block comment, read as logical characters
after the character `prev`: no `/` (47) follows a `*` (42), up to the NUL
character, before which it ends. The second position is that end, where the
spelling of the NUL character begins. -/
inductive block_comment_unterminated (buf : List Nat) : Nat → Nat → Nat → Prop
  | at_end (prev p s : Nat) : peek_char_and_size buf p = some (0, s) →
      block_comment_unterminated buf prev p p
  | more (prev p c s q : Nat) : peek_char_and_size buf p = some (c, s) →
      ¬ (c = 47 ∧ prev = 42) → c ≠ 0 → block_comment_unterminated buf c (p + s) q →
      block_comment_unterminated buf prev p q

/-! ## Basic facts about reading, peeking and the dispatcher -/

theorem rd_cons_succ (c : Nat) (cs : List Nat) (i : Nat) : rd (c :: cs) (i + 1) = rd cs i := by
  simp [rd]

theorem rd_of_length_le (buf : List Nat) (p : Nat) (h : buf.length ≤ p) : rd buf p = 0 := by
  simp [rd, List.getElem?_eq_none h]

theorem rd_of_lt (buf : List Nat) (p : Nat) (h : p < buf.length) : rd buf p = buf[p] := by
  simp [rd, List.getElem?_eq_getElem h]

theorem peek_char_and_size_of_ne (buf : List Nat) (p : Nat) (h : rd buf p ≠ 92) :
    peek_char_and_size buf p = some (rd buf p, 1) := by
  unfold peek_char_and_size
  split
  · rfl
  · simp [fuel_at, peek_char_and_size_nontrivial, h]

theorem peek_char_advance_of_ne (buf : List Nat) (p : Nat) (tok : Token) (h : rd buf p ≠ 92) :
    peek_char_advance buf p tok = some (rd buf p, p + 1, tok) := by
  unfold peek_char_advance
  split
  · rfl
  · simp [fuel_at, peek_char_and_size_nontrivial, h]

theorem consume_char_one (buf : List Nat) (p : Nat) (tok : Token) :
    consume_char buf p 1 tok = some (p + 1, tok) := by
  simp [consume_char]

theorem lex_token_succ (fuel : Nat) (lex : Lexer) (cur_ptr : Nat) (result : Token) :
    lex_token (fuel + 1) lex cur_ptr result =
      (peek_char_and_size lex.buf
          (find_if_not_whitespace lex.buf (lex.buf.length - cur_ptr) cur_ptr)).bind
        (fun x => (consume_char lex.buf
            (find_if_not_whitespace lex.buf (lex.buf.length - cur_ptr) cur_ptr) x.2 result).bind
          (fun y => lex_token_switch (lex_token fuel)
            { lex with buffer_ptr :=
                find_if_not_whitespace lex.buf (lex.buf.length - cur_ptr) cur_ptr }
            y.1 y.2 x.1)) := rfl

theorem find_if_not_whitespace_of_not (buf : List Nat) (n p : Nat)
    (hw : is_whitespace (rd buf p) = false) : find_if_not_whitespace buf n p = p := by
  cases n with
  | zero => rfl
  | succ n => simp [find_if_not_whitespace, hw]

/-- Lexing from a position whose byte is neither whitespace nor a backslash. -/
theorem lex_token_of_plain (fuel : Nat) (lex : Lexer) (p : Nat) (result : Token)
    (hw : is_whitespace (rd lex.buf p) = false) (hb : rd lex.buf p ≠ 92) :
    lex_token (fuel + 1) lex p result =
      lex_token_switch (lex_token fuel) { lex with buffer_ptr := p } (p + 1) result
        (rd lex.buf p) := by
  rw [lex_token_succ, find_if_not_whitespace_of_not _ _ _ hw, peek_char_and_size_of_ne _ _ hb]
  simp [consume_char_one]

/-- At the terminating NUL `lex_token` returns false. -/
theorem lex_token_at_nul (fuel : Nat) (lex : Lexer) (p : Nat) (result : Token)
    (h0 : rd lex.buf p = 0) :
    lex_token (fuel + 1) lex p result = some (false, { lex with buffer_ptr := p }, result) := by
  rw [lex_token_of_plain _ _ _ _ (by rw [h0]; rfl) (by rw [h0]; decide), h0]
  rfl

theorem is_nondigit_iff (c : Nat) :
    is_nondigit c = true ↔ (97 ≤ c ∧ c ≤ 122) ∨ (65 ≤ c ∧ c ≤ 90) ∨ c = 95 := by
  simp [is_nondigit, or_assoc]

theorem is_digit_iff (c : Nat) : is_digit c = true ↔ 48 ≤ c ∧ c ≤ 57 := by
  simp [is_digit]

/-- The switch sends a letter or underscore that is not followed by a single
quote or a backslash to `lex_identifier`. -/
theorem lex_token_switch_of_nondigit (relex : Lexer → Nat → Token → Option (Bool × Lexer × Token))
    (lex : Lexer) (cur_ptr : Nat) (result : Token) (ch : Nat)
    (hc : is_nondigit ch = true) (hq : rd lex.buf cur_ptr ≠ 39) (hb : rd lex.buf cur_ptr ≠ 92) :
    lex_token_switch relex lex cur_ptr result ch = lex_identifier lex cur_ptr result := by
  have hd : is_digit ch = false := by
    rw [is_nondigit_iff] at hc
    cases h : is_digit ch with
    | false => rfl
    | true => rw [is_digit_iff] at h; omega
  rw [is_nondigit_iff] at hc
  unfold lex_token_switch
  rw [if_neg (show ¬ ch = 0 by omega), if_neg (show ¬ ch = 92 by omega), if_neg (show ¬ ch = 91 by omega), if_neg (show ¬ ch = 93 by omega), if_neg (show ¬ ch = 40 by omega), if_neg (show ¬ ch = 41 by omega), if_neg (show ¬ ch = 123 by omega), if_neg (show ¬ ch = 125 by omega), if_neg (show ¬ ch = 46 by omega), if_neg (show ¬ ch = 45 by omega), if_neg (show ¬ ch = 43 by omega), if_neg (show ¬ ch = 38 by omega), if_neg (show ¬ ch = 42 by omega), if_neg (show ¬ ch = 126 by omega), if_neg (show ¬ ch = 47 by omega), if_neg (show ¬ ch = 37 by omega), if_neg (show ¬ ch = 60 by omega), if_neg (show ¬ ch = 62 by omega), if_neg (show ¬ ch = 61 by omega), if_neg (show ¬ ch = 33 by omega), if_neg (show ¬ ch = 94 by omega), if_neg (show ¬ ch = 124 by omega), if_neg (show ¬ ch = 63 by omega), if_neg (show ¬ ch = 58 by omega), if_neg (show ¬ ch = 59 by omega), if_neg (show ¬ ch = 44 by omega), if_neg (show ¬ ch = 35 by omega)]
  simp only [hd, Bool.false_eq_true, if_false, peek_char_and_size_of_ne _ _ hb]
  have hc' : is_nondigit ch = true := (is_nondigit_iff ch).2 hc
  simp [hq, hc']

/-! ## C1: identifiers -/

theorem ident_fast_run (buf : List Nat) (n : Nat) :
    ∀ (fuel p : Nat), n < fuel →
      (∀ i, i < n → (is_nondigit (rd buf (p + i)) || is_digit (rd buf (p + i))) = true) →
      (is_nondigit (rd buf (p + n)) || is_digit (rd buf (p + n))) = false →
      ident_fast buf fuel p = some (p + n) := by
  induction n with
  | zero =>
    intro fuel p hf _ hstop
    obtain ⟨f, rfl⟩ : ∃ f, fuel = f + 1 := ⟨fuel - 1, by omega⟩
    simp only [Nat.add_zero] at hstop
    simp [ident_fast, hstop]
  | succ n ih =>
    intro fuel p hf hall hstop
    obtain ⟨f, rfl⟩ : ∃ f, fuel = f + 1 := ⟨fuel - 1, by omega⟩
    have h0 := hall 0 (by omega)
    simp only [Nat.add_zero] at h0
    rw [ident_fast, if_pos h0, ih f (p + 1) (by omega)]
    · congr 1; omega
    · intro i hi
      have := hall (i + 1) (by omega)
      rwa [show p + 1 + i = p + (i + 1) by omega]
    · rwa [show p + 1 + n = p + (n + 1) by omega]

theorem text_slice_all (buf : List Nat) : text_slice buf 0 buf.length = buf := by
  simp [text_slice]

/-- Statement of C1: for every identifier spelling `S` (matching
`[A-Za-z_][A-Za-z0-9_]*`), lexing the buffer `S` yields exactly one token,
whose range is the whole of `S`, then `lex` returns false, and no diagnostic
is reported. The kind is the keyword spelled by `S`, if any, else
`identifier`. -/
theorem C1_identifier_lexes_as_one (S : List Nat) (hS : is_identifier_spelling S = true) :
    lexes_as_one S
      { kind := (keyword_kind S).getD .identifier, b := 0, e := S.length } := by
  obtain ⟨c, cs, rfl⟩ : ∃ c cs, S = c :: cs := by
    cases S with
    | nil => simp [is_identifier_spelling] at hS
    | cons c cs => exact ⟨c, cs, rfl⟩
  simp only [is_identifier_spelling, Bool.and_eq_true, List.all_eq_true] at hS
  obtain ⟨hc, hcs⟩ := hS
  have hc' := (is_nondigit_iff c).1 hc
  have hend : rd (c :: cs) (cs.length + 1) = 0 := rd_of_length_le _ _ (by simp)
  have hnext : ∀ i, i < cs.length →
      (is_nondigit (rd (c :: cs) (1 + i)) || is_digit (rd (c :: cs) (1 + i))) = true := by
    intro i hi
    rw [Nat.add_comm, rd_cons_succ, rd_of_lt _ _ hi]
    exact hcs _ (List.getElem_mem _)
  have h1 : rd (c :: cs) 1 ≠ 39 ∧ rd (c :: cs) 1 ≠ 92 := by
    cases cs with
    | nil => simp [rd]
    | cons d ds =>
      have := hnext 0 (by simp)
      simp only [Nat.add_zero, Bool.or_eq_true, is_nondigit_iff, is_digit_iff] at this
      have hd : rd (c :: d :: ds) 1 = d := rfl
      rw [hd] at this ⊢
      omega
  constructor
  · unfold Lexer.lex
    rw [show fuel_at (c :: cs) 0 = (cs.length + 3) + 1 by simp [fuel_at],
      lex_token_of_plain _ _ _ _ (by simp [rd, is_whitespace, is_newline]; omega)
        (by simp [rd]; omega)]
    have hsw : rd (c :: cs) 0 = c := rfl
    simp only [hsw]
    rw [lex_token_switch_of_nondigit _ _ _ _ _ hc h1.1 h1.2]
    unfold lex_identifier
    simp only []
    rw [ident_fast_run (c :: cs) cs.length _ 1 (by simp [fuel_at]) hnext
      (by rw [Nat.add_comm, hend]; rfl)]
    rw [Nat.add_comm 1]
    simp only [Option.bind_eq_bind, Option.some_bind]
    rw [if_neg (by rw [hend]; decide)]
    cases hk : keyword_kind (c :: cs) <;>
      simp [form_token, text_slice, hk]
  · unfold Lexer.lex
    simp only [List.length_cons]
    rw [show fuel_at (c :: cs) (cs.length + 1) = 2 + 1 by simp [fuel_at],
      lex_token_at_nul _ _ _ _ hend]

/-- Witness of C1 at the spelling `_abc123`. -/
theorem C1_identifier_lexes_as_one_witness :
    is_identifier_spelling (str "_abc123") = true ∧
    lexes_as_one (str "_abc123") { kind := .identifier, b := 0, e := 7 } :=
  ⟨by decide, C1_identifier_lexes_as_one (str "_abc123") (by decide)⟩

/-! ## C2: keywords -/

theorem keyword_kind_to_string :
    ∀ kw ∈ KEYWORD_KINDS, keyword_kind (str (to_string kw)) = some kw := by
  decide

theorem keyword_kind_some (s : List Nat) (kw : TokenKind) (h : keyword_kind s = some kw) :
    kw ∈ KEYWORD_KINDS ∧ s = str (to_string kw) := by
  unfold keyword_kind at h
  refine ⟨List.mem_of_find?_eq_some h, ?_⟩
  have := List.find?_some h
  simpa using this

/-- The kind given by `lex_identifier` to a token with clear `HasUCN` and
`IsDirty` flags is the result of the keyword lookup on its spelling. -/
theorem lex_identifier_kind (lex : Lexer) (cur_ptr : Nat) (result : Token) (ret : Bool)
    (lex' : Lexer) (t : Token)
    (h : lex_identifier lex cur_ptr result = some (ret, lex', t))
    (hu : t.flags.HasUCN = false) (hd : t.flags.IsDirty = false) :
    t.kind = (keyword_kind (t.spelling lex'.buf)).getD .identifier := by
  unfold lex_identifier at h
  simp only [Option.bind_eq_bind, Option.bind_eq_some] at h
  obtain ⟨p, -, ⟨lx, q, r⟩, -, h⟩ := h
  simp only [form_token] at h
  split at h
  · split at h
    · rename_i kw hk
      simp only [Option.some.injEq, Prod.mk.injEq] at h
      obtain ⟨-, rfl, rfl⟩ := h
      simp [Token.spelling, hk]
    · rename_i hk
      simp only [Option.some.injEq, Prod.mk.injEq] at h
      obtain ⟨-, rfl, rfl⟩ := h
      simp [Token.spelling, hk]
  · rename_i hne
    simp only [Option.some.injEq, Prod.mk.injEq] at h
    obtain ⟨-, rfl, rfl⟩ := h
    simp at hu hd
    simp [hu, hd] at hne

/-- Statement of C2: keyword recognition is exact. For every token formed by
`lex_identifier` with neither `HasUCN` nor `IsDirty` set, and every kind `kw`
of `KEYWORD_KINDS`, the token has kind `kw` if and only if its spelling is
`to_string(kw)`, and it has kind `identifier` when its spelling is the printed
form of no keyword; the table has 44 kinds, and lexing `to_string(kw)` yields
a single token of kind `kw` for each of them. -/
theorem C2_keyword_recognition_exact :
    (∀ (lex : Lexer) (cur_ptr : Nat) (result : Token) (ret : Bool) (lex' : Lexer) (t : Token),
      lex_identifier lex cur_ptr result = some (ret, lex', t) →
      t.flags.HasUCN = false → t.flags.IsDirty = false →
      (∀ kw ∈ KEYWORD_KINDS, t.kind = kw ↔ t.spelling lex'.buf = str (to_string kw)) ∧
      ((∀ kw ∈ KEYWORD_KINDS, t.spelling lex'.buf ≠ str (to_string kw)) →
        t.kind = .identifier)) ∧
    KEYWORD_KINDS.length = 44 ∧
    (∀ kw ∈ KEYWORD_KINDS,
      lexes_as_one (str (to_string kw))
        { kind := kw, b := 0, e := (str (to_string kw)).length }) := by
  refine ⟨?_, by decide, by decide⟩
  intro lex cur_ptr result ret lex' t h hu hd
  have hk := lex_identifier_kind lex cur_ptr result ret lex' t h hu hd
  constructor
  · intro kw hkw
    constructor
    · intro hkind
      cases hs : keyword_kind (t.spelling lex'.buf) with
      | none =>
        rw [hs] at hk
        simp only [Option.getD_none] at hk
        rw [hk] at hkind
        subst hkind
        exact absurd hkw (by decide)
      | some kw' =>
        rw [hs] at hk
        simp only [Option.getD_some] at hk
        have := (keyword_kind_some _ _ hs).2
        rw [this, ← hk, hkind]
    · intro hsp
      rw [hk, hsp, keyword_kind_to_string kw hkw]
      rfl
  · intro hno
    cases hs : keyword_kind (t.spelling lex'.buf) with
    | none => rw [hk, hs]; rfl
    | some kw' =>
      have := keyword_kind_some _ _ hs
      exact absurd this.2 (hno kw' this.1)

/-- Witness of C2: the identifier scan of the buffer `int`, entered past its
first character, forms a token with clear flags. -/
theorem C2_keyword_recognition_exact_witness :
    lex_identifier { buf := str "int" } 1 {} =
      some (true, { buf := str "int", buffer_ptr := 3 }, { kind := .kw_int, b := 0, e := 3 }) ∧
    ((∀ kw ∈ KEYWORD_KINDS,
        ({ kind := .kw_int, b := 0, e := 3 } : Token).kind = kw ↔
          ({ kind := .kw_int, b := 0, e := 3 } : Token).spelling (str "int") =
            str (to_string kw)) ∧
      ((∀ kw ∈ KEYWORD_KINDS,
        ({ kind := .kw_int, b := 0, e := 3 } : Token).spelling (str "int") ≠
          str (to_string kw)) →
        ({ kind := .kw_int, b := 0, e := 3 } : Token).kind = .identifier)) :=
  ⟨by decide,
   C2_keyword_recognition_exact.1 { buf := str "int" } 1 {} true
     { buf := str "int", buffer_ptr := 3 } { kind := .kw_int, b := 0, e := 3 }
     (by decide) rfl rfl⟩

/-! ## C3: punctuators -/

/-- Statement of C3, as far as the code satisfies it, and the failing kind:
there are 48 punctuator kinds from `l_bracket` to `hashhash`; for each of
them other than `greatergreater`, lexing its printed form yields exactly one
token, of that kind, covering the whole spelling, with no diagnostic; but the
printed form of `greatergreater` lexes as one two-byte token of kind
`greater`. -/
theorem C3_punctuator_round_trip :
    PUNCTUATOR_KINDS.length = 48 ∧
    (∀ k ∈ PUNCTUATOR_KINDS, k ≠ .greatergreater →
      lexes_as_one (str (to_string k))
        { kind := k, b := 0, e := (str (to_string k)).length }) ∧
    lexes_as_one (str (to_string .greatergreater)) { kind := .greater, b := 0, e := 2 } := by
  decide

/-- Witness of C3 at the sibling kind `lessless`. -/
theorem C3_punctuator_round_trip_witness :
    lexes_as_one (str "<<") { kind := .lessless, b := 0, e := 2 } :=
  C3_punctuator_round_trip.2.1 .lessless (by decide) (by decide)

/-! ## C4: digraphs -/

/-- Peeking always succeeds: the fuel `fuel_at` is enough. -/
theorem peek_char_and_size_nontrivial_isSome (buf : List Nat) :
    ∀ (fuel ptr size : Nat) (tok : Option Token), 1 ≤ fuel → buf.length + 1 ≤ fuel + ptr →
      ∃ r, peek_char_and_size_nontrivial buf fuel ptr size tok = some r := by
  intro fuel
  induction fuel with
  | zero => intro ptr size tok h; omega
  | succ f ih =>
    intro ptr size tok _ hf
    unfold peek_char_and_size_nontrivial
    by_cases h92 : rd buf ptr = 92
    · simp only [h92, if_true]
      by_cases hw : is_whitespace (rd buf (ptr + 1)) = true
      · simp only [hw, Bool.not_true, Bool.false_eq_true, if_false]
        by_cases he : size_for_escaped_newline buf (ptr + 1) = 0
        · simp [he]
        · simp only [ne_eq, he, not_false_eq_true, if_true]
          have hlt : ptr + 1 < buf.length := by
            by_contra hge
            have := rd_of_length_le buf (ptr + 1) (by omega)
            rw [this] at hw
            simp [is_whitespace, is_newline] at hw
          exact ih _ _ _ (by omega) (by omega)
      · simp [hw]
    · simp [h92]

theorem peek_char_and_size_isSome (buf : List Nat) (p : Nat) :
    ∃ c s, peek_char_and_size buf p = some (c, s) := by
  unfold peek_char_and_size
  split
  · exact ⟨_, _, rfl⟩
  · obtain ⟨⟨c, s, t⟩, h⟩ := peek_char_and_size_nontrivial_isSome buf (fuel_at buf p) p 0 none
      (by simp [fuel_at]) (by simp [fuel_at]; omega)
    exact ⟨c, s, by simp [h]⟩

theorem consume_char_isSome (buf : List Nat) (p size : Nat) (tok : Token) :
    ∃ q t, consume_char buf p size tok = some (q, t) := by
  unfold consume_char
  split
  · exact ⟨_, _, rfl⟩
  · obtain ⟨⟨c, s, t⟩, h⟩ := peek_char_and_size_nontrivial_isSome buf (fuel_at buf p) p 0 (some tok)
      (by simp [fuel_at]) (by simp [fuel_at]; omega)
    exact ⟨p + s, t.getD tok, by simp [h]⟩

/-- After `%:%`, a logical character other than `:` leaves `%:` as the token
`hash`, and the next token starts at the second `%`. -/
theorem percent_colon_percent (rest : List Nat) (c s : Nat)
    (hp : peek_char_and_size (str "%:%" ++ rest) 3 = some (c, s)) (hc : c ≠ 58) :
      Lexer.lex { buf := str "%:%" ++ rest } {} =
        some (true, { buf := str "%:%" ++ rest, buffer_ptr := 2 },
          { kind := .hash, b := 0, e := 2 }) ∧
      ∃ lex2 t2, Lexer.lex { buf := str "%:%" ++ rest, buffer_ptr := 2 } {} =
        some (true, lex2, t2) ∧ t2.b = 2 ∧ lex2.diag = [] := by
  have hs : str "%:%" ++ rest = 37 :: 58 :: 37 :: rest := rfl
  rw [hs] at hp ⊢
  constructor
  · unfold Lexer.lex
    rw [show fuel_at (37 :: 58 :: 37 :: rest) 0 = (rest.length + 5) + 1 by simp [fuel_at],
      lex_token_of_plain _ _ _ _ (by rfl) (by simp [rd])]
    simp [lex_token_switch, rd, peek_char_and_size_of_ne, consume_char_one, hp, hc,
      lex_token_finish, form_token]
  · unfold Lexer.lex
    rw [show fuel_at (37 :: 58 :: 37 :: rest) 2 = (rest.length + 3) + 1 by simp [fuel_at],
      lex_token_of_plain _ _ _ _ (by rfl) (by simp [rd])]
    obtain ⟨q, t, hq⟩ := consume_char_isSome (37 :: 58 :: 37 :: rest) 3 s {}
    by_cases h61 : c = 61
    · simp [lex_token_switch, rd, hp, h61, hq, lex_token_finish, form_token]
      exact ⟨_, _, ⟨rfl, rfl⟩, rfl, rfl⟩
    · by_cases h62 : c = 62
      · simp [lex_token_switch, rd, hp, h62, hq, lex_token_finish, form_token]
        exact ⟨_, _, ⟨rfl, rfl⟩, rfl, rfl⟩
      · simp [lex_token_switch, rd, hp, h61, h62, hc, lex_token_finish, form_token]
        exact ⟨_, _, ⟨rfl, rfl⟩, rfl, rfl⟩

/-- Statement of C4: the digraphs `<:`, `:>`, `<%`, `%>`, `%:` and `%:%:`
each lex as one token covering the whole digraph, of the kind of `[`, `]`,
`{`, `}`, `#`, `##` respectively (the kind that the primary spelling lexes
to); and when the logical character after `%:%` (the character peeked there,
through escaped newlines) is not `:`, the first token is `hash` over the two
bytes `%:` and the next token starts at the second `%`, with no diagnostic.
In particular this holds when the byte after `%:%` is neither `:` nor a
backslash. -/
theorem C4_digraph_aliases :
    (lexes_as_one (str "<:") { kind := .l_bracket, b := 0, e := 2 } ∧
     lexes_as_one (str "[") { kind := .l_bracket, b := 0, e := 1 }) ∧
    (lexes_as_one (str ":>") { kind := .r_bracket, b := 0, e := 2 } ∧
     lexes_as_one (str "]") { kind := .r_bracket, b := 0, e := 1 }) ∧
    (lexes_as_one (str "<%") { kind := .l_brace, b := 0, e := 2 } ∧
     lexes_as_one (str "\x7b") { kind := .l_brace, b := 0, e := 1 }) ∧
    (lexes_as_one (str "%>") { kind := .r_brace, b := 0, e := 2 } ∧
     lexes_as_one (str "\x7d") { kind := .r_brace, b := 0, e := 1 }) ∧
    (lexes_as_one (str "%:") { kind := .hash, b := 0, e := 2 } ∧
     lexes_as_one (str "#") { kind := .hash, b := 0, e := 1 }) ∧
    (lexes_as_one (str "%:%:") { kind := .hashhash, b := 0, e := 4 } ∧
     lexes_as_one (str "##") { kind := .hashhash, b := 0, e := 2 }) ∧
    (∀ (rest : List Nat) (c s : Nat),
      peek_char_and_size (str "%:%" ++ rest) 3 = some (c, s) → c ≠ 58 →
      Lexer.lex { buf := str "%:%" ++ rest } {} =
        some (true, { buf := str "%:%" ++ rest, buffer_ptr := 2 },
          { kind := .hash, b := 0, e := 2 }) ∧
      ∃ lex2 t2, Lexer.lex { buf := str "%:%" ++ rest, buffer_ptr := 2 } {} =
        some (true, lex2, t2) ∧ t2.b = 2 ∧ lex2.diag = []) ∧
    (∀ (x : Nat) (rest : List Nat), x ≠ 58 → x ≠ 92 →
      Lexer.lex { buf := str "%:%" ++ x :: rest } {} =
        some (true, { buf := str "%:%" ++ x :: rest, buffer_ptr := 2 },
          { kind := .hash, b := 0, e := 2 }) ∧
      ∃ lex2 t2, Lexer.lex { buf := str "%:%" ++ x :: rest, buffer_ptr := 2 } {} =
        some (true, lex2, t2) ∧ t2.b = 2 ∧ lex2.diag = []) := by
  refine ⟨by decide, by decide, by decide, by decide, by decide, by decide, ?_, ?_⟩
  · exact percent_colon_percent
  · intro x rest hx hb
    exact percent_colon_percent (x :: rest) x 1
      (peek_char_and_size_of_ne _ _ (by simpa [str, rd] using hb)) hx

/-- Witness of C4: `%:%=` lexes as `hash` followed by a token at offset 2. -/
theorem C4_digraph_aliases_witness :
    peek_char_and_size (str "%:%" ++ str "=") 3 = some (61, 1) ∧ (61 : Nat) ≠ 58 ∧
    (Lexer.lex { buf := str "%:%" ++ str "=" } {} =
        some (true, { buf := str "%:%" ++ str "=", buffer_ptr := 2 },
          { kind := .hash, b := 0, e := 2 }) ∧
      ∃ lex2 t2, Lexer.lex { buf := str "%:%" ++ str "=", buffer_ptr := 2 } {} =
        some (true, lex2, t2) ∧ t2.b = 2 ∧ lex2.diag = []) :=
  ⟨by decide, by decide,
   C4_digraph_aliases.2.2.2.2.2.2.1 (str "=") 61 1 (by decide) (by decide)⟩

/-! ## C5: numeric constants -/

theorem rd_add_eq_rd_drop (buf : List Nat) (p i : Nat) : rd buf (p + i) = rd (buf.drop p) i := by
  simp [rd, List.getElem?_drop]

theorem rd_of_drop_cons (buf : List Nat) (p c : Nat) (cs : List Nat)
    (h : buf.drop p = c :: cs) : rd buf p = c := by
  have := rd_add_eq_rd_drop buf p 0
  rw [h] at this
  simpa [rd] using this

theorem drop_succ_of_drop_cons (buf : List Nat) (p c : Nat) (cs : List Nat)
    (h : buf.drop p = c :: cs) : buf.drop (p + 1) = cs := by
  rw [← List.drop_drop, h]
  rfl

theorem rd_of_drop_nil (buf : List Nat) (p : Nat) (h : buf.drop p = []) : rd buf p = 0 := by
  have := rd_add_eq_rd_drop buf p 0
  rw [h] at this
  simpa [rd] using this

theorem is_numeric_char_ne_backslash (c : Nat) (h : is_numeric_char c = true) : c ≠ 92 := by
  intro hc
  subst hc
  simp [is_numeric_char, is_digit, is_nondigit] at h

/-- The loop of `lex_numeric_constant` over a run `cs` of characters of
`[0-9A-Za-z_.]` that ends before a character `d` outside the class. -/
theorem numeric_run_spec (buf : List Nat) (cs : List Nat) :
    ∀ (fuel p prev : Nat) (result : Token) (d : Nat) (rest : List Nat),
      buf.drop p = cs ++ d :: rest →
      (∀ c ∈ cs, is_numeric_char c = true) →
      is_numeric_char d = false → d ≠ 92 →
      cs.length < fuel →
      numeric_run buf fuel p (rd buf p) 1 prev result =
        some (p + cs.length, d, 1, cs.getLast?.getD prev, result) := by
  induction cs with
  | nil =>
    intro fuel p prev result d rest hdrop _ hd _ hf
    obtain ⟨f, rfl⟩ : ∃ f, fuel = f + 1 := ⟨fuel - 1, by simp at hf; omega⟩
    have hrd : rd buf p = d := rd_of_drop_cons buf p d rest (by simpa using hdrop)
    have hd' : (is_digit d || is_nondigit d || d == 46) = false := hd
    simp [numeric_run, hrd, hd']
  | cons c cs ih =>
    intro fuel p prev result d rest hdrop hall hd hb hf
    obtain ⟨f, rfl⟩ : ∃ f, fuel = f + 1 := ⟨fuel - 1, by simp at hf; omega⟩
    have hrd : rd buf p = c := rd_of_drop_cons buf p c _ (by simpa using hdrop)
    have hc : is_numeric_char c = true := hall c (by simp)
    have hc' : (is_digit c || is_nondigit c || c == 46) = true := hc
    have hdrop' : buf.drop (p + 1) = cs ++ d :: rest :=
      drop_succ_of_drop_cons buf p c _ (by simpa using hdrop)
    have hnext : rd buf (p + 1) ≠ 92 := by
      cases cs with
      | nil =>
        rw [rd_of_drop_cons buf (p + 1) d rest (by simpa using hdrop')]
        exact hb
      | cons c' cs' =>
        rw [rd_of_drop_cons buf (p + 1) c' _ (by simpa using hdrop')]
        exact is_numeric_char_ne_backslash c' (hall c' (by simp))
    rw [numeric_run, hrd, if_pos hc', consume_char_one]
    simp only [Option.bind_eq_bind, Option.some_bind]
    rw [peek_char_and_size_of_ne _ _ hnext]
    simp only [Option.bind_eq_bind, Option.some_bind]
    rw [ih f (p + 1) c result d rest hdrop' (fun x hx => hall x (by simp [hx])) hd hb
      (by simp at hf; omega)]
    have : p + 1 + cs.length = p + (c :: cs).length := by simp; omega
    rw [this]
    cases cs with
    | nil => rfl
    | cons c' cs' =>
      simp [List.getLast?_cons_cons, List.getLast?_eq_getLast _ (List.cons_ne_nil c' cs')]

theorem is_whitespace_facts (w : Nat) (hw : is_whitespace w = true) :
    is_numeric_char w = false ∧ w ≠ 92 ∧ w ≠ 43 ∧ w ≠ 45 ∧ is_exponent_letter w = false ∧
      w ≠ 0 := by
  simp only [is_whitespace, is_newline, Bool.or_eq_true, beq_iff_eq] at hw
  rcases hw with (((rfl | rfl) | rfl) | rfl) | (rfl | rfl) <;> decide

/-- A numeric tail is a run of `[0-9A-Za-z_.]` that either ends the spelling
on a character that is not an exponent letter, or is followed by a sign that
comes right after an exponent letter and by another numeric tail. -/
theorem is_numeric_tail_split (tail : List Nat) :
    ∀ prev, is_numeric_tail prev tail = true →
      ((∀ c ∈ tail, is_numeric_char c = true) ∧
        is_exponent_letter (tail.getLast?.getD prev) = false) ∨
      ∃ cs s tail', tail = cs ++ s :: tail' ∧ (∀ c ∈ cs, is_numeric_char c = true) ∧
        is_numeric_char s = false ∧ (s = 43 ∨ s = 45) ∧
        is_exponent_letter (cs.getLast?.getD prev) = true ∧
        is_numeric_tail s tail' = true := by
  induction tail with
  | nil =>
    intro prev h
    left
    simpa [is_numeric_tail] using h
  | cons c cs ih =>
    intro prev h
    simp only [is_numeric_tail, Bool.and_eq_true, Bool.or_eq_true, beq_iff_eq] at h
    obtain ⟨hc, htl⟩ := h
    by_cases hnum : is_numeric_char c = true
    · rcases ih c htl with ⟨hall, hlast⟩ | ⟨cs', s, tail', rfl, hall, hs, hsign, hexp, hrest⟩
      · left
        refine ⟨fun x hx => ?_, ?_⟩
        · rcases List.mem_cons.1 hx with rfl | hx
          · exact hnum
          · exact hall x hx
        · cases cs with
          | nil => simpa using hlast
          | cons c' cs'' =>
            simpa [List.getLast?_cons_cons,
              List.getLast?_eq_getLast _ (List.cons_ne_nil c' cs'')] using hlast
      · right
        refine ⟨c :: cs', s, tail', rfl, fun x hx => ?_, hs, hsign, ?_, hrest⟩
        · rcases List.mem_cons.1 hx with rfl | hx
          · exact hnum
          · exact hall x hx
        · cases cs' with
          | nil => simpa using hexp
          | cons c' cs'' =>
            simpa [List.getLast?_cons_cons,
              List.getLast?_eq_getLast _ (List.cons_ne_nil c' cs'')] using hexp
    · right
      have hc' : (c = 43 ∨ c = 45) ∧ is_exponent_letter prev = true := by
        rcases hc with hc | hc
        · exact absurd hc hnum
        · exact hc
      exact ⟨[], c, cs, rfl, by simp, by simpa using hnum, hc'.1, by simpa using hc'.2, htl⟩

/-- The scan of `lex_numeric_constant` over a numeric tail that is followed by
a whitespace byte: the token ends right after the tail. -/
theorem lex_numeric_constant_spec (lex : Lexer) (w : Nat) (hw : is_whitespace w = true) :
    ∀ (n : Nat) (tail : List Nat) (fuel p prev : Nat) (result : Token) (rest : List Nat),
      tail.length ≤ n →
      lex.buf.drop p = tail ++ w :: rest →
      is_numeric_tail prev tail = true →
      (∀ h ∈ tail.head?, is_numeric_char h = true) →
      tail.length < fuel →
      lex_numeric_constant fuel lex p result =
        some (true, { lex with buffer_ptr := p + tail.length },
          ({ result with kind := .numeric_constant, b := lex.buffer_ptr,
                         e := p + tail.length } : Token).set_literal) := by
  obtain ⟨hwn, hwb, hw43, hw45, hwe, -⟩ := is_whitespace_facts w hw
  intro n
  induction n with
  | zero =>
    intro tail fuel p prev result rest hlen hdrop _ _ hf
    obtain rfl : tail = [] := List.length_eq_zero.1 (by omega)
    obtain ⟨f, rfl⟩ : ∃ f, fuel = f + 1 := ⟨fuel - 1, by omega⟩
    have hrd : rd lex.buf p = w := rd_of_drop_cons _ _ _ _ (by simpa using hdrop)
    rw [lex_numeric_constant, peek_char_and_size_of_ne _ _ (by rw [hrd]; exact hwb)]
    simp only [Option.bind_eq_bind, Option.some_bind]
    rw [numeric_run_spec lex.buf [] _ p _ result w rest (by simpa using hdrop) (by simp)
      hwn hwb (by simp [fuel_at])]
    simp only [Option.bind_eq_bind, Option.some_bind, List.getLast?_nil, Option.getD_none, hrd]
    simp only [is_exponent_letter, Bool.or_eq_false_iff, beq_eq_false_iff_ne] at hwe
    simp [hw43, hw45, hwb, hwe, form_token]
  | succ n ih =>
    intro tail fuel p prev result rest hlen hdrop htail hhead hf
    obtain ⟨f, rfl⟩ : ∃ f, fuel = f + 1 := ⟨fuel - 1, by omega⟩
    have hL : tail.length + 1 + rest.length = lex.buf.length - p := by
      have := congrArg List.length hdrop
      simp at this
      omega
    have hrd0 : rd lex.buf p ≠ 92 := by
      cases tail with
      | nil =>
        rw [rd_of_drop_cons _ _ _ _ (by simpa using hdrop)]
        exact hwb
      | cons h t =>
        rw [rd_of_drop_cons _ _ _ _ (by simpa using hdrop)]
        exact is_numeric_char_ne_backslash h (hhead h (by simp))
    rw [lex_numeric_constant, peek_char_and_size_of_ne _ _ hrd0]
    simp only [Option.bind_eq_bind, Option.some_bind]
    rcases is_numeric_tail_split tail prev htail with
      ⟨hall, hlast⟩ | ⟨cs, s, tail', rfl, hall, hs, hsign, hexp, hrest⟩
    · rw [numeric_run_spec lex.buf tail _ p _ result w rest hdrop hall hwn hwb
        (by simp [fuel_at]; omega)]
      simp only [Option.bind_eq_bind, Option.some_bind]
      have hprev : is_exponent_letter (tail.getLast?.getD (rd lex.buf p)) = false := by
        cases tail with
        | nil =>
          rw [rd_of_drop_cons _ _ _ _ (by simpa using hdrop)]
          simpa using hwe
        | cons h t =>
          simpa [List.getLast?_eq_getLast _ (List.cons_ne_nil h t)] using hlast
      simp only [is_exponent_letter, Bool.or_eq_false_iff, beq_eq_false_iff_ne] at hprev
      simp [hw43, hw45, hwb, hprev, form_token]
    · have hcs : cs ≠ [] := by
        rintro rfl
        have := hhead s (by simp)
        rw [hs] at this
        exact absurd this (by simp)
      have hsb : s ≠ 92 := by rcases hsign with rfl | rfl <;> decide
      rw [numeric_run_spec lex.buf cs _ p _ result s (tail' ++ w :: rest)
        (by simpa using hdrop) hall hs hsb (by simp [fuel_at]; simp at hL; omega)]
      simp only [Option.bind_eq_bind, Option.some_bind]
      rw [if_pos (Or.inl hsign), consume_char_one]
      simp only [Option.bind_eq_bind, Option.some_bind]
      have hdrop' : lex.buf.drop (p + cs.length + 1) = tail' ++ w :: rest := by
        rw [Nat.add_assoc, ← List.drop_drop, hdrop]
        simp
      have hse : is_exponent_letter s = false := by rcases hsign with rfl | rfl <;> rfl
      have hlen' : 0 < cs.length := List.length_pos.2 hcs
      rw [ih tail' f (p + cs.length + 1) s result rest (by simp at hlen; omega) hdrop' hrest
        (by
          intro h hh
          cases tail' with
          | nil => simp at hh
          | cons h' t' =>
            simp only [List.head?_cons, Option.mem_def, Option.some.injEq] at hh
            subst hh
            have := hrest
            simp [is_numeric_tail, hse] at this
            exact this.1)
        (by simp at hf; omega)]
      have e : p + cs.length + 1 + tail'.length = p + (cs ++ s :: tail').length := by
        simp; omega
      rw [e]

/-- The switch sends a digit to `lex_numeric_constant`. -/
theorem lex_token_switch_of_digit (relex : Lexer → Nat → Token → Option (Bool × Lexer × Token))
    (lex : Lexer) (cur_ptr : Nat) (result : Token) (ch : Nat) (hc : is_digit ch = true) :
    lex_token_switch relex lex cur_ptr result ch =
      lex_numeric_constant (fuel_at lex.buf cur_ptr) lex cur_ptr result := by
  have hc' := (is_digit_iff ch).1 hc
  unfold lex_token_switch
  rw [if_neg (show ¬ ch = 0 by omega), if_neg (show ¬ ch = 92 by omega), if_neg (show ¬ ch = 91 by omega), if_neg (show ¬ ch = 93 by omega), if_neg (show ¬ ch = 40 by omega), if_neg (show ¬ ch = 41 by omega), if_neg (show ¬ ch = 123 by omega), if_neg (show ¬ ch = 125 by omega), if_neg (show ¬ ch = 46 by omega), if_neg (show ¬ ch = 45 by omega), if_neg (show ¬ ch = 43 by omega), if_neg (show ¬ ch = 38 by omega), if_neg (show ¬ ch = 42 by omega), if_neg (show ¬ ch = 126 by omega), if_neg (show ¬ ch = 47 by omega), if_neg (show ¬ ch = 37 by omega), if_neg (show ¬ ch = 60 by omega), if_neg (show ¬ ch = 62 by omega), if_neg (show ¬ ch = 61 by omega), if_neg (show ¬ ch = 33 by omega), if_neg (show ¬ ch = 94 by omega), if_neg (show ¬ ch = 124 by omega), if_neg (show ¬ ch = 63 by omega), if_neg (show ¬ ch = 58 by omega), if_neg (show ¬ ch = 59 by omega), if_neg (show ¬ ch = 44 by omega), if_neg (show ¬ ch = 35 by omega), if_pos hc]

/-- The switch sends a period followed by a digit to `lex_numeric_constant`,
entered after the digit. -/
theorem lex_token_switch_of_period_digit
    (relex : Lexer → Nat → Token → Option (Bool × Lexer × Token))
    (lex : Lexer) (cur_ptr : Nat) (result : Token)
    (hd : is_digit (rd lex.buf cur_ptr) = true) :
    lex_token_switch relex lex cur_ptr result 46 =
      lex_numeric_constant (fuel_at lex.buf (cur_ptr + 1)) lex (cur_ptr + 1) result := by
  have hb : rd lex.buf cur_ptr ≠ 92 := by
    have := (is_digit_iff _).1 hd
    omega
  simp [lex_token_switch, peek_char_and_size_of_ne _ _ hb, hd, consume_char_one]

theorem is_numeric_tail_head (prev : Nat) (tail : List Nat)
    (hp : is_exponent_letter prev = false) (h : is_numeric_tail prev tail = true) :
    ∀ h ∈ tail.head?, is_numeric_char h = true := by
  intro x hx
  cases tail with
  | nil => simp at hx
  | cons c cs =>
    simp only [List.head?_cons, Option.mem_def, Option.some.injEq] at hx
    subst hx
    simp [is_numeric_tail, hp] at h
    exact h.1

theorem is_digit_not_exponent_letter (c : Nat) (h : is_digit c = true) :
    is_exponent_letter c = false := by
  have := (is_digit_iff c).1 h
  simp only [is_exponent_letter, Bool.or_eq_false_iff, beq_eq_false_iff_ne]
  omega

/-- Lexing at a whitespace byte that is the last byte of the buffer returns
false, the lexer having skipped to the end. -/
theorem lex_token_at_final_whitespace (fuel : Nat) (lex : Lexer) (p : Nat) (result : Token)
    (hw : is_whitespace (rd lex.buf p) = true) (hl : lex.buf.length = p + 1) :
    lex_token (fuel + 1) lex p result =
      some (false, { lex with buffer_ptr := p + 1 }, result) := by
  have h0 : rd lex.buf (p + 1) = 0 := rd_of_length_le _ _ (by omega)
  have hf : find_if_not_whitespace lex.buf (lex.buf.length - p) p = p + 1 := by
    rw [show lex.buf.length - p = 0 + 1 by omega]
    simp [find_if_not_whitespace, hw]
  rw [lex_token_succ, hf, peek_char_and_size_of_ne _ _ (by rw [h0]; decide), h0]
  simp [consume_char_one, lex_token_switch]

/-- Statement of C5: for every numeric spelling `N` (a digit, or `.` and a
digit, then characters of `[0-9A-Za-z_.]` with a `+` or `-` only immediately
after `e`, `E`, `p` or `P`, not ending in one of these letters) and every
ASCII whitespace byte `w`, lexing `N` followed by `w` yields exactly one
token, of kind `numeric_constant`, whose range is exactly `N`, with no
diagnostic. -/
theorem C5_numeric_gross_matching (N : List Nat) (w : Nat)
    (hN : is_numeric_spelling N = true) (hw : is_whitespace w = true) :
    lexes_as_one (N ++ [w])
      { kind := .numeric_constant, b := 0, e := N.length, flags := { IsLiteral := true } } := by
  obtain ⟨c, cs, rfl⟩ : ∃ c cs, N = c :: cs := by
    cases N with
    | nil => simp [is_numeric_spelling] at hN
    | cons c cs => exact ⟨c, cs, rfl⟩
  constructor
  · unfold Lexer.lex
    simp only [is_numeric_spelling, Bool.or_eq_true, Bool.and_eq_true, beq_iff_eq] at hN
    rw [show fuel_at (c :: cs ++ [w]) 0 = (cs.length + 4) + 1 by simp [fuel_at]]
    have hrd : rd (c :: cs ++ [w]) 0 = c := rfl
    rcases hN with ⟨hc, htail⟩ | ⟨rfl, hrest⟩
    · have hc' := (is_digit_iff c).1 hc
      rw [lex_token_of_plain _ { buf := c :: cs ++ [w] } 0 {}
        (show is_whitespace c = false by simp [is_whitespace, is_newline]; omega)
        (show c ≠ 92 by omega)]
      simp only [hrd]
      rw [lex_token_switch_of_digit _ _ _ _ _ hc,
        lex_numeric_constant_spec _ w hw cs.length cs _ 1 c _ [] (Nat.le_refl _) (by simp) htail
          (is_numeric_tail_head c cs (is_digit_not_exponent_letter c hc) htail)
          (by simp [fuel_at]; omega)]
      simp [Token.set_literal, Nat.add_comm]
    · cases cs with
      | nil => simp at hrest
      | cons d ds =>
        simp only [Bool.and_eq_true] at hrest
        obtain ⟨hd, htail⟩ := hrest
        rw [lex_token_of_plain _ { buf := 46 :: d :: ds ++ [w] } 0 {}
          (show is_whitespace 46 = false by rfl) (show (46 : Nat) ≠ 92 by decide)]
        simp only [hrd]
        rw [lex_token_switch_of_period_digit _ { buf := 46 :: d :: ds ++ [w] } 1 _
            (show is_digit d = true from hd),
          lex_numeric_constant_spec _ w hw ds.length ds _ 2 d _ [] (Nat.le_refl _) (by simp)
            htail (is_numeric_tail_head d ds (is_digit_not_exponent_letter d hd) htail)
            (by simp [fuel_at]; omega)]
        simp [Token.set_literal]
        omega
  · unfold Lexer.lex
    simp only []
    rw [show fuel_at (c :: cs ++ [w]) (c :: cs).length = 3 + 1 by simp [fuel_at],
      lex_token_at_final_whitespace _ _ _ _ (by
        have : rd (c :: cs ++ [w]) (c :: cs).length = w := by
          simp [rd, List.getElem?_append_right]
        rw [this]; exact hw) (by simp)]
    simp

/-- Witness of C5 at the spelling `1.9E377P+1` followed by a space. -/
theorem C5_numeric_gross_matching_witness :
    is_numeric_spelling (str "1.9E377P+1") = true ∧ is_whitespace 32 = true ∧
    lexes_as_one (str "1.9E377P+1" ++ [32])
      { kind := .numeric_constant, b := 0, e := 10, flags := { IsLiteral := true } } :=
  ⟨by decide, by decide, C5_numeric_gross_matching (str "1.9E377P+1") 32 (by decide) (by decide)⟩

/-! ## C6: signs and delimiters in numeric constants -/

/-- Behaviour of the code on the inputs named by C6: the conditions
`(c == '+' || c == '-') || (prev == 'e' || prev == 'E')` of
`lex_numeric_constant` continue the token at any sign and after any exponent
letter. So `1+2` is one `numeric_constant` token of three bytes, rather than
`1` followed by `+` and `2`; in `1e;` the semicolon, and in `1e ;` the space,
is part of the token. With no exponent letter before them the delimiters end
the token: `12;` lexes as `12` followed by `semi`. -/
theorem C6_numeric_sign_and_delimiter :
    lexes_as_one (str "1+2")
      { kind := .numeric_constant, b := 0, e := 3, flags := { IsLiteral := true } } ∧
    lexes_as_one (str "1e;")
      { kind := .numeric_constant, b := 0, e := 3, flags := { IsLiteral := true } } ∧
    Lexer.lex { buf := str "1e ;" } {} =
      some (true, { buf := str "1e ;", buffer_ptr := 3 },
        { kind := .numeric_constant, b := 0, e := 3, flags := { IsLiteral := true } }) ∧
    Lexer.lex { buf := str "12;" } {} =
      some (true, { buf := str "12;", buffer_ptr := 2 },
        { kind := .numeric_constant, b := 0, e := 2, flags := { IsLiteral := true } }) := by
  decide

/-! ## C9: end of input -/

/-- Behaviour of the code on inputs of C9. On a buffer of whitespace and
comments `lex` returns false: so for the empty buffer, for blanks and
newlines, and for comments followed by an escaped newline at the very end.
But whitespace is skipped on the raw bytes only: when an escaped newline
(backslash, LF) is followed by a space, the space is peeked as the first
character of a token, and `lex` returns true with a three-byte token of kind
`unknown` and reports `err_unknown_character`, although the buffer holds only
an escaped newline and whitespace. -/
theorem C9_escaped_newline_before_whitespace :
    Lexer.lex { buf := str "" } {} = some (false, { buf := str "" }, {}) ∧
    Lexer.lex { buf := str " \t\n\r " } {} =
      some (false, { buf := str " \t\n\r ", buffer_ptr := 5 }, {}) ∧
    Lexer.lex { buf := str " /* a */ // b\n\\\n" } {} =
      some (false, { buf := str " /* a */ // b\n\\\n", buffer_ptr := 14 },
        { flags := { IsDirty := true } }) ∧
    Lexer.lex { buf := str "\\\n " } {} =
      some (true,
        { buf := str "\\\n ", buffer_ptr := 3, diag := [⟨0, .err_unknown_character⟩] },
        { kind := .unknown, b := 0, e := 3, flags := { IsDirty := true } }) := by
  decide

/-! ## Relocation lemmas -/

theorem rd_append_right (pre buf : List Nat) (i : Nat) :
    rd (pre ++ buf) (pre.length + i) = rd buf i := by
  simp [rd, List.getElem?_append_right]

theorem rd_append_right_zero (pre buf : List Nat) :
    rd (pre ++ buf) pre.length = rd buf 0 := by
  simpa using rd_append_right pre buf 0

theorem fuel_at_append (pre buf : List Nat) (p : Nat) :
    fuel_at (pre ++ buf) (pre.length + p) = fuel_at buf p := by
  simp only [fuel_at, List.length_append]
  omega

theorem size_for_escaped_newline_append (pre buf : List Nat) (p : Nat) :
    size_for_escaped_newline (pre ++ buf) (pre.length + p) = size_for_escaped_newline buf p := by
  simp only [size_for_escaped_newline, Nat.add_assoc, rd_append_right]

theorem peek_char_and_size_nontrivial_append (pre buf : List Nat) :
    ∀ (fuel p size : Nat) (tok : Option Token),
      peek_char_and_size_nontrivial (pre ++ buf) fuel (pre.length + p) size tok =
        peek_char_and_size_nontrivial buf fuel p size tok := by
  intro fuel
  induction fuel with
  | zero => intro p size tok; rfl
  | succ f ih =>
    intro p size tok
    simp only [peek_char_and_size_nontrivial, Nat.add_assoc, rd_append_right,
      size_for_escaped_newline_append, ih]

theorem peek_char_and_size_append (pre buf : List Nat) (p : Nat) :
    peek_char_and_size (pre ++ buf) (pre.length + p) = peek_char_and_size buf p := by
  simp only [peek_char_and_size, rd_append_right, fuel_at_append,
    peek_char_and_size_nontrivial_append]

theorem peek_char_advance_append (pre buf : List Nat) (p : Nat) (tok : Token) :
    peek_char_advance (pre ++ buf) (pre.length + p) tok =
      (peek_char_advance buf p tok).map (fun r => (r.1, pre.length + r.2.1, r.2.2)) := by
  simp only [peek_char_advance, rd_append_right, fuel_at_append,
    peek_char_and_size_nontrivial_append]
  split
  · simp [Nat.add_assoc]
  · cases peek_char_and_size_nontrivial buf (fuel_at buf p) p 0 (some tok) <;>
      simp [Nat.add_assoc]

theorem consume_char_append (pre buf : List Nat) (p size : Nat) (tok : Token) :
    consume_char (pre ++ buf) (pre.length + p) size tok =
      (consume_char buf p size tok).map (fun r => (pre.length + r.1, r.2)) := by
  simp only [consume_char, fuel_at_append, peek_char_and_size_nontrivial_append]
  split
  · simp [Nat.add_assoc]
  · cases peek_char_and_size_nontrivial buf (fuel_at buf p) p 0 (some tok) <;>
      simp [Nat.add_assoc]

theorem read_hexdigits_append (pre buf : List Nat) :
    ∀ (n p cp : Nat),
      read_hexdigits (pre ++ buf) n (pre.length + p) cp =
        (read_hexdigits buf n p cp).map (Option.map (fun r => (pre.length + r.1, r.2))) := by
  intro n
  induction n with
  | zero => intro p cp; rfl
  | succ n ih =>
    intro p cp
    simp only [read_hexdigits, peek_char_and_size_append]
    cases peek_char_and_size buf p with
    | none => rfl
    | some r =>
      obtain ⟨c, s⟩ := r
      simp only [Option.bind_eq_bind, Option.some_bind]
      cases hexdigit_value c with
      | none => rfl
      | some v => simp only [Nat.add_assoc, ih]

theorem advance_until_append (pre buf : List Nat) :
    ∀ (fuel p target : Nat) (tok : Token),
      advance_until (pre ++ buf) fuel (pre.length + p) (pre.length + target) tok =
        (advance_until buf fuel p target tok).map (fun r => (pre.length + r.1, r.2)) := by
  intro fuel
  induction fuel with
  | zero => intro p target tok; rfl
  | succ f ih =>
    intro p target tok
    simp only [advance_until, peek_char_advance_append]
    by_cases h : p = target
    · simp [h]
    · have h' : pre.length + p ≠ pre.length + target := by omega
      simp only [ne_eq, h, h', not_false_eq_true, if_true]
      cases peek_char_advance buf p tok with
      | none => rfl
      | some r =>
        obtain ⟨c, q, t⟩ := r
        simp [ih]

theorem report_shift (pre : List Nat) (lex : Lexer) (p : Nat) (code : Diag) :
    report (lex.shift pre) (pre.length + p) code = (report lex p code).shift pre := by
  simp [report, Lexer.shift, Report.shift]

theorem Lexer.shift_buf (pre : List Nat) (lex : Lexer) : (lex.shift pre).buf = pre ++ lex.buf :=
  rfl

theorem Lexer.shift_buffer_ptr (pre : List Nat) (lex : Lexer) :
    (lex.shift pre).buffer_ptr = pre.length + lex.buffer_ptr := rfl

theorem try_read_ucn_append (pre : List Nat) (lex : Lexer) (start_ptr slash_ptr : Nat)
    (tok : Option Token) :
    try_read_ucn (lex.shift pre) (pre.length + start_ptr) (pre.length + slash_ptr) tok =
      (try_read_ucn lex start_ptr slash_ptr tok).map
        (fun r => (r.1, pre.length + r.2.1, r.2.2.1.shift pre, r.2.2.2)) := by
  simp only [try_read_ucn, Lexer.shift_buf, peek_char_and_size_append]
  cases peek_char_and_size lex.buf start_ptr with
  | none => rfl
  | some r =>
    obtain ⟨kind, char_size⟩ := r
    simp only [Option.bind_eq_bind, Option.some_bind]
    generalize (if kind = 117 then 4 else if kind = 85 then 8 else 0) = n
    by_cases hn : n = 0
    · simp [hn]
    · simp only [hn, if_false, Nat.add_assoc, read_hexdigits_append]
      cases read_hexdigits lex.buf n (start_ptr + char_size) 0 with
      | none => rfl
      | some o =>
        cases o with
        | none => simp [report_shift]
        | some r =>
          obtain ⟨cur_ptr, code_point⟩ := r
          simp only [Option.map_some', Option.some_bind, Nat.add_sub_add_left,
            fuel_at_append, advance_until_append, report_shift]
          cases tok with
          | none => simp only [Option.some_bind]; split_ifs <;> simp
          | some t =>
            simp only []
            by_cases hd : cur_ptr - start_ptr = n + 2
            · simp only [hd, if_true, Option.some_bind]; split_ifs <;> simp
            · simp only [hd, if_false]
              cases advance_until lex.buf (fuel_at lex.buf start_ptr) start_ptr cur_ptr
                  t.set_ucn with
              | none => rfl
              | some r =>
                obtain ⟨q, t'⟩ := r
                simp only [Option.map_some', Option.bind_eq_bind, Option.some_bind]
                split_ifs <;> simp

theorem try_advance_identifier_ucn_append (pre : List Nat) (lex : Lexer) (cur_ptr size : Nat)
    (result : Token) :
    try_advance_identifier_ucn (lex.shift pre) (pre.length + cur_ptr) size result =
      (try_advance_identifier_ucn lex cur_ptr size result).map
        (fun r => (r.1, pre.length + r.2.1, r.2.2.1.shift pre, r.2.2.2)) := by
  simp only [try_advance_identifier_ucn, Nat.add_assoc, try_read_ucn_append]
  cases try_read_ucn lex (cur_ptr + size) cur_ptr none with
  | none => rfl
  | some r =>
    obtain ⟨code_point, ucn_ptr, lx, t⟩ := r
    simp only [Option.map_some', Option.bind_eq_bind, Option.some_bind, Lexer.shift_buf,
      rd_append_right, Nat.add_sub_add_left, fuel_at_append, advance_until_append]
    split
    · simp
    · split
      · simp
      · cases advance_until lx.buf (fuel_at lx.buf cur_ptr) cur_ptr ucn_ptr result with
        | none => rfl
        | some r => simp

theorem ident_fast_append (pre buf : List Nat) :
    ∀ (fuel p : Nat),
      ident_fast (pre ++ buf) fuel (pre.length + p) =
        (ident_fast buf fuel p).map (fun q => pre.length + q) := by
  intro fuel
  induction fuel with
  | zero => intro p; rfl
  | succ f ih =>
    intro p
    simp only [ident_fast, rd_append_right, Nat.add_assoc, ih]
    split <;> simp

theorem ident_run_append (pre buf : List Nat) :
    ∀ (fuel p c size : Nat) (result : Token),
      ident_run (pre ++ buf) fuel (pre.length + p) c size result =
        (ident_run buf fuel p c size result).map
          (fun r => (pre.length + r.1, r.2.1, r.2.2.1, r.2.2.2)) := by
  intro fuel
  induction fuel with
  | zero => intro p c size result; rfl
  | succ f ih =>
    intro p c size result
    simp only [ident_run, consume_char_append]
    split
    · cases consume_char buf p size result with
      | none => rfl
      | some r =>
        obtain ⟨q, t⟩ := r
        simp only [Option.map_some', Option.bind_eq_bind, Option.some_bind,
          peek_char_and_size_append]
        cases peek_char_and_size buf q with
        | none => rfl
        | some r => simp [ih]
    · simp

theorem ident_slow_append (pre : List Nat) :
    ∀ (fuel : Nat) (lex : Lexer) (p c size : Nat) (result : Token),
      ident_slow fuel (lex.shift pre) (pre.length + p) c size result =
        (ident_slow fuel lex p c size result).map
          (fun r => (r.1.shift pre, pre.length + r.2.1, r.2.2)) := by
  intro fuel
  induction fuel with
  | zero => intro lex p c size result; rfl
  | succ f ih =>
    intro lex p c size result
    simp only [ident_slow, try_advance_identifier_ucn_append, Lexer.shift_buf,
      consume_char_append]
    split
    · cases try_advance_identifier_ucn lex p size result with
      | none => rfl
      | some r =>
        obtain ⟨ok, q, lx, t⟩ := r
        simp only [Option.map_some', Option.bind_eq_bind, Option.some_bind, Lexer.shift_buf,
          peek_char_and_size_append]
        split
        · cases peek_char_and_size lx.buf q with
          | none => rfl
          | some r => simp [ih]
        · simp
    · split
      · simp
      · cases consume_char lex.buf p size result with
        | none => rfl
        | some r =>
          obtain ⟨q, t⟩ := r
          simp only [Option.map_some', Option.bind_eq_bind, Option.some_bind,
            peek_char_and_size_append, fuel_at_append, ident_run_append]
          cases peek_char_and_size lex.buf q with
          | none => rfl
          | some r =>
            obtain ⟨c', s'⟩ := r
            simp only [Option.some_bind]
            cases ident_run lex.buf (fuel_at lex.buf q) q c' s' t with
            | none => rfl
            | some r => simp [ih]

theorem text_slice_append (pre buf : List Nat) (b e : Nat) :
    text_slice (pre ++ buf) (pre.length + b) (pre.length + e) = text_slice buf b e := by
  simp [text_slice, Nat.add_sub_add_left, List.drop_append]

theorem form_token_shift (pre : List Nat) (lex : Lexer) (tok : Token) (p : Nat)
    (kind : TokenKind) :
    form_token (lex.shift pre) tok (pre.length + p) kind =
      ((form_token lex tok p kind).1.shift pre, (form_token lex tok p kind).2.shift pre.length) := by
  simp [form_token, Lexer.shift, Token.shift]

theorem lex_identifier_append (pre : List Nat) (lex : Lexer) (p : Nat) (result : Token) :
    lex_identifier (lex.shift pre) (pre.length + p) result =
      (lex_identifier lex p result).map (shift_result pre) := by
  simp only [lex_identifier, Lexer.shift_buf, fuel_at_append, ident_fast_append]
  cases ident_fast lex.buf (fuel_at lex.buf p) p with
  | none => rfl
  | some q =>
    simp only [Option.map_some', Option.bind_eq_bind, Option.some_bind, rd_append_right,
      peek_char_and_size_append, fuel_at_append, ident_slow_append]
    have key : ∀ (lx : Lexer) (q' : Nat) (r : Token),
        (match form_token (lx.shift pre) r (pre.length + q') TokenKind.identifier with
          | (lex, result) =>
            if (!result.flags.HasUCN && !result.flags.IsDirty) = true then
              match keyword_kind (text_slice lex.buf result.b result.e) with
              | some kw => some (true, lex,
                  { kind := kw, b := result.b, e := result.e, flags := result.flags })
              | none => some (true, lex, result)
            else some (true, lex, result)) =
        Option.map (shift_result pre)
          (match form_token lx r q' TokenKind.identifier with
          | (lex, result) =>
            if (!result.flags.HasUCN && !result.flags.IsDirty) = true then
              match keyword_kind (text_slice lex.buf result.b result.e) with
              | some kw => some (true, lex,
                  { kind := kw, b := result.b, e := result.e, flags := result.flags })
              | none => some (true, lex, result)
            else some (true, lex, result)) := by
      intro lx q' r
      simp only [form_token, Lexer.shift_buf, Lexer.shift_buffer_ptr, text_slice_append]
      split
      · cases keyword_kind (text_slice lx.buf lx.buffer_ptr q') <;>
          simp [shift_result, Lexer.shift, Token.shift]
      · simp [shift_result, Lexer.shift, Token.shift]
    split
    · cases peek_char_and_size lex.buf q with
      | none => rfl
      | some r =>
        obtain ⟨c, s⟩ := r
        simp only [Option.some_bind]
        cases ident_slow (fuel_at lex.buf q) lex q c s result with
        | none => rfl
        | some r =>
          obtain ⟨lx, q', r'⟩ := r
          simp only [Option.map_some', Option.some_bind]
          exact key lx q' r'
    · simp only [Option.some_bind]
      exact key lex q result

theorem numeric_run_append (pre buf : List Nat) :
    ∀ (fuel p c size prev : Nat) (result : Token),
      numeric_run (pre ++ buf) fuel (pre.length + p) c size prev result =
        (numeric_run buf fuel p c size prev result).map
          (fun r => (pre.length + r.1, r.2.1, r.2.2.1, r.2.2.2.1, r.2.2.2.2)) := by
  intro fuel
  induction fuel with
  | zero => intro p c size prev result; rfl
  | succ f ih =>
    intro p c size prev result
    simp only [numeric_run, consume_char_append]
    split
    · cases consume_char buf p size result with
      | none => rfl
      | some r =>
        obtain ⟨q, t⟩ := r
        simp only [Option.map_some', Option.bind_eq_bind, Option.some_bind,
          peek_char_and_size_append]
        cases peek_char_and_size buf q with
        | none => rfl
        | some r => simp [ih]
    · simp

theorem lex_numeric_constant_append (pre : List Nat) :
    ∀ (fuel : Nat) (lex : Lexer) (p : Nat) (result : Token),
      lex_numeric_constant fuel (lex.shift pre) (pre.length + p) result =
        (lex_numeric_constant fuel lex p result).map (shift_result pre) := by
  intro fuel
  induction fuel with
  | zero => intro lex p result; rfl
  | succ f ih =>
    intro lex p result
    simp only [lex_numeric_constant, Lexer.shift_buf, peek_char_and_size_append,
      fuel_at_append, numeric_run_append]
    cases peek_char_and_size lex.buf p with
    | none => rfl
    | some r =>
      obtain ⟨c, s⟩ := r
      simp only [Option.bind_eq_bind, Option.some_bind]
      cases numeric_run lex.buf (fuel_at lex.buf p) p c s c result with
      | none => rfl
      | some r =>
        obtain ⟨q, c', s', prev, t⟩ := r
        simp only [Option.map_some', Option.some_bind, consume_char_append,
          try_advance_identifier_ucn_append]
        split
        · cases consume_char lex.buf q s' t with
          | none => rfl
          | some r => simp [ih]
        · split
          · cases consume_char lex.buf q s' t with
            | none => rfl
            | some r => simp [ih]
          · split
            · cases try_advance_identifier_ucn lex q s' t with
              | none => rfl
              | some r =>
                obtain ⟨ok, q', lx, t'⟩ := r
                simp only [Option.map_some', Option.some_bind]
                split
                · simp [ih]
                · simp [form_token, shift_result, Lexer.shift, Token.shift, Token.set_literal]
            · simp [form_token, shift_result, Lexer.shift, Token.shift, Token.set_literal]

theorem skip_line_comment_loop_append (pre : List Nat) :
    ∀ (fuel : Nat) (lex : Lexer) (p c c_size : Nat),
      skip_line_comment_loop fuel (lex.shift pre) (pre.length + p) c c_size =
        (skip_line_comment_loop fuel lex p c c_size).map
          (fun r => (r.1.shift pre, pre.length + r.2)) := by
  intro fuel
  induction fuel with
  | zero => intro lex p c c_size; rfl
  | succ f ih =>
    intro lex p c c_size
    simp only [skip_line_comment_loop, Lexer.shift_buf, Nat.add_assoc,
      peek_char_and_size_append, report_shift]
    split
    · simp
    · split
      · simp
      · cases peek_char_and_size lex.buf (p + c_size) with
        | none => rfl
        | some r => simp [ih]

theorem skip_line_comment_append (pre : List Nat) (lex : Lexer) (p : Nat) :
    skip_line_comment (lex.shift pre) (pre.length + p) =
      (skip_line_comment lex p).map (fun r => (r.1.shift pre, pre.length + r.2)) := by
  simp only [skip_line_comment, Lexer.shift_buf, peek_char_and_size_append, fuel_at_append,
    skip_line_comment_loop_append]
  cases peek_char_and_size lex.buf p with
  | none => rfl
  | some r => simp

theorem skip_block_comment_loop_append (pre : List Nat) :
    ∀ (fuel : Nat) (lex : Lexer) (p c c_size prev : Nat),
      skip_block_comment_loop fuel (lex.shift pre) (pre.length + p) c c_size prev =
        (skip_block_comment_loop fuel lex p c c_size prev).map
          (fun r => (r.1.shift pre, pre.length + r.2)) := by
  intro fuel
  induction fuel with
  | zero => intro lex p c c_size prev; rfl
  | succ f ih =>
    intro lex p c c_size prev
    simp only [skip_block_comment_loop, Lexer.shift_buf, Nat.add_assoc,
      peek_char_and_size_append, report_shift]
    split
    · simp
    · split
      · simp
      · cases peek_char_and_size lex.buf (p + c_size) with
        | none => rfl
        | some r => simp [ih]

theorem skip_block_comment_append (pre : List Nat) (lex : Lexer) (p : Nat) :
    skip_block_comment (lex.shift pre) (pre.length + p) =
      (skip_block_comment lex p).map (fun r => (r.1.shift pre, pre.length + r.2)) := by
  simp only [skip_block_comment, Lexer.shift_buf, peek_char_and_size_append, fuel_at_append,
    skip_block_comment_loop_append]
  cases peek_char_and_size lex.buf p with
  | none => rfl
  | some r => simp

theorem lex_character_constant_loop_append (pre : List Nat) :
    ∀ (fuel : Nat) (lex : Lexer) (p c : Nat) (result : Token) (kind : TokenKind),
      lex_character_constant_loop fuel (lex.shift pre) (pre.length + p) c result kind =
        (lex_character_constant_loop fuel lex p c result kind).map (shift_result pre) := by
  intro fuel
  induction fuel with
  | zero => intro lex p c result kind; rfl
  | succ f ih =>
    intro lex p c result kind
    simp only [lex_character_constant_loop, Lexer.shift_buf, Nat.add_assoc,
      peek_char_advance_append, Lexer.shift_buffer_ptr, report_shift]
    split
    · split
      · cases peek_char_advance lex.buf (p + 1) result with
        | none => rfl
        | some r => simp [ih]
      · split
        · simp [form_token, shift_result, Lexer.shift, Token.shift, report, Report.shift]
        · cases peek_char_advance lex.buf p result with
          | none => rfl
          | some r => simp [ih]
    · simp [form_token, shift_result, Lexer.shift, Token.shift]

theorem lex_character_constant_append (pre : List Nat) (lex : Lexer) (p : Nat)
    (result : Token) (kind : TokenKind) :
    lex_character_constant (lex.shift pre) (pre.length + p) result kind =
      (lex_character_constant lex p result kind).map (shift_result pre) := by
  simp only [lex_character_constant, Lexer.shift_buf, peek_char_advance_append,
    Lexer.shift_buffer_ptr, report_shift]
  cases peek_char_advance lex.buf p result with
  | none => rfl
  | some r =>
    obtain ⟨c, q, t⟩ := r
    simp only [Option.map_some', Option.bind_eq_bind, Option.some_bind, fuel_at_append,
      lex_character_constant_loop_append]
    split
    · simp [form_token, shift_result, Lexer.shift, Token.shift, report, Report.shift]
    · rfl

theorem find_if_not_whitespace_append (pre buf : List Nat) :
    ∀ (n p : Nat),
      find_if_not_whitespace (pre ++ buf) n (pre.length + p) =
        pre.length + find_if_not_whitespace buf n p := by
  intro n
  induction n with
  | zero => intro p; rfl
  | succ n ih =>
    intro p
    simp only [find_if_not_whitespace, rd_append_right, Nat.add_assoc, ih]
    split <;> rfl

theorem lex_token_finish_append (pre : List Nat) (lex : Lexer) (result : Token) (p : Nat)
    (kind : TokenKind) :
    lex_token_finish (lex.shift pre) result (pre.length + p) kind =
      (lex_token_finish lex result p kind).map (shift_result pre) := by
  simp only [lex_token_finish, Lexer.shift_buffer_ptr, report_shift]
  split <;> simp [form_token, shift_result, Lexer.shift, Token.shift]

theorem Lexer.shift_with_buffer_ptr (pre : List Nat) (lex : Lexer) (p : Nat) :
    ({ lex.shift pre with buffer_ptr := pre.length + p } : Lexer) =
      ({ lex with buffer_ptr := p } : Lexer).shift pre := rfl

set_option maxHeartbeats 1000000 in
/-- The switch of `lex_token` commutes with relocation, when the recursive
call does. -/
theorem lex_token_switch_append (pre : List Nat)
    (relex relex' : Lexer → Nat → Token → Option (Bool × Lexer × Token))
    (hre : ∀ (lx : Lexer) (q : Nat) (r : Token),
      relex' (lx.shift pre) (pre.length + q) r = (relex lx q r).map (shift_result pre))
    (lex : Lexer) (p : Nat) (result : Token) (ch : Nat) :
    lex_token_switch relex' (lex.shift pre) (pre.length + p) result ch =
      (lex_token_switch relex lex p result ch).map (shift_result pre) := by
  unfold lex_token_switch
  by_cases h0 : ch = 0
  · rw [if_pos h0, if_pos h0]
    simp [shift_result]
  rw [if_neg h0, if_neg h0]
  by_cases h92 : ch = 92
  · rw [if_pos h92, if_pos h92]
    simp only [Lexer.shift_buffer_ptr, try_read_ucn_append]
    cases try_read_ucn lex p lex.buffer_ptr none with
    | none => rfl
    | some r =>
      obtain ⟨cp, q, lx, t⟩ := r
      simp only [Option.map_some', Option.bind_eq_bind, Option.some_bind]
      split_ifs
      · exact lex_identifier_append _ _ _ _
      · exact lex_token_finish_append _ _ _ _ _
  rw [if_neg h92, if_neg h92]
  by_cases h91 : ch = 91
  · rw [if_pos h91, if_pos h91]
    exact lex_token_finish_append _ _ _ _ _
  rw [if_neg h91, if_neg h91]
  by_cases h93 : ch = 93
  · rw [if_pos h93, if_pos h93]
    exact lex_token_finish_append _ _ _ _ _
  rw [if_neg h93, if_neg h93]
  by_cases h40 : ch = 40
  · rw [if_pos h40, if_pos h40]
    exact lex_token_finish_append _ _ _ _ _
  rw [if_neg h40, if_neg h40]
  by_cases h41 : ch = 41
  · rw [if_pos h41, if_pos h41]
    exact lex_token_finish_append _ _ _ _ _
  rw [if_neg h41, if_neg h41]
  by_cases h123 : ch = 123
  · rw [if_pos h123, if_pos h123]
    exact lex_token_finish_append _ _ _ _ _
  rw [if_neg h123, if_neg h123]
  by_cases h125 : ch = 125
  · rw [if_pos h125, if_pos h125]
    exact lex_token_finish_append _ _ _ _ _
  rw [if_neg h125, if_neg h125]
  by_cases h46 : ch = 46
  · rw [if_pos h46, if_pos h46]
    simp only [Lexer.shift_buf, peek_char_and_size_append, Nat.add_assoc]
    cases peek_char_and_size lex.buf p with
    | none => rfl
    | some r =>
      obtain ⟨c, s⟩ := r
      simp only [Option.bind_eq_bind, Option.some_bind, consume_char_append]
      split_ifs
      · cases consume_char lex.buf p s result with
        | none => rfl
        | some r =>
          simp only [Option.map_some', Option.some_bind, fuel_at_append]
          exact lex_numeric_constant_append _ _ _ _ _
      · cases peek_char_and_size lex.buf (p + s) with
        | none => rfl
        | some r2 =>
          obtain ⟨a, s2⟩ := r2
          simp only [Option.some_bind]
          split_ifs
          · cases consume_char lex.buf p s result with
            | none => rfl
            | some r =>
              obtain ⟨q, t⟩ := r
              simp only [Option.map_some', Option.some_bind, consume_char_append]
              cases consume_char lex.buf q s2 t with
              | none => rfl
              | some r =>
                simp only [Option.map_some', Option.some_bind]
                exact lex_token_finish_append _ _ _ _ _
          · exact lex_token_finish_append _ _ _ _ _
      · exact lex_token_finish_append _ _ _ _ _
  rw [if_neg h46, if_neg h46]
  by_cases h45 : ch = 45
  · rw [if_pos h45, if_pos h45]
    simp only [Lexer.shift_buf, peek_char_and_size_append]
    cases peek_char_and_size lex.buf p with
    | none => rfl
    | some r =>
      obtain ⟨c, s⟩ := r
      simp only [Option.bind_eq_bind, Option.some_bind, consume_char_append]
      cases consume_char lex.buf p s result with
      | none => split_ifs <;> rfl
      | some r =>
        simp only [Option.map_some', Option.some_bind]
        split_ifs <;> exact lex_token_finish_append _ _ _ _ _
  rw [if_neg h45, if_neg h45]
  by_cases h43 : ch = 43
  · rw [if_pos h43, if_pos h43]
    simp only [Lexer.shift_buf, peek_char_and_size_append]
    cases peek_char_and_size lex.buf p with
    | none => rfl
    | some r =>
      obtain ⟨c, s⟩ := r
      simp only [Option.bind_eq_bind, Option.some_bind, consume_char_append]
      cases consume_char lex.buf p s result with
      | none => split_ifs <;> rfl
      | some r =>
        simp only [Option.map_some', Option.some_bind]
        split_ifs <;> exact lex_token_finish_append _ _ _ _ _
  rw [if_neg h43, if_neg h43]
  by_cases h38 : ch = 38
  · rw [if_pos h38, if_pos h38]
    simp only [Lexer.shift_buf, peek_char_and_size_append]
    cases peek_char_and_size lex.buf p with
    | none => rfl
    | some r =>
      obtain ⟨c, s⟩ := r
      simp only [Option.bind_eq_bind, Option.some_bind, consume_char_append]
      cases consume_char lex.buf p s result with
      | none => split_ifs <;> rfl
      | some r =>
        simp only [Option.map_some', Option.some_bind]
        split_ifs <;> exact lex_token_finish_append _ _ _ _ _
  rw [if_neg h38, if_neg h38]
  by_cases h42 : ch = 42
  · rw [if_pos h42, if_pos h42]
    simp only [Lexer.shift_buf, peek_char_and_size_append]
    cases peek_char_and_size lex.buf p with
    | none => rfl
    | some r =>
      obtain ⟨c, s⟩ := r
      simp only [Option.bind_eq_bind, Option.some_bind, consume_char_append]
      cases consume_char lex.buf p s result with
      | none => split_ifs <;> rfl
      | some r =>
        simp only [Option.map_some', Option.some_bind]
        split_ifs <;> exact lex_token_finish_append _ _ _ _ _
  rw [if_neg h42, if_neg h42]
  by_cases h126 : ch = 126
  · rw [if_pos h126, if_pos h126]
    exact lex_token_finish_append _ _ _ _ _
  rw [if_neg h126, if_neg h126]
  by_cases h47 : ch = 47
  · rw [if_pos h47, if_pos h47]
    simp only [Lexer.shift_buf, peek_char_and_size_append, Nat.add_assoc]
    cases peek_char_and_size lex.buf p with
    | none => rfl
    | some r =>
      obtain ⟨c, s⟩ := r
      simp only [Option.bind_eq_bind, Option.some_bind, consume_char_append,
        skip_line_comment_append, skip_block_comment_append]
      split_ifs
      · cases skip_line_comment lex (p + s) with
        | none => rfl
        | some r =>
          obtain ⟨lx, q⟩ := r
          simp only [Option.map_some', Option.some_bind, Lexer.shift_with_buffer_ptr]
          exact hre _ _ _
      · cases skip_block_comment lex (p + s) with
        | none => rfl
        | some r =>
          obtain ⟨lx, q⟩ := r
          simp only [Option.map_some', Option.some_bind, Lexer.shift_with_buffer_ptr]
          exact hre _ _ _
      · cases consume_char lex.buf p s result with
        | none => rfl
        | some r =>
          simp only [Option.map_some', Option.some_bind]
          exact lex_token_finish_append _ _ _ _ _
      · exact lex_token_finish_append _ _ _ _ _
  rw [if_neg h47, if_neg h47]
  by_cases h37 : ch = 37
  · rw [if_pos h37, if_pos h37]
    simp only [Lexer.shift_buf, peek_char_and_size_append]
    cases peek_char_and_size lex.buf p with
    | none => rfl
    | some r =>
      obtain ⟨c, s⟩ := r
      simp only [Option.bind_eq_bind, Option.some_bind]
      by_cases c61 : c = 61
      · rw [if_pos c61, if_pos c61]
        simp only [consume_char_append]
        cases consume_char lex.buf p s result with
        | none => rfl
        | some r =>
          simp only [Option.map_some', Option.some_bind]
          exact lex_token_finish_append _ _ _ _ _
      rw [if_neg c61, if_neg c61]
      by_cases c62 : c = 62
      · rw [if_pos c62, if_pos c62]
        simp only [consume_char_append]
        cases consume_char lex.buf p s result with
        | none => rfl
        | some r =>
          simp only [Option.map_some', Option.some_bind]
          exact lex_token_finish_append _ _ _ _ _
      rw [if_neg c62, if_neg c62]
      by_cases c58 : c = 58
      · rw [if_pos c58, if_pos c58]
        simp only [consume_char_append]
        cases consume_char lex.buf p s result with
        | none => rfl
        | some r =>
          obtain ⟨q, t⟩ := r
          simp only [Option.map_some', Option.some_bind, peek_char_and_size_append]
          cases peek_char_and_size lex.buf q with
          | none => rfl
          | some r1 =>
            obtain ⟨c1, s1⟩ := r1
            simp only [Option.some_bind, Nat.add_assoc, peek_char_and_size_append]
            by_cases c37 : c1 = 37
            · rw [if_pos c37, if_pos c37]
              cases peek_char_and_size lex.buf (q + s1) with
              | none => rfl
              | some r2 =>
                obtain ⟨c2, s2⟩ := r2
                simp only [Option.some_bind]
                by_cases d58 : c2 = 58
                · rw [if_pos d58, if_pos d58]
                  simp only [consume_char_append]
                  cases consume_char lex.buf q s1 t with
                  | none => rfl
                  | some r3 =>
                    obtain ⟨q3, t3⟩ := r3
                    simp only [Option.map_some', Option.some_bind, consume_char_append]
                    cases consume_char lex.buf q3 s2 t3 with
                    | none => rfl
                    | some r4 =>
                      simp only [Option.map_some', Option.some_bind]
                      exact lex_token_finish_append _ _ _ _ _
                · rw [if_neg d58, if_neg d58]
                  exact lex_token_finish_append _ _ _ _ _
            · rw [if_neg c37, if_neg c37]
              exact lex_token_finish_append _ _ _ _ _
      rw [if_neg c58, if_neg c58]
      exact lex_token_finish_append _ _ _ _ _
  rw [if_neg h37, if_neg h37]
  by_cases h60 : ch = 60
  · rw [if_pos h60, if_pos h60]
    simp only [Lexer.shift_buf, peek_char_and_size_append, Nat.add_assoc]
    cases peek_char_and_size lex.buf p with
    | none => rfl
    | some r =>
      obtain ⟨c, s⟩ := r
      simp only [Option.bind_eq_bind, Option.some_bind, consume_char_append]
      cases peek_char_and_size lex.buf (p + s) with
      | none =>
        cases consume_char lex.buf p s result with
        | none => split_ifs <;> rfl
        | some r =>
          simp only [Option.map_some', Option.some_bind, Option.none_bind]
          split_ifs <;> rfl
      | some r2 =>
        obtain ⟨a, s2⟩ := r2
        simp only [Option.some_bind]
        cases consume_char lex.buf p s result with
        | none => split_ifs <;> rfl
        | some r =>
          obtain ⟨q, t⟩ := r
          simp only [Option.map_some', Option.some_bind, consume_char_append]
          cases consume_char lex.buf q s2 t with
          | none => split_ifs <;> rfl
          | some r =>
            simp only [Option.map_some', Option.some_bind]
            split_ifs <;> exact lex_token_finish_append _ _ _ _ _
  rw [if_neg h60, if_neg h60]
  by_cases h62 : ch = 62
  · rw [if_pos h62, if_pos h62]
    simp only [Lexer.shift_buf, peek_char_and_size_append, Nat.add_assoc]
    cases peek_char_and_size lex.buf p with
    | none => rfl
    | some r =>
      obtain ⟨c, s⟩ := r
      simp only [Option.bind_eq_bind, Option.some_bind, consume_char_append]
      cases peek_char_and_size lex.buf (p + s) with
      | none =>
        cases consume_char lex.buf p s result with
        | none => split_ifs <;> rfl
        | some r =>
          simp only [Option.map_some', Option.some_bind, Option.none_bind]
          split_ifs <;> rfl
      | some r2 =>
        obtain ⟨a, s2⟩ := r2
        simp only [Option.some_bind]
        cases consume_char lex.buf p s result with
        | none => split_ifs <;> rfl
        | some r =>
          obtain ⟨q, t⟩ := r
          simp only [Option.map_some', Option.some_bind, consume_char_append]
          cases consume_char lex.buf q s2 t with
          | none => split_ifs <;> rfl
          | some r =>
            simp only [Option.map_some', Option.some_bind]
            split_ifs <;> exact lex_token_finish_append _ _ _ _ _
  rw [if_neg h62, if_neg h62]
  by_cases h61 : ch = 61
  · rw [if_pos h61, if_pos h61]
    simp only [Lexer.shift_buf, peek_char_and_size_append]
    cases peek_char_and_size lex.buf p with
    | none => rfl
    | some r =>
      obtain ⟨c, s⟩ := r
      simp only [Option.bind_eq_bind, Option.some_bind, consume_char_append]
      cases consume_char lex.buf p s result with
      | none => split_ifs <;> rfl
      | some r =>
        simp only [Option.map_some', Option.some_bind]
        split_ifs <;> exact lex_token_finish_append _ _ _ _ _
  rw [if_neg h61, if_neg h61]
  by_cases h33 : ch = 33
  · rw [if_pos h33, if_pos h33]
    simp only [Lexer.shift_buf, peek_char_and_size_append]
    cases peek_char_and_size lex.buf p with
    | none => rfl
    | some r =>
      obtain ⟨c, s⟩ := r
      simp only [Option.bind_eq_bind, Option.some_bind, consume_char_append]
      cases consume_char lex.buf p s result with
      | none => split_ifs <;> rfl
      | some r =>
        simp only [Option.map_some', Option.some_bind]
        split_ifs <;> exact lex_token_finish_append _ _ _ _ _
  rw [if_neg h33, if_neg h33]
  by_cases h94 : ch = 94
  · rw [if_pos h94, if_pos h94]
    simp only [Lexer.shift_buf, peek_char_and_size_append]
    cases peek_char_and_size lex.buf p with
    | none => rfl
    | some r =>
      obtain ⟨c, s⟩ := r
      simp only [Option.bind_eq_bind, Option.some_bind, consume_char_append]
      cases consume_char lex.buf p s result with
      | none => split_ifs <;> rfl
      | some r =>
        simp only [Option.map_some', Option.some_bind]
        split_ifs <;> exact lex_token_finish_append _ _ _ _ _
  rw [if_neg h94, if_neg h94]
  by_cases h124 : ch = 124
  · rw [if_pos h124, if_pos h124]
    simp only [Lexer.shift_buf, peek_char_and_size_append]
    cases peek_char_and_size lex.buf p with
    | none => rfl
    | some r =>
      obtain ⟨c, s⟩ := r
      simp only [Option.bind_eq_bind, Option.some_bind, consume_char_append]
      cases consume_char lex.buf p s result with
      | none => split_ifs <;> rfl
      | some r =>
        simp only [Option.map_some', Option.some_bind]
        split_ifs <;> exact lex_token_finish_append _ _ _ _ _
  rw [if_neg h124, if_neg h124]
  by_cases h63 : ch = 63
  · rw [if_pos h63, if_pos h63]
    exact lex_token_finish_append _ _ _ _ _
  rw [if_neg h63, if_neg h63]
  by_cases h58 : ch = 58
  · rw [if_pos h58, if_pos h58]
    simp only [Lexer.shift_buf, peek_char_and_size_append]
    cases peek_char_and_size lex.buf p with
    | none => rfl
    | some r =>
      obtain ⟨c, s⟩ := r
      simp only [Option.bind_eq_bind, Option.some_bind, consume_char_append]
      cases consume_char lex.buf p s result with
      | none => split_ifs <;> rfl
      | some r =>
        simp only [Option.map_some', Option.some_bind]
        split_ifs <;> exact lex_token_finish_append _ _ _ _ _
  rw [if_neg h58, if_neg h58]
  by_cases h59 : ch = 59
  · rw [if_pos h59, if_pos h59]
    exact lex_token_finish_append _ _ _ _ _
  rw [if_neg h59, if_neg h59]
  by_cases h44 : ch = 44
  · rw [if_pos h44, if_pos h44]
    exact lex_token_finish_append _ _ _ _ _
  rw [if_neg h44, if_neg h44]
  by_cases h35 : ch = 35
  · rw [if_pos h35, if_pos h35]
    simp only [Lexer.shift_buf, peek_char_and_size_append]
    cases peek_char_and_size lex.buf p with
    | none => rfl
    | some r =>
      obtain ⟨c, s⟩ := r
      simp only [Option.bind_eq_bind, Option.some_bind, consume_char_append]
      cases consume_char lex.buf p s result with
      | none => split_ifs <;> rfl
      | some r =>
        simp only [Option.map_some', Option.some_bind]
        split_ifs <;> exact lex_token_finish_append _ _ _ _ _
  rw [if_neg h35, if_neg h35]
  by_cases hdig : is_digit ch = true
  · rw [if_pos hdig, if_pos hdig]
    simp only [Lexer.shift_buf, fuel_at_append]
    exact lex_numeric_constant_append _ _ _ _ _
  rw [if_neg hdig, if_neg hdig]
  by_cases h76 : ch = 76
  · rw [if_pos h76, if_pos h76]
    simp only [Lexer.shift_buf, peek_char_and_size_append]
    cases peek_char_and_size lex.buf p with
    | none => rfl
    | some r =>
      obtain ⟨c, s⟩ := r
      simp only [Option.bind_eq_bind, Option.some_bind, consume_char_append]
      split_ifs
      · cases consume_char lex.buf p s result with
        | none => rfl
        | some r =>
          simp only [Option.map_some', Option.some_bind]
          exact lex_character_constant_append _ _ _ _ _
      · exact lex_identifier_append _ _ _ _
  rw [if_neg h76, if_neg h76]
  by_cases h117 : ch = 117
  · rw [if_pos h117, if_pos h117]
    simp only [Lexer.shift_buf, peek_char_and_size_append]
    cases peek_char_and_size lex.buf p with
    | none => rfl
    | some r =>
      obtain ⟨c, s⟩ := r
      simp only [Option.bind_eq_bind, Option.some_bind, consume_char_append]
      split_ifs
      · cases consume_char lex.buf p s result with
        | none => rfl
        | some r =>
          simp only [Option.map_some', Option.some_bind]
          exact lex_character_constant_append _ _ _ _ _
      · exact lex_identifier_append _ _ _ _
  rw [if_neg h117, if_neg h117]
  by_cases h85 : ch = 85
  · rw [if_pos h85, if_pos h85]
    simp only [Lexer.shift_buf, peek_char_and_size_append]
    cases peek_char_and_size lex.buf p with
    | none => rfl
    | some r =>
      obtain ⟨c, s⟩ := r
      simp only [Option.bind_eq_bind, Option.some_bind, consume_char_append]
      split_ifs
      · cases consume_char lex.buf p s result with
        | none => rfl
        | some r =>
          simp only [Option.map_some', Option.some_bind]
          exact lex_character_constant_append _ _ _ _ _
      · exact lex_identifier_append _ _ _ _
  rw [if_neg h85, if_neg h85]
  by_cases hnd : is_nondigit ch = true
  · rw [if_pos hnd, if_pos hnd]
    exact lex_identifier_append _ _ _ _
  rw [if_neg hnd, if_neg hnd]
  by_cases h39 : ch = 39
  · rw [if_pos h39, if_pos h39]
    exact lex_character_constant_append _ _ _ _ _
  rw [if_neg h39, if_neg h39]
  exact lex_token_finish_append _ _ _ _ _

/-- Lexing the same bytes at a later offset gives the same result, moved:
`lex_token` commutes with relocation. -/
theorem lex_token_append (pre : List Nat) :
    ∀ (fuel : Nat) (lex : Lexer) (p : Nat) (result : Token),
      lex_token fuel (lex.shift pre) (pre.length + p) result =
        (lex_token fuel lex p result).map (shift_result pre) := by
  intro fuel
  induction fuel with
  | zero => intro lex p result; rfl
  | succ f ih =>
    intro lex p result
    rw [lex_token_succ, lex_token_succ]
    simp only [Lexer.shift_buf, List.length_append, Nat.add_sub_add_left,
      find_if_not_whitespace_append, peek_char_and_size_append, consume_char_append]
    cases peek_char_and_size lex.buf
        (find_if_not_whitespace lex.buf (lex.buf.length - p) p) with
    | none => rfl
    | some r =>
      obtain ⟨ch, s⟩ := r
      simp only [Option.some_bind]
      cases consume_char lex.buf (find_if_not_whitespace lex.buf (lex.buf.length - p) p) s
          result with
      | none => rfl
      | some r =>
        obtain ⟨q, t⟩ := r
        simp only [Option.map_some', Option.some_bind, Lexer.shift_with_buffer_ptr]
        exact lex_token_switch_append pre (lex_token f) (lex_token f) ih
          { lex with buffer_ptr := find_if_not_whitespace lex.buf (lex.buf.length - p) p } q t ch

theorem Lexer.lex_shift (pre : List Nat) (lex : Lexer) (result : Token) :
    (lex.shift pre).lex result = (lex.lex result).map (shift_result pre) := by
  unfold Lexer.lex
  rw [Lexer.shift_buf, Lexer.shift_buffer_ptr, fuel_at_append, lex_token_append]

theorem Token.spelling_shift (pre buf : List Nat) (t : Token) :
    (t.shift pre.length).spelling (pre ++ buf) = t.spelling buf := by
  simp [Token.spelling, Token.shift, text_slice_append]

theorem Lexer.shift_diag_codes (pre : List Nat) (lex : Lexer) :
    (lex.shift pre).diag.map (fun r => r.code) = lex.diag.map (fun r => r.code) := by
  simp [Lexer.shift, Report.shift, Function.comp_def]

/-- The token sequence does not depend on where the bytes lie. -/
theorem lex_all_shift (pre : List Nat) :
    ∀ (n : Nat) (lex : Lexer), lex_all n (lex.shift pre) = lex_all n lex := by
  intro n
  induction n with
  | zero => intro lex; simp [lex_all, Lexer.shift_diag_codes]
  | succ n ih =>
    intro lex
    simp only [lex_all, Lexer.lex_shift]
    cases lex.lex {} with
    | none => rfl
    | some r =>
      obtain ⟨b, lx, t⟩ := r
      cases b with
      | false => simp [shift_result, Lexer.shift_diag_codes]
      | true =>
        simp only [Option.map_some', shift_result, if_true, ih, Lexer.shift_buf,
          Token.spelling_shift]
        rfl

/-! ## Progress of the scanners and independence of the fuel -/

theorem find_if_not_whitespace_ge (buf : List Nat) :
    ∀ (n p : Nat), p ≤ find_if_not_whitespace buf n p := by
  intro n
  induction n with
  | zero => intro p; exact Nat.le_refl _
  | succ n ih =>
    intro p
    simp only [find_if_not_whitespace]
    split
    · exact Nat.le_trans (Nat.le_succ p) (ih (p + 1))
    · exact Nat.le_refl _

theorem peek_char_and_size_nontrivial_size (buf : List Nat) :
    ∀ (fuel p size : Nat) (tok : Option Token) (c s : Nat) (t : Option Token),
      peek_char_and_size_nontrivial buf fuel p size tok = some (c, s, t) → size + 1 ≤ s := by
  intro fuel
  induction fuel with
  | zero => intro p size tok c s t h; simp [peek_char_and_size_nontrivial] at h
  | succ f ih =>
    intro p size tok c s t h
    simp only [peek_char_and_size_nontrivial] at h
    split at h
    · split at h
      · simp only [Option.some.injEq, Prod.mk.injEq] at h
        omega
      · split at h
        · have := ih _ _ _ _ _ _ h
          omega
        · simp only [Option.some.injEq, Prod.mk.injEq] at h
          omega
    · simp only [Option.some.injEq, Prod.mk.injEq] at h
      omega

theorem consume_char_gt (buf : List Nat) (p size : Nat) (tok : Token) (q : Nat) (t : Token)
    (h : consume_char buf p size tok = some (q, t)) : p + 1 ≤ q := by
  unfold consume_char at h
  split at h
  · simp only [Option.some.injEq, Prod.mk.injEq] at h
    omega
  · simp only [Option.bind_eq_bind, Option.bind_eq_some] at h
    obtain ⟨⟨c, s, t'⟩, h1, h2⟩ := h
    have := peek_char_and_size_nontrivial_size _ _ _ _ _ _ _ _ h1
    simp only [Option.some.injEq, Prod.mk.injEq] at h2
    omega

theorem skip_line_comment_loop_ge :
    ∀ (fuel : Nat) (lex : Lexer) (p c c_size : Nat) (lx : Lexer) (q : Nat),
      skip_line_comment_loop fuel lex p c c_size = some (lx, q) →
        lx.buf = lex.buf ∧ p ≤ q := by
  intro fuel
  induction fuel with
  | zero => intro lex p c c_size lx q h; simp [skip_line_comment_loop] at h
  | succ f ih =>
    intro lex p c c_size lx q h
    simp only [skip_line_comment_loop] at h
    split at h
    · simp only [Option.some.injEq, Prod.mk.injEq] at h
      obtain ⟨rfl, rfl⟩ := h
      exact ⟨rfl, Nat.le_add_right _ _⟩
    · split at h
      · simp only [Option.some.injEq, Prod.mk.injEq] at h
        obtain ⟨rfl, rfl⟩ := h
        exact ⟨rfl, Nat.le_refl _⟩
      · simp only [Option.bind_eq_bind, Option.bind_eq_some] at h
        obtain ⟨⟨c', s'⟩, -, h2⟩ := h
        have := ih _ _ _ _ _ _ h2
        exact ⟨this.1, by omega⟩

theorem skip_line_comment_ge (lex : Lexer) (p : Nat) (lx : Lexer) (q : Nat)
    (h : skip_line_comment lex p = some (lx, q)) : lx.buf = lex.buf ∧ p ≤ q := by
  simp only [skip_line_comment, Option.bind_eq_bind, Option.bind_eq_some] at h
  obtain ⟨⟨c, s⟩, -, h2⟩ := h
  exact skip_line_comment_loop_ge _ _ _ _ _ _ _ h2

theorem skip_block_comment_loop_ge :
    ∀ (fuel : Nat) (lex : Lexer) (p c c_size prev : Nat) (lx : Lexer) (q : Nat),
      skip_block_comment_loop fuel lex p c c_size prev = some (lx, q) →
        lx.buf = lex.buf ∧ p ≤ q := by
  intro fuel
  induction fuel with
  | zero => intro lex p c c_size prev lx q h; simp [skip_block_comment_loop] at h
  | succ f ih =>
    intro lex p c c_size prev lx q h
    simp only [skip_block_comment_loop] at h
    split at h
    · simp only [Option.some.injEq, Prod.mk.injEq] at h
      obtain ⟨rfl, rfl⟩ := h
      exact ⟨rfl, Nat.le_add_right _ _⟩
    · split at h
      · simp only [Option.some.injEq, Prod.mk.injEq] at h
        obtain ⟨rfl, rfl⟩ := h
        exact ⟨rfl, Nat.le_refl _⟩
      · simp only [Option.bind_eq_bind, Option.bind_eq_some] at h
        obtain ⟨⟨c', s'⟩, -, h2⟩ := h
        have := ih _ _ _ _ _ _ _ h2
        exact ⟨this.1, by omega⟩

theorem skip_block_comment_ge (lex : Lexer) (p : Nat) (lx : Lexer) (q : Nat)
    (h : skip_block_comment lex p = some (lx, q)) : lx.buf = lex.buf ∧ p ≤ q := by
  simp only [skip_block_comment, Option.bind_eq_bind, Option.bind_eq_some] at h
  obtain ⟨⟨c, s⟩, -, h2⟩ := h
  exact skip_block_comment_loop_ge _ _ _ _ _ _ _ _ h2

/-- The switch depends on the recursive call only through its values at
lexers over the same buffer and positions not before `p`. -/
theorem lex_token_switch_congr
    (relex1 relex2 : Lexer → Nat → Token → Option (Bool × Lexer × Token))
    (lex : Lexer) (p : Nat) (result : Token) (ch : Nat)
    (h : ∀ (lx : Lexer) (q : Nat) (r : Token), lx.buf = lex.buf → p ≤ q →
      relex1 lx q r = relex2 lx q r) :
    lex_token_switch relex1 lex p result ch = lex_token_switch relex2 lex p result ch := by
  unfold lex_token_switch
  by_cases h0 : ch = 0
  · rw [if_pos h0, if_pos h0]
  rw [if_neg h0, if_neg h0]
  by_cases h92 : ch = 92
  · rw [if_pos h92, if_pos h92]
  rw [if_neg h92, if_neg h92]
  by_cases h91 : ch = 91
  · rw [if_pos h91, if_pos h91]
  rw [if_neg h91, if_neg h91]
  by_cases h93 : ch = 93
  · rw [if_pos h93, if_pos h93]
  rw [if_neg h93, if_neg h93]
  by_cases h40 : ch = 40
  · rw [if_pos h40, if_pos h40]
  rw [if_neg h40, if_neg h40]
  by_cases h41 : ch = 41
  · rw [if_pos h41, if_pos h41]
  rw [if_neg h41, if_neg h41]
  by_cases h123 : ch = 123
  · rw [if_pos h123, if_pos h123]
  rw [if_neg h123, if_neg h123]
  by_cases h125 : ch = 125
  · rw [if_pos h125, if_pos h125]
  rw [if_neg h125, if_neg h125]
  by_cases h46 : ch = 46
  · rw [if_pos h46, if_pos h46]
  rw [if_neg h46, if_neg h46]
  by_cases h45 : ch = 45
  · rw [if_pos h45, if_pos h45]
  rw [if_neg h45, if_neg h45]
  by_cases h43 : ch = 43
  · rw [if_pos h43, if_pos h43]
  rw [if_neg h43, if_neg h43]
  by_cases h38 : ch = 38
  · rw [if_pos h38, if_pos h38]
  rw [if_neg h38, if_neg h38]
  by_cases h42 : ch = 42
  · rw [if_pos h42, if_pos h42]
  rw [if_neg h42, if_neg h42]
  by_cases h126 : ch = 126
  · rw [if_pos h126, if_pos h126]
  rw [if_neg h126, if_neg h126]
  by_cases h47 : ch = 47
  · rw [if_pos h47, if_pos h47]
    cases peek_char_and_size lex.buf p with
    | none => rfl
    | some r =>
      obtain ⟨c, s⟩ := r
      simp only [Option.bind_eq_bind, Option.some_bind]
      by_cases c47 : c = 47
      · rw [if_pos c47, if_pos c47]
        cases hs : skip_line_comment lex (p + s) with
        | none => rfl
        | some r =>
          obtain ⟨lx, q⟩ := r
          have := skip_line_comment_ge _ _ _ _ hs
          simp only [Option.some_bind]
          exact h _ _ _ this.1 (by omega)
      rw [if_neg c47, if_neg c47]
      by_cases c42 : c = 42
      · rw [if_pos c42, if_pos c42]
        cases hs : skip_block_comment lex (p + s) with
        | none => rfl
        | some r =>
          obtain ⟨lx, q⟩ := r
          have := skip_block_comment_ge _ _ _ _ hs
          simp only [Option.some_bind]
          exact h _ _ _ this.1 (by omega)
      rw [if_neg c42, if_neg c42]
  rw [if_neg h47, if_neg h47]

/-- With enough fuel the result of `lex_token` does not depend on the fuel. -/
theorem lex_token_fuel_irrelevant :
    ∀ (f1 f2 : Nat) (lex : Lexer) (p : Nat) (result : Token),
      lex.buf.length - p + 1 ≤ f1 → lex.buf.length - p + 1 ≤ f2 →
      lex_token f1 lex p result = lex_token f2 lex p result := by
  intro f1
  induction f1 with
  | zero => intro f2 lex p result h1; omega
  | succ a ih =>
    intro f2 lex p result h1 h2
    obtain ⟨b, rfl⟩ : ∃ b, f2 = b + 1 := ⟨f2 - 1, by omega⟩
    by_cases hp : lex.buf.length ≤ p
    · have h0 := rd_of_length_le _ _ hp
      rw [lex_token_at_nul _ _ _ _ h0, lex_token_at_nul _ _ _ _ h0]
    · rw [lex_token_succ, lex_token_succ]
      have hge := find_if_not_whitespace_ge lex.buf (lex.buf.length - p) p
      cases peek_char_and_size lex.buf
          (find_if_not_whitespace lex.buf (lex.buf.length - p) p) with
      | none => rfl
      | some r =>
        obtain ⟨ch, s⟩ := r
        simp only [Option.some_bind]
        cases hc : consume_char lex.buf
            (find_if_not_whitespace lex.buf (lex.buf.length - p) p) s result with
        | none => rfl
        | some r =>
          obtain ⟨q, t⟩ := r
          have hq := consume_char_gt _ _ _ _ _ _ hc
          simp only [Option.some_bind]
          apply lex_token_switch_congr
          intro lx q' r' hbuf hqq
          have hbuf' : lx.buf.length = lex.buf.length := by rw [hbuf]
          exact ih b lx q' r' (by omega) (by omega)

/-! ## Peeking through an escaped newline -/

theorem peek_char_and_size_nontrivial_size_add (buf : List Nat) (a : Nat) :
    ∀ (fuel p size : Nat) (tok : Option Token),
      peek_char_and_size_nontrivial buf fuel p (size + a) tok =
        (peek_char_and_size_nontrivial buf fuel p size tok).map
          (fun r => (r.1, r.2.1 + a, r.2.2)) := by
  intro fuel
  induction fuel with
  | zero => intro p size tok; rfl
  | succ f ih =>
    intro p size tok
    simp only [peek_char_and_size_nontrivial]
    split
    · split
      · simp [Nat.add_right_comm]
      · split
        · rw [show size + a + 1 + size_for_escaped_newline buf (p + 1) =
            (size + 1 + size_for_escaped_newline buf (p + 1)) + a by omega, ih]
        · simp [Nat.add_right_comm]
    · simp [Nat.add_right_comm]

theorem peek_char_and_size_nontrivial_fuel (buf : List Nat) :
    ∀ (f1 f2 p size : Nat) (tok : Option Token),
      1 ≤ f1 → 1 ≤ f2 → buf.length + 1 ≤ f1 + p → buf.length + 1 ≤ f2 + p →
      peek_char_and_size_nontrivial buf f1 p size tok =
        peek_char_and_size_nontrivial buf f2 p size tok := by
  intro f1
  induction f1 with
  | zero => intro f2 p size tok h; omega
  | succ a ih =>
    intro f2 p size tok _ h2 h3 h4
    obtain ⟨b, rfl⟩ : ∃ b, f2 = b + 1 := ⟨f2 - 1, by omega⟩
    simp only [peek_char_and_size_nontrivial]
    split
    · split
      · rfl
      · rename_i hw
        split
        · have hlt : p + 1 < buf.length := by
            by_contra hge
            have := rd_of_length_le buf (p + 1) (by omega)
            rw [this] at hw
            simp [is_whitespace, is_newline] at hw
          exact ih b _ _ _ (by omega) (by omega) (by omega) (by omega)
        · rfl
    · rfl

/-- Peeking at a backslash followed by LF (not followed by CR) gives the
character peeked after them, with two more bytes. -/
theorem peek_char_and_size_escaped_lf (buf : List Nat) (p : Nat)
    (h0 : rd buf p = 92) (h1 : rd buf (p + 1) = 10) (h2 : rd buf (p + 2) ≠ 13) :
    peek_char_and_size buf p =
      (peek_char_and_size buf (p + 2)).map (fun r => (r.1, r.2 + 2)) := by
  have hlt : p + 1 < buf.length := by
    by_contra hge
    have := rd_of_length_le buf (p + 1) (by omega)
    rw [this] at h1
    omega
  have hesc : size_for_escaped_newline buf (p + 1) = 1 := by
    simp only [size_for_escaped_newline, h1]
    by_cases h10 : rd buf (p + 1 + 1) = 10
    · simp [is_newline, h10]
    · have : rd buf (p + 1 + 1) ≠ 13 := h2
      simp [is_newline, h10, this]
  obtain ⟨f, hf⟩ : ∃ f, fuel_at buf p = f + 1 := ⟨fuel_at buf p - 1, by simp [fuel_at]⟩
  have hf1 : 1 ≤ f := by simp [fuel_at] at hf; omega
  have hf2 : buf.length + 1 ≤ f + (p + 2) := by simp [fuel_at] at hf; omega
  have hL : peek_char_and_size buf p =
      (peek_char_and_size_nontrivial buf f (p + 2) 0 none).map
        (fun r => (r.1, r.2.1 + 2)) := by
    unfold peek_char_and_size
    rw [if_neg (by simp [is_trivial_character, h0]), hf, peek_char_and_size_nontrivial]
    simp only [h0, h1, hesc, if_true]
    rw [show (0 : Nat) + 1 + 1 = 0 + 2 by rfl, peek_char_and_size_nontrivial_size_add]
    simp only [show p + 1 + 1 = p + 2 from rfl, Option.map_none']
    cases peek_char_and_size_nontrivial buf f (p + 2) 0 none <;>
      simp [is_whitespace, is_newline]
  rw [hL]
  unfold peek_char_and_size
  by_cases ht : is_trivial_character (rd buf (p + 2)) = true
  · rw [if_pos ht]
    have hb : rd buf (p + 2) ≠ 92 := by
      intro h
      rw [h] at ht
      simp [is_trivial_character] at ht
    obtain ⟨g, rfl⟩ : ∃ g, f = g + 1 := ⟨f - 1, by omega⟩
    rw [peek_char_and_size_nontrivial, if_neg hb]
    rfl
  · rw [if_neg ht,
      peek_char_and_size_nontrivial_fuel buf f (fuel_at buf (p + 2)) (p + 2) 0
        none hf1 (by simp [fuel_at]) hf2 (by simp [fuel_at]; omega)]
    cases peek_char_and_size_nontrivial buf (fuel_at buf (p + 2)) (p + 2) 0 none <;> simp

/-! ## C7: line comments -/

theorem is_plain_comment_byte_iff (c : Nat) :
    is_plain_comment_byte c = true ↔ c ≠ 10 ∧ c ≠ 13 ∧ c ≠ 0 ∧ c ≠ 92 := by
  simp [is_plain_comment_byte, and_assoc]

/-- The loop of `skip_line_comment` over a plain body that ends at a
newline byte. -/
theorem skip_line_comment_loop_plain (lex : Lexer) (body : List Nat) :
    ∀ (fuel p nl : Nat) (R : List Nat),
      lex.buf.drop p = body ++ nl :: R →
      (∀ c ∈ body, is_plain_comment_byte c = true) → is_newline nl = true →
      body.length < fuel →
      skip_line_comment_loop fuel lex p (rd lex.buf p) 1 = some (lex, p + body.length + 1) := by
  induction body with
  | nil =>
    intro fuel p nl R hdrop _ hnl hf
    obtain ⟨f, rfl⟩ : ∃ f, fuel = f + 1 := ⟨fuel - 1, by simp at hf; omega⟩
    have hrd : rd lex.buf p = nl := rd_of_drop_cons _ _ _ _ (by simpa using hdrop)
    simp [skip_line_comment_loop, hrd, hnl]
  | cons x xs ih =>
    intro fuel p nl R hdrop hall hnl hf
    obtain ⟨f, rfl⟩ : ∃ f, fuel = f + 1 := ⟨fuel - 1, by simp at hf; omega⟩
    have hrd : rd lex.buf p = x := rd_of_drop_cons _ _ _ _ (by simpa using hdrop)
    have hx := (is_plain_comment_byte_iff x).1 (hall x (by simp))
    have hdrop' : lex.buf.drop (p + 1) = xs ++ nl :: R :=
      drop_succ_of_drop_cons _ _ _ _ (by simpa using hdrop)
    have hnext : rd lex.buf (p + 1) ≠ 92 := by
      cases xs with
      | nil =>
        rw [rd_of_drop_cons _ _ _ _ (by simpa using hdrop')]
        intro h; rw [h] at hnl; simp [is_newline] at hnl
      | cons y ys =>
        rw [rd_of_drop_cons _ _ _ _ (by simpa using hdrop')]
        exact ((is_plain_comment_byte_iff y).1 (hall y (by simp))).2.2.2
    rw [skip_line_comment_loop, hrd, if_neg (by simp [is_newline, hx.1, hx.2.1]),
      if_neg hx.2.2.1]
    simp only [Option.bind_eq_bind]
    rw [peek_char_and_size_of_ne _ _ hnext]
    simp only [Option.some_bind]
    rw [ih f (p + 1) nl R hdrop' (fun c hc => hall c (by simp [hc])) hnl (by simp at hf; omega)]
    simp only [List.length_cons]
    congr 3
    omega

theorem continued_comment_cons_cons (x : Nat) (xs : List Nat) (segs : List (List Nat)) :
    continued_comment ((x :: xs) :: segs) = x :: continued_comment (xs :: segs) := by
  cases segs <;> simp [continued_comment]

theorem continued_comment_head_ne_cr (segs : List (List Nat)) (R : List Nat)
    (hall : ∀ seg ∈ segs, ∀ c ∈ seg, is_plain_comment_byte c = true) :
    rd (continued_comment segs ++ 10 :: R) 0 ≠ 13 := by
  cases segs with
  | nil => simp [continued_comment, rd]
  | cons seg rest =>
    cases seg with
    | nil => cases rest <;> simp [continued_comment, rd]
    | cons x xs =>
      rw [continued_comment_cons_cons]
      have := (is_plain_comment_byte_iff x).1 (hall (x :: xs) (by simp) x (by simp))
      simpa [rd] using this.2.1

/-- The loop of `skip_line_comment` does not tell an escaped newline before
the peeked character from the position being two bytes further. -/
theorem skip_line_comment_loop_skip (fuel : Nat) (lex : Lexer) (p c s : Nat) (hc : c ≠ 0) :
    skip_line_comment_loop fuel lex p c (s + 2) = skip_line_comment_loop fuel lex (p + 2) c s := by
  cases fuel with
  | zero => rfl
  | succ f =>
    simp only [skip_line_comment_loop, if_neg hc]
    rw [show p + (s + 2) = p + 2 + s by omega]

/-- The loop of `skip_line_comment` over a comment continued by escaped
newlines: it ends after the first LF that is not escaped. -/
theorem skip_line_comment_loop_continued (lex : Lexer) (R : List Nat) :
    ∀ (segs : List (List Nat)) (fuel p c sz : Nat), segs ≠ [] →
      lex.buf.drop p = continued_comment segs ++ 10 :: R →
      (∀ seg ∈ segs, ∀ x ∈ seg, is_plain_comment_byte x = true) →
      peek_char_and_size lex.buf p = some (c, sz) →
      (continued_comment segs).length < fuel →
      skip_line_comment_loop fuel lex p c sz =
        some (lex, p + (continued_comment segs).length + 1) := by
  intro segs
  induction segs with
  | nil => intro fuel p c sz h; exact absurd rfl h
  | cons seg rest ih =>
    induction seg with
    | nil =>
      intro fuel p c sz _ hdrop hall hpk hf
      cases rest with
      | nil =>
        simp only [continued_comment, List.nil_append] at hdrop
        have hrd : rd lex.buf p = 10 := rd_of_drop_cons _ _ _ _ hdrop
        rw [peek_char_and_size_of_ne _ _ (by rw [hrd]; decide), hrd] at hpk
        simp only [Option.some.injEq, Prod.mk.injEq] at hpk
        obtain ⟨rfl, rfl⟩ := hpk
        obtain ⟨f, rfl⟩ : ∃ f, fuel = f + 1 := ⟨fuel - 1, by omega⟩
        simp [skip_line_comment_loop, is_newline, continued_comment]
      | cons seg2 rest' =>
        simp only [continued_comment, List.nil_append, List.cons_append] at hdrop
        have h0 : rd lex.buf p = 92 := rd_of_drop_cons _ _ _ _ hdrop
        have hd1 := drop_succ_of_drop_cons _ _ _ _ hdrop
        have h1 : rd lex.buf (p + 1) = 10 := rd_of_drop_cons _ _ _ _ hd1
        have hd2 : lex.buf.drop (p + 2) = continued_comment (seg2 :: rest') ++ 10 :: R :=
          drop_succ_of_drop_cons _ _ _ _ hd1
        have hall' : ∀ seg ∈ seg2 :: rest', ∀ x ∈ seg, is_plain_comment_byte x = true :=
          fun seg hs => hall seg (by simp [hs])
        have h2 : rd lex.buf (p + 2) ≠ 13 := by
          have := rd_add_eq_rd_drop lex.buf (p + 2) 0
          rw [Nat.add_zero, hd2] at this
          rw [this]
          exact continued_comment_head_ne_cr _ R hall'
        rw [peek_char_and_size_escaped_lf _ _ h0 h1 h2] at hpk
        simp only [Option.map_eq_some', Prod.mk.injEq] at hpk
        obtain ⟨⟨c', s'⟩, hpk', rfl, rfl⟩ := hpk
        have hlen : (continued_comment ([] :: seg2 :: rest')).length =
            (continued_comment (seg2 :: rest')).length + 2 := by
          simp [continued_comment]
        rw [hlen] at hf ⊢
        have hrec := ih fuel (p + 2) c' s' (by simp) hd2 hall' hpk' (by omega)
        have hc : c' ≠ 0 := by
          rintro rfl
          obtain ⟨f, rfl⟩ : ∃ f, fuel = f + 1 := ⟨fuel - 1, by omega⟩
          simp only [skip_line_comment_loop, is_newline, Option.some.injEq, Prod.mk.injEq] at hrec
          simp at hrec
          omega
        rw [skip_line_comment_loop_skip _ _ _ _ _ hc, hrec]
        congr 3
        omega
    | cons x xs ihx =>
      intro fuel p c sz _ hdrop hall hpk hf
      rw [continued_comment_cons_cons] at hdrop hf ⊢
      have hrd : rd lex.buf p = x := rd_of_drop_cons _ _ _ _ (by simpa using hdrop)
      have hx := (is_plain_comment_byte_iff x).1 (hall (x :: xs) (by simp) x (by simp))
      have hdrop' : lex.buf.drop (p + 1) = continued_comment (xs :: rest) ++ 10 :: R :=
        drop_succ_of_drop_cons _ _ _ _ (by simpa using hdrop)
      rw [peek_char_and_size_of_ne _ _ (by rw [hrd]; exact hx.2.2.2), hrd] at hpk
      simp only [Option.some.injEq, Prod.mk.injEq] at hpk
      obtain ⟨rfl, rfl⟩ := hpk
      obtain ⟨f, rfl⟩ : ∃ f, fuel = f + 1 := ⟨fuel - 1, by simp at hf; omega⟩
      obtain ⟨c', s', hpk'⟩ := peek_char_and_size_isSome lex.buf (p + 1)
      rw [skip_line_comment_loop, if_neg (by simp [is_newline, hx.1, hx.2.1]),
        if_neg hx.2.2.1]
      simp only [Option.bind_eq_bind]
      rw [hpk']
      simp only [Option.some_bind]
      rw [ihx f (p + 1) c' s' (by simp) hdrop'
        (fun seg hs y hy => by
          rcases List.mem_cons.1 hs with h | hs
          · exact hall (x :: xs) (by simp) y (by rw [h] at hy; simp [hy])
          · exact hall seg (by simp [hs]) y hy)
        hpk' (by simp at hf; omega)]
      simp only [List.length_cons]
      congr 3
      omega

/-- After `/` and a peeked `/`, the switch skips a line comment and lexes
again from its end. -/
theorem lex_token_switch_line_comment
    (relex : Lexer → Nat → Token → Option (Bool × Lexer × Token))
    (lex : Lexer) (p : Nat) (result : Token) (s : Nat)
    (hpk : peek_char_and_size lex.buf p = some (47, s)) :
    lex_token_switch relex lex p result 47 =
      (skip_line_comment lex (p + s)).bind
        (fun r => relex { r.1 with buffer_ptr := r.2 } r.2 result) := by
  simp [lex_token_switch, hpk]

/-- After `/` and a peeked `*`, the switch skips a block comment and lexes
again from its end. -/
theorem lex_token_switch_block_comment
    (relex : Lexer → Nat → Token → Option (Bool × Lexer × Token))
    (lex : Lexer) (p : Nat) (result : Token) (s : Nat)
    (hpk : peek_char_and_size lex.buf p = some (42, s)) :
    lex_token_switch relex lex p result 47 =
      (skip_block_comment lex (p + s)).bind
        (fun r => relex { r.1 with buffer_ptr := r.2 } r.2 result) := by
  simp [lex_token_switch, hpk]

/-- Lexing from the start of a buffer `pre ++ R`, when the first thing the
dispatcher does is to lex again from the end of `pre`, is lexing `R`, moved
past `pre`. -/
theorem lex_of_skipped_prefix (pre R : List Nat) (f : Nat)
    (hf : fuel_at (pre ++ R) 0 = f + 1)
    (h : lex_token (f + 1) { buf := pre ++ R } 0 {} =
      lex_token f { buf := pre ++ R, buffer_ptr := pre.length } pre.length {}) :
    Lexer.lex { buf := pre ++ R } {} =
      (Lexer.lex { buf := R } {}).map (shift_result pre) := by
  unfold Lexer.lex
  simp only []
  rw [hf, h]
  have e : ({ buf := pre ++ R, buffer_ptr := pre.length } : Lexer) =
      ({ buf := R } : Lexer).shift pre := rfl
  rw [e, show pre.length = pre.length + 0 from rfl, lex_token_append]
  rw [lex_token_fuel_irrelevant f (fuel_at R 0) { buf := R } 0 {}
    (by simp [fuel_at] at hf ⊢; omega) (by simp [fuel_at])]

/-- If the first call of `lex` on `pre ++ R` is the first call on `R`, moved,
then both buffers give the same tokens and diagnostics. -/
theorem lex_all_of_skipped_prefix (pre R : List Nat)
    (h : Lexer.lex { buf := pre ++ R } {} =
      (Lexer.lex { buf := R } {}).map (shift_result pre)) :
    ∀ n, lex_all n { buf := pre ++ R } = lex_all n { buf := R } := by
  intro n
  cases n with
  | zero => rfl
  | succ n =>
    simp only [lex_all, h]
    cases Lexer.lex { buf := R } {} with
    | none => rfl
    | some r =>
      obtain ⟨b, lx, t⟩ := r
      cases b with
      | false => simp [shift_result, Lexer.shift_diag_codes]
      | true =>
        simp only [Option.map_some', shift_result, if_true, lex_all_shift,
          Token.spelling_shift]
        rfl

/-- Lexing `//` + body + `nl` + `R`, for a body of plain bytes or a body
continued over several physical lines by escaped newlines, gives what lexing
`R` gives. -/
theorem line_comment_skipped_eq :
    (∀ (body R : List Nat) (nl n : Nat),
      (∀ c ∈ body, is_plain_comment_byte c = true) → is_newline nl = true →
      lex_all n { buf := str "//" ++ body ++ nl :: R } = lex_all n { buf := R }) ∧
    (∀ (segs : List (List Nat)) (R : List Nat) (n : Nat), segs ≠ [] →
      (∀ seg ∈ segs, ∀ c ∈ seg, is_plain_comment_byte c = true) →
      lex_all n { buf := str "//" ++ continued_comment segs ++ 10 :: R } =
        lex_all n { buf := R }) := by
  have key : ∀ (text R : List Nat) (nl : Nat),
      skip_line_comment { buf := (47 :: 47 :: text ++ [nl]) ++ R } 2 =
        some ({ buf := (47 :: 47 :: text ++ [nl]) ++ R }, (47 :: 47 :: text ++ [nl]).length) →
      ∀ n, lex_all n { buf := (47 :: 47 :: text ++ [nl]) ++ R } = lex_all n { buf := R } := by
    intro text R nl hskip
    apply lex_all_of_skipped_prefix
    apply lex_of_skipped_prefix _ _ (text.length + 1 + R.length + 4)
      (by simp [fuel_at]; omega)
    have hpk : peek_char_and_size ((47 :: 47 :: text ++ [nl]) ++ R) 1 = some (47, 1) :=
      peek_char_and_size_of_ne _ _ (by simp [rd])
    rw [lex_token_of_plain _ _ _ _ (by rfl) (by simp [rd])]
    rw [show rd ({ buf := (47 :: 47 :: text ++ [nl]) ++ R } : Lexer).buf 0 = 47 from rfl,
      lex_token_switch_line_comment _ { buf := (47 :: 47 :: text ++ [nl]) ++ R } 1 {} 1 hpk]
    simp only []
    rw [hskip]
    rfl
  constructor
  · intro body R nl n hbody hnl
    have e : str "//" ++ body ++ nl :: R = (47 :: 47 :: body ++ [nl]) ++ R := by
      simp [str]
    rw [e]
    apply key
    unfold skip_line_comment
    have hdrop : ({ buf := (47 :: 47 :: body ++ [nl]) ++ R } : Lexer).buf.drop 2 =
        body ++ nl :: R := by simp
    have hne : rd ({ buf := (47 :: 47 :: body ++ [nl]) ++ R } : Lexer).buf 2 ≠ 92 := by
      cases body with
      | nil =>
        simp only [rd]
        intro h
        simp at h
        rw [h] at hnl
        simp [is_newline] at hnl
      | cons x xs =>
        have := (is_plain_comment_byte_iff x).1 (hbody x (by simp))
        simpa [rd] using this.2.2.2
    rw [peek_char_and_size_of_ne _ _ hne]
    simp only [Option.bind_eq_bind, Option.some_bind]
    rw [skip_line_comment_loop_plain _ body _ 2 nl R hdrop hbody hnl
      (by simp [fuel_at]; omega)]
    simp
    omega
  · intro segs R n hne hall
    have e : str "//" ++ continued_comment segs ++ 10 :: R =
        (47 :: 47 :: continued_comment segs ++ [10]) ++ R := by
      simp [str]
    rw [e]
    apply key
    unfold skip_line_comment
    have hdrop : ({ buf := (47 :: 47 :: continued_comment segs ++ [10]) ++ R } : Lexer).buf.drop 2 =
        continued_comment segs ++ 10 :: R := by simp
    obtain ⟨c, s, hpk⟩ := peek_char_and_size_isSome
      ({ buf := (47 :: 47 :: continued_comment segs ++ [10]) ++ R } : Lexer).buf 2
    rw [hpk]
    simp only [Option.bind_eq_bind, Option.some_bind]
    rw [skip_line_comment_loop_continued _ R segs _ 2 c s hne hdrop hall hpk
      (by simp [fuel_at]; omega)]
    simp
    omega

/-! ## C8: block comments -/

/-- The loop of `skip_block_comment` over a body without `*/`, NUL or
backslash, followed by `*/`: it ends right after that `*/`. -/
theorem skip_block_comment_loop_plain (lex : Lexer) (R : List Nat) (body : List Nat) :
    ∀ (fuel p prev : Nat),
      lex.buf.drop p = body ++ 42 :: 47 :: R →
      (∀ c ∈ body, c ≠ 0 ∧ c ≠ 92) → no_star_slash (prev :: body) = true →
      body.length + 1 < fuel →
      skip_block_comment_loop fuel lex p (rd lex.buf p) 1 prev =
        some (lex, p + body.length + 2) := by
  induction body with
  | nil =>
    intro fuel p prev hdrop _ _ hf
    obtain ⟨f, rfl⟩ : ∃ f, fuel = f + 2 := ⟨fuel - 2, by simp at hf; omega⟩
    have h0 : rd lex.buf p = 42 := rd_of_drop_cons _ _ _ _ (by simpa using hdrop)
    have hd1 := drop_succ_of_drop_cons lex.buf p 42 _ (by simpa using hdrop)
    have h1 : rd lex.buf (p + 1) = 47 := rd_of_drop_cons _ _ _ _ hd1
    rw [skip_block_comment_loop, h0, if_neg (by omega), if_neg (by decide)]
    simp only [Option.bind_eq_bind]
    rw [peek_char_and_size_of_ne _ _ (by rw [h1]; decide), h1]
    simp [skip_block_comment_loop]
  | cons x xs ih =>
    intro fuel p prev hdrop hall hns hf
    obtain ⟨f, rfl⟩ : ∃ f, fuel = f + 1 := ⟨fuel - 1, by simp at hf; omega⟩
    have hrd : rd lex.buf p = x := rd_of_drop_cons _ _ _ _ (by simpa using hdrop)
    have hx := hall x (by simp)
    have hdrop' : lex.buf.drop (p + 1) = xs ++ 42 :: 47 :: R :=
      drop_succ_of_drop_cons _ _ _ _ (by simpa using hdrop)
    simp only [no_star_slash, Bool.and_eq_true, Bool.not_eq_true', Bool.and_eq_false_iff,
      beq_eq_false_iff_ne] at hns
    have hnext : rd lex.buf (p + 1) ≠ 92 := by
      cases xs with
      | nil =>
        rw [rd_of_drop_cons _ _ _ _ (by simpa using hdrop')]
        decide
      | cons y ys =>
        rw [rd_of_drop_cons _ _ _ _ (by simpa using hdrop')]
        exact (hall y (by simp)).2
    rw [skip_block_comment_loop, hrd,
      if_neg (by rintro ⟨h1, h2⟩; rcases hns.1 with h | h <;> omega), if_neg hx.1]
    simp only [Option.bind_eq_bind]
    rw [peek_char_and_size_of_ne _ _ hnext]
    simp only [Option.some_bind]
    rw [ih f (p + 1) x hdrop' (fun c hc => hall c (by simp [hc])) hns.2
      (by simp at hf; omega)]
    simp only [List.length_cons]
    congr 3
    omega

theorem no_star_slash_double (body : List Nat) (h : no_star_slash body = true) :
    no_star_slash (rd (body ++ [42]) 0 :: body) = true := by
  cases body with
  | nil => rfl
  | cons x xs =>
    have e : rd (x :: xs ++ [42]) 0 = x := rfl
    rw [e]
    simp only [no_star_slash, Bool.and_eq_true, Bool.not_eq_true', Bool.and_eq_false_iff,
      beq_eq_false_iff_ne]
    refine ⟨?_, h⟩
    by_cases hx : x = 42
    · right; omega
    · left; exact hx

/-- Lexing `/*` + body + `*/` + `R`, for a body without NUL, backslash and
`*/`, gives what lexing `R` gives. -/
theorem block_comment_skipped_eq (body R : List Nat) (n : Nat)
    (hbody : ∀ c ∈ body, c ≠ 0 ∧ c ≠ 92) (hns : no_star_slash body = true) :
    lex_all n { buf := str "/*" ++ body ++ str "*/" ++ R } = lex_all n { buf := R } := by
  have e : str "/*" ++ body ++ str "*/" ++ R = (47 :: 42 :: body ++ [42, 47]) ++ R := by
    simp [str]
  rw [e]
  apply lex_all_of_skipped_prefix
  apply lex_of_skipped_prefix _ _ (body.length + 2 + R.length + 4)
    (by simp [fuel_at]; omega)
  have hpk : peek_char_and_size ((47 :: 42 :: body ++ [42, 47]) ++ R) 1 = some (42, 1) :=
    peek_char_and_size_of_ne _ _ (by simp [rd])
  rw [lex_token_of_plain _ _ _ _ (by rfl) (by simp [rd])]
  rw [show rd ({ buf := (47 :: 42 :: body ++ [42, 47]) ++ R } : Lexer).buf 0 = 47 from rfl,
    lex_token_switch_block_comment _ { buf := (47 :: 42 :: body ++ [42, 47]) ++ R } 1 {} 1 hpk]
  have hdrop : ({ buf := (47 :: 42 :: body ++ [42, 47]) ++ R } : Lexer).buf.drop 2 =
      body ++ 42 :: 47 :: R := by simp
  have hrd2 : rd ({ buf := (47 :: 42 :: body ++ [42, 47]) ++ R } : Lexer).buf 2 =
      rd (body ++ [42]) 0 := by
    cases body <;> rfl
  have hne : rd ({ buf := (47 :: 42 :: body ++ [42, 47]) ++ R } : Lexer).buf 2 ≠ 92 := by
    rw [hrd2]
    cases body with
    | nil => decide
    | cons x xs => exact (hbody x (by simp)).2
  have hskip : skip_block_comment { buf := (47 :: 42 :: body ++ [42, 47]) ++ R } 2 =
      some ({ buf := (47 :: 42 :: body ++ [42, 47]) ++ R },
        (47 :: 42 :: body ++ [42, 47]).length) := by
    unfold skip_block_comment
    rw [peek_char_and_size_of_ne _ _ hne]
    simp only [Option.bind_eq_bind, Option.some_bind]
    rw [skip_block_comment_loop_plain _ R body _ 2 _ hdrop hbody
      (by rw [hrd2]; exact no_star_slash_double body hns) (by simp [fuel_at]; omega)]
    simp
    omega
  simp only []
  rw [hskip]
  rfl

/-! ## C10: character constants and their prefixes -/

/-- A character constant with a one-byte body `x`, after a prefix that the
dispatcher has consumed: the scan from the byte after the opening quote. -/
theorem lex_character_constant_one (lex : Lexer) (p : Nat) (result : Token)
    (kind : TokenKind) (x : Nat)
    (hx : rd lex.buf p = x) (hq : rd lex.buf (p + 1) = 39)
    (h1 : x ≠ 39) (h2 : x ≠ 92) (h3 : x ≠ 10) (h4 : x ≠ 13) (h5 : x ≠ 0) :
    lex_character_constant lex p result kind =
      some (true, { lex with buffer_ptr := p + 2 },
        { result with kind := kind, b := lex.buffer_ptr, e := p + 2 }) := by
  unfold lex_character_constant
  rw [peek_char_advance_of_ne _ _ _ (by rw [hx]; exact h2)]
  simp only [Option.bind_eq_bind, Option.some_bind, hx, if_neg h1]
  rw [show fuel_at lex.buf (p + 1) = (lex.buf.length - (p + 1) + 2) + 1 by simp [fuel_at]]
  rw [lex_character_constant_loop]
  simp only [ne_eq, h1, not_false_eq_true, if_true, if_neg h2]
  rw [if_neg (by simp [is_newline, h3, h4, h5])]
  rw [peek_char_advance_of_ne _ _ _ (by rw [hq]; decide)]
  simp only [Option.bind_eq_bind, Option.some_bind, hq]
  rw [show lex.buf.length - (p + 1) + 2 = (lex.buf.length - (p + 1) + 1) + 1 by omega,
    lex_character_constant_loop]
  simp [form_token]

/-- Statement of C10: for every byte `x` other than the single quote,
backslash, LF, CR and NUL, each of `'x'`, `L'x'`, `u'x'`, `U'x'` lexes as
exactly one token covering the whole spelling, of kind `utf8_char_constant`,
`wide_char_constant`, `utf16_char_constant`, `utf32_char_constant`
respectively; and `u8'x'` lexes as the identifier `u8` followed by the
`utf8_char_constant` token `'x'`, after which `lex` returns false. -/
theorem C10_character_constant_prefixes (x : Nat)
    (h1 : x ≠ 39) (h2 : x ≠ 92) (h3 : x ≠ 10) (h4 : x ≠ 13) (h5 : x ≠ 0) :
    lexes_as_one (str "'" ++ x :: str "'") { kind := .utf8_char_constant, b := 0, e := 3 } ∧
    lexes_as_one (str "L'" ++ x :: str "'") { kind := .wide_char_constant, b := 0, e := 4 } ∧
    lexes_as_one (str "u'" ++ x :: str "'") { kind := .utf16_char_constant, b := 0, e := 4 } ∧
    lexes_as_one (str "U'" ++ x :: str "'") { kind := .utf32_char_constant, b := 0, e := 4 } ∧
    (Lexer.lex { buf := str "u8'" ++ x :: str "'" } {} =
        some (true, { buf := str "u8'" ++ x :: str "'", buffer_ptr := 2 },
          { kind := .identifier, b := 0, e := 2 }) ∧
     Lexer.lex { buf := str "u8'" ++ x :: str "'", buffer_ptr := 2 } {} =
        some (true, { buf := str "u8'" ++ x :: str "'", buffer_ptr := 5 },
          { kind := .utf8_char_constant, b := 2, e := 5 }) ∧
     Lexer.lex { buf := str "u8'" ++ x :: str "'", buffer_ptr := 5 } {} =
        some (false, { buf := str "u8'" ++ x :: str "'", buffer_ptr := 5 }, {})) := by
  have e1 : str "'" ++ x :: str "'" = [39, x, 39] := rfl
  have e2 : str "L'" ++ x :: str "'" = [76, 39, x, 39] := rfl
  have e3 : str "u'" ++ x :: str "'" = [117, 39, x, 39] := rfl
  have e4 : str "U'" ++ x :: str "'" = [85, 39, x, 39] := rfl
  have e5 : str "u8'" ++ x :: str "'" = [117, 56, 39, x, 39] := rfl
  rw [e1, e2, e3, e4, e5]
  refine ⟨⟨?_, ?_⟩, ⟨?_, ?_⟩, ⟨?_, ?_⟩, ⟨?_, ?_⟩, ?_, ?_, ?_⟩
  · unfold Lexer.lex
    rw [show fuel_at [39, x, 39] 0 = 5 + 1 from rfl,
      lex_token_of_plain _ _ _ _ (by rfl) (by simp [rd])]
    show lex_character_constant _ _ _ _ = _
    rw [lex_character_constant_one _ _ _ _ x (by rfl) (by rfl) h1 h2 h3 h4 h5]
  · exact lex_token_at_nul _ _ _ _ rfl
  · unfold Lexer.lex
    rw [show fuel_at [76, 39, x, 39] 0 = 6 + 1 from rfl,
      lex_token_of_plain _ _ _ _ (by rfl) (by simp [rd])]
    simp [lex_token_switch, rd, peek_char_and_size_of_ne, consume_char_one, is_digit]
    rw [lex_character_constant_one _ _ _ _ x (by rfl) (by rfl) h1 h2 h3 h4 h5]
  · exact lex_token_at_nul _ _ _ _ rfl
  · unfold Lexer.lex
    rw [show fuel_at [117, 39, x, 39] 0 = 6 + 1 from rfl,
      lex_token_of_plain _ _ _ _ (by rfl) (by simp [rd])]
    simp [lex_token_switch, rd, peek_char_and_size_of_ne, consume_char_one, is_digit]
    rw [lex_character_constant_one _ _ _ _ x (by rfl) (by rfl) h1 h2 h3 h4 h5]
  · exact lex_token_at_nul _ _ _ _ rfl
  · unfold Lexer.lex
    rw [show fuel_at [85, 39, x, 39] 0 = 6 + 1 from rfl,
      lex_token_of_plain _ _ _ _ (by rfl) (by simp [rd])]
    simp [lex_token_switch, rd, peek_char_and_size_of_ne, consume_char_one, is_digit]
    rw [lex_character_constant_one _ _ _ _ x (by rfl) (by rfl) h1 h2 h3 h4 h5]
  · exact lex_token_at_nul _ _ _ _ rfl
  · unfold Lexer.lex
    rw [show fuel_at [117, 56, 39, x, 39] 0 = 7 + 1 from rfl,
      lex_token_of_plain _ _ _ _ (by rfl) (by simp [rd])]
    rfl
  · unfold Lexer.lex
    rw [show fuel_at [117, 56, 39, x, 39] 2 = 5 + 1 from rfl,
      lex_token_of_plain _ _ _ _ (by rfl) (by simp [rd])]
    show lex_character_constant _ _ _ _ = _
    rw [lex_character_constant_one _ _ _ _ x (by rfl) (by rfl) h1 h2 h3 h4 h5]
  · exact lex_token_at_nul _ _ _ _ rfl

/-- Witness of C10 at the byte `x`. -/
theorem C10_character_constant_prefixes_witness :
    lexes_as_one (str "'x'") { kind := .utf8_char_constant, b := 0, e := 3 } ∧
    lexes_as_one (str "L'x'") { kind := .wide_char_constant, b := 0, e := 4 } ∧
    lexes_as_one (str "u'x'") { kind := .utf16_char_constant, b := 0, e := 4 } ∧
    lexes_as_one (str "U'x'") { kind := .utf32_char_constant, b := 0, e := 4 } ∧
    (Lexer.lex { buf := str "u8'x'" } {} =
        some (true, { buf := str "u8'x'", buffer_ptr := 2 },
          { kind := .identifier, b := 0, e := 2 }) ∧
     Lexer.lex { buf := str "u8'x'", buffer_ptr := 2 } {} =
        some (true, { buf := str "u8'x'", buffer_ptr := 5 },
          { kind := .utf8_char_constant, b := 2, e := 5 }) ∧
     Lexer.lex { buf := str "u8'x'", buffer_ptr := 5 } {} =
        some (false, { buf := str "u8'x'", buffer_ptr := 5 }, {})) :=
  C10_character_constant_prefixes 120 (by decide) (by decide) (by decide) (by decide) (by decide)

/-! ## Peeking, consuming and advancing agree -/

theorem peek_char_and_size_nontrivial_char (buf : List Nat) :
    ∀ (fuel p size : Nat) (tok : Option Token) (c s : Nat) (t : Option Token),
      peek_char_and_size_nontrivial buf fuel p size tok = some (c, s, t) →
        size + 1 ≤ s ∧ rd buf (p + (s - size) - 1) = c := by
  intro fuel
  induction fuel with
  | zero => intro p size tok c s t h; simp [peek_char_and_size_nontrivial] at h
  | succ f ih =>
    intro p size tok c s t h
    simp only [peek_char_and_size_nontrivial] at h
    split at h
    · rename_i h92
      split at h
      · simp only [Option.some.injEq, Prod.mk.injEq] at h
        obtain ⟨rfl, rfl, -⟩ := h
        exact ⟨Nat.le_refl _, by simpa using h92⟩
      · split at h
        · obtain ⟨h1, h2⟩ := ih _ _ _ _ _ _ h
          refine ⟨by omega, ?_⟩
          rw [← h2]
          congr 1
          omega
        · simp only [Option.some.injEq, Prod.mk.injEq] at h
          obtain ⟨rfl, rfl, -⟩ := h
          exact ⟨Nat.le_refl _, by simpa using h92⟩
    · simp only [Option.some.injEq, Prod.mk.injEq] at h
      obtain ⟨rfl, rfl, -⟩ := h
      exact ⟨Nat.le_refl _, by simp⟩

/-- A peeked character is the raw byte that ends the peeked bytes. -/
theorem peek_char_and_size_char (buf : List Nat) (p c s : Nat)
    (h : peek_char_and_size buf p = some (c, s)) : 1 ≤ s ∧ rd buf (p + s - 1) = c := by
  unfold peek_char_and_size at h
  split at h
  · simp only [Option.some.injEq, Prod.mk.injEq] at h
    obtain ⟨rfl, rfl⟩ := h
    exact ⟨Nat.le_refl _, rfl⟩
  · simp only [Option.bind_eq_bind, Option.bind_eq_some] at h
    obtain ⟨⟨c', s', t⟩, h1, h2⟩ := h
    simp only [Option.some.injEq, Prod.mk.injEq] at h2
    obtain ⟨rfl, rfl⟩ := h2
    have := peek_char_and_size_nontrivial_char _ _ _ _ _ _ _ _ h1
    exact ⟨this.1, by simpa using this.2⟩

/-- A peeked character other than NUL lies inside the buffer. -/
theorem peek_char_and_size_le (buf : List Nat) (p c s : Nat)
    (h : peek_char_and_size buf p = some (c, s)) (hc : c ≠ 0) : p + s ≤ buf.length := by
  obtain ⟨h1, h2⟩ := peek_char_and_size_char buf p c s h
  by_contra hlt
  rw [rd_of_length_le buf _ (by omega)] at h2
  exact hc h2.symm

theorem peek_char_and_size_nontrivial_some_tok (buf : List Nat) :
    ∀ (fuel p size c s : Nat) (x : Option Token),
      peek_char_and_size_nontrivial buf fuel p size none = some (c, s, x) →
      ∀ tok : Token, ∃ t : Token,
        peek_char_and_size_nontrivial buf fuel p size (some tok) = some (c, s, some t) := by
  intro fuel
  induction fuel with
  | zero => intro p size c s x h; simp [peek_char_and_size_nontrivial] at h
  | succ f ih =>
    intro p size c s x h tok
    simp only [peek_char_and_size_nontrivial] at h ⊢
    split at h
    · rename_i h92
      rw [if_pos h92]
      split at h
      · rename_i hw
        rw [if_pos hw]
        simp only [Option.some.injEq, Prod.mk.injEq] at h
        obtain ⟨rfl, rfl, -⟩ := h
        exact ⟨tok, rfl⟩
      · rename_i hw
        rw [if_neg hw]
        split at h
        · rename_i he
          rw [if_pos he]
          exact ih _ _ _ _ _ h _
        · rename_i he
          rw [if_neg he]
          simp only [Option.some.injEq, Prod.mk.injEq] at h
          obtain ⟨rfl, rfl, -⟩ := h
          exact ⟨tok, rfl⟩
    · rename_i h92
      rw [if_neg h92]
      simp only [Option.some.injEq, Prod.mk.injEq] at h
      obtain ⟨rfl, rfl, -⟩ := h
      exact ⟨tok, rfl⟩

/-- `consume_char` with a peeked size moves the pointer by that size. -/
theorem consume_char_of_peek (buf : List Nat) (p c s : Nat)
    (h : peek_char_and_size buf p = some (c, s)) (tok : Token) :
    ∃ t, consume_char buf p s tok = some (p + s, t) := by
  unfold consume_char
  by_cases h1 : s = 1
  · exact ⟨tok, by rw [if_pos h1]⟩
  · rw [if_neg h1]
    unfold peek_char_and_size at h
    split at h
    · simp only [Option.some.injEq, Prod.mk.injEq] at h
      exact absurd h.2.symm h1
    · simp only [Option.bind_eq_bind, Option.bind_eq_some] at h
      obtain ⟨⟨c', s', x⟩, h2, h3⟩ := h
      simp only [Option.some.injEq, Prod.mk.injEq] at h3
      obtain ⟨rfl, rfl⟩ := h3
      obtain ⟨t, ht⟩ := peek_char_and_size_nontrivial_some_tok _ _ _ _ _ _ _ h2 tok
      exact ⟨t, by simp [ht]⟩

/-- `peek_char_advance` returns the peeked character and moves the pointer
by the peeked size. -/
theorem peek_char_advance_of_peek (buf : List Nat) (p c s : Nat)
    (h : peek_char_and_size buf p = some (c, s)) (tok : Token) :
    ∃ t, peek_char_advance buf p tok = some (c, p + s, t) := by
  unfold peek_char_advance
  unfold peek_char_and_size at h
  split at h
  · rename_i ht
    rw [if_pos ht]
    simp only [Option.some.injEq, Prod.mk.injEq] at h
    obtain ⟨rfl, rfl⟩ := h
    exact ⟨tok, rfl⟩
  · rename_i ht
    rw [if_neg ht]
    simp only [Option.bind_eq_bind, Option.bind_eq_some] at h
    obtain ⟨⟨c', s', x⟩, h2, h3⟩ := h
    simp only [Option.some.injEq, Prod.mk.injEq] at h3
    obtain ⟨rfl, rfl⟩ := h3
    obtain ⟨t, ht'⟩ := peek_char_and_size_nontrivial_some_tok _ _ _ _ _ _ _ h2 tok
    exact ⟨t, by simp [ht']⟩


/-! ## Universal character names are read to the end -/

theorem hexdigit_value_ne_zero (c v : Nat) (h : hexdigit_value c = some v) : c ≠ 0 := by
  rintro rfl
  have h0 : hexdigit_value 0 = none := by decide
  rw [h0] at h
  cases h

theorem read_hexdigits_total (buf : List Nat) :
    ∀ (n p cp : Nat), ∃ r, read_hexdigits buf n p cp = some r := by
  intro n
  induction n with
  | zero => intro p cp; exact ⟨_, rfl⟩
  | succ n ih =>
    intro p cp
    obtain ⟨c, s, hp⟩ := peek_char_and_size_isSome buf p
    simp only [read_hexdigits, hp, Option.bind_eq_bind, Option.some_bind]
    cases hexdigit_value c with
    | none => exact ⟨_, rfl⟩
    | some v => exact ih _ _

theorem read_hexdigits_range (buf : List Nat) :
    ∀ (n p cp q cp' : Nat), read_hexdigits buf n p cp = some (some (q, cp')) →
      p ≤ q ∧ (q = p ∨ q ≤ buf.length) ∧ (n ≠ 0 → p + 1 ≤ q) := by
  intro n
  induction n with
  | zero =>
    intro p cp q cp' h
    simp only [read_hexdigits, Option.some.injEq, Prod.mk.injEq] at h
    obtain ⟨rfl, -⟩ := h
    exact ⟨Nat.le_refl _, Or.inl rfl, fun h => absurd rfl h⟩
  | succ n ih =>
    intro p cp q cp' h
    simp only [read_hexdigits, Option.bind_eq_bind, Option.bind_eq_some] at h
    obtain ⟨⟨c, s⟩, hp, h2⟩ := h
    cases hv : hexdigit_value c with
    | none => simp [hv] at h2
    | some v =>
      simp only [hv] at h2
      obtain ⟨h3, h4, -⟩ := ih _ _ _ _ h2
      have hs := (peek_char_and_size_char buf p c s hp).1
      have hl := peek_char_and_size_le buf p c s hp (hexdigit_value_ne_zero c v hv)
      refine ⟨by omega, Or.inr ?_, fun _ => by omega⟩
      rcases h4 with h4 | h4 <;> omega

theorem advance_until_read_hexdigits (buf : List Nat) :
    ∀ (n p cp q cp' : Nat), read_hexdigits buf n p cp = some (some (q, cp')) →
      ∀ (fuel : Nat) (tok : Token), q - p + 1 ≤ fuel →
        ∃ t, advance_until buf fuel p q tok = some (q, t) := by
  intro n
  induction n with
  | zero =>
    intro p cp q cp' h fuel tok hf
    simp only [read_hexdigits, Option.some.injEq, Prod.mk.injEq] at h
    obtain ⟨rfl, -⟩ := h
    obtain ⟨f, rfl⟩ : ∃ f, fuel = f + 1 := ⟨fuel - 1, by omega⟩
    exact ⟨tok, by simp [advance_until]⟩
  | succ n ih =>
    intro p cp q cp' h fuel tok hf
    simp only [read_hexdigits, Option.bind_eq_bind, Option.bind_eq_some] at h
    obtain ⟨⟨c, s⟩, hp, h2⟩ := h
    cases hv : hexdigit_value c with
    | none => simp [hv] at h2
    | some v =>
      simp only [hv] at h2
      obtain ⟨h3, -, -⟩ := read_hexdigits_range _ _ _ _ _ _ h2
      have hs := (peek_char_and_size_char buf p c s hp).1
      obtain ⟨f, rfl⟩ : ∃ f, fuel = f + 1 := ⟨fuel - 1, by omega⟩
      obtain ⟨t, ht⟩ := peek_char_advance_of_peek buf p c s hp tok
      simp only [advance_until]
      rw [if_pos (by omega)]
      simp only [ht, Option.bind_eq_bind, Option.some_bind]
      exact ih _ _ _ _ h2 f t (by omega)

/-- `try_read_ucn` without a token returns; when it returns a code point
other than 0, the pointer it returns is inside the buffer and is reached from
`start_ptr` by whole logical characters. -/
theorem try_read_ucn_none_spec (lex : Lexer) (start slash : Nat) :
    ∃ cp q lx, try_read_ucn lex start slash none = some (cp, q, lx, none) ∧
      lx.buf = lex.buf ∧ lx.buffer_ptr = lex.buffer_ptr ∧ start ≤ q ∧
      (cp ≠ 0 → start + 1 ≤ q ∧ q ≤ lex.buf.length ∧
        ∀ (fuel : Nat) (tok : Token), q - start + 1 ≤ fuel →
          ∃ t, advance_until lex.buf fuel start q tok = some (q, t)) := by
  unfold try_read_ucn
  obtain ⟨kind, cs, hp⟩ := peek_char_and_size_isSome lex.buf start
  simp only [hp, Option.bind_eq_bind, Option.some_bind]
  generalize (if kind = 117 then 4 else if kind = 85 then 8 else 0) = n
  by_cases hn : n = 0
  · rw [if_pos hn]
    exact ⟨0, start, lex, rfl, rfl, rfl, Nat.le_refl _, fun h => absurd rfl h⟩
  · rw [if_neg hn]
    obtain ⟨r, hr⟩ := read_hexdigits_total lex.buf n (start + cs) 0
    rw [hr]
    cases r with
    | none =>
      exact ⟨0, start, _, rfl, rfl, rfl, Nat.le_refl _, fun h => absurd rfl h⟩
    | some r =>
      obtain ⟨q, cp⟩ := r
      obtain ⟨h1, h2, h3⟩ := read_hexdigits_range _ _ _ _ _ _ hr
      have hs := (peek_char_and_size_char lex.buf start kind cs hp).1
      have h3 := h3 hn
      have hq : q ≤ lex.buf.length := by rcases h2 with h2 | h2 <;> omega
      have hadv : ∀ (fuel : Nat) (tok : Token), q - start + 1 ≤ fuel →
          ∃ t, advance_until lex.buf fuel start q tok = some (q, t) := by
        intro fuel tok hf
        obtain ⟨f, rfl⟩ : ∃ f, fuel = f + 1 := ⟨fuel - 1, by omega⟩
        obtain ⟨t, ht⟩ := peek_char_advance_of_peek lex.buf start kind cs hp tok
        simp only [advance_until]
        rw [if_pos (by omega)]
        simp only [ht, Option.bind_eq_bind, Option.some_bind]
        exact advance_until_read_hexdigits _ _ _ _ _ _ hr f t (by omega)
      simp only [Option.some_bind]
      split_ifs
      · exact ⟨0, q, _, rfl, rfl, rfl, by omega, fun h => absurd rfl h⟩
      · exact ⟨cp, q, _, rfl, rfl, rfl, by omega, fun _ => ⟨by omega, hq, hadv⟩⟩
      · exact ⟨0, q, _, rfl, rfl, rfl, by omega, fun h => absurd rfl h⟩
      · exact ⟨cp, q, _, rfl, rfl, rfl, by omega, fun _ => ⟨by omega, hq, hadv⟩⟩

/-- `try_advance_identifier_ucn` called at a peeked backslash returns; on
success the pointer has moved forward and stays inside the buffer, on failure
it is unchanged. -/
theorem try_advance_identifier_ucn_spec (lex : Lexer) (p size : Nat) (result : Token)
    (hp : peek_char_and_size lex.buf p = some (92, size)) :
    ∃ ok q lx t, try_advance_identifier_ucn lex p size result = some (ok, q, lx, t) ∧
      lx.buf = lex.buf ∧ lx.buffer_ptr = lex.buffer_ptr ∧
      (ok = true → p + 1 ≤ q ∧ q ≤ lex.buf.length) ∧ (ok = false → q = p) := by
  unfold try_advance_identifier_ucn
  obtain ⟨cp, q, lx, h, hbuf, hptr, hge, hcp⟩ := try_read_ucn_none_spec lex (p + size) p
  have hs := (peek_char_and_size_char lex.buf p 92 size hp).1
  simp only [h, Option.bind_eq_bind, Option.some_bind]
  by_cases h0 : cp = 0
  · rw [if_pos h0]
    exact ⟨false, p, lx, result, rfl, hbuf, hptr, (fun h => by cases h), fun _ => rfl⟩
  · rw [if_neg h0]
    obtain ⟨h1, h2, h3⟩ := hcp h0
    split_ifs
    · exact ⟨true, q, lx, result, rfl, hbuf, hptr, fun _ => ⟨by omega, h2⟩, fun h => by cases h⟩
    · rw [hbuf]
      obtain ⟨t, ht⟩ := peek_char_advance_of_peek lex.buf p 92 size hp result
      obtain ⟨t', ht'⟩ := h3 (lex.buf.length - p + 2) t (by omega)
      have hadv : advance_until lex.buf (fuel_at lex.buf p) p q result = some (q, t') := by
        rw [show fuel_at lex.buf p = (lex.buf.length - p + 2) + 1 by simp [fuel_at]]
        simp only [advance_until]
        rw [if_pos (by omega)]
        simp only [ht, Option.bind_eq_bind, Option.some_bind]
        exact ht'
      rw [hadv]
      exact ⟨true, q, lx, t', rfl, hbuf, hptr, fun _ => ⟨by omega, h2⟩, fun h => by cases h⟩

/-! ## The scanners return -/

theorem ident_char_ne_zero (c : Nat) (h : (is_nondigit c || is_digit c) = true) : c ≠ 0 := by
  rintro rfl
  exact absurd h (by decide)

theorem ident_fast_total (buf : List Nat) :
    ∀ (fuel p : Nat), buf.length + 1 ≤ fuel + p → 1 ≤ fuel →
      ∃ q, ident_fast buf fuel p = some q ∧ p ≤ q := by
  intro fuel
  induction fuel with
  | zero => intro p _ h; omega
  | succ f ih =>
    intro p h1 _
    simp only [ident_fast]
    split
    · rename_i hc
      have hp : p < buf.length := by
        by_contra hlt
        rw [rd_of_length_le buf p (by omega)] at hc
        exact absurd hc (by decide)
      obtain ⟨q, hq, hle⟩ := ih (p + 1) (by omega) (by omega)
      exact ⟨q, hq, by omega⟩
    · exact ⟨p, rfl, Nat.le_refl _⟩

theorem ident_run_total (buf : List Nat) :
    ∀ (fuel p c s : Nat) (tok : Token), peek_char_and_size buf p = some (c, s) →
      buf.length + 1 ≤ fuel + p → 1 ≤ fuel →
      ∃ q c' s' t, ident_run buf fuel p c s tok = some (q, c', s', t) ∧ p ≤ q ∧
        peek_char_and_size buf q = some (c', s') := by
  intro fuel
  induction fuel with
  | zero => intro p c s tok _ _ h; omega
  | succ f ih =>
    intro p c s tok hp h1 _
    simp only [ident_run]
    split
    · rename_i hc
      have hs := (peek_char_and_size_char buf p c s hp).1
      have hl := peek_char_and_size_le buf p c s hp (ident_char_ne_zero c hc)
      obtain ⟨t, ht⟩ := consume_char_of_peek buf p c s hp tok
      obtain ⟨c1, s1, hp1⟩ := peek_char_and_size_isSome buf (p + s)
      simp only [ht, hp1, Option.bind_eq_bind, Option.some_bind]
      obtain ⟨q, c', s', t', h, hle, hq⟩ := ih (p + s) c1 s1 t hp1 (by omega) (by omega)
      exact ⟨q, c', s', t', h, by omega, hq⟩
    · exact ⟨p, c, s, tok, rfl, Nat.le_refl _, hp⟩

theorem ident_slow_total :
    ∀ (fuel : Nat) (lex : Lexer) (p c s : Nat) (result : Token),
      peek_char_and_size lex.buf p = some (c, s) →
      lex.buf.length + 1 ≤ fuel + p → 1 ≤ fuel →
      ∃ lx q t, ident_slow fuel lex p c s result = some (lx, q, t) ∧ lx.buf = lex.buf ∧
        lx.buffer_ptr = lex.buffer_ptr ∧ p ≤ q := by
  intro fuel
  induction fuel with
  | zero => intro lex p c s result _ _ h; omega
  | succ f ih =>
    intro lex p c s result hp h1 _
    simp only [ident_slow]
    by_cases h92 : c = 92
    · subst h92
      rw [if_pos rfl]
      obtain ⟨ok, q, lx, t, h, hbuf, hptr, hok, hno⟩ :=
        try_advance_identifier_ucn_spec lex p s result hp
      simp only [h, Option.bind_eq_bind, Option.some_bind]
      cases ok with
      | false =>
        have := hno rfl
        exact ⟨lx, q, t, by simp, hbuf, hptr, by omega⟩
      | true =>
        obtain ⟨hq1, hq2⟩ := hok rfl
        obtain ⟨c1, s1, hp1⟩ := peek_char_and_size_isSome lx.buf q
        simp only [hp1, if_true, Option.bind_eq_bind, Option.some_bind]
        have hlen : lx.buf.length = lex.buf.length := by rw [hbuf]
        obtain ⟨lx', q', t', h', hbuf', hptr', hle⟩ :=
          ih lx q c1 s1 t hp1 (by omega) (by omega)
        exact ⟨lx', q', t', h', by rw [hbuf', hbuf], by rw [hptr', hptr], by omega⟩
    · rw [if_neg h92]
      split
      · exact ⟨lex, p, result, rfl, rfl, rfl, Nat.le_refl _⟩
      · rename_i hc
        have hc' : (is_nondigit c || is_digit c) = true := by
          revert hc
          cases (is_nondigit c || is_digit c) <;> simp
        have hs := (peek_char_and_size_char lex.buf p c s hp).1
        have hl := peek_char_and_size_le lex.buf p c s hp (ident_char_ne_zero c hc')
        obtain ⟨t, ht⟩ := consume_char_of_peek lex.buf p c s hp result
        obtain ⟨c1, s1, hp1⟩ := peek_char_and_size_isSome lex.buf (p + s)
        obtain ⟨q, c2, s2, t2, hrun, hle, hq⟩ :=
          ident_run_total lex.buf (fuel_at lex.buf (p + s)) (p + s) c1 s1 t hp1
            (by simp [fuel_at]; omega) (by simp [fuel_at])
        simp only [ht, hp1, hrun, Option.bind_eq_bind, Option.some_bind]
        obtain ⟨lx', q', t', h', hbuf', hptr', hle'⟩ :=
          ih lex q c2 s2 t2 hq (by omega) (by omega)
        exact ⟨lx', q', t', h', hbuf', hptr', by omega⟩

theorem lex_identifier_finish (lex lx : Lexer) (p q : Nat) (t : Token)
    (hbuf : lx.buf = lex.buf) (hptr : lx.buffer_ptr = lex.buffer_ptr) (hle : p ≤ q) :
    ∃ lx' t', (
      if (!(form_token lx t q .identifier).2.flags.HasUCN &&
          !(form_token lx t q .identifier).2.flags.IsDirty) = true then
        match keyword_kind (text_slice (form_token lx t q .identifier).1.buf
            (form_token lx t q .identifier).2.b (form_token lx t q .identifier).2.e) with
        | some kw => some (true, (form_token lx t q .identifier).1,
            { (form_token lx t q .identifier).2 with kind := kw })
        | none => some (true, (form_token lx t q .identifier).1,
            (form_token lx t q .identifier).2)
      else some (true, (form_token lx t q .identifier).1,
            (form_token lx t q .identifier).2)) = some (true, lx', t') ∧
      lx'.buf = lex.buf ∧ lx'.buffer_ptr = t'.e ∧ t'.b = lex.buffer_ptr ∧ p ≤ t'.e := by
  split
  · split
    · exact ⟨_, _, rfl, hbuf, rfl, hptr, hle⟩
    · exact ⟨_, _, rfl, hbuf, rfl, hptr, hle⟩
  · exact ⟨_, _, rfl, hbuf, rfl, hptr, hle⟩

/-- `lex_identifier` returns, for every buffer and position: the token begins
at the token start held by the lexer and ends, at or after `p`, where the
lexer continues. -/
theorem lex_identifier_total (lex : Lexer) (p : Nat) (result : Token) :
    ∃ lx t, lex_identifier lex p result = some (true, lx, t) ∧ lx.buf = lex.buf ∧
      lx.buffer_ptr = t.e ∧ t.b = lex.buffer_ptr ∧ p ≤ t.e := by
  unfold lex_identifier
  obtain ⟨q, hq, hle⟩ := ident_fast_total lex.buf (fuel_at lex.buf p) p
    (by simp [fuel_at]; omega) (by simp [fuel_at])
  simp only [hq, Option.bind_eq_bind, Option.some_bind]
  by_cases h92 : rd lex.buf q = 92
  · rw [if_pos h92]
    obtain ⟨c, s, hp⟩ := peek_char_and_size_isSome lex.buf q
    obtain ⟨lx, q', t, h, hbuf, hptr, hle'⟩ :=
      ident_slow_total (fuel_at lex.buf q) lex q c s result hp
        (by simp [fuel_at]; omega) (by simp [fuel_at])
    simp only [hp, h, Option.bind_eq_bind, Option.some_bind]
    exact lex_identifier_finish lex lx p q' t hbuf hptr (by omega)
  · rw [if_neg h92]
    simp only [Option.some_bind]
    exact lex_identifier_finish lex lex p q result rfl rfl hle

theorem numeric_run_total (buf : List Nat) :
    ∀ (fuel p c s prev : Nat) (tok : Token), peek_char_and_size buf p = some (c, s) →
      buf.length + 1 ≤ fuel + p → 1 ≤ fuel →
      ∃ q c' s' prev' t, numeric_run buf fuel p c s prev tok = some (q, c', s', prev', t) ∧
        peek_char_and_size buf q = some (c', s') ∧
        ((q = p ∧ c' = c ∧ prev' = prev) ∨ (p + 1 ≤ q ∧ q ≤ buf.length)) := by
  intro fuel
  induction fuel with
  | zero => intro p c s prev tok _ _ h; omega
  | succ f ih =>
    intro p c s prev tok hp h1 _
    simp only [numeric_run]
    split
    · rename_i hc
      have hc0 : c ≠ 0 := by
        rintro rfl
        exact absurd hc (by decide)
      have hs := (peek_char_and_size_char buf p c s hp).1
      have hl := peek_char_and_size_le buf p c s hp hc0
      obtain ⟨t, ht⟩ := consume_char_of_peek buf p c s hp tok
      obtain ⟨c1, s1, hp1⟩ := peek_char_and_size_isSome buf (p + s)
      simp only [ht, hp1, Option.bind_eq_bind, Option.some_bind]
      obtain ⟨q, c', s', prev', t', h, hq, hcase⟩ :=
        ih (p + s) c1 s1 c t hp1 (by omega) (by omega)
      refine ⟨q, c', s', prev', t', h, hq, Or.inr ?_⟩
      rcases hcase with ⟨h3, -, -⟩ | ⟨h3, h4⟩ <;> omega
    · exact ⟨p, c, s, prev, tok, rfl, hp, Or.inl ⟨rfl, rfl, rfl⟩⟩

/-- `lex_numeric_constant` returns, for every buffer and position, when its
fuel covers the rest of the buffer: the token begins at the token start held
by the lexer and ends, at or after `p`, where the lexer continues. -/
theorem lex_numeric_constant_total :
    ∀ (fuel : Nat) (lex : Lexer) (p : Nat) (result : Token),
      lex.buf.length + 2 ≤ fuel + p → 1 ≤ fuel →
      ∃ lx t, lex_numeric_constant fuel lex p result = some (true, lx, t) ∧
        lx.buf = lex.buf ∧ lx.buffer_ptr = t.e ∧ t.b = lex.buffer_ptr ∧ p ≤ t.e := by
  intro fuel
  induction fuel with
  | zero => intro lex p result _ h; omega
  | succ f ih =>
    intro lex p result h1 _
    simp only [lex_numeric_constant]
    obtain ⟨c, s, hp⟩ := peek_char_and_size_isSome lex.buf p
    obtain ⟨q, c', s', prev', t, hrun, hq, hcase⟩ :=
      numeric_run_total lex.buf (fuel_at lex.buf p) p c s c result hp
        (by simp [fuel_at]; omega) (by simp [fuel_at])
    simp only [hp, hrun, Option.bind_eq_bind, Option.some_bind]
    have hs := (peek_char_and_size_char lex.buf p c s hp).1
    have hs' := (peek_char_and_size_char lex.buf q c' s' hq).1
    have hpq : p ≤ q := by rcases hcase with ⟨h3, -, -⟩ | ⟨h3, h4⟩ <;> omega
    have hkey : c' ≠ 0 ∨ prev' ≠ 0 → p + 1 ≤ lex.buf.length := by
      intro h0
      rcases hcase with ⟨h3, h4, h5⟩ | ⟨h3, h4⟩
      · have hc0 : c ≠ 0 := by omega
        have := peek_char_and_size_le lex.buf p c s hp hc0
        omega
      · omega
    have hrec : c' ≠ 0 ∨ prev' ≠ 0 →
        ∃ lx t', (consume_char lex.buf q s' t).bind
          (fun x => lex_numeric_constant f lex x.1 x.2) = some (true, lx, t') ∧
          lx.buf = lex.buf ∧ lx.buffer_ptr = t'.e ∧ t'.b = lex.buffer_ptr ∧ p ≤ t'.e := by
      intro h0
      have := hkey h0
      obtain ⟨t1, ht1⟩ := consume_char_of_peek lex.buf q c' s' hq t
      simp only [ht1, Option.some_bind]
      obtain ⟨lx, t', h, hbuf, hptr, hb, he⟩ := ih lex (q + s') t1 (by omega) (by omega)
      exact ⟨lx, t', h, hbuf, hptr, hb, by omega⟩
    by_cases hc1 : (c' = 43 ∨ c' = 45) ∨ (prev' = 101 ∨ prev' = 69)
    · rw [if_pos hc1]
      exact hrec (by omega)
    rw [if_neg hc1]
    by_cases hc2 : (c' = 43 ∨ c' = 45) ∨ (prev' = 112 ∨ prev' = 80)
    · rw [if_pos hc2]
      exact hrec (by omega)
    rw [if_neg hc2]
    by_cases h92 : c' = 92
    · subst h92
      rw [if_pos rfl]
      obtain ⟨ok, q', lx, t', h, hbuf, hptr, hok, hno⟩ :=
        try_advance_identifier_ucn_spec lex q s' t hq
      simp only [h, Option.bind_eq_bind, Option.some_bind]
      cases ok with
      | false =>
        have := hno rfl
        refine ⟨_, _, by simp; exact ⟨rfl, rfl⟩, ?_, rfl, ?_, ?_⟩
        · exact hbuf
        · exact hptr
        · show p ≤ q'
          omega
      | true =>
        obtain ⟨hq1, hq2⟩ := hok rfl
        have hlen : lx.buf.length = lex.buf.length := by rw [hbuf]
        simp only [if_true]
        obtain ⟨lx', t'', h', hbuf', hptr', hb, he⟩ := ih lx q' t' (by omega) (by omega)
        exact ⟨lx', t'', h', by rw [hbuf', hbuf], hptr', by rw [hb, hptr], by omega⟩
    · rw [if_neg h92]
      exact ⟨_, _, rfl, rfl, rfl, rfl, hpq⟩

theorem skip_line_comment_loop_total :
    ∀ (fuel : Nat) (lex : Lexer) (p c s : Nat),
      peek_char_and_size lex.buf p = some (c, s) →
      lex.buf.length + 1 ≤ fuel + p → 1 ≤ fuel →
      ∃ r, skip_line_comment_loop fuel lex p c s = some r := by
  intro fuel
  induction fuel with
  | zero => intro lex p c s _ _ h; omega
  | succ f ih =>
    intro lex p c s hp h1 _
    simp only [skip_line_comment_loop]
    split
    · exact ⟨_, rfl⟩
    · split
      · exact ⟨_, rfl⟩
      · rename_i hc0
        have hs := (peek_char_and_size_char lex.buf p c s hp).1
        have hl := peek_char_and_size_le lex.buf p c s hp hc0
        obtain ⟨c1, s1, hp1⟩ := peek_char_and_size_isSome lex.buf (p + s)
        simp only [hp1, Option.bind_eq_bind, Option.some_bind]
        exact ih lex (p + s) c1 s1 hp1 (by omega) (by omega)

/-- `skip_line_comment` returns, for every buffer and position. -/
theorem skip_line_comment_total (lex : Lexer) (p : Nat) :
    ∃ r, skip_line_comment lex p = some r := by
  unfold skip_line_comment
  obtain ⟨c, s, hp⟩ := peek_char_and_size_isSome lex.buf p
  simp only [hp, Option.bind_eq_bind, Option.some_bind]
  exact skip_line_comment_loop_total _ lex p c s hp (by simp [fuel_at]; omega)
    (by simp [fuel_at])

theorem skip_block_comment_loop_total :
    ∀ (fuel : Nat) (lex : Lexer) (p c s prev : Nat),
      peek_char_and_size lex.buf p = some (c, s) →
      lex.buf.length + 1 ≤ fuel + p → 1 ≤ fuel →
      ∃ r, skip_block_comment_loop fuel lex p c s prev = some r := by
  intro fuel
  induction fuel with
  | zero => intro lex p c s prev _ _ h; omega
  | succ f ih =>
    intro lex p c s prev hp h1 _
    simp only [skip_block_comment_loop]
    split
    · exact ⟨_, rfl⟩
    · split
      · exact ⟨_, rfl⟩
      · rename_i hc0
        have hs := (peek_char_and_size_char lex.buf p c s hp).1
        have hl := peek_char_and_size_le lex.buf p c s hp hc0
        obtain ⟨c1, s1, hp1⟩ := peek_char_and_size_isSome lex.buf (p + s)
        simp only [hp1, Option.bind_eq_bind, Option.some_bind]
        exact ih lex (p + s) c1 s1 c hp1 (by omega) (by omega)

/-- `skip_block_comment` returns, for every buffer and position. -/
theorem skip_block_comment_total (lex : Lexer) (p : Nat) :
    ∃ r, skip_block_comment lex p = some r := by
  unfold skip_block_comment
  obtain ⟨c, s, hp⟩ := peek_char_and_size_isSome lex.buf p
  simp only [hp, Option.bind_eq_bind, Option.some_bind]
  exact skip_block_comment_loop_total _ lex p c s c hp (by simp [fuel_at]; omega)
    (by simp [fuel_at])

theorem peek_char_advance_total (buf : List Nat) (p : Nat) (tok : Token) :
    ∃ c s t, peek_char_advance buf p tok = some (c, p + s, t) ∧ 1 ≤ s ∧
      (c ≠ 0 → p + s ≤ buf.length) := by
  obtain ⟨c, s, hp⟩ := peek_char_and_size_isSome buf p
  obtain ⟨t, ht⟩ := peek_char_advance_of_peek buf p c s hp tok
  exact ⟨c, s, t, ht, (peek_char_and_size_char buf p c s hp).1,
    peek_char_and_size_le buf p c s hp⟩

theorem lex_character_constant_loop_total :
    ∀ (fuel : Nat) (lex : Lexer) (p c : Nat) (result : Token) (k : TokenKind),
      1 ≤ fuel → (c ≠ 0 → p ≤ lex.buf.length ∧ lex.buf.length + 2 ≤ fuel + p) →
      ∃ lx t, lex_character_constant_loop fuel lex p c result k = some (true, lx, t) ∧
        lx.buf = lex.buf ∧ lx.buffer_ptr = t.e ∧ t.b = lex.buffer_ptr ∧ p ≤ t.e := by
  intro fuel
  induction fuel with
  | zero => intro lex p c result k h; omega
  | succ f ih =>
    intro lex p c result k _ h2
    simp only [lex_character_constant_loop]
    by_cases h39 : c = 39
    · rw [if_neg (by simpa using h39)]
      exact ⟨_, _, rfl, rfl, rfl, rfl, Nat.le_refl _⟩
    rw [if_pos h39]
    by_cases h92 : c = 92
    · rw [if_pos h92]
      obtain ⟨hp, hf⟩ := h2 (by omega)
      obtain ⟨c1, s1, t1, h, hs1, hl1⟩ := peek_char_advance_total lex.buf (p + 1) result
      simp only [h, Option.bind_eq_bind, Option.some_bind]
      obtain ⟨lx, t, h', hbuf, hptr, hb, he⟩ :=
        ih lex (p + 1 + s1) c1 t1 k (by omega) (fun h0 => ⟨hl1 h0, by omega⟩)
      exact ⟨lx, t, h', hbuf, hptr, hb, by omega⟩
    rw [if_neg h92]
    split
    · exact ⟨_, _, rfl, rfl, rfl, rfl, Nat.le_refl _⟩
    · rename_i hc
      have hc0 : c ≠ 0 := by
        rintro rfl
        exact hc (by decide)
      obtain ⟨hp, hf⟩ := h2 hc0
      obtain ⟨c1, s1, t1, h, hs1, hl1⟩ := peek_char_advance_total lex.buf p result
      simp only [h, Option.bind_eq_bind, Option.some_bind]
      obtain ⟨lx, t, h', hbuf, hptr, hb, he⟩ :=
        ih lex (p + s1) c1 t1 k (by omega) (fun h0 => ⟨hl1 h0, by omega⟩)
      exact ⟨lx, t, h', hbuf, hptr, hb, by omega⟩

/-- `lex_character_constant` returns, for every buffer and position: the
token begins at the token start held by the lexer and ends, after `p`, where
the lexer continues. -/
theorem lex_character_constant_total (lex : Lexer) (p : Nat) (result : Token)
    (k : TokenKind) :
    ∃ lx t, lex_character_constant lex p result k = some (true, lx, t) ∧
      lx.buf = lex.buf ∧ lx.buffer_ptr = t.e ∧ t.b = lex.buffer_ptr ∧ p ≤ t.e := by
  unfold lex_character_constant
  obtain ⟨c, s, t1, h, hs, hl⟩ := peek_char_advance_total lex.buf p result
  simp only [h, Option.bind_eq_bind, Option.some_bind]
  split
  · exact ⟨_, _, rfl, rfl, rfl, rfl, by show p ≤ p + s; omega⟩
  · obtain ⟨lx, t, h', hbuf, hptr, hb, he⟩ :=
      lex_character_constant_loop_total (fuel_at lex.buf (p + s)) lex (p + s) c t1 k
        (by simp [fuel_at]) (fun h0 => ⟨hl h0, by simp [fuel_at]; have := hl h0; omega⟩)
    exact ⟨lx, t, h', hbuf, hptr, hb, by omega⟩

/-! ## Every call of the dispatcher returns -/

theorem forms_token_from_mono (lex : Lexer) (p q : Nat) (r : Option (Bool × Lexer × Token))
    (hle : p ≤ q) (h : forms_token_from lex q r) : forms_token_from lex p r := by
  obtain ⟨lx, t, h1, h2, h3, h4, h5⟩ := h
  exact ⟨lx, t, h1, h2, h3, h4, by omega⟩

theorem forms_token_from_congr (lex lx : Lexer) (p q : Nat)
    (r : Option (Bool × Lexer × Token)) (hbuf : lx.buf = lex.buf)
    (hptr : lx.buffer_ptr = lex.buffer_ptr) (hle : p ≤ q) (h : forms_token_from lx q r) :
    forms_token_from lex p r := by
  obtain ⟨lx', t, h1, h2, h3, h4, h5⟩ := h
  exact ⟨lx', t, h1, by rw [h2, hbuf], h3, by rw [h4, hptr], by omega⟩

theorem lex_token_finish_forms (lex : Lexer) (result : Token) (p q : Nat) (kind : TokenKind)
    (hle : p ≤ q) : forms_token_from lex p (lex_token_finish lex result q kind) := by
  unfold lex_token_finish
  by_cases hk : kind = .unknown
  · simp only [hk, if_true]
    exact ⟨_, _, rfl, rfl, rfl, rfl, hle⟩
  · simp only [hk, if_false]
    exact ⟨_, _, rfl, rfl, rfl, rfl, hle⟩

/-- Apart from the end of input and the comments, every branch of the switch
forms a token that begins at the token start and ends at or after `p`. -/
theorem lex_token_switch_forms
    (relex : Lexer → Nat → Token → Option (Bool × Lexer × Token))
    (lex : Lexer) (p : Nat) (result : Token) (ch : Nat) (h0 : ch ≠ 0)
    (hcom : ch = 47 → ∀ c s, peek_char_and_size lex.buf p = some (c, s) → c ≠ 47 ∧ c ≠ 42) :
    forms_token_from lex p (lex_token_switch relex lex p result ch) := by
  unfold lex_token_switch
  rw [if_neg h0]
  by_cases h92 : ch = 92
  · rw [if_pos h92]
    obtain ⟨cp, q, lx, h, hbuf, hptr, hge, -⟩ := try_read_ucn_none_spec lex p lex.buffer_ptr
    simp only [h, Option.bind_eq_bind, Option.some_bind]
    split_ifs
    · exact forms_token_from_congr _ _ _ _ _ hbuf hptr hge (lex_identifier_total _ _ _)
    · exact forms_token_from_congr _ _ _ _ _ hbuf hptr hge
        (lex_token_finish_forms _ _ _ _ _ (Nat.le_refl _))
  rw [if_neg h92]
  by_cases h91 : ch = 91
  · rw [if_pos h91]
    exact lex_token_finish_forms _ _ _ _ _ (Nat.le_refl _)
  rw [if_neg h91]
  by_cases h93 : ch = 93
  · rw [if_pos h93]
    exact lex_token_finish_forms _ _ _ _ _ (Nat.le_refl _)
  rw [if_neg h93]
  by_cases h40 : ch = 40
  · rw [if_pos h40]
    exact lex_token_finish_forms _ _ _ _ _ (Nat.le_refl _)
  rw [if_neg h40]
  by_cases h41 : ch = 41
  · rw [if_pos h41]
    exact lex_token_finish_forms _ _ _ _ _ (Nat.le_refl _)
  rw [if_neg h41]
  by_cases h123 : ch = 123
  · rw [if_pos h123]
    exact lex_token_finish_forms _ _ _ _ _ (Nat.le_refl _)
  rw [if_neg h123]
  by_cases h125 : ch = 125
  · rw [if_pos h125]
    exact lex_token_finish_forms _ _ _ _ _ (Nat.le_refl _)
  rw [if_neg h125]
  by_cases h46 : ch = 46
  · rw [if_pos h46]
    obtain ⟨c, s, hpk⟩ := peek_char_and_size_isSome lex.buf p
    have hs := (peek_char_and_size_char _ _ _ _ hpk).1
    obtain ⟨c2, s2, hpk2⟩ := peek_char_and_size_isSome lex.buf (p + s)
    have hs2 := (peek_char_and_size_char _ _ _ _ hpk2).1
    obtain ⟨c3, s3, hpk3⟩ := peek_char_and_size_isSome lex.buf (p + s + s2)
    obtain ⟨t1, hc1⟩ := consume_char_of_peek lex.buf p c s hpk result
    obtain ⟨t2, hc2⟩ := consume_char_of_peek lex.buf (p + s) c2 s2 hpk2 t1
    obtain ⟨t3, hc3⟩ := consume_char_of_peek lex.buf (p + s + s2) c3 s3 hpk3 t2
    simp only [hpk, hpk2, hpk3, hc1, hc2, hc3, Option.bind_eq_bind, Option.some_bind]
    split_ifs
    · exact forms_token_from_mono _ _ _ _ (by omega)
        (lex_numeric_constant_total _ _ _ _ (by simp [fuel_at]; omega) (by simp [fuel_at]))
    · exact lex_token_finish_forms _ _ _ _ _ (by omega)
    · exact lex_token_finish_forms _ _ _ _ _ (by omega)
    · exact lex_token_finish_forms _ _ _ _ _ (by omega)
  rw [if_neg h46]
  by_cases h45 : ch = 45
  · rw [if_pos h45]
    obtain ⟨c, s, hpk⟩ := peek_char_and_size_isSome lex.buf p
    have hs := (peek_char_and_size_char _ _ _ _ hpk).1
    obtain ⟨c2, s2, hpk2⟩ := peek_char_and_size_isSome lex.buf (p + s)
    have hs2 := (peek_char_and_size_char _ _ _ _ hpk2).1
    obtain ⟨c3, s3, hpk3⟩ := peek_char_and_size_isSome lex.buf (p + s + s2)
    obtain ⟨t1, hc1⟩ := consume_char_of_peek lex.buf p c s hpk result
    obtain ⟨t2, hc2⟩ := consume_char_of_peek lex.buf (p + s) c2 s2 hpk2 t1
    obtain ⟨t3, hc3⟩ := consume_char_of_peek lex.buf (p + s + s2) c3 s3 hpk3 t2
    simp only [hpk, hpk2, hpk3, hc1, hc2, hc3, Option.bind_eq_bind, Option.some_bind]
    split_ifs <;> exact lex_token_finish_forms _ _ _ _ _ (by omega)
  rw [if_neg h45]
  by_cases h43 : ch = 43
  · rw [if_pos h43]
    obtain ⟨c, s, hpk⟩ := peek_char_and_size_isSome lex.buf p
    have hs := (peek_char_and_size_char _ _ _ _ hpk).1
    obtain ⟨c2, s2, hpk2⟩ := peek_char_and_size_isSome lex.buf (p + s)
    have hs2 := (peek_char_and_size_char _ _ _ _ hpk2).1
    obtain ⟨c3, s3, hpk3⟩ := peek_char_and_size_isSome lex.buf (p + s + s2)
    obtain ⟨t1, hc1⟩ := consume_char_of_peek lex.buf p c s hpk result
    obtain ⟨t2, hc2⟩ := consume_char_of_peek lex.buf (p + s) c2 s2 hpk2 t1
    obtain ⟨t3, hc3⟩ := consume_char_of_peek lex.buf (p + s + s2) c3 s3 hpk3 t2
    simp only [hpk, hpk2, hpk3, hc1, hc2, hc3, Option.bind_eq_bind, Option.some_bind]
    split_ifs <;> exact lex_token_finish_forms _ _ _ _ _ (by omega)
  rw [if_neg h43]
  by_cases h38 : ch = 38
  · rw [if_pos h38]
    obtain ⟨c, s, hpk⟩ := peek_char_and_size_isSome lex.buf p
    have hs := (peek_char_and_size_char _ _ _ _ hpk).1
    obtain ⟨c2, s2, hpk2⟩ := peek_char_and_size_isSome lex.buf (p + s)
    have hs2 := (peek_char_and_size_char _ _ _ _ hpk2).1
    obtain ⟨c3, s3, hpk3⟩ := peek_char_and_size_isSome lex.buf (p + s + s2)
    obtain ⟨t1, hc1⟩ := consume_char_of_peek lex.buf p c s hpk result
    obtain ⟨t2, hc2⟩ := consume_char_of_peek lex.buf (p + s) c2 s2 hpk2 t1
    obtain ⟨t3, hc3⟩ := consume_char_of_peek lex.buf (p + s + s2) c3 s3 hpk3 t2
    simp only [hpk, hpk2, hpk3, hc1, hc2, hc3, Option.bind_eq_bind, Option.some_bind]
    split_ifs <;> exact lex_token_finish_forms _ _ _ _ _ (by omega)
  rw [if_neg h38]
  by_cases h42 : ch = 42
  · rw [if_pos h42]
    obtain ⟨c, s, hpk⟩ := peek_char_and_size_isSome lex.buf p
    have hs := (peek_char_and_size_char _ _ _ _ hpk).1
    obtain ⟨c2, s2, hpk2⟩ := peek_char_and_size_isSome lex.buf (p + s)
    have hs2 := (peek_char_and_size_char _ _ _ _ hpk2).1
    obtain ⟨c3, s3, hpk3⟩ := peek_char_and_size_isSome lex.buf (p + s + s2)
    obtain ⟨t1, hc1⟩ := consume_char_of_peek lex.buf p c s hpk result
    obtain ⟨t2, hc2⟩ := consume_char_of_peek lex.buf (p + s) c2 s2 hpk2 t1
    obtain ⟨t3, hc3⟩ := consume_char_of_peek lex.buf (p + s + s2) c3 s3 hpk3 t2
    simp only [hpk, hpk2, hpk3, hc1, hc2, hc3, Option.bind_eq_bind, Option.some_bind]
    split_ifs <;> exact lex_token_finish_forms _ _ _ _ _ (by omega)
  rw [if_neg h42]
  by_cases h126 : ch = 126
  · rw [if_pos h126]
    exact lex_token_finish_forms _ _ _ _ _ (Nat.le_refl _)
  rw [if_neg h126]
  by_cases h47 : ch = 47
  · rw [if_pos h47]
    obtain ⟨c, s, hpk⟩ := peek_char_and_size_isSome lex.buf p
    have hs := (peek_char_and_size_char _ _ _ _ hpk).1
    obtain ⟨hc47, hc42⟩ := hcom h47 c s hpk
    obtain ⟨t1, hc1⟩ := consume_char_of_peek lex.buf p c s hpk result
    simp only [hpk, hc1, Option.bind_eq_bind, Option.some_bind]
    rw [if_neg hc47, if_neg hc42]
    split_ifs <;> exact lex_token_finish_forms _ _ _ _ _ (by omega)
  rw [if_neg h47]
  by_cases h37 : ch = 37
  · rw [if_pos h37]
    obtain ⟨c, s, hpk⟩ := peek_char_and_size_isSome lex.buf p
    have hs := (peek_char_and_size_char _ _ _ _ hpk).1
    obtain ⟨c2, s2, hpk2⟩ := peek_char_and_size_isSome lex.buf (p + s)
    have hs2 := (peek_char_and_size_char _ _ _ _ hpk2).1
    obtain ⟨c3, s3, hpk3⟩ := peek_char_and_size_isSome lex.buf (p + s + s2)
    obtain ⟨t1, hc1⟩ := consume_char_of_peek lex.buf p c s hpk result
    obtain ⟨t2, hc2⟩ := consume_char_of_peek lex.buf (p + s) c2 s2 hpk2 t1
    obtain ⟨t3, hc3⟩ := consume_char_of_peek lex.buf (p + s + s2) c3 s3 hpk3 t2
    simp only [hpk, hpk2, hpk3, hc1, hc2, hc3, Option.bind_eq_bind, Option.some_bind]
    split_ifs <;> exact lex_token_finish_forms _ _ _ _ _ (by omega)
  rw [if_neg h37]
  by_cases h60 : ch = 60
  · rw [if_pos h60]
    obtain ⟨c, s, hpk⟩ := peek_char_and_size_isSome lex.buf p
    have hs := (peek_char_and_size_char _ _ _ _ hpk).1
    obtain ⟨c2, s2, hpk2⟩ := peek_char_and_size_isSome lex.buf (p + s)
    have hs2 := (peek_char_and_size_char _ _ _ _ hpk2).1
    obtain ⟨c3, s3, hpk3⟩ := peek_char_and_size_isSome lex.buf (p + s + s2)
    obtain ⟨t1, hc1⟩ := consume_char_of_peek lex.buf p c s hpk result
    obtain ⟨t2, hc2⟩ := consume_char_of_peek lex.buf (p + s) c2 s2 hpk2 t1
    obtain ⟨t3, hc3⟩ := consume_char_of_peek lex.buf (p + s + s2) c3 s3 hpk3 t2
    simp only [hpk, hpk2, hpk3, hc1, hc2, hc3, Option.bind_eq_bind, Option.some_bind]
    split_ifs <;> exact lex_token_finish_forms _ _ _ _ _ (by omega)
  rw [if_neg h60]
  by_cases h62 : ch = 62
  · rw [if_pos h62]
    obtain ⟨c, s, hpk⟩ := peek_char_and_size_isSome lex.buf p
    have hs := (peek_char_and_size_char _ _ _ _ hpk).1
    obtain ⟨c2, s2, hpk2⟩ := peek_char_and_size_isSome lex.buf (p + s)
    have hs2 := (peek_char_and_size_char _ _ _ _ hpk2).1
    obtain ⟨c3, s3, hpk3⟩ := peek_char_and_size_isSome lex.buf (p + s + s2)
    obtain ⟨t1, hc1⟩ := consume_char_of_peek lex.buf p c s hpk result
    obtain ⟨t2, hc2⟩ := consume_char_of_peek lex.buf (p + s) c2 s2 hpk2 t1
    obtain ⟨t3, hc3⟩ := consume_char_of_peek lex.buf (p + s + s2) c3 s3 hpk3 t2
    simp only [hpk, hpk2, hpk3, hc1, hc2, hc3, Option.bind_eq_bind, Option.some_bind]
    split_ifs <;> exact lex_token_finish_forms _ _ _ _ _ (by omega)
  rw [if_neg h62]
  by_cases h61 : ch = 61
  · rw [if_pos h61]
    obtain ⟨c, s, hpk⟩ := peek_char_and_size_isSome lex.buf p
    have hs := (peek_char_and_size_char _ _ _ _ hpk).1
    obtain ⟨c2, s2, hpk2⟩ := peek_char_and_size_isSome lex.buf (p + s)
    have hs2 := (peek_char_and_size_char _ _ _ _ hpk2).1
    obtain ⟨c3, s3, hpk3⟩ := peek_char_and_size_isSome lex.buf (p + s + s2)
    obtain ⟨t1, hc1⟩ := consume_char_of_peek lex.buf p c s hpk result
    obtain ⟨t2, hc2⟩ := consume_char_of_peek lex.buf (p + s) c2 s2 hpk2 t1
    obtain ⟨t3, hc3⟩ := consume_char_of_peek lex.buf (p + s + s2) c3 s3 hpk3 t2
    simp only [hpk, hpk2, hpk3, hc1, hc2, hc3, Option.bind_eq_bind, Option.some_bind]
    split_ifs <;> exact lex_token_finish_forms _ _ _ _ _ (by omega)
  rw [if_neg h61]
  by_cases h33 : ch = 33
  · rw [if_pos h33]
    obtain ⟨c, s, hpk⟩ := peek_char_and_size_isSome lex.buf p
    have hs := (peek_char_and_size_char _ _ _ _ hpk).1
    obtain ⟨c2, s2, hpk2⟩ := peek_char_and_size_isSome lex.buf (p + s)
    have hs2 := (peek_char_and_size_char _ _ _ _ hpk2).1
    obtain ⟨c3, s3, hpk3⟩ := peek_char_and_size_isSome lex.buf (p + s + s2)
    obtain ⟨t1, hc1⟩ := consume_char_of_peek lex.buf p c s hpk result
    obtain ⟨t2, hc2⟩ := consume_char_of_peek lex.buf (p + s) c2 s2 hpk2 t1
    obtain ⟨t3, hc3⟩ := consume_char_of_peek lex.buf (p + s + s2) c3 s3 hpk3 t2
    simp only [hpk, hpk2, hpk3, hc1, hc2, hc3, Option.bind_eq_bind, Option.some_bind]
    split_ifs <;> exact lex_token_finish_forms _ _ _ _ _ (by omega)
  rw [if_neg h33]
  by_cases h94 : ch = 94
  · rw [if_pos h94]
    obtain ⟨c, s, hpk⟩ := peek_char_and_size_isSome lex.buf p
    have hs := (peek_char_and_size_char _ _ _ _ hpk).1
    obtain ⟨c2, s2, hpk2⟩ := peek_char_and_size_isSome lex.buf (p + s)
    have hs2 := (peek_char_and_size_char _ _ _ _ hpk2).1
    obtain ⟨c3, s3, hpk3⟩ := peek_char_and_size_isSome lex.buf (p + s + s2)
    obtain ⟨t1, hc1⟩ := consume_char_of_peek lex.buf p c s hpk result
    obtain ⟨t2, hc2⟩ := consume_char_of_peek lex.buf (p + s) c2 s2 hpk2 t1
    obtain ⟨t3, hc3⟩ := consume_char_of_peek lex.buf (p + s + s2) c3 s3 hpk3 t2
    simp only [hpk, hpk2, hpk3, hc1, hc2, hc3, Option.bind_eq_bind, Option.some_bind]
    split_ifs <;> exact lex_token_finish_forms _ _ _ _ _ (by omega)
  rw [if_neg h94]
  by_cases h124 : ch = 124
  · rw [if_pos h124]
    obtain ⟨c, s, hpk⟩ := peek_char_and_size_isSome lex.buf p
    have hs := (peek_char_and_size_char _ _ _ _ hpk).1
    obtain ⟨c2, s2, hpk2⟩ := peek_char_and_size_isSome lex.buf (p + s)
    have hs2 := (peek_char_and_size_char _ _ _ _ hpk2).1
    obtain ⟨c3, s3, hpk3⟩ := peek_char_and_size_isSome lex.buf (p + s + s2)
    obtain ⟨t1, hc1⟩ := consume_char_of_peek lex.buf p c s hpk result
    obtain ⟨t2, hc2⟩ := consume_char_of_peek lex.buf (p + s) c2 s2 hpk2 t1
    obtain ⟨t3, hc3⟩ := consume_char_of_peek lex.buf (p + s + s2) c3 s3 hpk3 t2
    simp only [hpk, hpk2, hpk3, hc1, hc2, hc3, Option.bind_eq_bind, Option.some_bind]
    split_ifs <;> exact lex_token_finish_forms _ _ _ _ _ (by omega)
  rw [if_neg h124]
  by_cases h63 : ch = 63
  · rw [if_pos h63]
    exact lex_token_finish_forms _ _ _ _ _ (Nat.le_refl _)
  rw [if_neg h63]
  by_cases h58 : ch = 58
  · rw [if_pos h58]
    obtain ⟨c, s, hpk⟩ := peek_char_and_size_isSome lex.buf p
    have hs := (peek_char_and_size_char _ _ _ _ hpk).1
    obtain ⟨c2, s2, hpk2⟩ := peek_char_and_size_isSome lex.buf (p + s)
    have hs2 := (peek_char_and_size_char _ _ _ _ hpk2).1
    obtain ⟨c3, s3, hpk3⟩ := peek_char_and_size_isSome lex.buf (p + s + s2)
    obtain ⟨t1, hc1⟩ := consume_char_of_peek lex.buf p c s hpk result
    obtain ⟨t2, hc2⟩ := consume_char_of_peek lex.buf (p + s) c2 s2 hpk2 t1
    obtain ⟨t3, hc3⟩ := consume_char_of_peek lex.buf (p + s + s2) c3 s3 hpk3 t2
    simp only [hpk, hpk2, hpk3, hc1, hc2, hc3, Option.bind_eq_bind, Option.some_bind]
    split_ifs <;> exact lex_token_finish_forms _ _ _ _ _ (by omega)
  rw [if_neg h58]
  by_cases h59 : ch = 59
  · rw [if_pos h59]
    exact lex_token_finish_forms _ _ _ _ _ (Nat.le_refl _)
  rw [if_neg h59]
  by_cases h44 : ch = 44
  · rw [if_pos h44]
    exact lex_token_finish_forms _ _ _ _ _ (Nat.le_refl _)
  rw [if_neg h44]
  by_cases h35 : ch = 35
  · rw [if_pos h35]
    obtain ⟨c, s, hpk⟩ := peek_char_and_size_isSome lex.buf p
    have hs := (peek_char_and_size_char _ _ _ _ hpk).1
    obtain ⟨c2, s2, hpk2⟩ := peek_char_and_size_isSome lex.buf (p + s)
    have hs2 := (peek_char_and_size_char _ _ _ _ hpk2).1
    obtain ⟨c3, s3, hpk3⟩ := peek_char_and_size_isSome lex.buf (p + s + s2)
    obtain ⟨t1, hc1⟩ := consume_char_of_peek lex.buf p c s hpk result
    obtain ⟨t2, hc2⟩ := consume_char_of_peek lex.buf (p + s) c2 s2 hpk2 t1
    obtain ⟨t3, hc3⟩ := consume_char_of_peek lex.buf (p + s + s2) c3 s3 hpk3 t2
    simp only [hpk, hpk2, hpk3, hc1, hc2, hc3, Option.bind_eq_bind, Option.some_bind]
    split_ifs <;> exact lex_token_finish_forms _ _ _ _ _ (by omega)
  rw [if_neg h35]
  by_cases hd : is_digit ch = true
  · rw [if_pos hd]
    exact lex_numeric_constant_total _ _ _ _ (by simp [fuel_at]; omega) (by simp [fuel_at])
  rw [if_neg hd]
  by_cases h76 : ch = 76
  · rw [if_pos h76]
    obtain ⟨c, s, hpk⟩ := peek_char_and_size_isSome lex.buf p
    have hs := (peek_char_and_size_char _ _ _ _ hpk).1
    obtain ⟨c2, s2, hpk2⟩ := peek_char_and_size_isSome lex.buf (p + s)
    have hs2 := (peek_char_and_size_char _ _ _ _ hpk2).1
    obtain ⟨c3, s3, hpk3⟩ := peek_char_and_size_isSome lex.buf (p + s + s2)
    obtain ⟨t1, hc1⟩ := consume_char_of_peek lex.buf p c s hpk result
    obtain ⟨t2, hc2⟩ := consume_char_of_peek lex.buf (p + s) c2 s2 hpk2 t1
    obtain ⟨t3, hc3⟩ := consume_char_of_peek lex.buf (p + s + s2) c3 s3 hpk3 t2
    simp only [hpk, hpk2, hpk3, hc1, hc2, hc3, Option.bind_eq_bind, Option.some_bind]
    split_ifs
    · exact forms_token_from_mono _ _ _ _ (by omega) (lex_character_constant_total _ _ _ _)
    · exact lex_identifier_total _ _ _
  rw [if_neg h76]
  by_cases h117 : ch = 117
  · rw [if_pos h117]
    obtain ⟨c, s, hpk⟩ := peek_char_and_size_isSome lex.buf p
    have hs := (peek_char_and_size_char _ _ _ _ hpk).1
    obtain ⟨c2, s2, hpk2⟩ := peek_char_and_size_isSome lex.buf (p + s)
    have hs2 := (peek_char_and_size_char _ _ _ _ hpk2).1
    obtain ⟨c3, s3, hpk3⟩ := peek_char_and_size_isSome lex.buf (p + s + s2)
    obtain ⟨t1, hc1⟩ := consume_char_of_peek lex.buf p c s hpk result
    obtain ⟨t2, hc2⟩ := consume_char_of_peek lex.buf (p + s) c2 s2 hpk2 t1
    obtain ⟨t3, hc3⟩ := consume_char_of_peek lex.buf (p + s + s2) c3 s3 hpk3 t2
    simp only [hpk, hpk2, hpk3, hc1, hc2, hc3, Option.bind_eq_bind, Option.some_bind]
    split_ifs
    · exact forms_token_from_mono _ _ _ _ (by omega) (lex_character_constant_total _ _ _ _)
    · exact lex_identifier_total _ _ _
  rw [if_neg h117]
  by_cases h85 : ch = 85
  · rw [if_pos h85]
    obtain ⟨c, s, hpk⟩ := peek_char_and_size_isSome lex.buf p
    have hs := (peek_char_and_size_char _ _ _ _ hpk).1
    obtain ⟨c2, s2, hpk2⟩ := peek_char_and_size_isSome lex.buf (p + s)
    have hs2 := (peek_char_and_size_char _ _ _ _ hpk2).1
    obtain ⟨c3, s3, hpk3⟩ := peek_char_and_size_isSome lex.buf (p + s + s2)
    obtain ⟨t1, hc1⟩ := consume_char_of_peek lex.buf p c s hpk result
    obtain ⟨t2, hc2⟩ := consume_char_of_peek lex.buf (p + s) c2 s2 hpk2 t1
    obtain ⟨t3, hc3⟩ := consume_char_of_peek lex.buf (p + s + s2) c3 s3 hpk3 t2
    simp only [hpk, hpk2, hpk3, hc1, hc2, hc3, Option.bind_eq_bind, Option.some_bind]
    split_ifs
    · exact forms_token_from_mono _ _ _ _ (by omega) (lex_character_constant_total _ _ _ _)
    · exact lex_identifier_total _ _ _
  rw [if_neg h85]
  by_cases hn : is_nondigit ch = true
  · rw [if_pos hn]
    exact lex_identifier_total _ _ _
  rw [if_neg hn]
  by_cases h39 : ch = 39
  · rw [if_pos h39]
    exact lex_character_constant_total _ _ _ _
  rw [if_neg h39]
  exact lex_token_finish_forms _ _ _ _ _ (Nat.le_refl _)

/-- In this embedding, where a read past the terminating NUL gives NUL,
`lex_token` returns, for every buffer and position, when its fuel covers
the rest of the buffer. The lexer it returns is over the same buffer and
not before `p`; a token it produces begins inside the buffer at or after `p`,
is not empty, and ends where the lexer continues. -/
theorem lex_token_total :
    ∀ (fuel : Nat) (lex : Lexer) (p : Nat) (result : Token),
      lex.buf.length - p + 1 ≤ fuel →
      ∃ ok lx t, lex_token fuel lex p result = some (ok, lx, t) ∧ lx.buf = lex.buf ∧
        p ≤ lx.buffer_ptr ∧
        (ok = true → lx.buffer_ptr = t.e ∧ p ≤ t.b ∧ t.b + 1 ≤ t.e ∧
          t.b + 1 ≤ lex.buf.length) := by
  intro fuel
  induction fuel with
  | zero => intro lex p result h; omega
  | succ f ih =>
    intro lex p result hf
    by_cases hp : lex.buf.length ≤ p
    · rw [lex_token_at_nul _ _ _ _ (rd_of_length_le _ _ hp)]
      exact ⟨false, _, _, rfl, rfl, Nat.le_refl _, fun h => by cases h⟩
    rw [lex_token_succ]
    have hge := find_if_not_whitespace_ge lex.buf (lex.buf.length - p) p
    generalize find_if_not_whitespace lex.buf (lex.buf.length - p) p = start at hge
    obtain ⟨ch, s, hpk⟩ := peek_char_and_size_isSome lex.buf start
    have hs := (peek_char_and_size_char _ _ _ _ hpk).1
    obtain ⟨t1, hc1⟩ := consume_char_of_peek lex.buf start ch s hpk result
    simp only [hpk, hc1, Option.some_bind]
    by_cases h0 : ch = 0
    · refine ⟨false, { lex with buffer_ptr := start }, t1, ?_, rfl, hge, fun h => by cases h⟩
      simp [lex_token_switch, h0]
    have hl := peek_char_and_size_le _ _ _ _ hpk h0
    obtain ⟨c, s2, hpk2⟩ := peek_char_and_size_isSome lex.buf (start + s)
    have hs2 := (peek_char_and_size_char _ _ _ _ hpk2).1
    have hrelex : ∀ (lx : Lexer) (q : Nat), lx.buf = lex.buf → start + s + s2 ≤ q →
        ∃ ok lx' t, lex_token f { lx with buffer_ptr := q } q t1 = some (ok, lx', t) ∧
          lx'.buf = lex.buf ∧ p ≤ lx'.buffer_ptr ∧
          (ok = true → lx'.buffer_ptr = t.e ∧ p ≤ t.b ∧ t.b + 1 ≤ t.e ∧
            t.b + 1 ≤ lex.buf.length) := by
      intro lx q hbuf hq
      have hlen : lx.buf.length = lex.buf.length := by rw [hbuf]
      obtain ⟨ok, lx', t, h, hb, hle, htok⟩ :=
        ih { lx with buffer_ptr := q } q t1 (by simp only []; omega)
      refine ⟨ok, lx', t, h, by rw [hb]; exact hbuf, by omega, fun hok => ?_⟩
      obtain ⟨h1, h2, h3, h4⟩ := htok hok
      exact ⟨h1, by omega, h3, by simpa [hlen] using h4⟩
    by_cases hline : ch = 47 ∧ c = 47
    · obtain ⟨rfl, rfl⟩ := hline
      have e : lex_token_switch (lex_token f) { lex with buffer_ptr := start } (start + s) t1 47 =
          (skip_line_comment { lex with buffer_ptr := start } (start + s + s2)).bind
            (fun r => lex_token f { r.1 with buffer_ptr := r.2 } r.2 t1) := by
        simp [lex_token_switch, hpk2]
      rw [e]
      obtain ⟨⟨lx, q⟩, hsk⟩ :=
        skip_line_comment_total { lex with buffer_ptr := start } (start + s + s2)
      obtain ⟨hbuf, hq⟩ := skip_line_comment_ge _ _ _ _ hsk
      simp only [hsk, Option.some_bind]
      exact hrelex lx q hbuf hq
    by_cases hblock : ch = 47 ∧ c = 42
    · obtain ⟨rfl, rfl⟩ := hblock
      have e : lex_token_switch (lex_token f) { lex with buffer_ptr := start } (start + s) t1 47 =
          (skip_block_comment { lex with buffer_ptr := start } (start + s + s2)).bind
            (fun r => lex_token f { r.1 with buffer_ptr := r.2 } r.2 t1) := by
        simp [lex_token_switch, hpk2]
      rw [e]
      obtain ⟨⟨lx, q⟩, hsk⟩ :=
        skip_block_comment_total { lex with buffer_ptr := start } (start + s + s2)
      obtain ⟨hbuf, hq⟩ := skip_block_comment_ge _ _ _ _ hsk
      simp only [hsk, Option.some_bind]
      exact hrelex lx q hbuf hq
    obtain ⟨lx, t, h, hbuf, hptr, hb, he⟩ :=
      lex_token_switch_forms (lex_token f) { lex with buffer_ptr := start } (start + s) t1 ch h0
        (by
          intro h47 c' s' hpk'
          have e : peek_char_and_size lex.buf (start + s) = some (c', s') := hpk'
          rw [hpk2] at e
          simp only [Option.some.injEq, Prod.mk.injEq] at e
          obtain ⟨rfl, -⟩ := e
          exact ⟨fun h => hline ⟨h47, h⟩, fun h => hblock ⟨h47, h⟩⟩)
    have hb' : t.b = start := hb
    exact ⟨true, lx, t, h, hbuf, by omega, fun _ => ⟨hptr, by omega, by omega, by omega⟩⟩

/-- In this embedding, where a read past the terminating NUL gives NUL,
`Lexer.lex` returns, for every buffer and every position of the lexer. The
lexer stays on its buffer and does not move back, and a
token it produces begins inside the buffer, at or after the position of the
lexer, is not empty, and ends where the lexer continues. -/
theorem Lexer.lex_total (lex : Lexer) (result : Token) :
    ∃ ok lx t, lex.lex result = some (ok, lx, t) ∧ lx.buf = lex.buf ∧
      lex.buffer_ptr ≤ lx.buffer_ptr ∧
      (ok = true → lx.buffer_ptr = t.e ∧ lex.buffer_ptr ≤ t.b ∧ t.b + 1 ≤ t.e ∧
        t.b + 1 ≤ lex.buf.length) :=
  lex_token_total _ lex lex.buffer_ptr result (by simp [fuel_at])

/-- In this embedding `lex_all` returns, for every number of calls and every
lexer. -/
theorem lex_all_total : ∀ (n : Nat) (lex : Lexer), ∃ r, lex_all n lex = some r := by
  intro n
  induction n with
  | zero => intro lex; exact ⟨_, rfl⟩
  | succ n ih =>
    intro lex
    obtain ⟨ok, lx, t, h, -⟩ := Lexer.lex_total lex {}
    simp only [lex_all, h]
    cases ok with
    | false => exact ⟨_, rfl⟩
    | true =>
      obtain ⟨r, hr⟩ := ih lx
      simp only [hr, Option.map_some']
      exact ⟨_, rfl⟩

/-! ## C7 and C8: comments are skipped -/

/-- Statement of C7: line comments are skipped and lexing restarts. For every
comment body of plain bytes (no LF, CR, NUL or backslash), every newline byte
`nl` and every remaining text `R`, lexing `//` + body + `nl` + `R` returns the
sequence of token kinds and spellings, and the diagnostic codes, that lexing
`R` returns; and so does a comment whose text is continued over several
physical lines by escaped newlines (backslash, LF) and ends at the first LF
that is not escaped. -/
theorem C7_line_comment_skipped :
    (∀ (body R : List Nat) (nl n : Nat),
      (∀ c ∈ body, is_plain_comment_byte c = true) → is_newline nl = true →
      ∃ r, lex_all n { buf := R } = some r ∧
        lex_all n { buf := str "//" ++ body ++ nl :: R } = some r) ∧
    (∀ (segs : List (List Nat)) (R : List Nat) (n : Nat), segs ≠ [] →
      (∀ seg ∈ segs, ∀ c ∈ seg, is_plain_comment_byte c = true) →
      ∃ r, lex_all n { buf := R } = some r ∧
        lex_all n { buf := str "//" ++ continued_comment segs ++ 10 :: R } = some r) := by
  constructor
  · intro body R nl n hbody hnl
    obtain ⟨r, hr⟩ := lex_all_total n { buf := R }
    exact ⟨r, hr, by rw [line_comment_skipped_eq.1 body R nl n hbody hnl, hr]⟩
  · intro segs R n hne hall
    obtain ⟨r, hr⟩ := lex_all_total n { buf := R }
    exact ⟨r, hr, by rw [line_comment_skipped_eq.2 segs R n hne hall, hr]⟩

/-- Witness of C7: a comment, also one continued over two lines, before the
text `x = 1;`. -/
theorem C7_line_comment_skipped_witness :
    (∃ r, lex_all 9 { buf := str "x = 1;" } = some r ∧
      lex_all 9 { buf := str "//" ++ str " a comment" ++ 10 :: str "x = 1;" } = some r) ∧
    (∃ r, lex_all 9 { buf := str "x = 1;" } = some r ∧
      lex_all 9
        { buf := str "//" ++ continued_comment [str "one ", str " two"] ++ 10 :: str "x = 1;" } =
          some r) ∧
    lex_all 9 { buf := str "x = 1;" } =
      some ([(.identifier, str "x"), (.equal, str "="), (.numeric_constant, str "1"),
        (.semi, str ";")], []) :=
  ⟨C7_line_comment_skipped.1 (str " a comment") (str "x = 1;") 10 9 (by decide) (by decide),
   C7_line_comment_skipped.2 [str "one ", str " two"] (str "x = 1;") 9 (by decide) (by decide),
   by decide⟩

/-- Statement of C8: block comments do not nest and end at the first `*/`
after the opening `/*`. For every body without NUL, backslash and `*/` and
every remaining text `R`, lexing `/*` + body + `*/` + `R` returns the sequence
of token kinds and spellings (and diagnostic codes) that lexing `R` returns,
whatever else the body contains; `/*/` alone is an unterminated comment, and
`/*//*/ z` lexes as the single identifier `z`. -/
theorem C8_block_comment_skipped :
    (∀ (body R : List Nat) (n : Nat),
      (∀ c ∈ body, c ≠ 0 ∧ c ≠ 92) → no_star_slash body = true →
      ∃ r, lex_all n { buf := R } = some r ∧
        lex_all n { buf := str "/*" ++ body ++ str "*/" ++ R } = some r) ∧
    Lexer.lex { buf := str "/*/" } {} =
      some (false,
        { buf := str "/*/", buffer_ptr := 3, diag := [⟨3, .err_unterminated_comment⟩] }, {}) ∧
    lex_all 9 { buf := str "/*//*/ z" } = some ([(.identifier, str "z")], []) := by
  refine ⟨?_, by decide, by decide⟩
  intro body R n hbody hns
  obtain ⟨r, hr⟩ := lex_all_total n { buf := R }
  exact ⟨r, hr, by rw [block_comment_skipped_eq body R n hbody hns, hr]⟩

/-- Witness of C8: a comment whose body holds `/*` and `//`, before the text
`x = 1;`. -/
theorem C8_block_comment_skipped_witness :
    (∃ r, lex_all 9 { buf := str "x = 1;" } = some r ∧
      lex_all 9 { buf := str "/*" ++ str "/ a /* b // c *" ++ str "*/" ++ str "x = 1;" } =
        some r) ∧
    lex_all 9 { buf := str "x = 1;" } =
      some ([(.identifier, str "x"), (.equal, str "="), (.numeric_constant, str "1"),
        (.semi, str ";")], []) :=
  ⟨C8_block_comment_skipped.1 (str "/ a /* b // c *") (str "x = 1;") 9 (by decide) (by decide),
   by decide⟩

/-! ## C11: string literals -/

/-- Behaviour of the code on the inputs of C11. `lex_token` has no case for
the double quote (34): it falls to `default`, so for every text after it the
quote alone becomes a one-byte token of kind `unknown`, reported as
`err_unknown_character`. The statement `"abc";` lexes as `unknown`, the
identifier `abc`, `unknown` and `semi`, with two diagnostics, rather than as
one string token followed by `semi`. -/
theorem C11_string_literal_is_unknown :
    (∀ rest : List Nat,
      Lexer.lex { buf := 34 :: rest } {} =
        some (true,
          { buf := 34 :: rest, buffer_ptr := 1, diag := [⟨0, .err_unknown_character⟩] },
          { kind := .unknown, b := 0, e := 1 })) ∧
    lex_all 9 { buf := 34 :: str "abc" ++ 34 :: str ";" } =
      some ([(.unknown, [34]), (.identifier, str "abc"), (.unknown, [34]), (.semi, str ";")],
        [.err_unknown_character, .err_unknown_character]) := by
  refine ⟨?_, by decide⟩
  intro rest
  unfold Lexer.lex
  rw [show fuel_at (34 :: rest) 0 = (rest.length + 3) + 1 by simp [fuel_at],
    lex_token_of_plain _ _ _ _ (by rfl) (by simp [rd])]
  rfl

/-! ## C17: empty character constants -/

/-- Statement of C17: each of `''`, `L''`, `u''`, `U''` lexes as exactly one
token, of kind `unknown`, that covers the prefix and both quotes, and
`err_empty_character` is reported (at the start of the token); the next call
of `lex` returns false. -/
theorem C17_empty_character_constant :
    (Lexer.lex { buf := str "''" } {} =
        some (true, { buf := str "''", buffer_ptr := 2, diag := [⟨0, .err_empty_character⟩] },
          { kind := .unknown, b := 0, e := 2 }) ∧
      lex_all 9 { buf := str "''" } = some ([(.unknown, str "''")], [.err_empty_character])) ∧
    (Lexer.lex { buf := str "L''" } {} =
        some (true, { buf := str "L''", buffer_ptr := 3, diag := [⟨0, .err_empty_character⟩] },
          { kind := .unknown, b := 0, e := 3 }) ∧
      lex_all 9 { buf := str "L''" } = some ([(.unknown, str "L''")], [.err_empty_character])) ∧
    (Lexer.lex { buf := str "u''" } {} =
        some (true, { buf := str "u''", buffer_ptr := 3, diag := [⟨0, .err_empty_character⟩] },
          { kind := .unknown, b := 0, e := 3 }) ∧
      lex_all 9 { buf := str "u''" } = some ([(.unknown, str "u''")], [.err_empty_character])) ∧
    (Lexer.lex { buf := str "U''" } {} =
        some (true, { buf := str "U''", buffer_ptr := 3, diag := [⟨0, .err_empty_character⟩] },
          { kind := .unknown, b := 0, e := 3 }) ∧
      lex_all 9 { buf := str "U''" } = some ([(.unknown, str "U''")], [.err_empty_character])) := by
  refine ⟨⟨?_, ?_⟩, ⟨?_, ?_⟩, ⟨?_, ?_⟩, ⟨?_, ?_⟩⟩ <;> decide

/-! ## C20: token ranges and the end of the buffer -/

/-- Behaviour of the code on the inputs named by C20. The buffers `1e`, `'a`
and `'` followed by a backslash have 2 bytes, so the terminating NUL is at
position 2. `lex_numeric_constant` consumes the character after an exponent
letter, and `lex_character_constant` the character that ends an unterminated
constant and the byte after a backslash, also when that character is the
terminating NUL: the tokens end at position 3, 3 and 4, past the NUL, and the
lexer continues from there. -/
theorem C20_token_ends_past_the_buffer :
    (str "1e").length = 2 ∧
    Lexer.lex { buf := str "1e" } {} =
      some (true, { buf := str "1e", buffer_ptr := 3 },
        { kind := .numeric_constant, b := 0, e := 3, flags := { IsLiteral := true } }) ∧
    (str "'a").length = 2 ∧
    Lexer.lex { buf := str "'a" } {} =
      some (true,
        { buf := str "'a", buffer_ptr := 3, diag := [⟨0, .err_unterminated_char_const⟩] },
        { kind := .unknown, b := 0, e := 3 }) ∧
    (str "'\\").length = 2 ∧
    Lexer.lex { buf := str "'\\" } {} =
      some (true,
        { buf := str "'\\", buffer_ptr := 4, diag := [⟨0, .err_unterminated_char_const⟩] },
        { kind := .unknown, b := 0, e := 4 }) := by
  decide

/-! ## C18: escapes in character constants -/

/-- A backslash that is not followed by a newline is peeked as itself, with
size 1. -/
theorem peek_char_and_size_nontrivial_backslash (buf : List Nat) (fuel p size : Nat)
    (tok : Option Token) (h : rd buf p = 92) (hn : is_newline (rd buf (p + 1)) = false) :
    peek_char_and_size_nontrivial buf (fuel + 1) p size tok = some (92, size + 1, tok) := by
  simp only [peek_char_and_size_nontrivial]
  rw [if_pos h]
  split
  · rfl
  · simp [size_for_escaped_newline, hn]

theorem peek_char_and_size_backslash (buf : List Nat) (p : Nat)
    (h : rd buf p = 92) (hn : is_newline (rd buf (p + 1)) = false) :
    peek_char_and_size buf p = some (92, 1) := by
  unfold peek_char_and_size
  rw [if_neg (by rw [h]; decide),
    show fuel_at buf p = (buf.length - p + 2) + 1 by simp [fuel_at],
    peek_char_and_size_nontrivial_backslash _ _ _ _ _ h hn]
  rfl

theorem peek_char_advance_backslash (buf : List Nat) (p : Nat) (tok : Token)
    (h : rd buf p = 92) (hn : is_newline (rd buf (p + 1)) = false) :
    peek_char_advance buf p tok = some (92, p + 1, tok) := by
  unfold peek_char_advance
  rw [if_neg (by rw [h]; decide),
    show fuel_at buf p = (buf.length - p + 2) + 1 by simp [fuel_at],
    peek_char_and_size_nontrivial_backslash _ _ _ _ _ h hn]
  rfl

/-- Statement of C18: inside a character constant a backslash escapes exactly
the following raw byte. For every byte `b` other than LF, CR and NUL (the
quote and the backslash included), the four bytes quote, backslash, `b`, quote
lex as exactly one `utf8_char_constant` token of 4 bytes, without a
diagnostic, and then `lex` returns false. -/
theorem C18_backslash_escapes_one_byte (b : Nat)
    (h1 : b ≠ 10) (h2 : b ≠ 13) (_h3 : b ≠ 0) :
    lexes_as_one [39, 92, b, 39] { kind := .utf8_char_constant, b := 0, e := 4 } := by
  have hn : is_newline b = false := by simp [is_newline, h1, h2]
  refine ⟨?_, ?_⟩
  · unfold Lexer.lex
    rw [show fuel_at [39, 92, b, 39] 0 = 6 + 1 from rfl,
      lex_token_of_plain _ _ _ _ (by rfl) (by simp [rd])]
    show lex_character_constant _ _ _ _ = _
    unfold lex_character_constant
    rw [peek_char_advance_backslash _ _ _ (by rfl) (by simpa [rd] using hn)]
    simp only [Option.bind_eq_bind, Option.some_bind]
    rw [if_neg (by decide),
      show fuel_at ({ buf := [39, 92, b, 39], buffer_ptr := 0 } : Lexer).buf (1 + 1) = 4 + 1
        from rfl,
      lex_character_constant_loop]
    rw [if_pos (by decide), if_pos rfl]
    simp only []
    rw [peek_char_advance_of_ne [39, 92, b, 39] (0 + 1 + 1 + 1) _ (by simp [rd])]
    simp only [Option.bind_eq_bind, Option.some_bind]
    rw [lex_character_constant_loop]
    simp [rd, form_token]
  · exact lex_token_at_nul _ _ _ _ rfl

/-- Witness of C18 at the quote and at the backslash: `'\''` and `'\\'`. -/
theorem C18_backslash_escapes_one_byte_witness :
    lexes_as_one [39, 92, 39, 39] { kind := .utf8_char_constant, b := 0, e := 4 } ∧
    lexes_as_one [39, 92, 92, 39] { kind := .utf8_char_constant, b := 0, e := 4 } :=
  ⟨C18_backslash_escapes_one_byte 39 (by decide) (by decide) (by decide),
   C18_backslash_escapes_one_byte 92 (by decide) (by decide) (by decide)⟩

/-! ## C13: universal character names, decoding and validation -/

theorem hexdigit_value_lt (c : Nat) (h : is_hexdigit c = true) :
    ∃ v, hexdigit_value c = some v ∧ v < 16 := by
  unfold hexdigit_value
  rw [if_pos h]
  simp only [is_hexdigit, Bool.or_eq_true, Bool.and_eq_true, decide_eq_true_eq] at h
  split
  · rename_i h1
    simp only [Bool.and_eq_true, decide_eq_true_eq] at h1
    exact ⟨_, rfl, by omega⟩
  · split
    · rename_i h1 h2
      simp only [Bool.and_eq_true, decide_eq_true_eq] at h2
      exact ⟨_, rfl, by omega⟩
    · rename_i h1 h2
      simp only [Bool.and_eq_true, decide_eq_true_eq] at h1 h2
      exact ⟨_, rfl, by omega⟩

theorem hexdigit_value_none (c : Nat) (h : is_hexdigit c = false) :
    hexdigit_value c = none := by
  unfold hexdigit_value
  rw [if_neg (by simp [h])]

/-- Reading `n` hexadecimal digits that fit 32 bits: the loop of
`try_read_ucn` ends after the last digit with the number they write. -/
theorem read_hexdigits_of_logical (buf : List Nat) :
    ∀ (n p cp : Nat) (ds : List Nat) (q : Nat),
      read_logical buf n p = some (ds, q) → (∀ d ∈ ds, is_hexdigit d = true) →
      (cp + 1) * 16 ^ n ≤ 4294967296 →
      read_hexdigits buf n p cp =
        some (some (q, ds.foldl (fun v d => v * 16 + (hexdigit_value d).getD 0) cp)) := by
  intro n
  induction n with
  | zero =>
    intro p cp ds q h _ _
    simp only [read_logical, Option.some.injEq, Prod.mk.injEq] at h
    obtain ⟨rfl, rfl⟩ := h
    rfl
  | succ n ih =>
    intro p cp ds q h hhex hb
    simp only [read_logical, Option.bind_eq_bind, Option.bind_eq_some] at h
    obtain ⟨⟨c, s⟩, hp, ⟨cs, q'⟩, hr, h2⟩ := h
    simp only [Option.some.injEq, Prod.mk.injEq] at h2
    obtain ⟨rfl, rfl⟩ := h2
    obtain ⟨v, hv, hlt⟩ := hexdigit_value_lt c (hhex c (by simp))
    have h16 : 1 ≤ 16 ^ n := Nat.one_le_pow _ _ (by decide)
    have hb1 : (cp + 1) * 16 ≤ 4294967296 := by
      calc (cp + 1) * 16 ≤ (cp + 1) * 16 * 16 ^ n := Nat.le_mul_of_pos_right _ h16
        _ = (cp + 1) * 16 ^ (n + 1) := by rw [pow_succ]; ring
        _ ≤ 4294967296 := hb
    have hcp : (cp * 16 % 4294967296 + v) % 4294967296 = cp * 16 + v := by omega
    have hb2 : (cp * 16 + v + 1) * 16 ^ n ≤ 4294967296 := by
      calc (cp * 16 + v + 1) * 16 ^ n ≤ ((cp + 1) * 16) * 16 ^ n :=
            Nat.mul_le_mul_right _ (by omega)
        _ = (cp + 1) * 16 ^ (n + 1) := by rw [pow_succ]; ring
        _ ≤ 4294967296 := hb
    simp only [read_hexdigits, hp, hv, hcp, Option.bind_eq_bind, Option.some_bind]
    rw [ih (p + s) (cp * 16 + v) cs q' hr (fun d hd => hhex d (by simp [hd])) hb2]
    simp [hv]

/-- The validity test of `try_read_ucn` is the one of the specification. -/
theorem is_valid_ucn_iff (v : Nat) :
    is_valid_ucn v = true ↔
      ¬ ((v < 160 ∧ (v ≠ 36 ∧ v ≠ 64 ∧ v ≠ 96)) ∨ (¬ v < 160 ∧ 55296 ≤ v ∧ v ≤ 57343)) := by
  simp only [is_valid_ucn, Bool.or_eq_true, Bool.and_eq_true, beq_iff_eq, decide_eq_true_eq,
    Bool.not_eq_true', Bool.and_eq_false_iff, decide_eq_false_iff_not]
  omega

/-- Statement of C13: decoding and validation of a universal character name.
When the logical characters from `start` are `u` and 4 hexadecimal digits, or
`U` and 8, ending at `q`, and the digits write the number `v`, then
`try_read_ucn` sets the pointer to `q`, past the last digit, and if `v` is
0x24, 0x40 or 0x60, or at least 0xA0 and outside 0xD800..0xDFFF, it returns `v`
and reports nothing; for every other `v` it reports `err_ucn_invalid` at the
backslash and returns 0. This holds with and without a token being formed;
without one, as the lexer calls it, no token is returned. -/
theorem C13_ucn_decoding_and_validation (lex : Lexer) (start slash k : Nat)
    (ds : List Nat) (q : Nat) (tok : Option Token)
    (hread : read_logical lex.buf (ds.length + 1) start = some (k :: ds, q))
    (hk : (k = 117 ∧ ds.length = 4) ∨ (k = 85 ∧ ds.length = 8))
    (hhex : ∀ d ∈ ds, is_hexdigit d = true) :
    ∃ tok', (tok = none → tok' = none) ∧
      try_read_ucn lex start slash tok =
        if is_valid_ucn (hex_value ds) then some (hex_value ds, q, lex, tok')
        else some (0, q, report lex slash .err_ucn_invalid, tok') := by
  simp only [read_logical, Option.bind_eq_bind, Option.bind_eq_some] at hread
  obtain ⟨⟨c, s⟩, hp, ⟨cs, q'⟩, hr, h2⟩ := hread
  simp only [Option.some.injEq, Prod.mk.injEq, List.cons.injEq] at h2
  obtain ⟨⟨rfl, rfl⟩, rfl⟩ := h2
  have hn : (if c = 117 then 4 else if c = 85 then 8 else 0) = cs.length := by
    rcases hk with ⟨rfl, h⟩ | ⟨rfl, h⟩ <;> simp [h]
  have hb : (0 + 1) * 16 ^ cs.length ≤ 4294967296 := by
    rcases hk with ⟨-, h⟩ | ⟨-, h⟩ <;> rw [h] <;> norm_num
  have hlen : cs.length ≠ 0 := by rcases hk with ⟨-, h⟩ | ⟨-, h⟩ <;> omega
  have hrh := read_hexdigits_of_logical lex.buf cs.length (start + s) 0 cs q' hr hhex hb
  have hv := is_valid_ucn_iff (hex_value cs)
  have hs := (peek_char_and_size_char lex.buf start c s hp).1
  obtain ⟨hr1, hr2, hr3⟩ := read_hexdigits_range _ _ _ _ _ _ hrh
  have hr3 := hr3 hlen
  have hq : q' ≤ lex.buf.length := by rcases hr2 with h | h <;> omega
  unfold try_read_ucn
  simp only [hp, hn, Option.bind_eq_bind, Option.some_bind, if_neg hlen, hrh]
  unfold hex_value at hv ⊢
  generalize cs.foldl (fun v d => v * 16 + (hexdigit_value d).getD 0) 0 = v at hv ⊢
  have hfin : ∀ tok' : Option Token,
      (if v < 160 then
        if v ≠ 36 ∧ v ≠ 64 ∧ v ≠ 96 then
          some (0, q', report lex slash .err_ucn_invalid, tok')
        else some (v, q', lex, tok')
      else if 55296 ≤ v ∧ v ≤ 57343 then
        some (0, q', report lex slash .err_ucn_invalid, tok')
      else some (v, q', lex, tok')) =
      if is_valid_ucn v = true then some (v, q', lex, tok')
      else some (0, q', report lex slash .err_ucn_invalid, tok') := by
    intro tok'
    by_cases hval : is_valid_ucn v = true
    · rw [if_pos hval]
      have := hv.1 hval
      split_ifs <;> first | rfl | omega
    · rw [if_neg hval]
      have := (not_congr hv).1 hval
      split_ifs <;> first | rfl | omega
  cases tok with
  | none =>
    refine ⟨none, fun _ => rfl, ?_⟩
    simp only [Option.some_bind]
    exact hfin none
  | some t =>
    by_cases hd : q' - start = cs.length + 2
    · refine ⟨some t.set_ucn, (fun h => by cases h), ?_⟩
      simp only [hd, if_true, Option.some_bind]
      exact hfin _
    · obtain ⟨t1, ht1⟩ := peek_char_advance_of_peek lex.buf start c s hp t.set_ucn
      obtain ⟨t2, ht2⟩ := advance_until_read_hexdigits _ _ _ _ _ _ hrh
        (lex.buf.length - start + 2) t1 (by omega)
      have hadv : advance_until lex.buf (fuel_at lex.buf start) start q' t.set_ucn =
          some (q', t2) := by
        rw [show fuel_at lex.buf start = (lex.buf.length - start + 2) + 1 by simp [fuel_at]]
        simp only [advance_until]
        rw [if_pos (by omega)]
        simp only [ht1, Option.bind_eq_bind, Option.some_bind]
        exact ht2
      refine ⟨some t2, (fun h => by cases h), ?_⟩
      simp only [hd, if_false, hadv, Option.bind_eq_bind, Option.some_bind]
      exact hfin _

/-- Witness of C13: the boundary values, and a name written over two lines.
`0x00A0`, `0xD7FF` and `0xE000` are accepted; `0x009F`, `0xD800` and `0xDFFF`
are rejected. -/
theorem C13_ucn_decoding_and_validation_witness :
    (∃ tok', ((none : Option Token) = none → tok' = none) ∧
      try_read_ucn { buf := str "u00\\\nA0;" } 0 9 (none : Option Token) =
        if is_valid_ucn (hex_value (str "00A0")) then
          some (hex_value (str "00A0"), 7, { buf := str "u00\\\nA0;" }, tok')
        else some (0, 7, report { buf := str "u00\\\nA0;" } 9 .err_ucn_invalid, tok')) ∧
    try_read_ucn { buf := str "u00\\\nA0;" } 0 9 none =
      some (160, 7, { buf := str "u00\\\nA0;" }, none) ∧
    try_read_ucn { buf := str "uD7FF" } 0 9 none = some (55295, 5, { buf := str "uD7FF" }, none) ∧
    try_read_ucn { buf := str "U0000E000" } 0 9 none =
      some (57344, 9, { buf := str "U0000E000" }, none) ∧
    try_read_ucn { buf := str "u009F" } 0 9 none =
      some (0, 5, { buf := str "u009F", diag := [⟨9, .err_ucn_invalid⟩] }, none) ∧
    try_read_ucn { buf := str "uD800" } 0 9 none =
      some (0, 5, { buf := str "uD800", diag := [⟨9, .err_ucn_invalid⟩] }, none) ∧
    try_read_ucn { buf := str "uDFFF" } 0 9 none =
      some (0, 5, { buf := str "uDFFF", diag := [⟨9, .err_ucn_invalid⟩] }, none) :=
  ⟨C13_ucn_decoding_and_validation { buf := str "u00\\\nA0;" } 0 9 117 (str "00A0") 7 none
      (by decide) (by decide) (by decide),
   by decide, by decide, by decide, by decide, by decide, by decide⟩

/-! ## C14: incomplete universal character names -/

theorem read_hexdigits_incomplete (buf : List Nat) :
    ∀ (ds : List Nat) (n p cp c q : Nat),
      read_logical buf (ds.length + 1) p = some (ds ++ [c], q) →
      (∀ d ∈ ds, is_hexdigit d = true) → is_hexdigit c = false → ds.length < n →
      read_hexdigits buf n p cp = some none := by
  intro ds
  induction ds with
  | nil =>
    intro n p cp c q h _ hc hn
    obtain ⟨n', rfl⟩ : ∃ n', n = n' + 1 := ⟨n - 1, by simp at hn; omega⟩
    simp only [List.length_nil, read_logical, Option.bind_eq_bind, Option.bind_eq_some,
      Option.some.injEq, Prod.mk.injEq, List.nil_append] at h
    obtain ⟨⟨c', s⟩, hp, ⟨cs, q'⟩, hr, h2, -⟩ := h
    obtain ⟨rfl, rfl⟩ := hr
    simp only [List.cons.injEq, and_true] at h2
    subst h2
    simp [read_hexdigits, hp, hexdigit_value_none _ hc]
  | cons d ds ih =>
    intro n p cp c q h hhex hc hn
    obtain ⟨n', rfl⟩ : ∃ n', n = n' + 1 := ⟨n - 1, by simp at hn; omega⟩
    rw [List.length_cons, read_logical] at h
    simp only [Option.bind_eq_bind, Option.bind_eq_some, Option.some.injEq, Prod.mk.injEq,
      List.cons_append, List.cons.injEq] at h
    obtain ⟨⟨c', s⟩, hp, ⟨cs, q'⟩, hr, ⟨rfl, rfl⟩, rfl⟩ := h
    obtain ⟨v, hv, -⟩ := hexdigit_value_lt c' (hhex c' (by simp))
    simp only [read_hexdigits, hp, hv, Option.bind_eq_bind, Option.some_bind]
    exact ih n' _ _ c q' hr (fun d hd => hhex d (by simp [hd])) hc
      (by simp at hn; omega)

/-- Statement of C14: an incomplete universal character name. When the
logical characters from `start` are `u` and fewer than 4 hexadecimal digits,
or `U` and fewer than 8, followed by a logical character `c` that is not a
hexadecimal digit, `try_read_ucn` reports `warn_ucn_incomplete` at the
backslash, returns 0 and leaves the pointer and the token unchanged.
Consequently `\UABCD` lexes as an `unknown` token whose spelling is the
backslash alone, followed by the identifier `UABCD`, with the diagnostics
`warn_ucn_incomplete` and `err_unknown_character`. -/
theorem C14_incomplete_ucn :
    (∀ (lex : Lexer) (start slash k : Nat) (ds : List Nat) (c q : Nat) (tok : Option Token),
      read_logical lex.buf (ds.length + 2) start = some (k :: ds ++ [c], q) →
      ((k = 117 ∧ ds.length < 4) ∨ (k = 85 ∧ ds.length < 8)) →
      (∀ d ∈ ds, is_hexdigit d = true) → is_hexdigit c = false →
      try_read_ucn lex start slash tok =
        some (0, start, report lex slash .warn_ucn_incomplete, tok)) ∧
    lex_all 9 { buf := str "\\UABCD" } =
      some ([(.unknown, str "\\"), (.identifier, str "UABCD")],
        [.warn_ucn_incomplete, .err_unknown_character]) := by
  refine ⟨?_, by decide⟩
  intro lex start slash k ds c q tok hread hk hhex hc
  rw [read_logical] at hread
  simp only [Option.bind_eq_bind, Option.bind_eq_some, Option.some.injEq, Prod.mk.injEq,
    List.cons_append, List.cons.injEq] at hread
  obtain ⟨⟨k', s⟩, hp, ⟨cs, q'⟩, hr, ⟨rfl, rfl⟩, rfl⟩ := hread
  unfold try_read_ucn
  simp only [hp, Option.bind_eq_bind, Option.some_bind]
  rcases hk with ⟨rfl, hlen⟩ | ⟨rfl, hlen⟩
  · simp [read_hexdigits_incomplete lex.buf ds 4 (start + s) 0 c q' hr hhex hc hlen]
  · simp [read_hexdigits_incomplete lex.buf ds 8 (start + s) 0 c q' hr hhex hc hlen]

/-- Witness of C14: `u12` before `;`, and `UABCD` at the end of the buffer,
where the NUL is the character that is not a hexadecimal digit. -/
theorem C14_incomplete_ucn_witness :
    try_read_ucn { buf := str "\\u12;" } 1 0 none =
      some (0, 1, { buf := str "\\u12;", diag := [⟨0, .warn_ucn_incomplete⟩] }, none) ∧
    try_read_ucn { buf := str "\\UABCD" } 1 0 none =
      some (0, 1, { buf := str "\\UABCD", diag := [⟨0, .warn_ucn_incomplete⟩] }, none) :=
  ⟨C14_incomplete_ucn.1 { buf := str "\\u12;" } 1 0 117 (str "12") 59 5 none
      (by decide) (by decide) (by decide) (by decide),
   C14_incomplete_ucn.1 { buf := str "\\UABCD" } 1 0 85 (str "ABCD") 0 7 none
      (by decide) (by decide) (by decide) (by decide)⟩

/-! ## C15: a backslash that does not start an identifier -/

theorem peek_char_and_size_backslash_rd (buf : List Nat) (p s : Nat)
    (h : peek_char_and_size buf p = some (92, s)) : rd buf p = 92 := by
  unfold peek_char_and_size at h
  split at h
  · simp only [Option.some.injEq, Prod.mk.injEq] at h
    exact h.1
  · rename_i ht
    by_contra hne
    rw [show fuel_at buf p = (buf.length - p + 2) + 1 by simp [fuel_at],
      peek_char_and_size_nontrivial, if_neg hne] at h
    simp only [Option.bind_eq_bind, Option.some_bind, Option.some.injEq, Prod.mk.injEq] at h
    exact hne h.1

/-- The dispatcher at a token whose first logical character is a backslash:
it consumes the backslash, tries to read a universal character name, and lexes
an identifier or forms an `unknown` token. -/
theorem lex_at_backslash (buf : List Nat) (s : Nat)
    (hb : peek_char_and_size buf 0 = some (92, s)) :
    Lexer.lex { buf := buf } {} =
      (consume_char buf 0 s {}).bind (fun y =>
        (try_read_ucn { buf := buf } y.1 0 none).bind (fun r =>
          if r.1 ≠ 0 then lex_identifier r.2.2.1 r.2.1 y.2
          else lex_token_finish r.2.2.1 y.2 r.2.1 .unknown)) := by
  have hrd := peek_char_and_size_backslash_rd buf 0 s hb
  unfold Lexer.lex
  rw [show fuel_at ({ buf := buf } : Lexer).buf ({ buf := buf } : Lexer).buffer_ptr =
      (buf.length + 2) + 1 by simp [fuel_at],
    lex_token_succ, find_if_not_whitespace_of_not _ _ _ (by rw [hrd]; rfl)]
  simp only [hb, Option.some_bind]
  cases consume_char buf 0 s {} with
  | none => rfl
  | some y =>
    obtain ⟨q, t⟩ := y
    simp only [Option.some_bind]
    unfold lex_token_switch
    rw [if_neg (by decide), if_pos rfl]
    rfl

theorem try_read_ucn_not_ucn (lex : Lexer) (start slash k ks : Nat)
    (hp : peek_char_and_size lex.buf start = some (k, ks)) (h1 : k ≠ 117) (h2 : k ≠ 85) :
    try_read_ucn lex start slash none = some (0, start, lex, none) := by
  unfold try_read_ucn
  simp [hp, h1, h2]

theorem try_read_ucn_incomplete (lex : Lexer) (start slash k : Nat) (ds : List Nat) (c q : Nat)
    (tok : Option Token)
    (hread : read_logical lex.buf (ds.length + 2) start = some (k :: ds ++ [c], q))
    (hk : (k = 117 ∧ ds.length < 4) ∨ (k = 85 ∧ ds.length < 8))
    (hhex : ∀ d ∈ ds, is_hexdigit d = true) (hc : is_hexdigit c = false) :
    try_read_ucn lex start slash tok =
      some (0, start, report lex slash .warn_ucn_incomplete, tok) := by
  rw [read_logical] at hread
  simp only [Option.bind_eq_bind, Option.bind_eq_some, Option.some.injEq, Prod.mk.injEq,
    List.cons_append, List.cons.injEq] at hread
  obtain ⟨⟨k', s⟩, hp, ⟨cs, q'⟩, hr, ⟨rfl, rfl⟩, rfl⟩ := hread
  unfold try_read_ucn
  simp only [hp, Option.bind_eq_bind, Option.some_bind]
  rcases hk with ⟨rfl, hlen⟩ | ⟨rfl, hlen⟩
  · simp [read_hexdigits_incomplete lex.buf ds 4 (start + s) 0 c q' hr hhex hc hlen]
  · simp [read_hexdigits_incomplete lex.buf ds 8 (start + s) 0 c q' hr hhex hc hlen]

theorem try_read_ucn_rejected (lex : Lexer) (start slash k : Nat) (ds : List Nat) (q : Nat)
    (hread : read_logical lex.buf (ds.length + 1) start = some (k :: ds, q))
    (hk : (k = 117 ∧ ds.length = 4) ∨ (k = 85 ∧ ds.length = 8))
    (hhex : ∀ d ∈ ds, is_hexdigit d = true) (hval : is_valid_ucn (hex_value ds) = false) :
    try_read_ucn lex start slash none =
      some (0, q, report lex slash .err_ucn_invalid, none) := by
  simp only [read_logical, Option.bind_eq_bind, Option.bind_eq_some] at hread
  obtain ⟨⟨c, s⟩, hp, ⟨cs, q'⟩, hr, h2⟩ := hread
  simp only [Option.some.injEq, Prod.mk.injEq, List.cons.injEq] at h2
  obtain ⟨⟨rfl, rfl⟩, rfl⟩ := h2
  have hn : (if c = 117 then 4 else if c = 85 then 8 else 0) = cs.length := by
    rcases hk with ⟨rfl, h⟩ | ⟨rfl, h⟩ <;> simp [h]
  have hb : (0 + 1) * 16 ^ cs.length ≤ 4294967296 := by
    rcases hk with ⟨-, h⟩ | ⟨-, h⟩ <;> rw [h] <;> norm_num
  have hlen : cs.length ≠ 0 := by rcases hk with ⟨-, h⟩ | ⟨-, h⟩ <;> omega
  have hrh := read_hexdigits_of_logical lex.buf cs.length (start + s) 0 cs q' hr hhex hb
  have hv := is_valid_ucn_iff (hex_value cs)
  unfold try_read_ucn
  simp only [hp, hn, Option.bind_eq_bind, Option.some_bind, if_neg hlen, hrh]
  unfold hex_value at hv hval
  generalize cs.foldl (fun v d => v * 16 + (hexdigit_value d).getD 0) 0 = v at hv hval ⊢
  have := (not_congr hv).1 (by simp [hval])
  split_ifs <;> first | rfl | omega
/-- Counterexample to C15 as stated: for the rejected name `\u0041` the token
of kind `unknown` is not one byte long. `try_read_ucn` has moved the pointer
past the digits, so the token covers all six bytes. -/
theorem C15_counterexample :
    ¬ ∃ lx t, Lexer.lex { buf := str "\\u0041" } {} = some (true, lx, t) ∧
      t.kind = .unknown ∧ t.e = t.b + 1 := by
  rintro ⟨lx, t, h, -, he⟩
  rw [show Lexer.lex { buf := str "\\u0041" } {} =
      some (true,
        { buf := str "\\u0041", buffer_ptr := 6,
          diag := [⟨0, .err_ucn_invalid⟩, ⟨0, .err_unknown_character⟩] },
        { kind := .unknown, b := 0, e := 6 }) by decide] at h
  simp only [Option.some.injEq, Prod.mk.injEq, true_and] at h
  obtain ⟨-, rfl⟩ := h
  simp at he

/-- Statement of C15, amended. Let the first logical character of the buffer
be a backslash, of `s` bytes (`s = 1` unless escaped newlines precede it).
If the next logical character is neither `u` nor `U`, `lex` produces a token
of kind `unknown` over the `s` bytes of the backslash and reports
`err_unknown_character`. If it starts an incomplete universal character name,
the token is the same and `warn_ucn_incomplete` is reported first. If it
starts a complete name whose code point is rejected, the token of kind
`unknown` extends to the end `q` of the name, and `err_ucn_invalid` is
reported first. -/
theorem C15_backslash_unknown_token (buf : List Nat) (s : Nat)
    (hb : peek_char_and_size buf 0 = some (92, s)) :
    (∀ k ks : Nat, peek_char_and_size buf s = some (k, ks) → k ≠ 117 → k ≠ 85 →
      ∃ t, Lexer.lex { buf := buf } {} =
          some (true,
            { buf := buf, buffer_ptr := s, diag := [⟨0, .err_unknown_character⟩] }, t) ∧
        t.kind = .unknown ∧ t.b = 0 ∧ t.e = s) ∧
    (∀ (k : Nat) (ds : List Nat) (c q : Nat),
      read_logical buf (ds.length + 2) s = some (k :: ds ++ [c], q) →
      ((k = 117 ∧ ds.length < 4) ∨ (k = 85 ∧ ds.length < 8)) →
      (∀ d ∈ ds, is_hexdigit d = true) → is_hexdigit c = false →
      ∃ t, Lexer.lex { buf := buf } {} =
          some (true,
            { buf := buf, buffer_ptr := s,
              diag := [⟨0, .warn_ucn_incomplete⟩, ⟨0, .err_unknown_character⟩] }, t) ∧
        t.kind = .unknown ∧ t.b = 0 ∧ t.e = s) ∧
    (∀ (k : Nat) (ds : List Nat) (q : Nat),
      read_logical buf (ds.length + 1) s = some (k :: ds, q) →
      ((k = 117 ∧ ds.length = 4) ∨ (k = 85 ∧ ds.length = 8)) →
      (∀ d ∈ ds, is_hexdigit d = true) → is_valid_ucn (hex_value ds) = false →
      ∃ t, Lexer.lex { buf := buf } {} =
          some (true,
            { buf := buf, buffer_ptr := q,
              diag := [⟨0, .err_ucn_invalid⟩, ⟨0, .err_unknown_character⟩] }, t) ∧
        t.kind = .unknown ∧ t.b = 0 ∧ t.e = q) := by
  obtain ⟨t1, ht1⟩ := consume_char_of_peek buf 0 92 s hb {}
  have hlex := lex_at_backslash buf s hb
  simp only [ht1, Option.some_bind, Nat.zero_add] at hlex
  refine ⟨?_, ?_, ?_⟩
  · intro k ks hp h1 h2
    rw [hlex, try_read_ucn_not_ucn { buf := buf } s 0 k ks hp h1 h2]
    exact ⟨_, rfl, rfl, rfl, rfl⟩
  · intro k ds c q hread hk hhex hc
    rw [hlex, try_read_ucn_incomplete { buf := buf } s 0 k ds c q none hread hk hhex hc]
    exact ⟨_, rfl, rfl, rfl, rfl⟩
  · intro k ds q hread hk hhex hval
    rw [hlex, try_read_ucn_rejected { buf := buf } s 0 k ds q hread hk hhex hval]
    exact ⟨_, rfl, rfl, rfl, rfl⟩

/-- Witness of C15: a backslash before `x`, the incomplete name `\u12;` and
the rejected name `\uD800`. -/
theorem C15_backslash_unknown_token_witness :
    (∃ t, Lexer.lex { buf := str "\\x" } {} =
        some (true,
          { buf := str "\\x", buffer_ptr := 1, diag := [⟨0, .err_unknown_character⟩] }, t) ∧
      t.kind = .unknown ∧ t.b = 0 ∧ t.e = 1) ∧
    (∃ t, Lexer.lex { buf := str "\\u12;" } {} =
        some (true,
          { buf := str "\\u12;", buffer_ptr := 1,
            diag := [⟨0, .warn_ucn_incomplete⟩, ⟨0, .err_unknown_character⟩] }, t) ∧
      t.kind = .unknown ∧ t.b = 0 ∧ t.e = 1) ∧
    (∃ t, Lexer.lex { buf := str "\\uD800" } {} =
        some (true,
          { buf := str "\\uD800", buffer_ptr := 6,
            diag := [⟨0, .err_ucn_invalid⟩, ⟨0, .err_unknown_character⟩] }, t) ∧
      t.kind = .unknown ∧ t.b = 0 ∧ t.e = 6) :=
  ⟨(C15_backslash_unknown_token (str "\\x") 1 (by decide)).1 120 1 (by decide) (by decide)
      (by decide),
   (C15_backslash_unknown_token (str "\\u12;") 1 (by decide)).2.1 117 (str "12") 59 5
      (by decide) (by decide) (by decide) (by decide),
   (C15_backslash_unknown_token (str "\\uD800") 1 (by decide)).2.2 117 (str "D800") 6
      (by decide) (by decide) (by decide) (by decide)⟩

/-! ## C19: unterminated block comments -/

/-- The loop of `skip_block_comment` over a body without `*/`, NUL or
backslash that runs to the end of the buffer: it reports the comment as
unterminated at the end of the buffer and stops there. -/
theorem skip_block_comment_loop_unterminated (lex : Lexer) (body : List Nat) :
    ∀ (fuel p prev : Nat),
      lex.buf.drop p = body →
      (∀ c ∈ body, c ≠ 0 ∧ c ≠ 92) → no_star_slash (prev :: body) = true →
      body.length < fuel →
      skip_block_comment_loop fuel lex p (rd lex.buf p) 1 prev =
        some (report lex (p + body.length) .err_unterminated_comment, p + body.length) := by
  induction body with
  | nil =>
    intro fuel p prev hdrop _ _ hf
    obtain ⟨f, rfl⟩ : ∃ f, fuel = f + 1 := ⟨fuel - 1, by simp at hf; omega⟩
    have h0 : rd lex.buf p = 0 := rd_of_drop_nil _ _ hdrop
    rw [skip_block_comment_loop, h0, if_neg (by omega), if_pos rfl]
    rfl
  | cons x xs ih =>
    intro fuel p prev hdrop hall hns hf
    obtain ⟨f, rfl⟩ : ∃ f, fuel = f + 1 := ⟨fuel - 1, by simp at hf; omega⟩
    have hrd : rd lex.buf p = x := rd_of_drop_cons _ _ _ _ hdrop
    have hx := hall x (by simp)
    have hdrop' : lex.buf.drop (p + 1) = xs := drop_succ_of_drop_cons _ _ _ _ hdrop
    simp only [no_star_slash, Bool.and_eq_true, Bool.not_eq_true', Bool.and_eq_false_iff,
      beq_eq_false_iff_ne] at hns
    have hnext : rd lex.buf (p + 1) ≠ 92 := by
      cases xs with
      | nil =>
        rw [rd_of_drop_nil _ _ hdrop']
        decide
      | cons y ys =>
        rw [rd_of_drop_cons _ _ _ _ hdrop']
        exact (hall y (by simp)).2
    rw [skip_block_comment_loop, hrd,
      if_neg (by rintro ⟨h1, h2⟩; rcases hns.1 with h | h <;> omega), if_neg hx.1]
    simp only [Option.bind_eq_bind]
    rw [peek_char_and_size_of_ne _ _ hnext]
    simp only [Option.some_bind]
    rw [ih f (p + 1) x hdrop' (fun c hc => hall c (by simp [hc])) hns.2
      (by simp at hf; omega)]
    rw [List.length_cons, show p + 1 + xs.length = p + (xs.length + 1) by omega]

theorem no_star_slash_head (body : List Nat) (h : no_star_slash body = true) :
    no_star_slash (rd body 0 :: body) = true := by
  cases body with
  | nil => rfl
  | cons x xs =>
    have e : rd (x :: xs) 0 = x := rfl
    rw [e]
    simp only [no_star_slash, Bool.and_eq_true, Bool.not_eq_true', Bool.and_eq_false_iff,
      beq_eq_false_iff_ne]
    refine ⟨?_, h⟩
    by_cases hx : x = 42
    · right; omega
    · left; exact hx

/-- Counterexample to C19 as stated: on the unterminated comment `/* abc`
`lex` does not return true, so it produces no token. -/
theorem C19_counterexample :
    ¬ ∃ lx t, Lexer.lex { buf := str "/* abc" } {} = some (true, lx, t) := by
  rintro ⟨lx, t, h⟩
  rw [show Lexer.lex { buf := str "/* abc" } {} =
      some (false,
        { buf := str "/* abc", buffer_ptr := 6, diag := [⟨6, .err_unterminated_comment⟩] },
        {}) by decide] at h
  simp at h

/-- An unterminated block comment with a plain body: when `/*` is followed to
the end of the buffer by bytes without `*/`, NUL and backslash, `lex` reports
`err_unterminated_comment` at the end of the buffer and returns false with
the lexer there. -/
theorem unterminated_block_comment_plain (body : List Nat)
    (hbody : ∀ c ∈ body, c ≠ 0 ∧ c ≠ 92) (hns : no_star_slash body = true) :
    Lexer.lex { buf := str "/*" ++ body } {} =
      some (false,
        { buf := str "/*" ++ body, buffer_ptr := body.length + 2,
          diag := [⟨body.length + 2, .err_unterminated_comment⟩] }, {}) := by
  have e : str "/*" ++ body = 47 :: 42 :: body := rfl
  rw [e]
  unfold Lexer.lex
  rw [show fuel_at ({ buf := 47 :: 42 :: body } : Lexer).buf
      ({ buf := 47 :: 42 :: body } : Lexer).buffer_ptr = (body.length + 4) + 1 by
        simp [fuel_at],
    lex_token_of_plain _ _ _ _ (by rfl) (by simp [rd])]
  have hpk : peek_char_and_size (47 :: 42 :: body) 1 = some (42, 1) :=
    peek_char_and_size_of_ne _ _ (by simp [rd])
  rw [show rd ({ buf := 47 :: 42 :: body } : Lexer).buf 0 = 47 from rfl,
    lex_token_switch_block_comment _ { buf := 47 :: 42 :: body } 1 {} 1 hpk]
  have hrd2 : rd (47 :: 42 :: body) 2 = rd body 0 := rfl
  have hne : rd ({ buf := 47 :: 42 :: body } : Lexer).buf 2 ≠ 92 := by
    show rd (47 :: 42 :: body) 2 ≠ 92
    rw [hrd2]
    cases body with
    | nil => decide
    | cons x xs => exact (hbody x (by simp)).2
  have hskip : skip_block_comment { buf := 47 :: 42 :: body } 2 =
      some (report { buf := 47 :: 42 :: body } (2 + body.length) .err_unterminated_comment,
        2 + body.length) := by
    unfold skip_block_comment
    rw [peek_char_and_size_of_ne _ _ hne]
    simp only [Option.bind_eq_bind, Option.some_bind]
    rw [skip_block_comment_loop_unterminated _ body _ 2 _ (by simp) hbody
      (by
        show no_star_slash (rd (47 :: 42 :: body) 2 :: body) = true
        rw [hrd2]
        exact no_star_slash_head body hns)
      (by simp [fuel_at])]
  simp only []
  rw [hskip]
  simp only [Option.some_bind]
  rw [lex_token_at_nul _ _ _ _ (rd_of_length_le _ _ (by simp [report]; omega))]
  simp [report, Nat.add_comm]

/-! ## C16: unterminated character constants -/

theorem rd_of_drop_append_nil (buf : List Nat) (p : Nat) (tail : List Nat)
    (h : buf.drop p = tail) : rd buf p = tail.headD 0 := by
  cases tail with
  | nil => exact rd_of_drop_nil _ _ h
  | cons z zs => exact rd_of_drop_cons _ _ _ _ h

theorem ends_line_iff (tail : List Nat) :
    ends_line tail = true ↔ (tail.headD 0 = 10 ∨ tail.headD 0 = 13 ∨ tail.headD 0 = 0) := by
  simp [ends_line, is_newline, or_assoc]

theorem is_plain_char_byte_iff (c : Nat) :
    is_plain_char_byte c = true ↔ c ≠ 39 ∧ c ≠ 92 ∧ c ≠ 10 ∧ c ≠ 13 ∧ c ≠ 0 := by
  simp [is_plain_char_byte, is_newline, and_assoc]

/-- The character at the start of a body, or after it: `peek_char_advance`
returns the raw byte and moves by one. -/
theorem peek_char_advance_char_body (buf : List Nat) (q : Nat) (body tail : List Nat)
    (tok : Token) (hdrop : buf.drop q = body ++ tail) (hbody : is_char_body body = true)
    (hend : ends_line tail = true) :
    peek_char_advance buf q tok = some (rd buf q, q + 1, tok) ∧ rd buf q ≠ 39 := by
  have hend' := (ends_line_iff tail).1 hend
  match body, hbody, hdrop with
  | [], _, hdrop =>
    have h := rd_of_drop_append_nil buf q tail (by simpa using hdrop)
    exact ⟨peek_char_advance_of_ne _ _ _ (by rw [h]; omega), by rw [h]; omega⟩
  | [c], hbody, hdrop =>
    have hc := (is_plain_char_byte_iff c).1 (by simpa [is_char_body] using hbody)
    have h := rd_of_drop_cons buf q c _ (by simpa using hdrop)
    exact ⟨peek_char_advance_of_ne _ _ _ (by rw [h]; exact hc.2.1), by rw [h]; exact hc.1⟩
  | c :: b :: rest, hbody, hdrop =>
    have h := rd_of_drop_cons buf q c _ (by simpa using hdrop)
    have hb := rd_of_drop_cons buf (q + 1) b _
      (drop_succ_of_drop_cons buf q c _ (by simpa using hdrop))
    by_cases h92 : c = 92
    · subst h92
      simp only [is_char_body, if_true, Bool.and_eq_true, Bool.not_eq_true'] at hbody
      rw [h]
      exact ⟨peek_char_advance_backslash _ _ _ h (by rw [hb]; exact hbody.1.1), by decide⟩
    · simp only [is_char_body, if_neg h92, Bool.and_eq_true] at hbody
      have hc := (is_plain_char_byte_iff c).1 hbody.1
      exact ⟨peek_char_advance_of_ne _ _ _ (by rw [h]; exact hc.2.1), by rw [h]; exact hc.1⟩

/-- The loop of `lex_character_constant` over a body that runs into a newline
or the end of the buffer: `c` is the first byte of the body, at `p`, already
consumed. The loop reports the constant as unterminated and forms a token of
kind `unknown` that ends after the newline or NUL. -/
theorem lex_character_constant_loop_unterminated (lex : Lexer) (k : TokenKind)
    (tail : List Nat) (hend : ends_line tail = true) :
    ∀ (n : Nat) (body : List Nat) (fuel p : Nat) (result : Token),
      body.length ≤ n → lex.buf.drop p = body ++ tail → is_char_body body = true →
      body.length < fuel →
      lex_character_constant_loop fuel lex (p + 1) (rd lex.buf p) result k =
        some (true,
          (form_token (report lex lex.buffer_ptr .err_unterminated_char_const) result
            (p + body.length + 1) .unknown).1,
          (form_token (report lex lex.buffer_ptr .err_unterminated_char_const) result
            (p + body.length + 1) .unknown).2) := by
  have hend' := (ends_line_iff tail).1 hend
  intro n
  induction n with
  | zero =>
    intro body fuel p result hn hdrop _ hf
    have hb : body = [] := List.length_eq_zero.1 (by omega)
    subst hb
    obtain ⟨f, rfl⟩ : ∃ f, fuel = f + 1 := ⟨fuel - 1, by simp at hf; omega⟩
    have h := rd_of_drop_append_nil lex.buf p tail (by simpa using hdrop)
    rw [lex_character_constant_loop, h, if_pos (by omega), if_neg (by omega),
      if_pos (show (is_newline (tail.headD 0) || tail.headD 0 == 0) = true from hend)]
    rfl
  | succ n ih =>
    intro body fuel p result hn hdrop hbody hf
    match body, hbody, hdrop, hn, hf with
    | [], _, hdrop, _, hf =>
      obtain ⟨f, rfl⟩ : ∃ f, fuel = f + 1 := ⟨fuel - 1, by simp at hf; omega⟩
      have h := rd_of_drop_append_nil lex.buf p tail (by simpa using hdrop)
      rw [lex_character_constant_loop, h, if_pos (by omega), if_neg (by omega),
        if_pos (show (is_newline (tail.headD 0) || tail.headD 0 == 0) = true from hend)]
      rfl
    | [c], hbody, hdrop, _, hf =>
      obtain ⟨f, rfl⟩ : ∃ f, fuel = f + 1 := ⟨fuel - 1, by simp at hf; omega⟩
      have hc := (is_plain_char_byte_iff c).1 (by simpa [is_char_body] using hbody)
      have h := rd_of_drop_cons lex.buf p c _ (by simpa using hdrop)
      have hdrop' : lex.buf.drop (p + 1) = [] ++ tail :=
        drop_succ_of_drop_cons lex.buf p c _ (by simpa using hdrop)
      rw [lex_character_constant_loop, h, if_pos hc.1, if_neg hc.2.1,
        if_neg (by simp [is_newline, hc.2.2.1, hc.2.2.2.1, hc.2.2.2.2])]
      rw [(peek_char_advance_char_body lex.buf (p + 1) [] tail result hdrop' rfl hend).1]
      simp only [Option.bind_eq_bind, Option.some_bind]
      rw [ih [] f (p + 1) result (by simp) hdrop' rfl (by simp at hf ⊢; omega)]
      simp [Nat.add_assoc]
    | c :: b :: rest, hbody, hdrop, hn, hf =>
      obtain ⟨f, rfl⟩ : ∃ f, fuel = f + 1 := ⟨fuel - 1, by simp at hf; omega⟩
      have h := rd_of_drop_cons lex.buf p c _ (by simpa using hdrop)
      have hdrop1 : lex.buf.drop (p + 1) = (b :: rest) ++ tail :=
        drop_succ_of_drop_cons lex.buf p c _ (by simpa using hdrop)
      have hdrop2 : lex.buf.drop (p + 1 + 1) = rest ++ tail :=
        drop_succ_of_drop_cons lex.buf (p + 1) b _ (by simpa using hdrop1)
      by_cases h92 : c = 92
      · subst h92
        simp only [is_char_body, if_true, Bool.and_eq_true, Bool.not_eq_true'] at hbody
        rw [lex_character_constant_loop, h, if_pos (by decide), if_pos rfl]
        simp only []
        rw [(peek_char_advance_char_body lex.buf (p + 1 + 1) rest tail result hdrop2
          hbody.2 hend).1]
        simp only [Option.bind_eq_bind, Option.some_bind]
        rw [ih rest f (p + 1 + 1) result (by simp at hn; omega) hdrop2 hbody.2
          (by simp at hf ⊢; omega)]
        simp only [List.length_cons]
        rw [show p + 1 + 1 + rest.length + 1 = p + (rest.length + 1 + 1) + 1 by omega]
      · simp only [is_char_body, if_neg h92, Bool.and_eq_true] at hbody
        have hc := (is_plain_char_byte_iff c).1 hbody.1
        rw [lex_character_constant_loop, h, if_pos hc.1, if_neg hc.2.1,
          if_neg (by simp [is_newline, hc.2.2.1, hc.2.2.2.1, hc.2.2.2.2])]
        rw [(peek_char_advance_char_body lex.buf (p + 1) (b :: rest) tail result hdrop1
          hbody.2 hend).1]
        simp only [Option.bind_eq_bind, Option.some_bind]
        rw [ih (b :: rest) f (p + 1) result (by simp at hn ⊢; omega) hdrop1 hbody.2
          (by simp at hf ⊢; omega)]
        simp only [List.length_cons]
        rw [show p + 1 + (rest.length + 1) + 1 = p + (rest.length + 1 + 1) + 1 by omega]

/-- `lex_character_constant` entered after the opening quote of a constant
whose body runs into a newline or the end of the buffer. -/
theorem lex_character_constant_unterminated (lex : Lexer) (p : Nat) (result : Token)
    (k : TokenKind) (body tail : List Nat) (hdrop : lex.buf.drop p = body ++ tail)
    (hbody : is_char_body body = true) (hend : ends_line tail = true) :
    lex_character_constant lex p result k =
      some (true,
        { lex with buffer_ptr := p + body.length + 1,
                   diag := lex.diag ++ [⟨lex.buffer_ptr, .err_unterminated_char_const⟩] },
        { result with kind := .unknown, b := lex.buffer_ptr, e := p + body.length + 1 }) := by
  obtain ⟨hpk, h39⟩ := peek_char_advance_char_body lex.buf p body tail result hdrop hbody hend
  have hlen : body.length ≤ lex.buf.length - p := by
    have := congrArg List.length hdrop
    simp only [List.length_drop, List.length_append] at this
    omega
  unfold lex_character_constant
  rw [hpk]
  simp only [Option.bind_eq_bind, Option.some_bind, if_neg h39]
  rw [lex_character_constant_loop_unterminated lex k tail hend body.length body _ p result
    (Nat.le_refl _) hdrop hbody (by simp [fuel_at]; omega)]
  rfl

/-- Statement of C16: an unterminated character constant. After the opening
quote, alone or prefixed by `L`, `u` or `U`, let the body be any plain bytes
and escapes (a backslash and one escaped byte), followed by a newline (LF,
CR) or NUL, or by the end of the buffer. Then `lex` returns true with a token
of kind `unknown`, from the start of the constant to the position after the
byte that ended it, and reports `err_unterminated_char_const` at the start of
the token. No character-constant kind is produced. -/
theorem C16_unterminated_character_constant (body tail : List Nat)
    (hbody : is_char_body body = true) (hend : ends_line tail = true) :
    Lexer.lex { buf := str "'" ++ body ++ tail } {} =
      some (true,
        { buf := str "'" ++ body ++ tail, buffer_ptr := body.length + 2,
          diag := [⟨0, .err_unterminated_char_const⟩] },
        { kind := .unknown, b := 0, e := body.length + 2 }) ∧
    (∀ pfx ∈ [76, 117, 85],
      Lexer.lex { buf := pfx :: str "'" ++ body ++ tail } {} =
        some (true,
          { buf := pfx :: str "'" ++ body ++ tail, buffer_ptr := body.length + 3,
            diag := [⟨0, .err_unterminated_char_const⟩] },
          { kind := .unknown, b := 0, e := body.length + 3 })) := by
  constructor
  · have e : str "'" ++ body ++ tail = 39 :: (body ++ tail) := by simp [str]
    rw [e]
    unfold Lexer.lex
    rw [show fuel_at ({ buf := 39 :: (body ++ tail) } : Lexer).buf
        ({ buf := 39 :: (body ++ tail) } : Lexer).buffer_ptr =
          (body.length + tail.length + 3) + 1 by simp [fuel_at],
      lex_token_of_plain _ _ _ _ (by rfl) (by simp [rd])]
    show lex_character_constant _ _ _ _ = _
    rw [lex_character_constant_unterminated _ _ _ _ body tail (by simp) hbody hend]
    simp [Nat.add_comm, Nat.add_left_comm]
  · intro pfx hpfx
    have e : pfx :: str "'" ++ body ++ tail = pfx :: 39 :: (body ++ tail) := by simp [str]
    rw [e]
    have hpk : peek_char_and_size (pfx :: 39 :: (body ++ tail)) 1 = some (39, 1) :=
      peek_char_and_size_of_ne _ _ (by simp [rd])
    have hsw : ∀ (f : Nat) (k : TokenKind),
        (pfx = 76 ∧ k = .wide_char_constant) ∨ (pfx = 117 ∧ k = .utf16_char_constant) ∨
          (pfx = 85 ∧ k = .utf32_char_constant) →
        lex_token (f + 1) { buf := pfx :: 39 :: (body ++ tail) } 0 {} =
          lex_character_constant
            { buf := pfx :: 39 :: (body ++ tail), buffer_ptr := 0 } 2 {} k := by
      intro f k hk
      rw [lex_token_of_plain _ _ _ _
        (by rcases hk with ⟨h, -⟩ | ⟨h, -⟩ | ⟨h, -⟩ <;> subst h <;> rfl)
        (by rcases hk with ⟨h, -⟩ | ⟨h, -⟩ | ⟨h, -⟩ <;> subst h <;> simp [rd])]
      rcases hk with ⟨h, hk⟩ | ⟨h, hk⟩ | ⟨h, hk⟩ <;> subst h <;> subst hk <;>
        simp [lex_token_switch, rd, peek_char_and_size_of_ne, consume_char_one, is_digit]
    have hk : ∃ k, (pfx = 76 ∧ k = TokenKind.wide_char_constant) ∨
        (pfx = 117 ∧ k = TokenKind.utf16_char_constant) ∨
        (pfx = 85 ∧ k = TokenKind.utf32_char_constant) := by
      simp only [List.mem_cons, List.mem_singleton, List.not_mem_nil, or_false] at hpfx
      rcases hpfx with h | h | h
      · exact ⟨_, Or.inl ⟨h, rfl⟩⟩
      · exact ⟨_, Or.inr (Or.inl ⟨h, rfl⟩)⟩
      · exact ⟨_, Or.inr (Or.inr ⟨h, rfl⟩)⟩
    obtain ⟨k, hk⟩ := hk
    unfold Lexer.lex
    rw [show fuel_at ({ buf := pfx :: 39 :: (body ++ tail) } : Lexer).buf
        ({ buf := pfx :: 39 :: (body ++ tail) } : Lexer).buffer_ptr =
          (body.length + tail.length + 4) + 1 by simp [fuel_at],
      hsw _ k hk,
      lex_character_constant_unterminated _ _ _ _ body tail (by simp) hbody hend]
    simp [Nat.add_comm, Nat.add_left_comm]

/-- Witness of C16: `'a` before a newline; `L'ab` at the end of the buffer;
`'\'` where the escaped quote does not close the constant; and a body that is
empty. -/
theorem C16_unterminated_character_constant_witness :
    Lexer.lex { buf := str "'" ++ str "a" ++ str "\nb" } {} =
      some (true,
        { buf := str "'" ++ str "a" ++ str "\nb", buffer_ptr := 3,
          diag := [⟨0, .err_unterminated_char_const⟩] },
        { kind := .unknown, b := 0, e := 3 }) ∧
    Lexer.lex { buf := 76 :: str "'" ++ str "ab" ++ [] } {} =
      some (true,
        { buf := 76 :: str "'" ++ str "ab" ++ [], buffer_ptr := 5,
          diag := [⟨0, .err_unterminated_char_const⟩] },
        { kind := .unknown, b := 0, e := 5 }) ∧
    Lexer.lex { buf := str "'" ++ str "\\'" ++ str "\n" } {} =
      some (true,
        { buf := str "'" ++ str "\\'" ++ str "\n", buffer_ptr := 4,
          diag := [⟨0, .err_unterminated_char_const⟩] },
        { kind := .unknown, b := 0, e := 4 }) ∧
    Lexer.lex { buf := str "'" ++ [] ++ str "\r" } {} =
      some (true,
        { buf := str "'" ++ [] ++ str "\r", buffer_ptr := 2,
          diag := [⟨0, .err_unterminated_char_const⟩] },
        { kind := .unknown, b := 0, e := 2 }) :=
  ⟨(C16_unterminated_character_constant (str "a") (str "\nb") (by decide) (by decide)).1,
   (C16_unterminated_character_constant (str "ab") [] (by decide) (by decide)).2 76
      (by decide),
   (C16_unterminated_character_constant (str "\\'") (str "\n") (by decide) (by decide)).1,
   (C16_unterminated_character_constant [] (str "\r") (by decide) (by decide)).1⟩

/-! ## C12: identifiers split by an escaped newline -/

/-- Peeking at a backslash and one newline byte: the character after them,
with two more bytes, and the token marked dirty. -/
theorem peek_char_and_size_nontrivial_escaped (buf : List Nat) (fuel p size : Nat)
    (tok : Option Token) (h0 : rd buf p = 92) (h1 : is_newline (rd buf (p + 1)) = true)
    (h2 : is_newline (rd buf (p + 2)) = false) (h3 : rd buf (p + 2) ≠ 92) :
    peek_char_and_size_nontrivial buf (fuel + 2) p size tok =
      some (rd buf (p + 2), size + 3, tok.map Token.set_dirty) := by
  have hw : is_whitespace (rd buf (p + 1)) = true := by simp [is_whitespace, h1]
  have hs : size_for_escaped_newline buf (p + 1) = 1 := by
    simp [size_for_escaped_newline, h1, h2]
  rw [peek_char_and_size_nontrivial, if_pos h0]
  simp only [hw, hs, Bool.not_true, Bool.false_eq_true, if_false, ne_eq, one_ne_zero,
    not_false_eq_true, if_true]
  rw [peek_char_and_size_nontrivial, if_neg h3]

theorem peek_char_and_size_escaped (buf : List Nat) (p : Nat)
    (h0 : rd buf p = 92) (h1 : is_newline (rd buf (p + 1)) = true)
    (h2 : is_newline (rd buf (p + 2)) = false) (h3 : rd buf (p + 2) ≠ 92) :
    peek_char_and_size buf p = some (rd buf (p + 2), 3) := by
  unfold peek_char_and_size
  rw [if_neg (by rw [h0]; decide),
    show fuel_at buf p = (buf.length - p + 1) + 2 by simp [fuel_at],
    peek_char_and_size_nontrivial_escaped _ _ _ _ _ h0 h1 h2 h3]
  rfl

theorem consume_char_escaped (buf : List Nat) (p : Nat) (tok : Token)
    (h0 : rd buf p = 92) (h1 : is_newline (rd buf (p + 1)) = true)
    (h2 : is_newline (rd buf (p + 2)) = false) (h3 : rd buf (p + 2) ≠ 92) :
    consume_char buf p 3 tok = some (p + 3, tok.set_dirty) := by
  unfold consume_char
  rw [if_neg (by decide),
    show fuel_at buf p = (buf.length - p + 1) + 2 by simp [fuel_at],
    peek_char_and_size_nontrivial_escaped _ _ _ _ _ h0 h1 h2 h3]
  rfl

/-- The switch sends a letter or underscore to `lex_identifier` when the
next logical character is not a single quote. -/
theorem lex_token_switch_of_nondigit_peek
    (relex : Lexer → Nat → Token → Option (Bool × Lexer × Token))
    (lex : Lexer) (cur_ptr : Nat) (result : Token) (ch c s : Nat)
    (hc : is_nondigit ch = true) (hp : peek_char_and_size lex.buf cur_ptr = some (c, s))
    (hq : c ≠ 39) :
    lex_token_switch relex lex cur_ptr result ch = lex_identifier lex cur_ptr result := by
  have hd : is_digit ch = false := by
    rw [is_nondigit_iff] at hc
    cases h : is_digit ch with
    | false => rfl
    | true => rw [is_digit_iff] at h; omega
  rw [is_nondigit_iff] at hc
  unfold lex_token_switch
  rw [if_neg (show ¬ ch = 0 by omega), if_neg (show ¬ ch = 92 by omega), if_neg (show ¬ ch = 91 by omega), if_neg (show ¬ ch = 93 by omega), if_neg (show ¬ ch = 40 by omega), if_neg (show ¬ ch = 41 by omega), if_neg (show ¬ ch = 123 by omega), if_neg (show ¬ ch = 125 by omega), if_neg (show ¬ ch = 46 by omega), if_neg (show ¬ ch = 45 by omega), if_neg (show ¬ ch = 43 by omega), if_neg (show ¬ ch = 38 by omega), if_neg (show ¬ ch = 42 by omega), if_neg (show ¬ ch = 126 by omega), if_neg (show ¬ ch = 47 by omega), if_neg (show ¬ ch = 37 by omega), if_neg (show ¬ ch = 60 by omega), if_neg (show ¬ ch = 62 by omega), if_neg (show ¬ ch = 61 by omega), if_neg (show ¬ ch = 33 by omega), if_neg (show ¬ ch = 94 by omega), if_neg (show ¬ ch = 124 by omega), if_neg (show ¬ ch = 63 by omega), if_neg (show ¬ ch = 58 by omega), if_neg (show ¬ ch = 59 by omega), if_neg (show ¬ ch = 44 by omega), if_neg (show ¬ ch = 35 by omega)]
  simp only [hd, Bool.false_eq_true, if_false, hp]
  have hc' : is_nondigit ch = true := (is_nondigit_iff ch).2 hc
  simp [hq, hc']

theorem ident_char_ne_backslash (c : Nat) (h : (is_nondigit c || is_digit c) = true) :
    c ≠ 92 := by
  rintro rfl
  exact absurd h (by decide)

/-- The inner loop of the slow path over `n` plain identifier characters. -/
theorem ident_run_plain (buf : List Nat) (n : Nat) :
    ∀ (fuel p : Nat) (tok : Token), n < fuel →
      (∀ i, i < n → (is_nondigit (rd buf (p + i)) || is_digit (rd buf (p + i))) = true) →
      (is_nondigit (rd buf (p + n)) || is_digit (rd buf (p + n))) = false →
      rd buf (p + n) ≠ 92 →
      ident_run buf fuel p (rd buf p) 1 tok = some (p + n, rd buf (p + n), 1, tok) := by
  induction n with
  | zero =>
    intro fuel p tok hf _ hstop _
    obtain ⟨f, rfl⟩ : ∃ f, fuel = f + 1 := ⟨fuel - 1, by omega⟩
    simp only [Nat.add_zero] at hstop ⊢
    simp [ident_run, hstop]
  | succ n ih =>
    intro fuel p tok hf hall hstop h92
    obtain ⟨f, rfl⟩ : ∃ f, fuel = f + 1 := ⟨fuel - 1, by omega⟩
    have h0 := hall 0 (by omega)
    simp only [Nat.add_zero] at h0
    have hnext : rd buf (p + 1) ≠ 92 := by
      cases n with
      | zero => simpa using h92
      | succ m => exact ident_char_ne_backslash _ (hall 1 (by omega))
    rw [ident_run, if_pos h0, consume_char_one]
    simp only [Option.bind_eq_bind, Option.some_bind]
    rw [peek_char_and_size_of_ne _ _ hnext]
    simp only [Option.some_bind]
    rw [ih f (p + 1) tok (by omega)
      (fun i hi => by
        have := hall (i + 1) (by omega)
        rwa [show p + 1 + i = p + (i + 1) by omega])
      (by rwa [show p + 1 + n = p + (n + 1) by omega])
      (by rwa [show p + 1 + n = p + (n + 1) by omega])]
    rw [show p + 1 + n = p + (n + 1) by omega]

/-- At or after the end of the buffer `lex` returns false and leaves the
lexer and the token as they are. -/
theorem Lexer.lex_at_end (lx : Lexer) (r : Token) (h : lx.buf.length ≤ lx.buffer_ptr) :
    lx.lex r = some (false, lx, r) := by
  unfold Lexer.lex
  rw [show fuel_at lx.buf lx.buffer_ptr = 2 + 1 by simp [fuel_at]; omega,
    lex_token_at_nul _ _ _ _ (rd_of_length_le _ _ h)]

/-- Statement of C12: an identifier split by an escaped newline is one dirty
token of kind `identifier`. For every identifier spelling `A`
(`[A-Za-z_][A-Za-z0-9_]*`), every newline byte `nl` (LF or CR) and every
non-empty `B` of identifier characters, lexing `A` + backslash + `nl` + `B`
yields exactly one token: its range covers all the bytes, backslash and
newline included, `IsDirty` is set, and its kind is `identifier` also when
`A` and `B` together spell a keyword; no diagnostic is reported, and the next
call of `lex` returns false. -/
theorem C12_identifier_with_escaped_newline (A B : List Nat) (nl : Nat)
    (hA : is_identifier_spelling A = true) (hnl : is_newline nl = true)
    (hB : B ≠ []) (hBall : ∀ c ∈ B, (is_nondigit c || is_digit c) = true) :
    lexes_as_one (A ++ 92 :: nl :: B)
      { kind := .identifier, b := 0, e := A.length + 2 + B.length,
        flags := { IsDirty := true } } := by
  obtain ⟨a, as, rfl⟩ : ∃ a as, A = a :: as := by
    cases A with
    | nil => simp [is_identifier_spelling] at hA
    | cons a as => exact ⟨a, as, rfl⟩
  obtain ⟨b, bs, rfl⟩ : ∃ b bs, B = b :: bs := by
    cases B with
    | nil => exact absurd rfl hB
    | cons b bs => exact ⟨b, bs, rfl⟩
  simp only [is_identifier_spelling, Bool.and_eq_true, List.all_eq_true] at hA
  obtain ⟨ha, has⟩ := hA
  have ha' := (is_nondigit_iff a).1 ha
  have hb := hBall b (by simp)
  -- the bytes of the buffer
  have hbuf : (a :: as) ++ 92 :: nl :: b :: bs = a :: (as ++ 92 :: nl :: b :: bs) := rfl
  have hlen : ((a :: as) ++ 92 :: nl :: b :: bs).length = as.length + bs.length + 4 := by
    simp; omega
  have r0 : rd ((a :: as) ++ 92 :: nl :: b :: bs) 0 = a := rfl
  have rA : ∀ i, i < as.length →
      (is_nondigit (rd ((a :: as) ++ 92 :: nl :: b :: bs) (1 + i)) ||
        is_digit (rd ((a :: as) ++ 92 :: nl :: b :: bs) (1 + i))) = true := by
    intro i hi
    rw [hbuf, Nat.add_comm, rd_cons_succ]
    have : rd (as ++ 92 :: nl :: b :: bs) i = as[i] := by
      simp [rd, List.getElem?_append_left hi, List.getElem?_eq_getElem hi]
    rw [this]
    exact has _ (List.getElem_mem _)
  have rT : ∀ j, rd ((a :: as) ++ 92 :: nl :: b :: bs) (as.length + 1 + j) =
      rd (92 :: nl :: b :: bs) j := by
    intro j
    have := rd_append_right (a :: as) (92 :: nl :: b :: bs) j
    simpa using this
  have r92 : rd ((a :: as) ++ 92 :: nl :: b :: bs) (as.length + 1) = 92 := rT 0
  have rnl : rd ((a :: as) ++ 92 :: nl :: b :: bs) (as.length + 1 + 1) = nl := rT 1
  have rb : rd ((a :: as) ++ 92 :: nl :: b :: bs) (as.length + 1 + 2) = b := rT 2
  have rB : ∀ i, i < bs.length →
      (is_nondigit (rd ((a :: as) ++ 92 :: nl :: b :: bs) (as.length + 1 + 3 + i)) ||
        is_digit (rd ((a :: as) ++ 92 :: nl :: b :: bs) (as.length + 1 + 3 + i))) = true := by
    intro i hi
    rw [show as.length + 1 + 3 + i = as.length + 1 + (i + 3) by omega, rT]
    have : rd (92 :: nl :: b :: bs) (i + 3) = bs[i] := by
      simp [rd, List.getElem?_eq_getElem hi]
    rw [this]
    exact hBall _ (by simp [List.getElem_mem])
  have rend : rd ((a :: as) ++ 92 :: nl :: b :: bs) (as.length + 1 + 3 + bs.length) = 0 :=
    rd_of_length_le _ _ (by rw [hlen]; omega)
  have hbn : is_newline b = false := by
    simp only [Bool.or_eq_true, is_nondigit_iff, is_digit_iff] at hb
    simp [is_newline]
    omega
  have hb92 : b ≠ 92 := ident_char_ne_backslash b hb
  have hpkT : peek_char_and_size ((a :: as) ++ 92 :: nl :: b :: bs) (as.length + 1) =
      some (b, 3) := by
    rw [peek_char_and_size_escaped _ _ r92 (by rw [rnl]; exact hnl) (by rw [rb]; exact hbn)
      (by rw [rb]; exact hb92), rb]
  have hb39 : b ≠ 39 := by
    simp only [Bool.or_eq_true, is_nondigit_iff, is_digit_iff] at hb
    omega
  -- the character peeked after the first one is not a quote
  have hpk1 : ∃ c s, peek_char_and_size ((a :: as) ++ 92 :: nl :: b :: bs) 1 = some (c, s) ∧
      c ≠ 39 := by
    cases as with
    | nil => exact ⟨b, 3, hpkT, hb39⟩
    | cons d ds =>
      have hd := rA 0 (by simp)
      simp only [Nat.add_zero] at hd
      have hd92 := ident_char_ne_backslash _ hd
      refine ⟨_, 1, peek_char_and_size_of_ne _ _ hd92, ?_⟩
      simp only [Bool.or_eq_true, is_nondigit_iff, is_digit_iff] at hd
      omega
  obtain ⟨c1, s1, hpk1, hc1⟩ := hpk1
  constructor
  · unfold Lexer.lex
    rw [show fuel_at ({ buf := (a :: as) ++ 92 :: nl :: b :: bs } : Lexer).buf
        ({ buf := (a :: as) ++ 92 :: nl :: b :: bs } : Lexer).buffer_ptr =
          (as.length + bs.length + 6) + 1 by simp [fuel_at]; omega,
      lex_token_of_plain _ _ _ _ (by simp [rd, is_whitespace, is_newline]; omega)
        (by simp [rd]; omega)]
    simp only [r0]
    rw [lex_token_switch_of_nondigit_peek _ _ _ _ _ c1 s1 ha hpk1 hc1]
    unfold lex_identifier
    simp only []
    rw [ident_fast_run _ as.length _ 1 (by simp [fuel_at]; omega) rA
      (by rw [Nat.add_comm, r92]; rfl)]
    rw [Nat.add_comm 1]
    simp only [Option.bind_eq_bind, Option.some_bind, r92, if_true, hpkT]
    rw [show fuel_at ((a :: as) ++ 92 :: nl :: b :: bs) (as.length + 1) =
        (bs.length + 5) + 1 by simp [fuel_at],
      ident_slow, if_neg hb92]
    simp only [hb, Bool.not_true, Bool.false_eq_true, if_false]
    rw [consume_char_escaped _ _ _ r92 (by rw [rnl]; exact hnl) (by rw [rb]; exact hbn)
      (by rw [rb]; exact hb92)]
    simp only [Option.bind_eq_bind, Option.some_bind]
    have hnext : rd ((a :: as) ++ 92 :: nl :: b :: bs) (as.length + 1 + 3) ≠ 92 := by
      cases bs with
      | nil =>
        have := rend
        simp only [List.length_nil, Nat.add_zero] at this
        rw [this]
        decide
      | cons d ds => exact ident_char_ne_backslash _ (by simpa using rB 0 (by simp))
    rw [peek_char_and_size_of_ne _ _ hnext]
    simp only [Option.some_bind]
    rw [ident_run_plain _ bs.length _ (as.length + 1 + 3) _ (by simp [fuel_at]; omega) rB
      (by rw [rend]; rfl) (by rw [rend]; decide)]
    simp only [Option.some_bind, rend]
    rw [ident_slow, if_neg (by decide), if_pos (by decide)]
    simp only [form_token, Token.set_dirty, Option.some_bind, Bool.not_true, Bool.and_false,
      Bool.false_eq_true, if_false, List.length_cons]
    rw [show as.length + 1 + 3 + bs.length = as.length + 1 + 2 + (bs.length + 1) by omega]
  · have e : (a :: as).length + 2 + (b :: bs).length =
        ((a :: as) ++ 92 :: nl :: b :: bs).length := by
      rw [hlen]
      simp only [List.length_cons]
      omega
    show Lexer.lex { buf := (a :: as) ++ 92 :: nl :: b :: bs,
                     buffer_ptr := (a :: as).length + 2 + (b :: bs).length } {} = _
    rw [e]
    exact Lexer.lex_at_end _ _ (Nat.le_refl _)

/-- Witness of C12: `in`, backslash, LF, `t`, which spells the keyword `int`,
and `escaped`, backslash, CR, `newline9`. -/
theorem C12_identifier_with_escaped_newline_witness :
    lexes_as_one (str "in" ++ 92 :: 10 :: str "t")
      { kind := .identifier, b := 0, e := 5, flags := { IsDirty := true } } ∧
    lexes_as_one (str "escaped" ++ 92 :: 13 :: str "newline9")
      { kind := .identifier, b := 0, e := 17, flags := { IsDirty := true } } :=
  ⟨C12_identifier_with_escaped_newline (str "in") (str "t") 10 (by decide) (by decide)
      (by decide) (by decide),
   C12_identifier_with_escaped_newline (str "escaped") (str "newline9") 13 (by decide)
      (by decide) (by decide) (by decide)⟩

/-! ## C21: token ranges are not empty -/

/-- Statement of C21: `lex` returns, and every token it produces (whenever it
returns true) has a non-empty range, `end > begin`, ending where the lexer
continues; so every successful call advances the buffer pointer of the lexer
by at least one byte. -/
theorem C21_token_range_not_empty (lex : Lexer) (result : Token) :
    (∃ r, lex.lex result = some r) ∧
    ∀ (lx : Lexer) (t : Token), lex.lex result = some (true, lx, t) →
      t.b < t.e ∧ lx.buffer_ptr = t.e ∧ lex.buffer_ptr < lx.buffer_ptr := by
  obtain ⟨ok, lx', t', h', -, -, htok⟩ := Lexer.lex_total lex result
  refine ⟨⟨_, h'⟩, ?_⟩
  intro lx t h
  rw [h'] at h
  simp only [Option.some.injEq, Prod.mk.injEq] at h
  obtain ⟨rfl, rfl, rfl⟩ := h
  obtain ⟨h1, h2, h3, -⟩ := htok rfl
  exact ⟨by omega, h1, by omega⟩

/-- Witness of C21: the token `ab` of ` ab cd`, lexed from position 0, has
the range from 1 to 3, and the lexer moves from 0 to 3. -/
theorem C21_token_range_not_empty_witness :
    Lexer.lex { buf := str " ab cd" } {} =
      some (true, { buf := str " ab cd", buffer_ptr := 3 },
        { kind := .identifier, b := 1, e := 3 }) ∧
    ((1 : Nat) < 3 ∧ (3 : Nat) = 3 ∧ (0 : Nat) < 3) :=
  ⟨by decide,
   (C21_token_range_not_empty { buf := str " ab cd" } {}).2
    { buf := str " ab cd", buffer_ptr := 3 } { kind := .identifier, b := 1, e := 3 }
    (by decide)⟩

/-! ## C24: the flag HasUCN -/

/-- Behaviour of the code on the inputs named by C24. Every call of
`try_read_ucn` made by the lexer passes no token (`nullptr`), so the branch
that sets `HasUCN` is never taken: the identifiers `\u1234`, `\UAABBCCDD` and
`a\u1234b` are lexed as single `identifier` tokens over their whole
spelling, without diagnostic, and with `HasUCN` clear. -/
theorem C24_has_ucn_never_set :
    Lexer.lex { buf := str "\\u1234" } {} =
      some (true, { buf := str "\\u1234", buffer_ptr := 6 },
        { kind := .identifier, b := 0, e := 6, flags := { HasUCN := false } }) ∧
    Lexer.lex { buf := str "\\UAABBCCDD" } {} =
      some (true, { buf := str "\\UAABBCCDD", buffer_ptr := 10 },
        { kind := .identifier, b := 0, e := 10, flags := { HasUCN := false } }) ∧
    Lexer.lex { buf := str "a\\u1234b" } {} =
      some (true, { buf := str "a\\u1234b", buffer_ptr := 8 },
        { kind := .identifier, b := 0, e := 8, flags := { HasUCN := false } }) := by
  refine ⟨?_, ?_, ?_⟩ <;> decide

/-! ## C25: the flag IsLiteral -/

/-- Behaviour of the code on the inputs of C25. `lex_numeric_constant` sets
`IsLiteral`, `lex_character_constant` does not: `42` is lexed with the flag
set, and each of `'x'`, `L'x'`, `u'x'`, `U'x'` is lexed as a character
constant with the flag clear. -/
theorem C25_is_literal_only_on_numeric :
    Lexer.lex { buf := str "42" } {} =
      some (true, { buf := str "42", buffer_ptr := 2 },
        { kind := .numeric_constant, b := 0, e := 2, flags := { IsLiteral := true } }) ∧
    Lexer.lex { buf := str "'x'" } {} =
      some (true, { buf := str "'x'", buffer_ptr := 3 },
        { kind := .utf8_char_constant, b := 0, e := 3, flags := { IsLiteral := false } }) ∧
    Lexer.lex { buf := str "L'x'" } {} =
      some (true, { buf := str "L'x'", buffer_ptr := 4 },
        { kind := .wide_char_constant, b := 0, e := 4, flags := { IsLiteral := false } }) ∧
    Lexer.lex { buf := str "u'x'" } {} =
      some (true, { buf := str "u'x'", buffer_ptr := 4 },
        { kind := .utf16_char_constant, b := 0, e := 4, flags := { IsLiteral := false } }) ∧
    Lexer.lex { buf := str "U'x'" } {} =
      some (true, { buf := str "U'x'", buffer_ptr := 4 },
        { kind := .utf32_char_constant, b := 0, e := 4, flags := { IsLiteral := false } }) := by
  refine ⟨?_, ?_, ?_, ?_, ?_⟩ <;> decide

/-! ## C23: lexing a spelling again -/

/-- Behaviour of the code on inputs of C23. In `..` the first period is
lexed as a token of kind `unknown` (the case for `.` assigns no kind when a
second period is not followed by a third), but its spelling `.` alone lexes
as `period`. After an escaped newline and a comment, `int` is lexed as a dirty
`identifier`, because the flag set while consuming the first character of the
comment stays on the token; its spelling `int` alone lexes as the keyword,
not dirty. -/
theorem C23_relex_changes_kind :
    Lexer.lex { buf := str ".." } {} =
      some (true, { buf := str "..", buffer_ptr := 1, diag := [⟨0, .err_unknown_character⟩] },
        { kind := .unknown, b := 0, e := 1 }) ∧
    text_slice (str "..") 0 1 = str "." ∧
    Lexer.lex { buf := str "." } {} =
      some (true, { buf := str ".", buffer_ptr := 1 }, { kind := .period, b := 0, e := 1 }) ∧
    Lexer.lex { buf := str "\\\n// c\nint" } {} =
      some (true, { buf := str "\\\n// c\nint", buffer_ptr := 10 },
        { kind := .identifier, b := 7, e := 10, flags := { IsDirty := true } }) ∧
    text_slice (str "\\\n// c\nint") 7 10 = str "int" ∧
    Lexer.lex { buf := str "int" } {} =
      some (true, { buf := str "int", buffer_ptr := 3 }, { kind := .kw_int, b := 0, e := 3 }) := by
  refine ⟨?_, ?_, ?_, ?_, ?_, ?_⟩ <;> decide

/-! ## The lexer forms no token of kind eof -/

theorem not_eof_result_bind {α : Type} (x : Option α)
    (f : α → Option (Bool × Lexer × Token)) (h : ∀ a, not_eof_result (f a)) :
    not_eof_result (x.bind f) := by
  cases x with
  | none => exact fun _ _ h => by cases h
  | some a => exact h a

theorem lex_token_finish_not_eof (lex : Lexer) (result : Token) (q : Nat) (kind : TokenKind)
    (hk : kind ≠ .eof) : not_eof_result (lex_token_finish lex result q kind) := by
  intro lx t h
  unfold lex_token_finish at h
  simp only [form_token, Option.some.injEq, Prod.mk.injEq, true_and] at h
  obtain ⟨-, rfl⟩ := h
  exact hk

theorem keyword_kind_ne_eof (s : List Nat) (kw : TokenKind) (h : keyword_kind s = some kw) :
    kw ≠ .eof := by
  unfold keyword_kind at h
  have hm := List.mem_of_find?_eq_some h
  rintro rfl
  exact absurd hm (by decide)

theorem lex_identifier_not_eof (lex : Lexer) (p : Nat) (result : Token) :
    not_eof_result (lex_identifier lex p result) := by
  unfold lex_identifier
  simp only [Option.bind_eq_bind]
  apply not_eof_result_bind; intro q
  apply not_eof_result_bind; rintro ⟨lx, q', t⟩
  dsimp only
  intro lx' t' h
  split at h
  · split at h
    · rename_i kw hkw
      simp only [Option.some.injEq, Prod.mk.injEq, true_and] at h
      obtain ⟨-, rfl⟩ := h
      exact keyword_kind_ne_eof _ _ hkw
    · simp only [form_token, Option.some.injEq, Prod.mk.injEq, true_and] at h
      obtain ⟨-, rfl⟩ := h
      exact fun h => by cases h
  · simp only [form_token, Option.some.injEq, Prod.mk.injEq, true_and] at h
    obtain ⟨-, rfl⟩ := h
    exact fun h => by cases h

theorem lex_numeric_constant_not_eof :
    ∀ (fuel : Nat) (lex : Lexer) (p : Nat) (result : Token),
      not_eof_result (lex_numeric_constant fuel lex p result) := by
  intro fuel
  induction fuel with
  | zero => intro lex p result lx t h; simp [lex_numeric_constant] at h
  | succ f ih =>
    intro lex p result
    simp only [lex_numeric_constant, Option.bind_eq_bind]
    apply not_eof_result_bind; rintro ⟨c, s⟩
    apply not_eof_result_bind; rintro ⟨q, c', s', prev, t⟩
    dsimp only
    have leaf : ∀ (lx : Lexer) (q : Nat) (t : Token), not_eof_result
        (some (true, (form_token lx t q .numeric_constant).1,
          (form_token lx t q .numeric_constant).2.set_literal)) := by
      intro lx q t lx' t' h
      simp only [form_token, Token.set_literal, Option.some.injEq, Prod.mk.injEq, true_and] at h
      obtain ⟨-, rfl⟩ := h
      exact fun h => by cases h
    split_ifs
    · apply not_eof_result_bind; rintro ⟨q1, t1⟩
      exact ih _ _ _
    · apply not_eof_result_bind; rintro ⟨q1, t1⟩
      exact ih _ _ _
    · apply not_eof_result_bind; rintro ⟨ok, q1, lx1, t1⟩
      dsimp only
      split_ifs
      · exact ih _ _ _
      · exact leaf _ _ _
    · exact leaf _ _ _

theorem lex_character_constant_loop_not_eof (k : TokenKind) (hk : k ≠ .eof) :
    ∀ (fuel : Nat) (lex : Lexer) (p c : Nat) (result : Token),
      not_eof_result (lex_character_constant_loop fuel lex p c result k) := by
  intro fuel
  induction fuel with
  | zero => intro lex p c result lx t h; simp [lex_character_constant_loop] at h
  | succ f ih =>
    intro lex p c result
    simp only [lex_character_constant_loop, Option.bind_eq_bind]
    split_ifs
    · apply not_eof_result_bind; rintro ⟨c1, q1, t1⟩
      exact ih _ _ _ _
    · intro lx t h
      simp only [form_token, report, Option.some.injEq, Prod.mk.injEq, true_and] at h
      obtain ⟨-, rfl⟩ := h
      exact fun h => by cases h
    · apply not_eof_result_bind; rintro ⟨c1, q1, t1⟩
      exact ih _ _ _ _
    · intro lx t h
      simp only [form_token, Option.some.injEq, Prod.mk.injEq, true_and] at h
      obtain ⟨-, rfl⟩ := h
      exact hk

theorem lex_character_constant_not_eof (lex : Lexer) (p : Nat) (result : Token)
    (k : TokenKind) (hk : k ≠ .eof) :
    not_eof_result (lex_character_constant lex p result k) := by
  unfold lex_character_constant
  simp only [Option.bind_eq_bind]
  apply not_eof_result_bind; rintro ⟨c1, q1, t1⟩
  dsimp only
  split_ifs
  · intro lx t h
    simp only [form_token, report, Option.some.injEq, Prod.mk.injEq, true_and] at h
    obtain ⟨-, rfl⟩ := h
    exact fun h => by cases h
  · exact lex_character_constant_loop_not_eof k hk _ _ _ _ _
set_option maxHeartbeats 4000000 in
/-- No branch of the switch forms a token of kind `eof`. -/
theorem lex_token_switch_not_eof
    (relex : Lexer → Nat → Token → Option (Bool × Lexer × Token))
    (hrelex : ∀ lx q t, not_eof_result (relex lx q t))
    (lex : Lexer) (p : Nat) (result : Token) (ch : Nat) :
    not_eof_result (lex_token_switch relex lex p result ch) := by
  unfold lex_token_switch
  by_cases h0 : ch = 0
  · rw [if_pos h0]
    intro lx t h
    simp at h
  rw [if_neg h0]
  by_cases h92 : ch = 92
  · rw [if_pos h92]
    simp only [Option.bind_eq_bind]
    refine not_eof_result_bind _ _ ?_
    rintro ⟨cp, q, lx, t⟩
    dsimp only
    split_ifs
    · exact lex_identifier_not_eof _ _ _
    · exact lex_token_finish_not_eof _ _ _ _ (by decide)
  rw [if_neg h92]
  by_cases h91 : ch = 91
  · rw [if_pos h91]
    exact lex_token_finish_not_eof _ _ _ _ (by decide)
  rw [if_neg h91]
  by_cases h93 : ch = 93
  · rw [if_pos h93]
    exact lex_token_finish_not_eof _ _ _ _ (by decide)
  rw [if_neg h93]
  by_cases h40 : ch = 40
  · rw [if_pos h40]
    exact lex_token_finish_not_eof _ _ _ _ (by decide)
  rw [if_neg h40]
  by_cases h41 : ch = 41
  · rw [if_pos h41]
    exact lex_token_finish_not_eof _ _ _ _ (by decide)
  rw [if_neg h41]
  by_cases h123 : ch = 123
  · rw [if_pos h123]
    exact lex_token_finish_not_eof _ _ _ _ (by decide)
  rw [if_neg h123]
  by_cases h125 : ch = 125
  · rw [if_pos h125]
    exact lex_token_finish_not_eof _ _ _ _ (by decide)
  rw [if_neg h125]
  by_cases h46 : ch = 46
  · rw [if_pos h46]
    simp only [Option.bind_eq_bind]
    repeat' (first
      | exact lex_token_finish_not_eof _ _ _ _ (by decide)
      | exact lex_numeric_constant_not_eof _ _ _ _
      | (refine not_eof_result_bind _ _ ?_; rintro ⟨_, _⟩; dsimp only)
      | split_ifs)
  rw [if_neg h46]
  by_cases h45 : ch = 45
  · rw [if_pos h45]
    simp only [Option.bind_eq_bind]
    repeat' (first
      | exact lex_token_finish_not_eof _ _ _ _ (by decide)
      | (refine not_eof_result_bind _ _ ?_; rintro ⟨_, _⟩; dsimp only)
      | split_ifs)
  rw [if_neg h45]
  by_cases h43 : ch = 43
  · rw [if_pos h43]
    simp only [Option.bind_eq_bind]
    repeat' (first
      | exact lex_token_finish_not_eof _ _ _ _ (by decide)
      | (refine not_eof_result_bind _ _ ?_; rintro ⟨_, _⟩; dsimp only)
      | split_ifs)
  rw [if_neg h43]
  by_cases h38 : ch = 38
  · rw [if_pos h38]
    simp only [Option.bind_eq_bind]
    repeat' (first
      | exact lex_token_finish_not_eof _ _ _ _ (by decide)
      | (refine not_eof_result_bind _ _ ?_; rintro ⟨_, _⟩; dsimp only)
      | split_ifs)
  rw [if_neg h38]
  by_cases h42 : ch = 42
  · rw [if_pos h42]
    simp only [Option.bind_eq_bind]
    repeat' (first
      | exact lex_token_finish_not_eof _ _ _ _ (by decide)
      | (refine not_eof_result_bind _ _ ?_; rintro ⟨_, _⟩; dsimp only)
      | split_ifs)
  rw [if_neg h42]
  by_cases h126 : ch = 126
  · rw [if_pos h126]
    exact lex_token_finish_not_eof _ _ _ _ (by decide)
  rw [if_neg h126]
  by_cases h47 : ch = 47
  · rw [if_pos h47]
    simp only [Option.bind_eq_bind]
    repeat' (first
      | exact lex_token_finish_not_eof _ _ _ _ (by decide)
      | exact hrelex _ _ _
      | (refine not_eof_result_bind _ _ ?_; rintro ⟨_, _⟩; dsimp only)
      | split_ifs)
  rw [if_neg h47]
  by_cases h37 : ch = 37
  · rw [if_pos h37]
    simp only [Option.bind_eq_bind]
    repeat' (first
      | exact lex_token_finish_not_eof _ _ _ _ (by decide)
      | (refine not_eof_result_bind _ _ ?_; rintro ⟨_, _⟩; dsimp only)
      | split_ifs)
  rw [if_neg h37]
  by_cases h60 : ch = 60
  · rw [if_pos h60]
    simp only [Option.bind_eq_bind]
    repeat' (first
      | exact lex_token_finish_not_eof _ _ _ _ (by decide)
      | (refine not_eof_result_bind _ _ ?_; rintro ⟨_, _⟩; dsimp only)
      | split_ifs)
  rw [if_neg h60]
  by_cases h62 : ch = 62
  · rw [if_pos h62]
    simp only [Option.bind_eq_bind]
    repeat' (first
      | exact lex_token_finish_not_eof _ _ _ _ (by decide)
      | (refine not_eof_result_bind _ _ ?_; rintro ⟨_, _⟩; dsimp only)
      | split_ifs)
  rw [if_neg h62]
  by_cases h61 : ch = 61
  · rw [if_pos h61]
    simp only [Option.bind_eq_bind]
    repeat' (first
      | exact lex_token_finish_not_eof _ _ _ _ (by decide)
      | (refine not_eof_result_bind _ _ ?_; rintro ⟨_, _⟩; dsimp only)
      | split_ifs)
  rw [if_neg h61]
  by_cases h33 : ch = 33
  · rw [if_pos h33]
    simp only [Option.bind_eq_bind]
    repeat' (first
      | exact lex_token_finish_not_eof _ _ _ _ (by decide)
      | (refine not_eof_result_bind _ _ ?_; rintro ⟨_, _⟩; dsimp only)
      | split_ifs)
  rw [if_neg h33]
  by_cases h94 : ch = 94
  · rw [if_pos h94]
    simp only [Option.bind_eq_bind]
    repeat' (first
      | exact lex_token_finish_not_eof _ _ _ _ (by decide)
      | (refine not_eof_result_bind _ _ ?_; rintro ⟨_, _⟩; dsimp only)
      | split_ifs)
  rw [if_neg h94]
  by_cases h124 : ch = 124
  · rw [if_pos h124]
    simp only [Option.bind_eq_bind]
    repeat' (first
      | exact lex_token_finish_not_eof _ _ _ _ (by decide)
      | (refine not_eof_result_bind _ _ ?_; rintro ⟨_, _⟩; dsimp only)
      | split_ifs)
  rw [if_neg h124]
  by_cases h63 : ch = 63
  · rw [if_pos h63]
    exact lex_token_finish_not_eof _ _ _ _ (by decide)
  rw [if_neg h63]
  by_cases h58 : ch = 58
  · rw [if_pos h58]
    simp only [Option.bind_eq_bind]
    repeat' (first
      | exact lex_token_finish_not_eof _ _ _ _ (by decide)
      | (refine not_eof_result_bind _ _ ?_; rintro ⟨_, _⟩; dsimp only)
      | split_ifs)
  rw [if_neg h58]
  by_cases h59 : ch = 59
  · rw [if_pos h59]
    exact lex_token_finish_not_eof _ _ _ _ (by decide)
  rw [if_neg h59]
  by_cases h44 : ch = 44
  · rw [if_pos h44]
    exact lex_token_finish_not_eof _ _ _ _ (by decide)
  rw [if_neg h44]
  by_cases h35 : ch = 35
  · rw [if_pos h35]
    simp only [Option.bind_eq_bind]
    repeat' (first
      | exact lex_token_finish_not_eof _ _ _ _ (by decide)
      | (refine not_eof_result_bind _ _ ?_; rintro ⟨_, _⟩; dsimp only)
      | split_ifs)
  rw [if_neg h35]
  by_cases hd : is_digit ch = true
  · rw [if_pos hd]
    exact lex_numeric_constant_not_eof _ _ _ _
  rw [if_neg hd]
  by_cases h76 : ch = 76
  · rw [if_pos h76]
    simp only [Option.bind_eq_bind]
    repeat' (first
      | exact lex_identifier_not_eof _ _ _
      | exact lex_character_constant_not_eof _ _ _ _ (by decide)
      | (refine not_eof_result_bind _ _ ?_; rintro ⟨_, _⟩; dsimp only)
      | split_ifs)
  rw [if_neg h76]
  by_cases h117 : ch = 117
  · rw [if_pos h117]
    simp only [Option.bind_eq_bind]
    repeat' (first
      | exact lex_identifier_not_eof _ _ _
      | exact lex_character_constant_not_eof _ _ _ _ (by decide)
      | (refine not_eof_result_bind _ _ ?_; rintro ⟨_, _⟩; dsimp only)
      | split_ifs)
  rw [if_neg h117]
  by_cases h85 : ch = 85
  · rw [if_pos h85]
    simp only [Option.bind_eq_bind]
    repeat' (first
      | exact lex_identifier_not_eof _ _ _
      | exact lex_character_constant_not_eof _ _ _ _ (by decide)
      | (refine not_eof_result_bind _ _ ?_; rintro ⟨_, _⟩; dsimp only)
      | split_ifs)
  rw [if_neg h85]
  by_cases hn : is_nondigit ch = true
  · rw [if_pos hn]
    exact lex_identifier_not_eof _ _ _
  rw [if_neg hn]
  by_cases h39 : ch = 39
  · rw [if_pos h39]
    exact lex_character_constant_not_eof _ _ _ _ (by decide)
  rw [if_neg h39]
  exact lex_token_finish_not_eof _ _ _ _ (by decide)

theorem lex_token_not_eof :
    ∀ (fuel : Nat) (lex : Lexer) (p : Nat) (result : Token),
      not_eof_result (lex_token fuel lex p result) := by
  intro fuel
  induction fuel with
  | zero => intro lex p result lx t h; simp [lex_token] at h
  | succ f ih =>
    intro lex p result
    simp only [lex_token, Option.bind_eq_bind]
    refine not_eof_result_bind _ _ ?_
    rintro ⟨c, s⟩
    refine not_eof_result_bind _ _ ?_
    rintro ⟨q, t⟩
    exact lex_token_switch_not_eof _ ih _ _ _ _

/-- A token produced by `Lexer::lex` is not of kind `eof`. -/
theorem Lexer.lex_not_eof (lex lx : Lexer) (result t : Token)
    (h : lex.lex result = some (true, lx, t)) : t.kind ≠ .eof :=
  lex_token_not_eof _ _ _ _ lx t h

/-! ## C26 and C27: the token stream -/

theorem TokenStream.peek_total (ts : TokenStream) : ∃ ts1 t, ts.peek = some (ts1, t) := by
  unfold TokenStream.peek
  cases hc : ts.cur_tok with
  | some tok => exact ⟨_, _, rfl⟩
  | none =>
    obtain ⟨ok, lx, t, h, -⟩ := Lexer.lex_total ts.lexer {}
    cases ok with
    | true => simp only [h]; exact ⟨_, _, rfl⟩
    | false => simp only [h]; exact ⟨_, _, rfl⟩

theorem TokenStream.peek_slot (ts ts1 : TokenStream) (t : Token)
    (h : ts.peek = some (ts1, t)) : ts1.cur_tok = some t := by
  unfold TokenStream.peek at h
  cases hc : ts.cur_tok with
  | some tok =>
    simp only [hc, Option.some.injEq, Prod.mk.injEq] at h
    obtain ⟨rfl, rfl⟩ := h
    exact hc
  | none =>
    simp only [hc] at h
    split at h
    · cases h
    · simp only [Option.some.injEq, Prod.mk.injEq] at h
      obtain ⟨rfl, rfl⟩ := h
      rfl
    · simp only [Option.some.injEq, Prod.mk.injEq] at h
      obtain ⟨rfl, rfl⟩ := h
      rfl

theorem TokenStream.peek_of_slot (ts : TokenStream) (t : Token) (h : ts.cur_tok = some t) :
    ts.peek = some (ts, t) := by
  unfold TokenStream.peek
  simp only [h]

theorem TokenStream.empty_of_slot (ts : TokenStream) (t : Token) (h : ts.cur_tok = some t) :
    ts.empty = some (ts, t.kind == .eof) := by
  unfold TokenStream.empty
  simp only [TokenStream.peek_of_slot ts t h, Option.bind_eq_bind, Option.some_bind]

theorem TokenStream.calls_drained (t : Token) (ht : t.kind = .eof) (L : Lexer) :
    ∀ cs : List StreamCall,
      TokenStream.calls cs { lexer := L, cur_tok := some t } =
        some ({ lexer := L, cur_tok := some t }, drained_answers t cs) := by
  intro cs
  induction cs with
  | nil => rfl
  | cons c cs ih =>
    cases c with
    | peek =>
      simp only [TokenStream.calls, drained_answers, TokenStream.peek_of_slot { lexer := L, cur_tok := some t } t rfl, ih,
        Option.bind_eq_bind, Option.some_bind]
    | empty =>
      simp only [TokenStream.calls, drained_answers, TokenStream.empty_of_slot { lexer := L, cur_tok := some t } t rfl, ih,
        Option.bind_eq_bind, Option.some_bind, ht, beq_self_eq_true]

/-- Statement of C26: `peek` returns; a second `peek` returns the same token
and leaves the stream (slot and lexer) as it is; when the peeked token is not
the end sentinel, `consume`, called after the `peek` or in its place, returns
that token and leaves the slot empty with the lexer where the `peek` left it,
and the `peek` after that is the next call of `lex` on that lexer. -/
theorem C26_peek_idempotent_consume_takes_it (ts : TokenStream) :
    (∃ r, ts.peek = some r) ∧
    ∀ (ts1 : TokenStream) (t : Token), ts.peek = some (ts1, t) →
      ts1.peek = some (ts1, t) ∧ ts1.cur_tok = some t ∧
      (t.kind ≠ .eof →
        ts1.consume = some (some ({ lexer := ts1.lexer, cur_tok := none }, t)) ∧
        ts.consume = some (some ({ lexer := ts1.lexer, cur_tok := none }, t)) ∧
        ∃ ok lx tok, ts1.lexer.lex {} = some (ok, lx, tok) ∧
          TokenStream.peek { lexer := ts1.lexer, cur_tok := none } =
            some (if ok = true then ({ lexer := lx, cur_tok := some tok }, tok)
              else ({ lexer := lx, cur_tok := some eof_token }, eof_token))) := by
  obtain ⟨ts1', t', h'⟩ := TokenStream.peek_total ts
  refine ⟨⟨_, h'⟩, ?_⟩
  intro ts1 t h
  have hslot := TokenStream.peek_slot ts ts1 t h
  have hp1 := TokenStream.peek_of_slot ts1 t hslot
  refine ⟨hp1, hslot, ?_⟩
  intro hk
  have hb : (t.kind == TokenKind.eof) = false := by simpa using hk
  refine ⟨?_, ?_, ?_⟩
  · simp only [TokenStream.consume, TokenStream.empty, hp1, Option.bind_eq_bind,
      Option.some_bind, hb, Bool.false_eq_true, if_false]
  · simp only [TokenStream.consume, TokenStream.empty, h, hp1, Option.bind_eq_bind,
      Option.some_bind, hb, Bool.false_eq_true, if_false]
  · obtain ⟨ok, lx, tok, hl, -⟩ := Lexer.lex_total ts1.lexer {}
    refine ⟨ok, lx, tok, hl, ?_⟩
    unfold TokenStream.peek
    simp only [hl]
    cases ok <;> simp

theorem C26_peek_idempotent_consume_takes_it_witness :
    TokenStream.peek { lexer := { buf := str "ab cd" } } =
      some ({ lexer := { buf := str "ab cd", buffer_ptr := 2 },
              cur_tok := some { kind := .identifier, b := 0, e := 2 } },
            { kind := .identifier, b := 0, e := 2 }) ∧
    TokenStream.consume { lexer := { buf := str "ab cd", buffer_ptr := 2 },
                          cur_tok := some { kind := .identifier, b := 0, e := 2 } } =
      some (some ({ lexer := { buf := str "ab cd", buffer_ptr := 2 }, cur_tok := none },
        { kind := .identifier, b := 0, e := 2 })) ∧
    TokenStream.peek { lexer := { buf := str "ab cd", buffer_ptr := 2 }, cur_tok := none } =
      some ({ lexer := { buf := str "ab cd", buffer_ptr := 5 },
              cur_tok := some { kind := .identifier, b := 3, e := 5 } },
            { kind := .identifier, b := 3, e := 5 }) :=
  ⟨by decide,
   (((C26_peek_idempotent_consume_takes_it { lexer := { buf := str "ab cd" } }).2
      { lexer := { buf := str "ab cd", buffer_ptr := 2 },
        cur_tok := some { kind := .identifier, b := 0, e := 2 } }
      { kind := .identifier, b := 0, e := 2 } (by decide)).2.2 (by decide)).1,
   by decide⟩
theorem TokenStream.empty_eq (ts ts1 : TokenStream) (b : Bool)
    (h : ts.empty = some (ts1, b)) :
    ∃ t, ts.peek = some (ts1, t) ∧ b = (t.kind == .eof) := by
  unfold TokenStream.empty at h
  obtain ⟨ts1', t', h'⟩ := TokenStream.peek_total ts
  simp only [h', Option.bind_eq_bind, Option.some_bind, Option.some.injEq, Prod.mk.injEq] at h
  obtain ⟨rfl, rfl⟩ := h
  exact ⟨t', h', rfl⟩

theorem TokenStream.peek_eof_iff (ts ts1 : TokenStream) (t : Token)
    (hc : ts.cur_tok = none) (h : ts.peek = some (ts1, t)) :
    (t.kind = .eof ↔ ∃ lx r, ts.lexer.lex {} = some (false, lx, r)) ∧
      (t.kind = .eof → t = eof_token) := by
  unfold TokenStream.peek at h
  simp only [hc] at h
  obtain ⟨ok, lx, tok, hl, -⟩ := Lexer.lex_total ts.lexer {}
  cases ok with
  | true =>
    simp only [hl, Option.some.injEq, Prod.mk.injEq] at h
    obtain ⟨-, rfl⟩ := h
    have hne := Lexer.lex_not_eof _ _ _ _ hl
    refine ⟨⟨fun hk => absurd hk hne, ?_⟩, fun hk => absurd hk hne⟩
    rintro ⟨lx', r', h'⟩
    rw [hl] at h'
    simp at h'
  | false =>
    simp only [hl, Option.some.injEq, Prod.mk.injEq] at h
    obtain ⟨-, rfl⟩ := h
    exact ⟨⟨fun _ => ⟨_, _, hl⟩, fun _ => rfl⟩, fun _ => rfl⟩

/-- Statement of C27: `empty` returns, and its answer is true exactly when
the `peek` it makes yields a token of kind `eof`; on a stream whose slot is
empty that is exactly when the call of `lex` returns false, and the token is
then the end sentinel. Once `empty` has answered true, the slot holds a token
of kind `eof`, and every sequence of later `empty` and `peek` calls answers
true and that token and leaves the stream as it is, whatever the state of the
lexer: the lexer is not consulted again. -/
theorem C27_empty_and_absorbing_end (ts : TokenStream) :
    (∃ r, ts.empty = some r) ∧
    ∀ (ts1 : TokenStream) (b : Bool), ts.empty = some (ts1, b) →
      (∃ t, ts.peek = some (ts1, t) ∧ (b = true ↔ t.kind = .eof) ∧
        (ts.cur_tok = none →
          (b = true ↔ ∃ lx r, ts.lexer.lex {} = some (false, lx, r)) ∧
          (b = true → t = eof_token))) ∧
      (b = true → ∃ t, t.kind = .eof ∧ ts1.cur_tok = some t ∧
        ∀ (cs : List StreamCall),
          TokenStream.calls cs ts1 = some (ts1, drained_answers t cs) ∧
          ∀ (L : Lexer), TokenStream.calls cs { lexer := L, cur_tok := some t } =
            some ({ lexer := L, cur_tok := some t }, drained_answers t cs)) := by
  obtain ⟨ts1', t', h'⟩ := TokenStream.peek_total ts
  refine ⟨⟨(ts1', t'.kind == .eof), ?_⟩, ?_⟩
  · simp only [TokenStream.empty, h', Option.bind_eq_bind, Option.some_bind]
  intro ts1 b h
  obtain ⟨t, hp, hb⟩ := TokenStream.empty_eq ts ts1 b h
  have hbk : b = true ↔ t.kind = .eof := by rw [hb]; simp
  refine ⟨⟨t, hp, hbk, ?_⟩, ?_⟩
  · intro hc
    obtain ⟨h1, h2⟩ := TokenStream.peek_eof_iff ts ts1 t hc hp
    exact ⟨hbk.trans h1, fun hbt => h2 (hbk.1 hbt)⟩
  · intro hbt
    have hk := hbk.1 hbt
    have hslot := TokenStream.peek_slot ts ts1 t hp
    refine ⟨t, hk, hslot, fun cs => ⟨?_, fun L => TokenStream.calls_drained t hk L cs⟩⟩
    have := TokenStream.calls_drained t hk ts1.lexer cs
    rw [← hslot] at this
    exact this

theorem C27_empty_and_absorbing_end_witness :
    TokenStream.empty { lexer := { buf := str "x " }, cur_tok := none } =
      some ({ lexer := { buf := str "x ", buffer_ptr := 1 },
              cur_tok := some { kind := .identifier, b := 0, e := 1 } }, false) ∧
    TokenStream.empty { lexer := { buf := str "x ", buffer_ptr := 1 }, cur_tok := none } =
      some ({ lexer := { buf := str "x ", buffer_ptr := 2 }, cur_tok := some eof_token },
        true) ∧
    ∃ t, t.kind = .eof ∧ some eof_token = some t ∧
      ∀ (cs : List StreamCall),
        TokenStream.calls cs
            { lexer := { buf := str "x ", buffer_ptr := 2 }, cur_tok := some eof_token } =
          some ({ lexer := { buf := str "x ", buffer_ptr := 2 }, cur_tok := some eof_token },
            drained_answers t cs) ∧
        ∀ (L : Lexer), TokenStream.calls cs { lexer := L, cur_tok := some t } =
          some ({ lexer := L, cur_tok := some t }, drained_answers t cs) :=
  ⟨by decide, by decide,
   ((C27_empty_and_absorbing_end
      { lexer := { buf := str "x ", buffer_ptr := 1 }, cur_tok := none }).2
      { lexer := { buf := str "x ", buffer_ptr := 2 }, cur_tok := some eof_token } true
      (by decide)).2 rfl⟩

/-! ## The text between the tokens -/

theorem skipped_trans (buf : List Nat) (p q r : Nat) (h1 : skipped buf p q)
    (h2 : skipped buf q r) : skipped buf p r := by
  induction h1 with
  | done p => exact h2
  | whitespace p q hw _ ih => exact .whitespace p r hw (ih h2)
  | line_comment p s1 s2 e q ha hb hc _ ih => exact .line_comment p s1 s2 e r ha hb hc (ih h2)
  | block_comment p s1 s2 e q ha hb hc _ ih => exact .block_comment p s1 s2 e r ha hb hc (ih h2)

theorem line_comment_rest_le (buf : List Nat) (p q : Nat) (h : line_comment_rest buf p q) :
    p ≤ q := by
  induction h with
  | newline p c s _ _ => omega
  | at_end p s _ => exact Nat.le_refl _
  | more p c s q _ _ _ _ ih => omega

theorem block_comment_rest_le (buf : List Nat) (prev p q : Nat)
    (h : block_comment_rest buf prev p q) : p ≤ q := by
  induction h with
  | close p s _ => omega
  | at_end prev p s _ => exact Nat.le_refl _
  | more prev p c s q _ _ _ _ ih => omega

theorem skipped_le (buf : List Nat) (p q : Nat) (h : skipped buf p q) : p ≤ q := by
  induction h with
  | done p => exact Nat.le_refl _
  | whitespace p q _ _ ih => omega
  | line_comment p s1 s2 e q _ _ hc _ ih =>
    have := line_comment_rest_le _ _ _ hc
    omega
  | block_comment p s1 s2 e q _ _ hc _ ih =>
    have := block_comment_rest_le _ _ _ _ hc
    omega

theorem skipped_find_if_not_whitespace (buf : List Nat) :
    ∀ (n p : Nat), skipped buf p (find_if_not_whitespace buf n p) := by
  intro n
  induction n with
  | zero => intro p; exact .done p
  | succ n ih =>
    intro p
    simp only [find_if_not_whitespace]
    split
    · rename_i h
      exact .whitespace p _ h (ih (p + 1))
    · exact .done p

theorem skip_line_comment_loop_rest :
    ∀ (fuel : Nat) (lex : Lexer) (p c s : Nat) (lx : Lexer) (q : Nat),
      peek_char_and_size lex.buf p = some (c, s) →
      skip_line_comment_loop fuel lex p c s = some (lx, q) →
      line_comment_rest lex.buf p q := by
  intro fuel
  induction fuel with
  | zero => intro lex p c s lx q _ h; simp [skip_line_comment_loop] at h
  | succ f ih =>
    intro lex p c s lx q hp h
    simp only [skip_line_comment_loop] at h
    split at h
    · rename_i hn
      simp only [Option.some.injEq, Prod.mk.injEq] at h
      obtain ⟨-, rfl⟩ := h
      exact .newline p c s hp hn
    · rename_i hn
      split at h
      · rename_i h0
        simp only [Option.some.injEq, Prod.mk.injEq] at h
        obtain ⟨-, rfl⟩ := h
        subst h0
        exact .at_end p s hp
      · rename_i h0
        simp only [Option.bind_eq_bind, Option.bind_eq_some] at h
        obtain ⟨⟨c1, s1⟩, hp1, h2⟩ := h
        exact .more p c s q hp (by simpa using hn) h0 (ih lex (p + s) c1 s1 lx q hp1 h2)

theorem skip_line_comment_rest (lex : Lexer) (p : Nat) (lx : Lexer) (q : Nat)
    (h : skip_line_comment lex p = some (lx, q)) : line_comment_rest lex.buf p q := by
  simp only [skip_line_comment, Option.bind_eq_bind, Option.bind_eq_some] at h
  obtain ⟨⟨c, s⟩, hp, h2⟩ := h
  exact skip_line_comment_loop_rest _ _ _ _ _ _ _ hp h2

theorem skip_block_comment_loop_rest :
    ∀ (fuel : Nat) (lex : Lexer) (p c s prev : Nat) (lx : Lexer) (q : Nat),
      peek_char_and_size lex.buf p = some (c, s) →
      skip_block_comment_loop fuel lex p c s prev = some (lx, q) →
      block_comment_rest lex.buf prev p q := by
  intro fuel
  induction fuel with
  | zero => intro lex p c s prev lx q _ h; simp [skip_block_comment_loop] at h
  | succ f ih =>
    intro lex p c s prev lx q hp h
    simp only [skip_block_comment_loop] at h
    split at h
    · rename_i hn
      simp only [Option.some.injEq, Prod.mk.injEq] at h
      obtain ⟨-, rfl⟩ := h
      obtain ⟨rfl, rfl⟩ := hn
      exact .close p s hp
    · rename_i hn
      split at h
      · rename_i h0
        simp only [Option.some.injEq, Prod.mk.injEq] at h
        obtain ⟨-, rfl⟩ := h
        subst h0
        exact .at_end prev p s hp
      · rename_i h0
        simp only [Option.bind_eq_bind, Option.bind_eq_some] at h
        obtain ⟨⟨c1, s1⟩, hp1, h2⟩ := h
        exact .more prev p c s q hp hn h0 (ih lex (p + s) c1 s1 c lx q hp1 h2)

/-- The first step of the rest of a block comment looks at the previous
character only to see whether it is `*`, and only at a `/`. -/
theorem block_comment_rest_prev (buf : List Nat) (prev prev' p q : Nat)
    (h : block_comment_rest buf prev p q)
    (hp : ∀ s, peek_char_and_size buf p = some (47, s) → (prev = 42 ↔ prev' = 42)) :
    block_comment_rest buf prev' p q := by
  cases h with
  | close _ s h1 =>
    have := (hp s h1).1 rfl
    subst this
    exact .close p s h1
  | at_end _ _ s h1 => exact .at_end prev' p s h1
  | more _ _ c s _ h1 h2 h3 h4 =>
    refine .more prev' p c s q h1 ?_ h3 h4
    rintro ⟨rfl, h⟩
    exact h2 ⟨rfl, (hp s h1).2 h⟩

theorem skip_block_comment_rest (lex : Lexer) (p : Nat) (lx : Lexer) (q : Nat)
    (h : skip_block_comment lex p = some (lx, q)) : block_comment_rest lex.buf 0 p q := by
  simp only [skip_block_comment, Option.bind_eq_bind, Option.bind_eq_some] at h
  obtain ⟨⟨c, s⟩, hp, h2⟩ := h
  refine block_comment_rest_prev _ c 0 _ _ (skip_block_comment_loop_rest _ _ _ _ _ _ _ _ hp h2) ?_
  intro s' hs'
  rw [hp] at hs'
  simp only [Option.some.injEq, Prod.mk.injEq] at hs'
  obtain ⟨rfl, -⟩ := hs'
  simp
/-- What `lex_token` leaves before the token it returns, or before the
position at which it returns false, is skipped text; it returns false at a
NUL character. -/
theorem lex_token_gap :
    ∀ (fuel : Nat) (lex : Lexer) (p : Nat) (result : Token) (ok : Bool) (lx : Lexer)
      (t : Token), lex_token fuel lex p result = some (ok, lx, t) →
      (ok = true → skipped lex.buf p t.b) ∧
      (ok = false → skipped lex.buf p lx.buffer_ptr ∧
        ∃ s, peek_char_and_size lex.buf lx.buffer_ptr = some (0, s)) := by
  intro fuel
  induction fuel with
  | zero => intro lex p result ok lx t h; simp [lex_token] at h
  | succ f ih =>
    intro lex p result ok lx t h
    rw [lex_token_succ] at h
    have hsk := skipped_find_if_not_whitespace lex.buf (lex.buf.length - p) p
    generalize find_if_not_whitespace lex.buf (lex.buf.length - p) p = start at hsk h
    obtain ⟨ch, s, hpk⟩ := peek_char_and_size_isSome lex.buf start
    obtain ⟨t1, hc1⟩ := consume_char_of_peek lex.buf start ch s hpk result
    simp only [hpk, hc1, Option.some_bind] at h
    by_cases h0 : ch = 0
    · subst h0
      simp only [lex_token_switch, if_true, Option.some.injEq, Prod.mk.injEq] at h
      obtain ⟨rfl, rfl, rfl⟩ := h
      exact ⟨(fun h => by cases h), fun _ => ⟨hsk, s, hpk⟩⟩
    obtain ⟨c, s2, hpk2⟩ := peek_char_and_size_isSome lex.buf (start + s)
    by_cases hline : ch = 47 ∧ c = 47
    · obtain ⟨rfl, rfl⟩ := hline
      have e : lex_token_switch (lex_token f) { lex with buffer_ptr := start } (start + s) t1 47 =
          (skip_line_comment { lex with buffer_ptr := start } (start + s + s2)).bind
            (fun r => lex_token f { r.1 with buffer_ptr := r.2 } r.2 t1) := by
        simp [lex_token_switch, hpk2]
      rw [e] at h
      simp only [Option.bind_eq_some] at h
      obtain ⟨⟨lx1, q⟩, hs1, h2⟩ := h
      have hbuf := (skip_line_comment_ge _ _ _ _ hs1).1
      have hrest := skip_line_comment_rest _ _ _ _ hs1
      have hbuf' : lx1.buf = lex.buf := hbuf
      have hrest' : line_comment_rest lex.buf (start + s + s2) q := hrest
      obtain ⟨g1, g2⟩ := ih { lx1 with buffer_ptr := q } q t1 ok lx t h2
      simp only [hbuf'] at g1 g2
      refine ⟨fun hok => skipped_trans _ _ _ _ hsk
          (.line_comment start s s2 q _ hpk hpk2 hrest' (g1 hok)), fun hok => ?_⟩
      obtain ⟨g3, g4⟩ := g2 hok
      exact ⟨skipped_trans _ _ _ _ hsk (.line_comment start s s2 q _ hpk hpk2 hrest' g3), g4⟩
    by_cases hblock : ch = 47 ∧ c = 42
    · obtain ⟨rfl, rfl⟩ := hblock
      have e : lex_token_switch (lex_token f) { lex with buffer_ptr := start } (start + s) t1 47 =
          (skip_block_comment { lex with buffer_ptr := start } (start + s + s2)).bind
            (fun r => lex_token f { r.1 with buffer_ptr := r.2 } r.2 t1) := by
        simp [lex_token_switch, hpk2]
      rw [e] at h
      simp only [Option.bind_eq_some] at h
      obtain ⟨⟨lx1, q⟩, hs1, h2⟩ := h
      have hbuf := (skip_block_comment_ge _ _ _ _ hs1).1
      have hrest := skip_block_comment_rest _ _ _ _ hs1
      have hbuf' : lx1.buf = lex.buf := hbuf
      have hrest' : block_comment_rest lex.buf 0 (start + s + s2) q := hrest
      obtain ⟨g1, g2⟩ := ih { lx1 with buffer_ptr := q } q t1 ok lx t h2
      simp only [hbuf'] at g1 g2
      refine ⟨fun hok => skipped_trans _ _ _ _ hsk
          (.block_comment start s s2 q _ hpk hpk2 hrest' (g1 hok)), fun hok => ?_⟩
      obtain ⟨g3, g4⟩ := g2 hok
      exact ⟨skipped_trans _ _ _ _ hsk (.block_comment start s s2 q _ hpk hpk2 hrest' g3), g4⟩
    obtain ⟨lx', t', h', -, -, hb, -⟩ :=
      lex_token_switch_forms (lex_token f) { lex with buffer_ptr := start } (start + s) t1 ch h0
        (by
          intro h47 c' s' hpk'
          have e : peek_char_and_size lex.buf (start + s) = some (c', s') := hpk'
          rw [hpk2] at e
          simp only [Option.some.injEq, Prod.mk.injEq] at e
          obtain ⟨rfl, -⟩ := e
          exact ⟨fun h => hline ⟨h47, h⟩, fun h => hblock ⟨h47, h⟩⟩)
    rw [h'] at h
    simp only [Option.some.injEq, Prod.mk.injEq] at h
    obtain ⟨rfl, rfl, rfl⟩ := h
    have hb' : t'.b = start := hb
    exact ⟨fun _ => by rw [hb']; exact hsk, fun h => by cases h⟩

theorem covers_le (buf : List Nat) (p : Nat) (ts : List Token) (q : Nat)
    (h : covers buf p ts q) : p ≤ q := by
  induction h with
  | nil p q h => exact skipped_le _ _ _ h
  | cons p t ts q h1 h2 _ ih =>
    have := skipped_le _ _ _ h1
    omega

/-- Tokens that cover a stretch of the buffer begin at or after its start and
each begins at or after the end of the one before. -/
theorem covers_sorted (buf : List Nat) (p : Nat) (ts : List Token) (q : Nat)
    (h : covers buf p ts q) :
    (∀ t ∈ ts.head?, p ≤ t.b) ∧ ts.Chain' (fun a b => a.e ≤ b.b) ∧ ∀ t ∈ ts, t.b < t.e := by
  induction h with
  | nil p q h => simp
  | cons p t ts q h1 h2 h3 ih =>
    obtain ⟨i1, i2, i3⟩ := ih
    refine ⟨?_, ?_, ?_⟩
    · intro t' ht'
      simp only [List.head?_cons, Option.mem_def, Option.some.injEq] at ht'
      subst ht'
      exact skipped_le _ _ _ h1
    · rw [List.chain'_cons']
      exact ⟨i1, i2⟩
    · intro t' ht'
      rcases List.mem_cons.1 ht' with rfl | h
      · exact h2
      · exact i3 _ h

theorem lex_run_covers :
    ∀ (n : Nat) (lex : Lexer), ∃ ts lx ended, lex_run n lex = some (ts, lx, ended) ∧
      lx.buf = lex.buf ∧ covers lex.buf lex.buffer_ptr ts lx.buffer_ptr ∧
      (ended = true → ∃ s, peek_char_and_size lex.buf lx.buffer_ptr = some (0, s)) ∧
      (lex.buf.length + 1 ≤ n + lex.buffer_ptr → 1 ≤ n → ended = true) := by
  intro n
  induction n with
  | zero =>
    intro lex
    exact ⟨[], lex, false, rfl, rfl, .nil _ _ (.done _), (fun h => by cases h),
      fun _ h => by omega⟩
  | succ n ih =>
    intro lex
    obtain ⟨ok, lx1, t, h, hbuf, hle, htok⟩ := Lexer.lex_total lex {}
    obtain ⟨g1, g2⟩ := lex_token_gap _ _ _ _ _ _ _ h
    cases ok with
    | false =>
      obtain ⟨g3, g4⟩ := g2 rfl
      refine ⟨[], lx1, true, ?_, hbuf, .nil _ _ g3, fun _ => g4, fun _ _ => rfl⟩
      simp only [lex_run, h]
    | true =>
      obtain ⟨h1, h2, h3, h4⟩ := htok rfl
      obtain ⟨ts, lx2, ended, hr, hbuf2, hcov, hend, hn⟩ := ih lx1
      have hlen : lx1.buf.length = lex.buf.length := by rw [hbuf]
      refine ⟨t :: ts, lx2, ended, ?_, by rw [hbuf2, hbuf], ?_, ?_, ?_⟩
      · simp only [lex_run, h, hr, Option.map_some']
      · refine .cons _ t ts _ (g1 rfl) (by omega) ?_
        rw [hbuf, h1] at hcov
        exact hcov
      · intro he
        rw [hbuf] at hend
        exact hend he
      · intro hl _
        exact hn (by omega) (by omega)

/-! ## C22: the tokens and the skipped text cover the buffer -/

/-- Counterexample to C22 as stated: in the buffer `x`, backslash, LF, the
calls of `lex` produce the one token `x` over byte 0 and then return false
with the lexer at byte 1; byte 1 is the backslash, it lies in no token, and no
skipped text (whitespace or comment) begins there. -/
theorem C22_counterexample :
    lex_run 3 { buf := str "x\\\n" } =
      some ([{ kind := .identifier, b := 0, e := 1 }],
        { buf := str "x\\\n", buffer_ptr := 1 }, true) ∧
    (str "x\\\n").length = 3 ∧ rd (str "x\\\n") 1 = 92 ∧
    ∀ q, skipped (str "x\\\n") 1 q → q = 1 := by
  refine ⟨by decide, by decide, by decide, ?_⟩
  intro q h
  have e : peek_char_and_size (str "x\\\n") 1 = some (0, 3) := by decide
  cases h with
  | done => rfl
  | whitespace _ _ hw _ => exact absurd hw (by decide)
  | line_comment _ s1 s2 e' _ h1 _ _ _ =>
    rw [e] at h1
    simp at h1
  | block_comment _ s1 s2 e' _ h1 _ _ _ =>
    rw [e] at h1
    simp at h1

/-! ## The numeric literal analyzer on integer literals -/

theorem takeWhile_append_of_all (p : Nat → Bool) (ds suf : List Nat)
    (h1 : ∀ c ∈ ds, p c = true) (h2 : ∀ c ∈ suf.head?, p c = false) :
    (ds ++ suf).takeWhile p = ds := by
  induction ds with
  | nil =>
    cases suf with
    | nil => rfl
    | cons c rest =>
      have := h2 c (by simp)
      simp [List.takeWhile, this]
  | cons d ds ih =>
    have hd := h1 d (by simp)
    simp only [List.cons_append, List.takeWhile_cons, hd, if_true]
    rw [ih (fun c hc => h1 c (by simp [hc]))]

theorem run_length_body (p : Nat → Bool) (pre ds suf : List Nat)
    (h1 : ∀ c ∈ ds, p c = true) (h2 : ∀ c ∈ suf.head?, p c = false) :
    run_length p (pre ++ ds ++ suf) pre.length = ds.length := by
  unfold run_length
  rw [List.append_assoc, List.drop_left, takeWhile_append_of_all p ds suf h1 h2]

theorem getD_after_body (pre ds suf : List Nat) :
    (pre ++ ds ++ suf).getD (pre.length + ds.length) 0 = suf.headD 0 := by
  rw [List.getD_eq_getElem?_getD, List.getElem?_append_right (by simp)]
  cases suf <;> simp

theorem text_slice_body (pre ds suf : List Nat) :
    text_slice (pre ++ ds ++ suf) pre.length (pre.length + ds.length) = ds := by
  unfold text_slice
  rw [List.append_assoc, List.drop_left, Nat.add_sub_cancel_left, List.take_left]

theorem foldl_eval_step_overflowed (radix : Nat) (ds : List Nat) :
    ds.foldl (eval_step radix) (2 ^ 64 - 1, true) = (2 ^ 64 - 1, true) := by
  induction ds with
  | nil => rfl
  | cons d ds ih =>
    rw [List.foldl_cons]
    have : eval_step radix (2 ^ 64 - 1, true) d = (2 ^ 64 - 1, true) := by
      simp [eval_step]
    rw [this, ih]

/-- The accumulator of `eval_to_integer` holds the value of the digits read
so far while that value fits 64 bits, and saturates with the flag set
otherwise. -/
theorem foldl_eval_step (radix : Nat) (hr : 1 ≤ radix) :
    ∀ (ds : List Nat) (a : Nat), a ≤ 2 ^ 64 - 1 →
      ds.foldl (eval_step radix) (a, false) =
        if a * radix ^ ds.length + digits_value radix ds ≤ 2 ^ 64 - 1 then
          (a * radix ^ ds.length + digits_value radix ds, false)
        else (2 ^ 64 - 1, true) := by
  intro ds
  induction ds with
  | nil =>
    intro a ha
    simp only [List.foldl_nil, List.length_nil, pow_zero, Nat.mul_one, digits_value,
      Nat.add_zero]
    rw [if_pos ha]
  | cons d ds ih =>
    intro a ha
    have hpow : 1 ≤ radix ^ ds.length := Nat.one_le_pow _ _ hr
    have e : a * radix ^ (d :: ds).length + digits_value radix (d :: ds) =
        (a * radix + (hexdigit_value d).getD 0) * radix ^ ds.length + digits_value radix ds := by
      simp only [List.length_cons, digits_value, pow_succ]
      ring
    rw [e, List.foldl_cons]
    by_cases hv : 2 ^ 64 - 1 < a * radix + (hexdigit_value d).getD 0
    · have h1 : eval_step radix (a, false) d = (2 ^ 64 - 1, true) := by
        simp only [eval_step, Bool.false_eq_true, false_or, if_pos hv]
      rw [h1, foldl_eval_step_overflowed, if_neg]
      have := Nat.le_mul_of_pos_right (a * radix + (hexdigit_value d).getD 0) hpow
      omega
    · have h1 : eval_step radix (a, false) d = (a * radix + (hexdigit_value d).getD 0, false) := by
        simp only [eval_step, Bool.false_eq_true, false_or, if_neg hv]
      rw [h1, ih _ (by omega)]

theorem is_octdigit_is_digit (c : Nat) (h : is_octdigit c = true) : is_digit c = true := by
  simp only [is_octdigit, is_digit, Bool.and_eq_true, decide_eq_true_eq] at h ⊢
  omega

theorem suffix_starts_head (radix : Nat) (suf : List Nat)
    (h : suffix_starts radix suf = true) :
    (∀ c ∈ suf.head?, is_digit_of radix c = false) ∧ (suf.headD 0 == 46) = false ∧
      is_exponent_of radix (suf.headD 0) = false ∧ suf.headD 0 ≠ 120 ∧ suf.headD 0 ≠ 88 := by
  cases suf with
  | nil =>
    refine ⟨by simp, by decide, ?_, by decide, by decide⟩
    unfold is_exponent_of
    split <;> rfl
  | cons c rest =>
    simp only [suffix_starts, Bool.and_eq_true, Bool.not_eq_true', bne_iff_ne, ne_eq] at h
    obtain ⟨⟨⟨⟨h1, h2⟩, h3⟩, h4⟩, h5⟩ := h
    refine ⟨?_, by simpa using h2, by simpa using h3, by simpa using h4, by simpa using h5⟩
    intro c' hc'
    simp only [List.head?_cons, Option.mem_def, Option.some.injEq] at hc'
    subst hc'
    exact h1

theorem walk_digits_integer_body (pre ds suf : List Nat) (radix : Nat)
    (hdig : ∀ c ∈ ds, is_digit_of radix c = true)
    (hoct : radix = 8 → ∀ c ∈ ds, is_octdigit c = true)
    (hstart : suffix_starts radix suf = true) :
    walk_digits (pre ++ ds ++ suf) radix pre.length =
      { pos := pre.length + ds.length, has_period := false, has_exponent := false,
        has_error := false, radix := radix } := by
  obtain ⟨h1, h2, h3, -, -⟩ := suffix_starts_head radix suf hstart
  unfold walk_digits
  simp only [run_length_body _ pre ds suf hdig h1, getD_after_body, h2, h3,
    Bool.false_eq_true, if_false, Nat.add_sub_cancel_left]
  have e : List.take ds.length (List.drop pre.length (pre ++ ds ++ suf)) = ds := by
    rw [List.append_assoc, List.drop_left, List.take_left]
  rw [e]
  congr 1
  by_cases h8 : radix = 8
  · have : ds.any (fun c => c == 56 || c == 57) = false := by
      rw [List.any_eq_false]
      intro c hc
      have := hoct h8 c hc
      simp only [is_octdigit, Bool.and_eq_true, decide_eq_true_eq] at this
      simp only [Bool.or_eq_true, beq_iff_eq, not_or]
      omega
    rw [this, Bool.and_false]
  · have : (radix == 8) = false := by simpa using h8
    rw [this, Bool.false_and]

theorem detect_radix_integer_body (pre ds suf : List Nat) (radix : Nat)
    (hbody : is_integer_body pre ds radix = true) (hstart : suffix_starts radix suf = true) :
    detect_radix (pre ++ ds ++ suf) = (radix, pre.length) ∧ 1 ≤ radix ∧
      (∀ c ∈ ds, is_digit_of radix c = true) ∧ (radix = 8 → ∀ c ∈ ds, is_octdigit c = true) := by
  obtain ⟨h1, -, -, hx, hX⟩ := suffix_starts_head radix suf hstart
  simp only [is_integer_body, Bool.and_eq_true, Bool.or_eq_true, beq_iff_eq, List.all_eq_true,
    Bool.not_eq_true', List.isEmpty_eq_false, bne_iff_ne, ne_eq] at hbody
  obtain ⟨hne, hcase⟩ := hbody
  rcases hcase with (⟨⟨⟨rfl, rfl⟩, hall⟩, hhead⟩ | ⟨⟨rfl, rfl⟩, hall⟩) | ⟨⟨hpre, rfl⟩, hall⟩
  · refine ⟨?_, by decide, fun c hc => by simpa [is_digit_of] using hall c hc,
      fun h => absurd h (by decide)⟩
    rcases hhead with hhead | rfl
    · cases ds with
      | nil => exact absurd rfl hne
      | cons d ds' =>
        have hd : d ≠ 48 := by simpa using hhead
        unfold detect_radix
        split
        · rename_i c rest heq
          simp only [List.nil_append, List.cons_append, List.cons.injEq] at heq
          exact absurd heq.1 hd
        · rfl
    · cases suf with
      | nil => rfl
      | cons c rest =>
        have h10 := h1 c (by simp)
        simp only [is_digit_of, show ¬ (10 = 16) by decide, if_false] at h10
        have hx' : c ≠ 120 := by simpa using hx
        have hX' : c ≠ 88 := by simpa using hX
        simp [detect_radix, hx', hX', h10]
  · refine ⟨?_, by decide,
      fun c hc => by simpa [is_digit_of] using is_octdigit_is_digit c (hall c hc),
      fun _ => hall⟩
    cases ds with
    | nil => exact absurd rfl hne
    | cons d ds' =>
      have hd := hall d (by simp)
      have hdd := is_octdigit_is_digit d hd
      simp only [is_octdigit, Bool.and_eq_true, decide_eq_true_eq] at hd
      have h1 : ¬ (d = 120 ∨ d = 88) := by omega
      simp [detect_radix, h1, hdd]
  · refine ⟨?_, by decide, fun c hc => by simpa [is_digit_of] using hall c hc,
      fun h => absurd h (by decide)⟩
    rcases hpre with rfl | rfl <;> simp [detect_radix]

/-- The radix, the digit range and the suffix of a well-formed integer
literal body followed by a suffix region. -/
theorem construct_integer_body (pre ds suf : List Nat) (radix : Nat)
    (hbody : is_integer_body pre ds radix = true) (hstart : suffix_starts radix suf = true) :
    1 ≤ radix ∧
    NumericConstantParser.construct (pre ++ ds ++ suf) =
      { spelling := pre ++ ds ++ suf, digit_begin := pre.length,
        digit_end := pre.length + ds.length,
        has_error := (parse_suffix false suf {}).has_error,
        has_period := false, has_exponent := false,
        is_unsigned := (parse_suffix false suf {}).is_unsigned,
        is_long := (parse_suffix false suf {}).is_long,
        is_long_long := (parse_suffix false suf {}).is_long_long,
        is_float := (parse_suffix false suf {}).is_float, radix := radix } := by
  obtain ⟨hd, hr, hdig, hoct⟩ := detect_radix_integer_body pre ds suf radix hbody hstart
  refine ⟨hr, ?_⟩
  have hw := walk_digits_integer_body pre ds suf radix hdig hoct hstart
  have hdrop : List.drop (pre.length + ds.length) (pre ++ ds ++ suf) = suf := by
    rw [← List.length_append]
    exact List.drop_left _ _
  unfold NumericConstantParser.construct
  simp only [hd, hw, hdrop, Bool.or_self, Bool.false_or]

/-! ## The suffix of an integer literal -/

theorem parse_suffix_terminal (suf : List Nat) (st : SuffixFlags)
    (hu : st.is_unsigned = true) (hl : st.is_long = true ∨ st.is_long_long = true)
    (h : (parse_suffix false suf st).has_error = false) : suf = [] := by
  rcases suf with _ | ⟨c, _ | ⟨c', rest⟩⟩
  · rfl
  · simp only [parse_suffix] at h
    split_ifs at h <;> simp_all
  · simp only [parse_suffix] at h
    split_ifs at h <;> simp_all

theorem parse_suffix_after_long (suf : List Nat) (st : SuffixFlags)
    (hl : st.is_long = true ∨ st.is_long_long = true)
    (h : (parse_suffix false suf st).has_error = false) :
    suf = [] ∨ suf = [117] ∨ suf = [85] := by
  rcases suf with _ | ⟨c, _ | ⟨c', rest⟩⟩
  · exact Or.inl rfl
  · simp only [parse_suffix] at h
    split_ifs at h <;> simp_all
  · simp only [parse_suffix] at h
    split_ifs at h
    all_goals first
      | (exfalso
         have e : c' :: rest = [] := by
           refine parse_suffix_terminal _ _ ?_ ?_ h
           · rfl
           · exact hl
         simp at e)
      | (exfalso; simp_all)

theorem parse_suffix_after_unsigned (suf : List Nat) (st : SuffixFlags)
    (hu : st.is_unsigned = true)
    (h : (parse_suffix false suf st).has_error = false) :
    suf = [] ∨ suf = [108] ∨ suf = [76] ∨ suf = [108, 108] ∨ suf = [76, 76] := by
  rcases suf with _ | ⟨c, _ | ⟨c', rest⟩⟩
  · exact Or.inl rfl
  · simp only [parse_suffix] at h
    split_ifs at h <;> simp_all
  · simp only [parse_suffix] at h
    split_ifs at h
    all_goals first
      | (have e : rest = [] := by
           refine parse_suffix_terminal _ _ ?_ ?_ h
           · exact hu
           · exact Or.inr rfl
         subst e
         simp_all)
      | (exfalso
         have e : c' :: rest = [] := by
           refine parse_suffix_terminal _ _ ?_ ?_ h
           · exact hu
           · exact Or.inl rfl
         simp at e)
      | (exfalso; simp_all)

theorem parse_suffix_integer_valid (suf : List Nat)
    (h : (parse_suffix false suf {}).has_error = false) : suf ∈ valid_integer_suffixes := by
  rcases suf with _ | ⟨c, _ | ⟨c', rest⟩⟩
  · decide
  · simp only [parse_suffix] at h
    by_cases hu : c = 117 ∨ c = 85
    · rcases hu with rfl | rfl <;> decide
    rw [if_neg hu] at h
    by_cases hl : c = 108 ∨ c = 76
    · rcases hl with rfl | rfl <;> decide
    rw [if_neg hl] at h
    split_ifs at h
    simp_all
  · simp only [parse_suffix] at h
    by_cases hu : c = 117 ∨ c = 85
    · rw [if_pos hu] at h
      simp only [Bool.false_eq_true, or_self, if_false] at h
      have := parse_suffix_after_unsigned _ _ rfl h
      rcases hu with rfl | rfl <;>
        rcases this with e | e | e | e | e <;>
        simp only [List.cons.injEq, reduceCtorEq] at e <;>
        (obtain ⟨rfl, rfl⟩ := e; decide)
    rw [if_neg hu] at h
    by_cases hl : c = 108 ∨ c = 76
    · rw [if_pos hl] at h
      simp only [Bool.false_eq_true, or_self, if_false] at h
      by_cases hcc : c' = c
      · rw [if_pos hcc] at h
        subst hcc
        have := parse_suffix_after_long _ _ (Or.inr rfl) h
        rcases hl with rfl | rfl <;>
          rcases this with rfl | rfl | rfl <;> decide
      · rw [if_neg hcc] at h
        by_cases hm : c' = 108 ∨ c' = 76
        · rw [if_pos hm] at h
          simp at h
        · rw [if_neg hm] at h
          have := parse_suffix_after_long _ _ (Or.inl rfl) h
          rcases hl with rfl | rfl <;>
            rcases this with e | e | e <;>
            simp only [List.cons.injEq, reduceCtorEq] at e <;>
            (obtain ⟨rfl, rfl⟩ := e; decide)
    rw [if_neg hl] at h
    split_ifs at h
    simp_all

/-- The integer suffixes that are accepted: every valid suffix, with the
flags it sets, and with the properties of its characters. -/
theorem valid_integer_suffixes_spec :
    ∀ s ∈ valid_integer_suffixes,
      parse_suffix false s {} =
        { is_unsigned := decide (1 ≤ count_unsigned s), is_long := decide (count_long s = 1),
          is_long_long := decide (count_long s = 2) } ∧
      count_unsigned s ≤ 1 ∧ count_long s ≤ 2 ∧ has_mixed_pair s = false ∧
      (∀ c ∈ s, c = 117 ∨ c = 85 ∨ c = 108 ∨ c = 76) ∧
      suffix_starts 10 s = true ∧ suffix_starts 8 s = true ∧ suffix_starts 16 s = true := by
  decide

theorem is_integer_body_radix (pre ds : List Nat) (radix : Nat)
    (h : is_integer_body pre ds radix = true) : radix = 10 ∨ radix = 8 ∨ radix = 16 := by
  simp only [is_integer_body, Bool.and_eq_true, Bool.or_eq_true, beq_iff_eq] at h
  obtain ⟨-, (⟨⟨⟨-, h⟩, -⟩, -⟩ | ⟨⟨-, h⟩, -⟩) | ⟨⟨-, h⟩, -⟩⟩ := h
  · exact Or.inl h
  · exact Or.inr (Or.inl h)
  · exact Or.inr (Or.inr h)

theorem valid_suffix_starts (pre ds suf : List Nat) (radix : Nat)
    (hbody : is_integer_body pre ds radix = true) (hsuf : suf ∈ valid_integer_suffixes) :
    suffix_starts radix suf = true := by
  obtain ⟨-, -, -, -, -, h10, h8, h16⟩ := valid_integer_suffixes_spec suf hsuf
  rcases is_integer_body_radix pre ds radix hbody with rfl | rfl | rfl
  · exact h10
  · exact h8
  · exact h16

/-- The digits of a well-formed integer literal have values below the
radix. -/
theorem integer_body_digit_lt (pre ds : List Nat) (radix : Nat)
    (h : is_integer_body pre ds radix = true) :
    ∀ c ∈ ds, ∃ v, hexdigit_value c = some v ∧ v < radix := by
  simp only [is_integer_body, Bool.and_eq_true, Bool.or_eq_true, beq_iff_eq,
    List.all_eq_true] at h
  obtain ⟨-, (⟨⟨⟨-, rfl⟩, hall⟩, -⟩ | ⟨⟨-, rfl⟩, hall⟩) | ⟨⟨-, rfl⟩, hall⟩⟩ := h
  · intro c hc
    have hd := hall c hc
    simp only [is_digit, Bool.and_eq_true, decide_eq_true_eq] at hd
    refine ⟨c - 48, ?_, by omega⟩
    simp [hexdigit_value, is_hexdigit, hd.1, hd.2]
  · intro c hc
    have hd := hall c hc
    simp only [is_octdigit, Bool.and_eq_true, decide_eq_true_eq] at hd
    refine ⟨c - 48, ?_, by omega⟩
    have : c ≤ 57 := by omega
    simp [hexdigit_value, is_hexdigit, hd.1, this]
  · intro c hc
    exact hexdigit_value_lt c (hall c hc)

theorem eval_to_integer_integer_body (pre ds suf : List Nat) (radix : Nat)
    (hbody : is_integer_body pre ds radix = true) (hstart : suffix_starts radix suf = true) :
    (NumericConstantParser.construct (pre ++ ds ++ suf)).eval_to_integer =
      if digits_value radix ds ≤ 2 ^ 64 - 1 then (digits_value radix ds, false)
      else (2 ^ 64 - 1, true) := by
  obtain ⟨hr, hc⟩ := construct_integer_body pre ds suf radix hbody hstart
  rw [hc]
  simp only [NumericConstantParser.eval_to_integer, text_slice_body]
  rw [foldl_eval_step radix hr ds 0 (Nat.zero_le _)]
  simp only [Nat.zero_mul, Nat.zero_add]

/-! ## C28, C29 and C30: the numeric literal analyzer -/

/-- Statement of C28: for every well-formed integer literal (decimal, octal
with a leading `0`, hexadecimal with `0x` or `0X`) with a valid suffix whose
value is at most 2^64 - 1, the analyzer reports no error, an integer literal
and the radix of the literal, its digit range is the digits, each digit has a
value below the radix, and `eval_to_integer` returns the value of the digits
in that radix with the flag false. -/
theorem C28_eval_to_integer_value (pre ds suf : List Nat) (radix : Nat)
    (hbody : is_integer_body pre ds radix = true) (hsuf : suf ∈ valid_integer_suffixes)
    (hv : digits_value radix ds ≤ 2 ^ 64 - 1) :
    (NumericConstantParser.construct (pre ++ ds ++ suf)).has_error = false ∧
    (NumericConstantParser.construct (pre ++ ds ++ suf)).is_integer_literal = true ∧
    (NumericConstantParser.construct (pre ++ ds ++ suf)).radix = radix ∧
    text_slice (pre ++ ds ++ suf)
      (NumericConstantParser.construct (pre ++ ds ++ suf)).digit_begin
      (NumericConstantParser.construct (pre ++ ds ++ suf)).digit_end = ds ∧
    (∀ c ∈ ds, ∃ v, hexdigit_value c = some v ∧ v < radix) ∧
    (NumericConstantParser.construct (pre ++ ds ++ suf)).eval_to_integer =
      (digits_value radix ds, false) := by
  have hstart := valid_suffix_starts pre ds suf radix hbody hsuf
  have he := eval_to_integer_integer_body pre ds suf radix hbody hstart
  rw [if_pos hv] at he
  obtain ⟨-, hc⟩ := construct_integer_body pre ds suf radix hbody hstart
  obtain ⟨hs, -⟩ := valid_integer_suffixes_spec suf hsuf
  refine ⟨?_, ?_, ?_, ?_, integer_body_digit_lt pre ds radix hbody, he⟩
  · rw [hc, hs]
  · rw [hc]; rfl
  · rw [hc]
  · rw [hc]; exact text_slice_body pre ds suf

theorem C28_eval_to_integer_value_witness :
    ((NumericConstantParser.construct (str "42uL")).radix = 10 ∧
      (NumericConstantParser.construct (str "42uL")).eval_to_integer = (42, false)) ∧
    ((NumericConstantParser.construct (str "042")).radix = 8 ∧
      (NumericConstantParser.construct (str "042")).eval_to_integer = (34, false)) ∧
    ((NumericConstantParser.construct (str "0xDEADc0dellu")).radix = 16 ∧
      (NumericConstantParser.construct (str "0xDEADc0dellu")).eval_to_integer =
        (3735929054, false)) :=
  ⟨⟨(C28_eval_to_integer_value [] (str "42") (str "uL") 10 (by decide) (by decide)
        (by decide)).2.2.1,
    (C28_eval_to_integer_value [] (str "42") (str "uL") 10 (by decide) (by decide)
        (by decide)).2.2.2.2.2⟩,
   ⟨(C28_eval_to_integer_value (str "0") (str "42") [] 8 (by decide) (by decide)
        (by decide)).2.2.1,
    (C28_eval_to_integer_value (str "0") (str "42") [] 8 (by decide) (by decide)
        (by decide)).2.2.2.2.2⟩,
   ⟨(C28_eval_to_integer_value (str "0x") (str "DEADc0de") (str "llu") 16 (by decide)
        (by decide) (by decide)).2.2.1,
    (C28_eval_to_integer_value (str "0x") (str "DEADc0de") (str "llu") 16 (by decide)
        (by decide) (by decide)).2.2.2.2.2⟩⟩

/-- Statement of C29: for every well-formed integer literal with a valid
suffix the analyzer reports no error, whatever the value, and the flag
returned by `eval_to_integer` is true exactly when the value of the digits in
the radix of the literal exceeds 2^64 - 1. -/
theorem C29_overflow_flag_exact (pre ds suf : List Nat) (radix : Nat)
    (hbody : is_integer_body pre ds radix = true) (hsuf : suf ∈ valid_integer_suffixes) :
    (NumericConstantParser.construct (pre ++ ds ++ suf)).has_error = false ∧
    (NumericConstantParser.construct (pre ++ ds ++ suf)).radix = radix ∧
    ((NumericConstantParser.construct (pre ++ ds ++ suf)).eval_to_integer.2 = true ↔
      2 ^ 64 - 1 < digits_value radix ds) := by
  have hstart := valid_suffix_starts pre ds suf radix hbody hsuf
  have he := eval_to_integer_integer_body pre ds suf radix hbody hstart
  obtain ⟨-, hc⟩ := construct_integer_body pre ds suf radix hbody hstart
  obtain ⟨hs, -⟩ := valid_integer_suffixes_spec suf hsuf
  refine ⟨by rw [hc, hs], by rw [hc], ?_⟩
  rw [he]
  by_cases hv : digits_value radix ds ≤ 2 ^ 64 - 1
  · rw [if_pos hv]
    simp only [Bool.false_eq_true, false_iff, not_lt]
    exact hv
  · rw [if_neg hv]
    simp only [true_iff]
    omega

theorem C29_overflow_flag_exact_witness :
    (NumericConstantParser.construct (str "18446744073709551616ull")).has_error = false ∧
    (NumericConstantParser.construct (str "18446744073709551616ull")).eval_to_integer.2 = true ∧
    (NumericConstantParser.construct (str "18446744073709551615ull")).eval_to_integer.2 ≠ true :=
  ⟨(C29_overflow_flag_exact [] (str "18446744073709551616") (str "ull") 10 (by decide)
      (by decide)).1,
   (C29_overflow_flag_exact [] (str "18446744073709551616") (str "ull") 10 (by decide)
      (by decide)).2.2.2 (by decide),
   fun h => absurd ((C29_overflow_flag_exact [] (str "18446744073709551615") (str "ull") 10
      (by decide) (by decide)).2.2.1 h) (by decide)⟩

/-- A character that is not a suffix letter makes the suffix an error, on
integer and on floating literals. -/
theorem parse_suffix_other_character (floating : Bool) :
    ∀ (n : Nat) (suf : List Nat) (st : SuffixFlags), suf.length ≤ n →
      (∃ c ∈ suf, ¬ (c = 117 ∨ c = 85 ∨ c = 108 ∨ c = 76 ∨ c = 102 ∨ c = 70)) →
      (parse_suffix floating suf st).has_error = true := by
  intro n
  induction n with
  | zero =>
    intro suf st hn h
    obtain ⟨c, hc, -⟩ := h
    cases suf with
    | nil => simp at hc
    | cons a rest => simp at hn
  | succ n ih =>
    intro suf st hn h
    obtain ⟨c0, hc0, hbad⟩ := h
    rcases suf with _ | ⟨c, _ | ⟨c', rest⟩⟩
    · simp at hc0
    · simp only [List.mem_singleton] at hc0
      subst hc0
      simp only [parse_suffix]
      rw [if_neg (by omega), if_neg (by omega), if_neg (by omega)]
    · simp only [List.length_cons] at hn
      simp only [parse_suffix]
      by_cases hu : c = 117 ∨ c = 85
      · rw [if_pos hu]
        have hmem : c0 ∈ c' :: rest := by
          rcases List.mem_cons.1 hc0 with rfl | h
          · exact absurd hu (by omega)
          · exact h
        split_ifs
        · rfl
        · exact ih _ _ (by simp only [List.length_cons]; omega) ⟨c0, hmem, hbad⟩
      rw [if_neg hu]
      by_cases hl : c = 108 ∨ c = 76
      · rw [if_pos hl]
        have hmem : c0 ∈ c' :: rest := by
          rcases List.mem_cons.1 hc0 with rfl | h
          · exact absurd hl (by omega)
          · exact h
        split_ifs with h1 h2 h3
        · rfl
        · refine ih _ _ (by omega) ⟨c0, ?_, hbad⟩
          rcases List.mem_cons.1 hmem with rfl | h
          · exact absurd hl (by omega)
          · exact h
        · rfl
        · exact ih _ _ (by simp only [List.length_cons]; omega) ⟨c0, hmem, hbad⟩
      rw [if_neg hl]
      by_cases hf : c = 102 ∨ c = 70
      · rw [if_pos hf]
        have hmem : c0 ∈ c' :: rest := by
          rcases List.mem_cons.1 hc0 with rfl | h
          · exact absurd hf (by omega)
          · exact h
        split_ifs
        · rfl
        · exact ih _ _ (by simp only [List.length_cons]; omega) ⟨c0, hmem, hbad⟩
      rw [if_neg hf]

/-- Statement of C30. On a well-formed integer literal followed by any suffix
region, the analyzer reports no error exactly for the valid integer
suffixes; it reports an error when `u` or `U` occurs twice, when `l` or `L`
occurs three times, when an `l` stands next to an `L`, and when a character
other than `u`, `U`, `l`, `L` occurs; an accepted suffix sets `is_unsigned`,
`is_long` and `is_long_long` by the letters it has, never both `is_long` and
`is_long_long`. On any literal, floating ones included, a character of the
suffix other than `u`, `U`, `l`, `L`, `f`, `F` is an error. -/
theorem C30_suffix_validation :
    (∀ (pre ds suf : List Nat) (radix : Nat), is_integer_body pre ds radix = true →
      suffix_starts radix suf = true →
      ((NumericConstantParser.construct (pre ++ ds ++ suf)).has_error = false ↔
        suf ∈ valid_integer_suffixes) ∧
      (2 ≤ count_unsigned suf →
        (NumericConstantParser.construct (pre ++ ds ++ suf)).has_error = true) ∧
      (3 ≤ count_long suf →
        (NumericConstantParser.construct (pre ++ ds ++ suf)).has_error = true) ∧
      (has_mixed_pair suf = true →
        (NumericConstantParser.construct (pre ++ ds ++ suf)).has_error = true) ∧
      ((∃ c ∈ suf, ¬ (c = 117 ∨ c = 85 ∨ c = 108 ∨ c = 76)) →
        (NumericConstantParser.construct (pre ++ ds ++ suf)).has_error = true) ∧
      ((NumericConstantParser.construct (pre ++ ds ++ suf)).has_error = false →
        (NumericConstantParser.construct (pre ++ ds ++ suf)).is_unsigned =
          decide (1 ≤ count_unsigned suf) ∧
        (NumericConstantParser.construct (pre ++ ds ++ suf)).is_long =
          decide (count_long suf = 1) ∧
        (NumericConstantParser.construct (pre ++ ds ++ suf)).is_long_long =
          decide (count_long suf = 2) ∧
        ¬ ((NumericConstantParser.construct (pre ++ ds ++ suf)).is_long = true ∧
          (NumericConstantParser.construct (pre ++ ds ++ suf)).is_long_long = true))) ∧
    (∀ (floating : Bool) (suf : List Nat),
      (∃ c ∈ suf, ¬ (c = 117 ∨ c = 85 ∨ c = 108 ∨ c = 76 ∨ c = 102 ∨ c = 70)) →
      (parse_suffix floating suf {}).has_error = true) := by
  refine ⟨?_, fun floating suf h => parse_suffix_other_character floating _ suf {}
    (Nat.le_refl _) h⟩
  intro pre ds suf radix hbody hstart
  obtain ⟨-, hc⟩ := construct_integer_body pre ds suf radix hbody hstart
  rw [hc]
  simp only []
  have hiff : (parse_suffix false suf {}).has_error = false ↔ suf ∈ valid_integer_suffixes :=
    ⟨parse_suffix_integer_valid suf, fun h => by
      rw [(valid_integer_suffixes_spec suf h).1]⟩
  have hbad : ∀ (P : Prop), (suf ∈ valid_integer_suffixes → ¬ P) → P →
      (parse_suffix false suf {}).has_error = true := by
    intro P hP hp
    cases he : (parse_suffix false suf {}).has_error with
    | true => rfl
    | false => exact absurd hp (hP (hiff.1 he))
  refine ⟨hiff, ?_, ?_, ?_, ?_, ?_⟩
  · exact hbad _ (fun h => by
      have := (valid_integer_suffixes_spec suf h).2.1
      omega)
  · exact hbad _ (fun h => by
      have := (valid_integer_suffixes_spec suf h).2.2.1
      omega)
  · exact hbad _ (fun h => by
      have := (valid_integer_suffixes_spec suf h).2.2.2.1
      simp [this])
  · exact hbad _ (fun h => by
      have := (valid_integer_suffixes_spec suf h).2.2.2.2.1
      rintro ⟨c, hc, hn⟩
      exact hn (this c hc))
  · intro he
    have hs := (valid_integer_suffixes_spec suf (hiff.1 he)).1
    rw [hs]
    refine ⟨rfl, rfl, rfl, ?_⟩
    simp only [decide_eq_true_eq]
    omega

theorem C30_suffix_validation_witness :
    (NumericConstantParser.construct (str "0uU")).has_error = true ∧
    (NumericConstantParser.construct (str "0LLL")).has_error = true ∧
    (NumericConstantParser.construct (str "0Ll")).has_error = true ∧
    (NumericConstantParser.construct (str "0x1G")).has_error = true ∧
    ((NumericConstantParser.construct (str "42uL")).is_unsigned = true ∧
      (NumericConstantParser.construct (str "42uL")).is_long = true ∧
      (NumericConstantParser.construct (str "42uL")).is_long_long = false) ∧
    ((NumericConstantParser.construct (str "0xDEADc0dellu")).is_unsigned = true ∧
      (NumericConstantParser.construct (str "0xDEADc0dellu")).is_long = false ∧
      (NumericConstantParser.construct (str "0xDEADc0dellu")).is_long_long = true) ∧
    (parse_suffix true (str "fz") {}).has_error = true :=
  ⟨(C30_suffix_validation.1 [] (str "0") (str "uU") 10 (by decide) (by decide)).2.1
      (by decide),
   (C30_suffix_validation.1 [] (str "0") (str "LLL") 10 (by decide) (by decide)).2.2.1
      (by decide),
   (C30_suffix_validation.1 [] (str "0") (str "Ll") 10 (by decide) (by decide)).2.2.2.1
      (by decide),
   (C30_suffix_validation.1 (str "0x") (str "1") (str "G") 16 (by decide)
      (by decide)).2.2.2.2.1 ⟨71, by decide, by decide⟩,
   by decide, by decide,
   C30_suffix_validation.2 true (str "fz") ⟨122, by decide, by decide⟩⟩

/-! ## C31 and C32: peeking a character -/

/-- Statement of C31: at a position that holds a byte `b` other than the
backslash, `?` included, `peek_char_and_size` returns `b` with size 1,
whatever bytes precede and follow; at the end of the buffer it returns the
terminating NUL with size 1. -/
theorem C31_peek_fast_path (pre rest : List Nat) (b : Nat) (hb : b ≠ 92) :
    peek_char_and_size (pre ++ b :: rest) pre.length = some (b, 1) ∧
    peek_char_and_size pre pre.length = some (0, 1) := by
  have h1 : rd (pre ++ b :: rest) pre.length = b := by
    rw [rd_append_right_zero]; rfl
  have h2 : rd pre pre.length = 0 := rd_of_length_le _ _ (Nat.le_refl _)
  refine ⟨?_, ?_⟩
  · have := peek_char_and_size_of_ne (pre ++ b :: rest) pre.length (by rw [h1]; exact hb)
    rw [h1] at this
    exact this
  · have := peek_char_and_size_of_ne pre pre.length (by rw [h2]; decide)
    rw [h2] at this
    exact this

theorem C31_peek_fast_path_witness :
    peek_char_and_size (str "a" ++ 63 :: str "?/b") (str "a").length = some (63, 1) ∧
    peek_char_and_size (str "a") (str "a").length = some (0, 1) :=
  C31_peek_fast_path (str "a") (str "?/b") 63 (by decide)

/-- Peeking at a backslash followed by a newline gives the character peeked
after the escaped newline, with the bytes of the escaped newline added to the
size. -/
theorem peek_char_and_size_escaped_newline (buf : List Nat) (p : Nat)
    (h0 : rd buf p = 92) (hn : size_for_escaped_newline buf (p + 1) ≠ 0) :
    peek_char_and_size buf p =
      (peek_char_and_size buf (p + 1 + size_for_escaped_newline buf (p + 1))).map
        (fun r => (r.1, r.2 + (1 + size_for_escaped_newline buf (p + 1)))) := by
  have hnl : is_newline (rd buf (p + 1)) = true := by
    by_contra h
    simp [size_for_escaped_newline, h] at hn
  have hw : is_whitespace (rd buf (p + 1)) = true := by
    simp [is_whitespace, hnl]
  have hlt : p + 1 < buf.length := by
    by_contra hge
    have := rd_of_length_le buf (p + 1) (by omega)
    rw [this] at hnl
    simp [is_newline] at hnl
  generalize hsz : size_for_escaped_newline buf (p + 1) = n at hn
  obtain ⟨f, hf⟩ : ∃ f, fuel_at buf p = f + 1 := ⟨fuel_at buf p - 1, by simp [fuel_at]⟩
  have hf1 : 1 ≤ f := by simp [fuel_at] at hf; omega
  have hf2 : buf.length + 1 ≤ f + (p + 1 + n) := by simp [fuel_at] at hf; omega
  have hL : peek_char_and_size buf p =
      (peek_char_and_size_nontrivial buf f (p + 1 + n) 0 none).map
        (fun r => (r.1, r.2.1 + (1 + n))) := by
    unfold peek_char_and_size
    rw [if_neg (by simp [is_trivial_character, h0]), hf, peek_char_and_size_nontrivial]
    simp only [h0, hw, hsz, if_true, Bool.not_true, Bool.false_eq_true, if_false, ne_eq, hn,
      not_false_eq_true]
    rw [show (0 : Nat) + 1 + n = 0 + (1 + n) by omega, peek_char_and_size_nontrivial_size_add]
    simp only [Option.map_none']
    cases peek_char_and_size_nontrivial buf f (p + 1 + n) 0 none <;> simp
  rw [hL]
  unfold peek_char_and_size
  by_cases ht : is_trivial_character (rd buf (p + 1 + n)) = true
  · rw [if_pos ht]
    have hb : rd buf (p + 1 + n) ≠ 92 := by
      intro h
      rw [h] at ht
      simp [is_trivial_character] at ht
    obtain ⟨g, rfl⟩ : ∃ g, f = g + 1 := ⟨f - 1, by omega⟩
    rw [peek_char_and_size_nontrivial, if_neg hb]
    rfl
  · rw [if_neg ht,
      peek_char_and_size_nontrivial_fuel buf f (fuel_at buf (p + 1 + n)) (p + 1 + n) 0
        none hf1 (by simp [fuel_at]) hf2 (by simp [fuel_at]; omega)]
    cases peek_char_and_size_nontrivial buf (fuel_at buf (p + 1 + n)) (p + 1 + n) 0 none <;> simp
theorem size_for_escaped_newline_sequence (nl R : List Nat) (hnl : nl ∈ newline_sequences)
    (h10 : nl = [10] → R.head? ≠ some 13) (h13 : nl = [13] → R.head? ≠ some 10) :
    size_for_escaped_newline (92 :: (nl ++ R)) 1 = nl.length := by
  have hR : ∀ x, R.head? ≠ some x → rd R 0 ≠ x ∨ x = 0 := by
    intro x hx
    cases R with
    | nil => simp [rd]; omega
    | cons a rest =>
      left
      simpa [rd] using hx
  simp only [newline_sequences, List.mem_cons, List.mem_singleton, List.not_mem_nil,
    or_false] at hnl
  rcases hnl with rfl | rfl | rfl | rfl
  · have : rd R 0 ≠ 13 := by
      rcases hR 13 (h10 rfl) with h | h
      · exact h
      · omega
    have e1 : rd (92 :: ([10] ++ R)) 1 = 10 := rfl
    have e2 : rd (92 :: ([10] ++ R)) (1 + 1) = rd R 0 := by
      cases R <;> rfl
    simp only [size_for_escaped_newline, e1, e2]
    by_cases hh : rd R 0 = 10
    · simp [is_newline, hh]
    · simp [is_newline, hh, this]
  · have : rd R 0 ≠ 10 := by
      rcases hR 10 (h13 rfl) with h | h
      · exact h
      · omega
    have e1 : rd (92 :: ([13] ++ R)) 1 = 13 := rfl
    have e2 : rd (92 :: ([13] ++ R)) (1 + 1) = rd R 0 := by
      cases R <;> rfl
    simp only [size_for_escaped_newline, e1, e2]
    by_cases hh : rd R 0 = 13
    · simp [is_newline, hh]
    · simp [is_newline, hh, this]
  · rfl
  · rfl

/-- Statement of C32: for every newline sequence `nl` among LF, CR, CR LF
and LF CR and every rest `R` (which, after a single LF or CR, does not begin
with the other newline character), peeking at a backslash followed by `nl`
and `R` returns the character peeked at `R`, with the size increased by the
backslash and `nl`, whatever precedes; and peeking at a backslash followed by
a byte that is not a newline, or by the end of the buffer, returns the
backslash with size 1. -/
theorem C32_peek_through_escaped_newline :
    (∀ (pre nl R : List Nat), nl ∈ newline_sequences →
      (nl = [10] → R.head? ≠ some 13) → (nl = [13] → R.head? ≠ some 10) →
      ∃ c s, peek_char_and_size R 0 = some (c, s) ∧
        peek_char_and_size (pre ++ 92 :: (nl ++ R)) pre.length =
          some (c, 1 + nl.length + s)) ∧
    (∀ (pre rest : List Nat), is_newline (rest.headD 0) = false →
      peek_char_and_size (pre ++ 92 :: rest) pre.length = some (92, 1)) := by
  refine ⟨?_, ?_⟩
  · intro pre nl R hnl h10 h13
    obtain ⟨c, s, hp⟩ := peek_char_and_size_isSome R 0
    refine ⟨c, s, hp, ?_⟩
    have hA := peek_char_and_size_append pre (92 :: (nl ++ R)) 0
    rw [Nat.add_zero] at hA
    rw [hA]
    have hsz := size_for_escaped_newline_sequence nl R hnl h10 h13
    have hne : nl.length ≠ 0 := by
      simp only [newline_sequences, List.mem_cons, List.mem_singleton, List.not_mem_nil,
        or_false] at hnl
      rcases hnl with rfl | rfl | rfl | rfl <;> decide
    have hE := peek_char_and_size_escaped_newline (92 :: (nl ++ R)) 0 rfl
      (by rw [Nat.zero_add, hsz]; exact hne)
    rw [hE]
    simp only [Nat.zero_add, hsz]
    have hC := peek_char_and_size_append (92 :: nl) R 0
    simp only [List.length_cons, Nat.add_zero, List.cons_append] at hC
    rw [show 1 + nl.length = nl.length + 1 by omega, hC, hp]
    simp only [Option.map_some', Option.some.injEq, Prod.mk.injEq, true_and]
    omega
  · intro pre rest hn
    have h1 : rd (pre ++ 92 :: rest) pre.length = 92 := by
      rw [rd_append_right_zero]; rfl
    have h2 : rd (pre ++ 92 :: rest) (pre.length + 1) = rest.headD 0 := by
      rw [rd_append_right]
      cases rest <;> rfl
    exact peek_char_and_size_backslash _ _ h1 (by rw [h2]; exact hn)

theorem C32_peek_through_escaped_newline_witness :
    (∃ c s, peek_char_and_size (str "\\\nb") 0 = some (c, s) ∧
      peek_char_and_size (str "a" ++ 92 :: ([13, 10] ++ str "\\\nb")) (str "a").length =
        some (c, 1 + [13, 10].length + s)) ∧
    peek_char_and_size (str "a" ++ 92 :: ([13, 10] ++ str "\\\nb")) 1 = some (98, 6) ∧
    peek_char_and_size (str "a" ++ 92 :: str " \n") (str "a").length = some (92, 1) :=
  ⟨C32_peek_through_escaped_newline.1 (str "a") [13, 10] (str "\\\nb") (by decide)
      (fun h => by cases h) (fun h => by cases h),
   by decide,
   C32_peek_through_escaped_newline.2 (str "a") (str " \n") (by decide)⟩

/-! ## What a peek skips -/

theorem text_slice_self (buf : List Nat) (p : Nat) : text_slice buf p p = [] := by
  simp [text_slice]

theorem text_slice_cons (buf : List Nat) (p e : Nat) (hp : p < buf.length) (he : p < e) :
    text_slice buf p e = rd buf p :: text_slice buf (p + 1) e := by
  unfold text_slice
  rw [List.drop_eq_getElem_cons hp, show e - p = (e - (p + 1)) + 1 by omega, List.take_succ_cons,
    rd_of_lt buf p hp]

theorem is_escaped_newlines_one (a : Nat) (tail : List Nat) (ha : is_newline a = true)
    (ht : is_escaped_newlines tail = true) : is_escaped_newlines (92 :: a :: tail) = true := by
  cases tail with
  | nil => simp [is_escaped_newlines, ha]
  | cons b rest => simp [is_escaped_newlines, ha, ht]

theorem is_escaped_newlines_two (a b : Nat) (tail : List Nat) (ha : is_newline a = true)
    (hb : is_newline b = true) (hab : a ≠ b) (ht : is_escaped_newlines tail = true) :
    is_escaped_newlines (92 :: a :: b :: tail) = true := by
  simp [is_escaped_newlines, ha, hb, hab, ht]

theorem set_dirty_set_dirty (tok : Option Token) :
    (tok.map Token.set_dirty).map Token.set_dirty = tok.map Token.set_dirty := by
  cases tok <;> rfl

theorem size_for_escaped_newline_cases (buf : List Nat) (q : Nat) :
    (size_for_escaped_newline buf q = 0 ∧ is_newline (rd buf q) = false) ∨
    (size_for_escaped_newline buf q = 1 ∧ is_newline (rd buf q) = true) ∨
    (size_for_escaped_newline buf q = 2 ∧ is_newline (rd buf q) = true ∧
      is_newline (rd buf (q + 1)) = true ∧ rd buf q ≠ rd buf (q + 1)) := by
  unfold size_for_escaped_newline
  by_cases h1 : is_newline (rd buf q) = true
  · rw [if_pos h1]
    by_cases h2 : (is_newline (rd buf (q + 1)) && rd buf q != rd buf (q + 1)) = true
    · rw [if_pos h2]
      simp only [Bool.and_eq_true, bne_iff_ne, ne_eq] at h2
      exact Or.inr (Or.inr ⟨rfl, h1, h2.1, h2.2⟩)
    · rw [if_neg h2]
      exact Or.inr (Or.inl ⟨rfl, h1⟩)
  · rw [if_neg h1]
    exact Or.inl ⟨rfl, by simpa using h1⟩

theorem is_newline_lt (buf : List Nat) (q : Nat) (h : is_newline (rd buf q) = true) :
    q < buf.length := by
  by_contra hge
  rw [rd_of_length_le buf q (by omega)] at h
  simp [is_newline] at h

/-- What `peek_char_and_size_nontrivial` returns: the byte after `k` bytes of
complete escaped newlines, with `k + 1` added to the size, and the token
marked dirty when `k` is not zero. -/
theorem peek_char_and_size_nontrivial_spec (buf : List Nat) :
    ∀ (fuel p size : Nat) (tok : Option Token) (c s : Nat) (t : Option Token),
      peek_char_and_size_nontrivial buf fuel p size tok = some (c, s, t) →
      ∃ k, s = size + k + 1 ∧ rd buf (p + k) = c ∧
        is_escaped_newlines (text_slice buf p (p + k)) = true ∧
        (text_slice buf p (p + k)).length = k ∧
        t = (if k = 0 then tok else tok.map Token.set_dirty) := by
  intro fuel
  induction fuel with
  | zero => intro p size tok c s t h; simp [peek_char_and_size_nontrivial] at h
  | succ f ih =>
    intro p size tok c s t h
    have base : ∀ x, (x, size + 1, tok) = (c, s, t) → rd buf p = x →
        ∃ k, s = size + k + 1 ∧ rd buf (p + k) = c ∧
          is_escaped_newlines (text_slice buf p (p + k)) = true ∧
          (text_slice buf p (p + k)).length = k ∧
          t = (if k = 0 then tok else tok.map Token.set_dirty) := by
      intro x hx hr
      simp only [Prod.mk.injEq] at hx
      obtain ⟨rfl, rfl, rfl⟩ := hx
      exact ⟨0, rfl, hr, by rw [Nat.add_zero, text_slice_self]; rfl,
        by rw [Nat.add_zero, text_slice_self]; rfl, rfl⟩
    simp only [peek_char_and_size_nontrivial] at h
    by_cases h92 : rd buf p = 92
    · rw [if_pos h92] at h
      have hp : p < buf.length := by
        by_contra hge
        rw [rd_of_length_le buf p (by omega)] at h92
        omega
      by_cases hw : (!is_whitespace (rd buf (p + 1))) = true
      · rw [if_pos hw] at h
        exact base 92 (Option.some.inj h) h92
      rw [if_neg hw] at h
      rcases size_for_escaped_newline_cases buf (p + 1) with ⟨h0, -⟩ | ⟨h1, hn⟩ | ⟨h2, hn, hn2, hne⟩
      · rw [h0] at h
        simp only [ne_eq, not_true_eq_false, if_false] at h
        exact base 92 (Option.some.inj h) h92
      · rw [h1] at h
        simp only [ne_eq, Nat.succ_ne_zero, not_false_eq_true, if_true, one_ne_zero] at h
        obtain ⟨k, hs, hc, hesc, hlen, ht⟩ := ih _ _ _ _ _ _ h
        have hp1 := is_newline_lt buf (p + 1) hn
        have e : text_slice buf p (p + (k + 2)) =
            92 :: rd buf (p + 1) :: text_slice buf (p + 1 + 1) (p + 1 + 1 + k) := by
          rw [text_slice_cons buf p _ hp (by omega), h92,
            text_slice_cons buf (p + 1) _ hp1 (by omega),
            show p + (k + 2) = p + 1 + 1 + k by omega]
        refine ⟨k + 2, by omega, by rw [← hc]; congr 1; omega, ?_, ?_, ?_⟩
        · rw [e]; exact is_escaped_newlines_one _ _ hn hesc
        · rw [e]; simp only [List.length_cons, hlen]
        · rw [ht, if_neg (show ¬ (k + 2 = 0) by omega)]
          split
          · rfl
          · exact set_dirty_set_dirty tok
      · rw [h2] at h
        simp only [ne_eq, OfNat.ofNat_ne_zero, not_false_eq_true, if_true] at h
        obtain ⟨k, hs, hc, hesc, hlen, ht⟩ := ih _ _ _ _ _ _ h
        have hp1 := is_newline_lt buf (p + 1) hn
        have hp2 := is_newline_lt buf (p + 1 + 1) hn2
        have e : text_slice buf p (p + (k + 3)) =
            92 :: rd buf (p + 1) :: rd buf (p + 1 + 1) ::
              text_slice buf (p + 1 + 2) (p + 1 + 2 + k) := by
          rw [text_slice_cons buf p _ hp (by omega), h92,
            text_slice_cons buf (p + 1) _ hp1 (by omega),
            text_slice_cons buf (p + 1 + 1) _ hp2 (by omega),
            show p + (k + 3) = p + 1 + 2 + k by omega]
        refine ⟨k + 3, by omega, by rw [← hc]; congr 1; omega, ?_, ?_, ?_⟩
        · rw [e]; exact is_escaped_newlines_two _ _ _ hn hn2 hne hesc
        · rw [e]; simp only [List.length_cons, hlen]
        · rw [ht, if_neg (show ¬ (k + 3 = 0) by omega)]
          split
          · rfl
          · exact set_dirty_set_dirty tok
    · rw [if_neg h92] at h
      exact base _ (Option.some.inj h) rfl
/-! ## C33 and C38: the result of a peek -/

/-- Statement of C38: for every buffer and position `peek_char_and_size`
returns a character `c` and a size `s` with `s ≥ 1`; `c` is the raw byte at
`p + s - 1`; the `s - 1` bytes before it are a sequence of zero or more
complete escaped newlines; and `s = 1` exactly when that sequence is
empty. -/
theorem C38_peek_result_invariant (buf : List Nat) (p : Nat) :
    ∃ c s, peek_char_and_size buf p = some (c, s) ∧ 1 ≤ s ∧ rd buf (p + s - 1) = c ∧
      (text_slice buf p (p + s - 1)).length = s - 1 ∧
      is_escaped_newlines (text_slice buf p (p + s - 1)) = true ∧
      (s = 1 ↔ text_slice buf p (p + s - 1) = []) := by
  obtain ⟨c, s, h⟩ := peek_char_and_size_isSome buf p
  refine ⟨c, s, h, ?_⟩
  have key : ∃ k, s = k + 1 ∧ rd buf (p + k) = c ∧
      is_escaped_newlines (text_slice buf p (p + k)) = true ∧
      (text_slice buf p (p + k)).length = k := by
    unfold peek_char_and_size at h
    split at h
    · simp only [Option.some.injEq, Prod.mk.injEq] at h
      obtain ⟨rfl, rfl⟩ := h
      exact ⟨0, rfl, rfl, by rw [Nat.add_zero, text_slice_self]; rfl,
        by rw [Nat.add_zero, text_slice_self]; rfl⟩
    · simp only [Option.bind_eq_bind, Option.bind_eq_some, Option.some.injEq,
        Prod.mk.injEq] at h
      obtain ⟨⟨c', s', t⟩, h1, rfl, rfl⟩ := h
      obtain ⟨k, hs, hc, hesc, hlen, -⟩ := peek_char_and_size_nontrivial_spec buf _ _ _ _ _ _ _ h1
      exact ⟨k, by simpa using hs, hc, hesc, hlen⟩
  obtain ⟨k, rfl, hc, hesc, hlen⟩ := key
  have e : p + (k + 1) - 1 = p + k := by omega
  rw [e]
  refine ⟨by omega, hc, by simpa using hlen, hesc, ?_⟩
  constructor
  · intro hk
    have : k = 0 := by omega
    subst this
    rw [Nat.add_zero, text_slice_self]
  · intro hnil
    rw [hnil] at hlen
    simp only [List.length_nil] at hlen
    omega

/-- Statement of C33: when `peek_char_and_size` at `p` gives `(c, s)`,
`peek_char_advance` returns `c` and the pointer `p + s`, and `consume_char`
with the size `s` returns `p + s`; each leaves the token as it is when
`s = 1` and sets `IsDirty` on it, changing nothing else, when `s ≠ 1`. -/
theorem C33_advance_and_consume_agree_with_peek (buf : List Nat) (p c s : Nat) (tok : Token)
    (h : peek_char_and_size buf p = some (c, s)) :
    peek_char_advance buf p tok =
      some (c, p + s, if s = 1 then tok else tok.set_dirty) ∧
    consume_char buf p s tok = some (p + s, if s = 1 then tok else tok.set_dirty) ∧
    tok.set_dirty = { tok with flags := { tok.flags with IsDirty := true } } := by
  refine ⟨?_, ?_, rfl⟩
  · unfold peek_char_and_size at h
    unfold peek_char_advance
    split at h
    · rename_i ht
      simp only [Option.some.injEq, Prod.mk.injEq] at h
      obtain ⟨rfl, rfl⟩ := h
      rw [if_pos ht, if_pos rfl]
    · rename_i ht
      rw [if_neg ht]
      simp only [Option.bind_eq_bind, Option.bind_eq_some, Option.some.injEq,
        Prod.mk.injEq] at h
      obtain ⟨⟨c', s', x⟩, h1, rfl, rfl⟩ := h
      obtain ⟨t, h2⟩ := peek_char_and_size_nontrivial_some_tok buf _ _ _ _ _ _ h1 tok
      obtain ⟨k, hs, -, -, -, ht'⟩ := peek_char_and_size_nontrivial_spec buf _ _ _ _ _ _ _ h2
      simp only [h2, Option.bind_eq_bind, Option.some_bind, Option.getD_some]
      by_cases hk : k = 0
      · rw [if_pos hk] at ht'
        rw [if_pos (by omega)]
        simp only [Option.some.injEq] at ht'
        rw [ht']
      · rw [if_neg hk] at ht'
        rw [if_neg (by omega)]
        simp only [Option.map_some', Option.some.injEq] at ht'
        rw [ht']
  · unfold consume_char
    by_cases hs1 : s = 1
    · rw [if_pos hs1, if_pos hs1]
    · rw [if_neg hs1, if_neg hs1]
      unfold peek_char_and_size at h
      split at h
      · simp only [Option.some.injEq, Prod.mk.injEq] at h
        exact absurd h.2.symm hs1
      · simp only [Option.bind_eq_bind, Option.bind_eq_some, Option.some.injEq,
          Prod.mk.injEq] at h
        obtain ⟨⟨c', s', x⟩, h1, rfl, rfl⟩ := h
        obtain ⟨t, h2⟩ := peek_char_and_size_nontrivial_some_tok buf _ _ _ _ _ _ h1 tok
        obtain ⟨k, hs, -, -, -, ht'⟩ := peek_char_and_size_nontrivial_spec buf _ _ _ _ _ _ _ h2
        simp only [h2, Option.bind_eq_bind, Option.some_bind, Option.getD_some]
        have hk : k ≠ 0 := by
          intro hk
          apply hs1
          simpa [hk] using hs
        rw [if_neg hk] at ht'
        simp only [Option.map_some', Option.some.injEq] at ht'
        rw [ht']

theorem C33_advance_and_consume_agree_with_peek_witness :
    peek_char_and_size (str "a\\\nb") 1 = some (98, 3) ∧
    peek_char_advance (str "a\\\nb") 1 {} =
      some (98, 1 + 3, if 3 = 1 then {} else Token.set_dirty {}) ∧
    consume_char (str "a\\\nb") 1 3 {} =
      some (1 + 3, if 3 = 1 then {} else Token.set_dirty {}) ∧
    Token.set_dirty {} =
      { ({} : Token) with flags := { ({} : Token).flags with IsDirty := true } } :=
  ⟨by decide, C33_advance_and_consume_agree_with_peek (str "a\\\nb") 1 98 3 {} (by decide)⟩

/-! ## C35: unknown characters -/

theorem is_unknown_byte_facts (b : Nat) (h : is_unknown_byte b = true) :
    b ≠ 0 ∧ is_whitespace b = false ∧ is_nondigit b = false ∧ is_digit b = false ∧ b ≠ 39 ∧
      b ≠ 92 ∧ ∀ k ∈ PUNCTUATOR_FIRST_BYTES, b ≠ k := by
  simp only [is_unknown_byte, Bool.and_eq_true, bne_iff_ne, ne_eq, Bool.not_eq_true',
    List.contains_eq_any_beq, List.any_eq_false, beq_iff_eq] at h
  obtain ⟨⟨⟨⟨⟨⟨⟨h0, hw⟩, hn⟩, hd⟩, h39⟩, -⟩, h92⟩, hp⟩ := h
  exact ⟨h0, hw, hn, hd, h39, h92, fun k hk hbk => hp k hk hbk⟩

theorem lex_token_switch_of_unknown
    (relex : Lexer → Nat → Token → Option (Bool × Lexer × Token))
    (lex : Lexer) (cur_ptr : Nat) (result : Token) (ch : Nat)
    (h : is_unknown_byte ch = true) :
    lex_token_switch relex lex cur_ptr result ch =
      lex_token_finish lex result cur_ptr .unknown := by
  obtain ⟨h0, -, hn, hd, h39, h92, hp⟩ := is_unknown_byte_facts ch h
  have hp' : ∀ k, k ∈ PUNCTUATOR_FIRST_BYTES → ¬ ch = k := hp
  have hL : ¬ ch = 76 := by rintro rfl; exact absurd hn (by decide)
  have hu : ¬ ch = 117 := by rintro rfl; exact absurd hn (by decide)
  have hU : ¬ ch = 85 := by rintro rfl; exact absurd hn (by decide)
  unfold lex_token_switch
  rw [if_neg h0, if_neg h92, if_neg (hp' 91 (by decide)), if_neg (hp' 93 (by decide)), if_neg (hp' 40 (by decide)), if_neg (hp' 41 (by decide)), if_neg (hp' 123 (by decide)), if_neg (hp' 125 (by decide)), if_neg (hp' 46 (by decide)), if_neg (hp' 45 (by decide)), if_neg (hp' 43 (by decide)), if_neg (hp' 38 (by decide)), if_neg (hp' 42 (by decide)), if_neg (hp' 126 (by decide)), if_neg (hp' 47 (by decide)), if_neg (hp' 37 (by decide)), if_neg (hp' 60 (by decide)), if_neg (hp' 62 (by decide)), if_neg (hp' 61 (by decide)), if_neg (hp' 33 (by decide)), if_neg (hp' 94 (by decide)), if_neg (hp' 124 (by decide)), if_neg (hp' 63 (by decide)), if_neg (hp' 58 (by decide)), if_neg (hp' 59 (by decide)), if_neg (hp' 44 (by decide)), if_neg (hp' 35 (by decide))]
  simp only [hd, hn, Bool.false_eq_true, if_false, if_neg hL, if_neg hu, if_neg hU,
    if_neg h39]

/-- Statement of C35: for every unknown byte `b`, a lexer that stands at a
position holding `b` returns true with a token of kind `unknown` over exactly
that byte, reports `err_unknown_character` there, and continues at the next
byte. -/
theorem C35_unknown_byte_costs_one_byte (lex : Lexer) (result : Token) (b : Nat)
    (hb : is_unknown_byte b = true) (hrd : rd lex.buf lex.buffer_ptr = b) :
    lex.lex result =
      some (true,
        { lex with buffer_ptr := lex.buffer_ptr + 1,
                   diag := lex.diag ++ [⟨lex.buffer_ptr, .err_unknown_character⟩] },
        { result with kind := .unknown, b := lex.buffer_ptr, e := lex.buffer_ptr + 1 }) := by
  obtain ⟨-, hw, -, -, -, h92, -⟩ := is_unknown_byte_facts b hb
  unfold Lexer.lex
  rw [show fuel_at lex.buf lex.buffer_ptr = (lex.buf.length - lex.buffer_ptr + 2) + 1 from rfl,
    lex_token_of_plain _ _ _ _ (by rw [hrd]; exact hw) (by rw [hrd]; exact h92), hrd,
    lex_token_switch_of_unknown _ _ _ _ _ hb]
  rfl

theorem C35_unknown_byte_costs_one_byte_witness :
    Lexer.lex { buf := str "a@b", buffer_ptr := 1 } {} =
      some (true,
        { buf := str "a@b", buffer_ptr := 1 + 1,
          diag := [] ++ [⟨1, .err_unknown_character⟩] },
        { kind := .unknown, b := 1, e := 1 + 1 }) ∧
    Lexer.lex { buf := [200, 96, 36, 7] } {} =
      some (true,
        { buf := [200, 96, 36, 7], buffer_ptr := 0 + 1,
          diag := [] ++ [⟨0, .err_unknown_character⟩] },
        { kind := .unknown, b := 0, e := 0 + 1 }) ∧
    lex_all 9 { buf := [200, 96, 36, 7, 97] } =
      some ([(.unknown, [200]), (.unknown, [96]), (.unknown, [36]), (.unknown, [7]),
          (.identifier, [97])],
        [.err_unknown_character, .err_unknown_character, .err_unknown_character,
          .err_unknown_character]) :=
  ⟨C35_unknown_byte_costs_one_byte { buf := str "a@b", buffer_ptr := 1 } {} 64 (by decide)
      (by decide),
   C35_unknown_byte_costs_one_byte { buf := [200, 96, 36, 7] } {} 200 (by decide) (by decide),
   by decide⟩

/-! ## C34: a period that begins no ellipsis -/

/-- Behaviour of the code on the inputs of C34. In `..x` and in `..;` the
first period is not followed by a digit and does not begin `...`, and it is
lexed as a token of kind `unknown` with the diagnostic
`err_unknown_character`; only the second period is lexed as `period`. A single
period is lexed as `period`. -/
theorem C34_period_before_period_is_unknown :
    Lexer.lex { buf := str "..x" } {} =
      some (true, { buf := str "..x", buffer_ptr := 1, diag := [⟨0, .err_unknown_character⟩] },
        { kind := .unknown, b := 0, e := 1 }) ∧
    lex_all 9 { buf := str "..x" } =
      some ([(.unknown, str "."), (.period, str "."), (.identifier, str "x")],
        [.err_unknown_character]) ∧
    lex_all 9 { buf := str "..;" } =
      some ([(.unknown, str "."), (.period, str "."), (.semi, str ";")],
        [.err_unknown_character]) ∧
    lex_all 9 { buf := str ".x" } = some ([(.period, str "."), (.identifier, str "x")], []) := by
  refine ⟨?_, ?_, ?_, ?_⟩ <;> decide

/-! ## C36: draining a stream -/

theorem TokenStream.empty_after_peek (ts ts1 : TokenStream) (t : Token)
    (h : ts.peek = some (ts1, t)) :
    ts.empty = some (ts1, t.kind == .eof) ∧ ts1.empty = some (ts1, t.kind == .eof) := by
  refine ⟨?_, TokenStream.empty_of_slot ts1 t (TokenStream.peek_slot ts ts1 t h)⟩
  simp only [TokenStream.empty, h, Option.bind_eq_bind, Option.some_bind]

/-- Calls of `peek` and `empty` do not change what `empty` answers next, nor
the stream it leaves. -/
theorem TokenStream.calls_then_empty :
    ∀ (cs : List StreamCall) (ts : TokenStream),
      ∃ ts1 as, ts.calls cs = some (ts1, as) ∧ ts1.empty = ts.empty := by
  intro cs
  induction cs with
  | nil => intro ts; exact ⟨ts, [], rfl, rfl⟩
  | cons c cs ih =>
    intro ts
    obtain ⟨ts1, t, hp⟩ := TokenStream.peek_total ts
    obtain ⟨he, he1⟩ := TokenStream.empty_after_peek ts ts1 t hp
    obtain ⟨ts2, as, hc, he2⟩ := ih ts1
    cases c with
    | peek =>
      refine ⟨ts2, .token t :: as, ?_, by rw [he2, he1, he]⟩
      simp only [TokenStream.calls, hp, hc, Option.bind_eq_bind, Option.some_bind]
    | empty =>
      refine ⟨ts2, .flag (t.kind == .eof) :: as, ?_, by rw [he2, he1, he]⟩
      simp only [TokenStream.calls, he, hc, Option.bind_eq_bind, Option.some_bind]

theorem drain_eq_lex_run :
    ∀ (schedule : List (List StreamCall)) (lex : Lexer),
      ∃ toks lx ended, lex_run schedule.length lex = some (toks, lx, ended) ∧
        TokenStream.drain schedule { lexer := lex } =
          some (toks,
            { lexer := lx, cur_tok := if ended = true then some eof_token else none }) := by
  intro schedule
  induction schedule with
  | nil => intro lex; exact ⟨[], lex, false, rfl, rfl⟩
  | cons cs rest ih =>
    intro lex
    obtain ⟨ts1, as, hc, he⟩ := TokenStream.calls_then_empty cs { lexer := lex }
    obtain ⟨ok, lx, t, hl, -⟩ := Lexer.lex_total lex {}
    cases ok with
    | false =>
      have hp : TokenStream.peek { lexer := lex } =
          some ({ lexer := lx, cur_tok := some eof_token }, eof_token) := by
        simp only [TokenStream.peek, hl]
      have he' := (TokenStream.empty_after_peek _ _ _ hp).1
      rw [he'] at he
      refine ⟨[], lx, true, by simp only [List.length_cons, lex_run, hl], ?_⟩
      simp only [TokenStream.drain, hc, he, Option.bind_eq_bind, Option.some_bind]
      rfl
    | true =>
      have hp : TokenStream.peek { lexer := lex } =
          some ({ lexer := lx, cur_tok := some t }, t) := by
        simp only [TokenStream.peek, hl]
      have hk : (t.kind == TokenKind.eof) = false := by
        simpa using Lexer.lex_not_eof _ _ _ _ hl
      obtain ⟨he', he1⟩ := TokenStream.empty_after_peek _ _ _ hp
      rw [he', hk] at he
      rw [hk] at he1
      have hcons : TokenStream.consume { lexer := lx, cur_tok := some t } =
          some (some ({ lexer := lx, cur_tok := none }, t)) := by
        simp only [TokenStream.consume, he1, Option.bind_eq_bind, Option.some_bind,
          Bool.false_eq_true, if_false,
          TokenStream.peek_of_slot { lexer := lx, cur_tok := some t } t rfl]
      obtain ⟨toks, lx2, ended, hr, hd⟩ := ih lx
      refine ⟨t :: toks, lx2, ended, ?_, ?_⟩
      · simp only [List.length_cons, lex_run, hl, hr, Option.map_some']
      · simp only [TokenStream.drain, hc, he, Option.bind_eq_bind, Option.some_bind,
          Bool.false_eq_true, if_false, hcons, hd]

/-! ## The number of tokens of a run -/

theorem lex_run_length :
    ∀ (n : Nat) (lex : Lexer), ∃ toks lx ended, lex_run n lex = some (toks, lx, ended) ∧
      toks.length ≤ lex.buf.length - lex.buffer_ptr ∧ toks.length ≤ n ∧
      (lex.buf.length - lex.buffer_ptr < n → ended = true) := by
  intro n
  induction n with
  | zero =>
    intro lex
    exact ⟨[], lex, false, rfl, Nat.zero_le _, Nat.le_refl _, fun h => by omega⟩
  | succ n ih =>
    intro lex
    obtain ⟨ok, lx1, t, h, hbuf, hle, htok⟩ := Lexer.lex_total lex {}
    cases ok with
    | false =>
      refine ⟨[], lx1, true, ?_, Nat.zero_le _, Nat.zero_le _, fun _ => rfl⟩
      simp only [lex_run, h]
    | true =>
      obtain ⟨h1, h2, h3, h4⟩ := htok rfl
      obtain ⟨toks, lx2, ended, hr, hlen, hn, hend⟩ := ih lx1
      have hl : lx1.buf.length = lex.buf.length := by rw [hbuf]
      rw [hl] at hlen hend
      refine ⟨t :: toks, lx2, ended, ?_, ?_, ?_, ?_⟩
      · simp only [lex_run, h, hr, Option.map_some']
      · simp only [List.length_cons]; omega
      · simp only [List.length_cons]; omega
      · intro hlt
        exact hend (by omega)

/-! ## C19: unterminated block comments of any bytes -/

theorem peek_char_and_size_first_byte (buf : List Nat) (p c s : Nat)
    (h : peek_char_and_size buf p = some (c, s)) : rd buf p = c ∨ rd buf p = 92 := by
  by_cases h92 : rd buf p = 92
  · exact Or.inr h92
  · rw [peek_char_and_size_of_ne buf p h92] at h
    simp only [Option.some.injEq, Prod.mk.injEq] at h
    exact Or.inl h.1

/-- What `peek_char_and_size` returns: the byte after `s - 1` bytes of
complete escaped newlines, which lie in the buffer. -/
theorem peek_char_and_size_spec (buf : List Nat) (p c s : Nat)
    (h : peek_char_and_size buf p = some (c, s)) :
    ∃ k, s = k + 1 ∧ rd buf (p + k) = c ∧
      is_escaped_newlines (text_slice buf p (p + k)) = true ∧
      (text_slice buf p (p + k)).length = k := by
  unfold peek_char_and_size at h
  split at h
  · simp only [Option.some.injEq, Prod.mk.injEq] at h
    obtain ⟨rfl, rfl⟩ := h
    exact ⟨0, rfl, rfl, by rw [Nat.add_zero, text_slice_self]; rfl,
      by rw [Nat.add_zero, text_slice_self]; rfl⟩
  · simp only [Option.bind_eq_bind, Option.bind_eq_some, Option.some.injEq,
      Prod.mk.injEq] at h
    obtain ⟨⟨c', s', t⟩, h1, rfl, rfl⟩ := h
    obtain ⟨k, hs, hc, hesc, hlen, -⟩ := peek_char_and_size_nontrivial_spec buf _ _ _ _ _ _ _ h1
    exact ⟨k, by simpa using hs, hc, hesc, hlen⟩

/-- At a NUL character, also one whose spelling begins with escaped newlines,
`lex_token` returns false and leaves the lexer there. -/
theorem lex_token_at_logical_nul (fuel : Nat) (lex : Lexer) (p s : Nat) (result : Token)
    (h : peek_char_and_size lex.buf p = some (0, s)) :
    ∃ t, lex_token (fuel + 1) lex p result = some (false, { lex with buffer_ptr := p }, t) := by
  have hw : is_whitespace (rd lex.buf p) = false := by
    rcases peek_char_and_size_first_byte _ _ _ _ h with h0 | h0 <;> rw [h0] <;> rfl
  obtain ⟨t, ht⟩ := consume_char_of_peek lex.buf p 0 s h result
  refine ⟨t, ?_⟩
  rw [lex_token_succ, find_if_not_whitespace_of_not _ _ _ hw]
  simp only [h, ht, Option.some_bind]
  simp [lex_token_switch]

theorem block_comment_unterminated_end (buf : List Nat) (prev p q : Nat)
    (h : block_comment_unterminated buf prev p q) :
    p ≤ q ∧ ∃ s, peek_char_and_size buf q = some (0, s) := by
  induction h with
  | at_end prev p s h => exact ⟨Nat.le_refl _, s, h⟩
  | more prev p c s q _ _ _ _ ih => exact ⟨by omega, ih.2⟩

theorem block_comment_unterminated_prev (buf : List Nat) (prev prev' p q : Nat)
    (h : block_comment_unterminated buf prev p q)
    (hp : ∀ s, peek_char_and_size buf p = some (47, s) → (prev = 42 ↔ prev' = 42)) :
    block_comment_unterminated buf prev' p q := by
  cases h with
  | at_end _ _ s h1 => exact .at_end prev' p s h1
  | more _ _ c s _ h1 h2 h3 h4 =>
    refine .more prev' p c s q h1 ?_ h3 h4
    rintro ⟨rfl, h⟩
    exact h2 ⟨rfl, (hp s h1).2 h⟩

theorem skip_block_comment_loop_open :
    ∀ (fuel : Nat) (lex : Lexer) (p c s prev q : Nat) (r : Lexer × Nat),
      peek_char_and_size lex.buf p = some (c, s) →
      block_comment_unterminated lex.buf prev p q →
      skip_block_comment_loop fuel lex p c s prev = some r →
      r = (report lex q .err_unterminated_comment, q) := by
  intro fuel
  induction fuel with
  | zero => intro lex p c s prev q r _ _ h; simp [skip_block_comment_loop] at h
  | succ f ih =>
    intro lex p c s prev q r hp hopen h
    simp only [skip_block_comment_loop] at h
    cases hopen with
    | at_end _ _ s' h1 =>
      rw [hp] at h1
      simp only [Option.some.injEq, Prod.mk.injEq] at h1
      obtain ⟨rfl, -⟩ := h1
      rw [if_neg (by omega), if_pos rfl] at h
      exact (Option.some.inj h).symm
    | more _ _ c' s' _ h1 h2 h3 h4 =>
      rw [hp] at h1
      simp only [Option.some.injEq, Prod.mk.injEq] at h1
      obtain ⟨rfl, rfl⟩ := h1
      rw [if_neg h2, if_neg h3] at h
      simp only [Option.bind_eq_bind, Option.bind_eq_some] at h
      obtain ⟨⟨c1, s1⟩, hp1, h5⟩ := h
      exact ih lex (p + s) c1 s1 c q r hp1 h4 h5

theorem skip_block_comment_open (lex : Lexer) (p q : Nat)
    (hopen : block_comment_unterminated lex.buf 0 p q) :
    skip_block_comment lex p = some (report lex q .err_unterminated_comment, q) := by
  obtain ⟨r, hr⟩ := skip_block_comment_total lex p
  rw [hr]
  simp only [skip_block_comment, Option.bind_eq_bind, Option.bind_eq_some] at hr
  obtain ⟨⟨c, s⟩, hp, h2⟩ := hr
  have hopen' : block_comment_unterminated lex.buf c p q := by
    refine block_comment_unterminated_prev _ 0 c _ _ hopen ?_
    intro s' hs'
    rw [hp] at hs'
    simp only [Option.some.injEq, Prod.mk.injEq] at hs'
    obtain ⟨rfl, -⟩ := hs'
    simp
  rw [skip_block_comment_loop_open _ _ _ _ _ _ _ _ hp hopen' h2]

/-- An unterminated block comment, whatever its bytes: `lex` reports
`err_unterminated_comment` where the spelling of the NUL character begins and
returns false with the lexer there. -/
theorem lex_unterminated_block_comment (lex : Lexer) (result : Token) (s1 s2 q : Nat)
    (h1 : peek_char_and_size lex.buf lex.buffer_ptr = some (47, s1))
    (h2 : peek_char_and_size lex.buf (lex.buffer_ptr + s1) = some (42, s2))
    (hopen : block_comment_unterminated lex.buf 0 (lex.buffer_ptr + s1 + s2) q) :
    ∃ t, lex.lex result =
      some (false,
        { lex with buffer_ptr := q,
                   diag := lex.diag ++ [⟨q, .err_unterminated_comment⟩] }, t) := by
  have hw : is_whitespace (rd lex.buf lex.buffer_ptr) = false := by
    rcases peek_char_and_size_first_byte _ _ _ _ h1 with h0 | h0 <;> rw [h0] <;> rfl
  obtain ⟨t1, ht1⟩ := consume_char_of_peek lex.buf lex.buffer_ptr 47 s1 h1 result
  obtain ⟨-, s, hq⟩ := block_comment_unterminated_end _ _ _ _ hopen
  obtain ⟨t, ht⟩ := lex_token_at_logical_nul (lex.buf.length - lex.buffer_ptr + 1)
    { report { lex with buffer_ptr := lex.buffer_ptr } q .err_unterminated_comment with
      buffer_ptr := q } q s t1 hq
  refine ⟨t, ?_⟩
  unfold Lexer.lex
  rw [show fuel_at lex.buf lex.buffer_ptr = (lex.buf.length - lex.buffer_ptr + 2) + 1 from rfl,
    lex_token_succ, find_if_not_whitespace_of_not _ _ _ hw]
  simp only [h1, ht1, Option.some_bind]
  rw [lex_token_switch_block_comment _ { lex with buffer_ptr := lex.buffer_ptr }
    (lex.buffer_ptr + s1) t1 s2 h2]
  rw [skip_block_comment_open { lex with buffer_ptr := lex.buffer_ptr }
    (lex.buffer_ptr + s1 + s2) q hopen]
  simp only [Option.some_bind]
  exact ht

/-- Statement of C19, amended. When a `/` and a `*` (logical characters) are
followed by logical characters among which no `/` follows a `*`, up to the
NUL character, `lex` reports `err_unterminated_comment` and returns false,
producing no token; the report and the lexer are at the position `q` where the
spelling of the NUL character begins: the bytes from `q` to the NUL are
complete escaped newlines, none if the NUL stands at `q` itself. In
particular, when `/*` is followed to the end of the buffer by bytes without
`*/`, NUL and backslash, the report and the lexer are at the end of the
buffer. -/
theorem C19_unterminated_block_comment :
    (∀ (lex : Lexer) (result : Token) (s1 s2 q : Nat),
      peek_char_and_size lex.buf lex.buffer_ptr = some (47, s1) →
      peek_char_and_size lex.buf (lex.buffer_ptr + s1) = some (42, s2) →
      block_comment_unterminated lex.buf 0 (lex.buffer_ptr + s1 + s2) q →
      (∃ t, lex.lex result =
        some (false,
          { lex with buffer_ptr := q,
                     diag := lex.diag ++ [⟨q, .err_unterminated_comment⟩] }, t)) ∧
      ∃ k, rd lex.buf (q + k) = 0 ∧
        is_escaped_newlines (text_slice lex.buf q (q + k)) = true ∧
        (text_slice lex.buf q (q + k)).length = k) ∧
    (∀ body : List Nat, (∀ c ∈ body, c ≠ 0 ∧ c ≠ 92) → no_star_slash body = true →
      Lexer.lex { buf := str "/*" ++ body } {} =
        some (false,
          { buf := str "/*" ++ body, buffer_ptr := body.length + 2,
            diag := [⟨body.length + 2, .err_unterminated_comment⟩] }, {})) := by
  refine ⟨?_, fun body hb hns => unterminated_block_comment_plain body hb hns⟩
  intro lex result s1 s2 q h1 h2 hopen
  refine ⟨lex_unterminated_block_comment lex result s1 s2 q h1 h2 hopen, ?_⟩
  obtain ⟨-, s, hq⟩ := block_comment_unterminated_end _ _ _ _ hopen
  obtain ⟨k, -, hc, hesc, hlen⟩ := peek_char_and_size_spec _ _ _ _ hq
  exact ⟨k, hc, hesc, hlen⟩

theorem C19_unterminated_block_comment_witness :
    ((∃ t, Lexer.lex { buf := str "/* \\\n" } {} =
        some (false,
          { buf := str "/* \\\n", buffer_ptr := 3,
            diag := [] ++ [⟨3, .err_unterminated_comment⟩] }, t)) ∧
      ∃ k, rd (str "/* \\\n") (3 + k) = 0 ∧
        is_escaped_newlines (text_slice (str "/* \\\n") 3 (3 + k)) = true ∧
        (text_slice (str "/* \\\n") 3 (3 + k)).length = k) ∧
    Lexer.lex { buf := str "/*" ++ str " abc" } {} =
      some (false,
        { buf := str "/*" ++ str " abc", buffer_ptr := 6,
          diag := [⟨6, .err_unterminated_comment⟩] }, {}) ∧
    Lexer.lex { buf := str "/*" ++ str "/" } {} =
      some (false,
        { buf := str "/*" ++ str "/", buffer_ptr := 3,
          diag := [⟨3, .err_unterminated_comment⟩] }, {}) ∧
    Lexer.lex { buf := str "/* a*\\\n/ c" } {} =
      some (true, { buf := str "/* a*\\\n/ c", buffer_ptr := 10 },
        { kind := .identifier, b := 9, e := 10 }) :=
  ⟨C19_unterminated_block_comment.1 { buf := str "/* \\\n" } {} 1 1 3 (by decide) (by decide)
      (.more 0 2 32 1 3 (by decide) (by decide) (by decide)
        (.at_end 32 3 3 (by decide))),
   C19_unterminated_block_comment.2 (str " abc") (by decide) (by decide),
   C19_unterminated_block_comment.2 (str "/") (by decide) (by decide),
   by decide⟩
/-! ## C22: the tokens and the skipped text cover what has been lexed -/

theorem covers_token_end (buf : List Nat) (p : Nat) (ts : List Token) (q : Nat)
    (h : covers buf p ts q) : ∀ t ∈ ts, t.e ≤ q := by
  induction h with
  | nil p q _ => intro t ht; simp at ht
  | cons p t ts q _ _ h3 ih =>
    intro t' ht'
    rcases List.mem_cons.1 ht' with rfl | h
    · exact covers_le _ _ _ _ h3
    · exact ih t' h

/-- Calls that all produce a token move the lexer forward by at least one
byte each. -/
theorem lex_run_not_ended :
    ∀ (n : Nat) (lex : Lexer) (toks : List Token) (lx : Lexer),
      lex_run n lex = some (toks, lx, false) → lex.buffer_ptr + n ≤ lx.buffer_ptr := by
  intro n
  induction n with
  | zero =>
    intro lex toks lx h
    simp only [lex_run, Option.some.injEq, Prod.mk.injEq] at h
    obtain ⟨-, rfl, -⟩ := h
    exact Nat.le_refl _
  | succ n ih =>
    intro lex toks lx h
    obtain ⟨ok, lx1, t, hl, -, -, htok⟩ := Lexer.lex_total lex {}
    cases ok with
    | false =>
      simp [lex_run, hl] at h
    | true =>
      obtain ⟨h1, h2, h3, -⟩ := htok rfl
      simp only [lex_run, hl, Option.map_eq_some', Prod.mk.injEq] at h
      obtain ⟨⟨toks', lx', ended'⟩, hr, -, rfl, rfl⟩ := h
      have := ih lx1 _ _ hr
      omega

/-- Statement of C22, amended: for every run of successive calls of `lex`
that leaves the lexer inside the buffer, at or before the terminating NUL,
the tokens are not empty, lie inside the buffer, and each begins at or after
the end of the one before; the bytes from the starting position of the lexer
to its position afterwards are exactly the token ranges with skipped
whitespace and comments before each token and after the last one; when the
last call returned false, the lexer stands where the spelling of a NUL
character begins (escaped newlines may precede the NUL); and a run of more
calls than bytes were left has ended so. -/
theorem C22_tokens_cover_up_to_the_end_mark (n : Nat) (lex : Lexer) (toks : List Token)
    (lx : Lexer) (ended : Bool) (hrun : lex_run n lex = some (toks, lx, ended))
    (hin : lx.buffer_ptr ≤ lex.buf.length) :
    lx.buf = lex.buf ∧ covers lex.buf lex.buffer_ptr toks lx.buffer_ptr ∧
    toks.Chain' (fun a b => a.e ≤ b.b) ∧ (∀ t ∈ toks, t.b < t.e ∧ t.e ≤ lex.buf.length) ∧
    (ended = true → ∃ s, peek_char_and_size lex.buf lx.buffer_ptr = some (0, s) ∧
      lx.buffer_ptr + s ≤ lex.buf.length + 1) ∧
    (lex.buf.length - lex.buffer_ptr < n → ended = true) := by
  obtain ⟨toks', lx', ended', h', hbuf, hcov, hend, -⟩ := lex_run_covers n lex
  rw [hrun] at h'
  simp only [Option.some.injEq, Prod.mk.injEq] at h'
  obtain ⟨rfl, rfl, rfl⟩ := h'
  obtain ⟨-, c2, c3⟩ := covers_sorted _ _ _ _ hcov
  have c4 := covers_token_end _ _ _ _ hcov
  refine ⟨hbuf, hcov, c2, fun t ht => ⟨c3 t ht, by have := c4 t ht; omega⟩, ?_, ?_⟩
  · intro he
    obtain ⟨s, hs⟩ := hend he
    refine ⟨s, hs, ?_⟩
    obtain ⟨k, rfl, -, -, hlen⟩ := peek_char_and_size_spec _ _ _ _ hs
    simp only [text_slice, List.length_take, List.length_drop, Nat.add_sub_cancel_left] at hlen
    omega
  · intro hlt
    cases hE : ended with
    | true => rfl
    | false =>
      rw [hE] at hrun
      have := lex_run_not_ended n lex toks lx hrun
      omega

theorem C22_tokens_cover_up_to_the_end_mark_witness :
    (str "a /*c*/ b // d\n").length = 15 ∧
    covers (str "a /*c*/ b // d\n") 0
      [{ kind := .identifier, b := 0, e := 1 }, { kind := .identifier, b := 8, e := 9 }] 15 ∧
    covers (str "x\\\n") 0 [{ kind := .identifier, b := 0, e := 1 }] 1 :=
  ⟨by decide,
   (C22_tokens_cover_up_to_the_end_mark 9 { buf := str "a /*c*/ b // d\n" }
      [{ kind := .identifier, b := 0, e := 1 }, { kind := .identifier, b := 8, e := 9 }]
      { buf := str "a /*c*/ b // d\n", buffer_ptr := 15 } true (by decide) (by decide)).2.1,
   (C22_tokens_cover_up_to_the_end_mark 9 { buf := str "x\\\n" }
      [{ kind := .identifier, b := 0, e := 1 }]
      { buf := str "x\\\n", buffer_ptr := 1 } true (by decide) (by decide)).2.1⟩

/-! ## C36: draining a stream is lexing -/

/-- Statement of C36: for every lexer and every schedule of interleaved
`peek` and `empty` calls, draining the stream with `empty` and `consume`
gives what the successive calls of `Lexer::lex` give: the same tokens (kind,
range and flags), the lexer in the same state, and the slot holding the end
sentinel exactly when the last call of `lex` returned false. -/
theorem C36_draining_equals_lexing (schedule : List (List StreamCall)) (lex : Lexer) :
    TokenStream.drain schedule { lexer := lex } =
      (lex_run schedule.length lex).map
        (fun r => (r.1,
          { lexer := r.2.1, cur_tok := if r.2.2 = true then some eof_token else none })) := by
  obtain ⟨toks, lx, ended, hr, hd⟩ := drain_eq_lex_run schedule lex
  rw [hr, hd]
  rfl

theorem C36_draining_equals_lexing_witness :
    TokenStream.drain [[], [.peek, .empty, .peek], [.empty], [.peek]]
        { lexer := { buf := str "a += 1" } } =
      some ([{ kind := .identifier, b := 0, e := 1 }, { kind := .plusequal, b := 2, e := 4 },
          { kind := .numeric_constant, b := 5, e := 6, flags := { IsLiteral := true } }],
        { lexer := { buf := str "a += 1", buffer_ptr := 6 }, cur_tok := some eof_token }) ∧
    TokenStream.drain [[.peek], [.empty]] { lexer := { buf := str "a += 1" } } =
      (lex_run [[StreamCall.peek], [StreamCall.empty]].length { buf := str "a += 1" }).map
        (fun r => (r.1,
          { lexer := r.2.1, cur_tok := if r.2.2 = true then some eof_token else none })) ∧
    lex_run 2 { buf := str "a += 1" } =
      some ([{ kind := .identifier, b := 0, e := 1 }, { kind := .plusequal, b := 2, e := 4 }],
        { buf := str "a += 1", buffer_ptr := 4 }, false) :=
  ⟨by decide,
   C36_draining_equals_lexing [[.peek], [.empty]] { buf := str "a += 1" },
   by decide⟩

/-! ## C37: the scanners pass the terminating NUL -/

/-- Behaviour of the code on the inputs of C37. On the buffer `1e` the
numeric scanner consumes the terminating NUL at index 2 and the call returns
with the lexer at 3, past the end of the buffer; so does the character
scanner on the buffer `'a`. What the lexer does from there is decided by the
bytes that follow the NUL in memory, which are not part of the buffer: when
they are `;;;` the calls produce four tokens from the buffer of two bytes,
and when they are `9 x` the first token runs on over the `9`. -/
theorem C37_lexer_passes_the_terminating_nul :
    (str "1e").length = 2 ∧
    Lexer.lex { buf := str "1e" } {} =
      some (true, { buf := str "1e", buffer_ptr := 3 },
        { kind := .numeric_constant, b := 0, e := 3, flags := { IsLiteral := true } }) ∧
    Lexer.lex { buf := str "'a" } {} =
      some (true,
        { buf := str "'a", buffer_ptr := 3, diag := [⟨0, .err_unterminated_char_const⟩] },
        { kind := .unknown, b := 0, e := 3 }) ∧
    lex_run 4 { buf := str "1e" ++ 0 :: str ";;;" } =
      some ([{ kind := .numeric_constant, b := 0, e := 3, flags := { IsLiteral := true } },
          { kind := .semi, b := 3, e := 4 }, { kind := .semi, b := 4, e := 5 },
          { kind := .semi, b := 5, e := 6 }],
        { buf := str "1e" ++ 0 :: str ";;;", buffer_ptr := 6 }, false) ∧
    Lexer.lex { buf := str "1e" ++ 0 :: str "9 x" } {} =
      some (true, { buf := str "1e" ++ 0 :: str "9 x", buffer_ptr := 4 },
        { kind := .numeric_constant, b := 0, e := 4, flags := { IsLiteral := true } }) ∧
    lex_run 3 { buf := str "'a" ++ 0 :: str "b c" } =
      some ([{ kind := .unknown, b := 0, e := 3 }, { kind := .identifier, b := 3, e := 4 },
          { kind := .identifier, b := 5, e := 6 }],
        { buf := str "'a" ++ 0 :: str "b c", buffer_ptr := 6,
          diag := [⟨0, .err_unterminated_char_const⟩] }, false) := by
  refine ⟨?_, ?_, ?_, ?_, ?_, ?_⟩ <;> decide

end cci
